import Mathlib

/-!
# fury3d mesh utilities: a shallow embedding of `engine/src/MeshUtil.cpp`

The C++ `float` is modelled in two ways.  The structural part of the development takes
an arbitrary linearly ordered field `α` for it (exact arithmetic; the definitions run on
`ℚ`, the theorems also hold on `ℝ`).  Where the outcome depends on the rounding of the
`float` operations, that is for the plane window of `FindNeighbors` and for what
`OptimizeMesh` merges, the definitions named `Rounded.*` apply a rounding function `fl` to
the result of every arithmetic operation on `float` values; `binary32` is the rounding to
IEEE 754 single precision, on `ℚ`.
`std::vector` is modelled by `List`, element reads by `List.getD` with default `0`
(the C++ read is only defined inside the bounds).  Vertex indices are natural
numbers; the 32-bit operations the code relies on (the flag bit of the
replacement table, the unsigned arithmetic of the binary search) are written
with explicit masks and `% 2 ^ 32`.
The name tables of `engine/src/Material.cpp` are modelled by association lists and
a pointer by an `Option`, `none` the null pointer.
-/

set_option linter.unusedSectionVars false

namespace fury

/-! ## Vector4 -/

/-- Modelled from the spec: the class `Vector4` (header `Vector4.h`) is not part of the
sources at hand.  The mesh code only uses the three spatial components of a vector
(component-wise difference, dot product `*`, cross product, squared Euclidean length,
scaling), so a vector is its `x`, `y`, `z`. -/
@[ext]
structure Vector4 (α : Type) where
  x : α
  y : α
  z : α
deriving DecidableEq, Repr

namespace Vector4

variable {α : Type} [LinearOrderedField α]

/-- Zero vector (`Vector4::Zero`). -/
def Zero : Vector4 α := ⟨0, 0, 0⟩

instance : Inhabited (Vector4 α) := ⟨Zero⟩

/-- Component-wise difference (`operator -`). -/
def sub (a b : Vector4 α) : Vector4 α := ⟨a.x - b.x, a.y - b.y, a.z - b.z⟩

/-- Component-wise sum (`operator +`). -/
def add (a b : Vector4 α) : Vector4 α := ⟨a.x + b.x, a.y + b.y, a.z + b.z⟩

/-- Scaling by a number (`operator * (float)`). -/
def scale (a : Vector4 α) (s : α) : Vector4 α := ⟨a.x * s, a.y * s, a.z * s⟩

/-- Dot product (`operator * (Vector4)`). -/
def dot (a b : Vector4 α) : α := a.x * b.x + a.y * b.y + a.z * b.z

/-- Squared Euclidean length (`SquareLength`). -/
def SquareLength (a : Vector4 α) : α := a.x * a.x + a.y * a.y + a.z * a.z

/-- Cross product (`CrossProduct`). -/
def CrossProduct (a b : Vector4 α) : Vector4 α :=
  ⟨a.y * b.z - a.z * b.y, a.z * b.x - a.x * b.z, a.x * b.y - a.y * b.x⟩

end Vector4

/-! ## Mesh buffer -/

/-- Modelled from the spec: the class `Mesh` (header `Mesh.h`) is not part of the sources at
hand.  A mesh buffer holds the attribute arrays (`X.Data` in the code), the index array and
the index arrays of its submeshes. -/
@[ext]
structure Mesh (α : Type) where
  Positions : List α
  Normals : List α
  Tangents : List α
  UVs : List α
  IDs : List Nat
  Weights : List α
  Indices : List Nat
  SubMeshes : List (List Nat)
deriving DecidableEq, Repr

namespace Mesh

variable {α : Type}

/-- Empty mesh, as returned by `Mesh::Create`. -/
def Create : Mesh α := ⟨[], [], [], [], [], [], [], []⟩

/-- Number of vertices, `Positions.Data.size() / 3`. -/
def vertexCount (m : Mesh α) : Nat := m.Positions.length / 3

/-- Number of triangles, `Indices.Data.size() / 3`. -/
def triangleCount (m : Mesh α) : Nat := m.Indices.length / 3

end Mesh

/-! ## OptimizeMesh: the vertex welder -/

section Optimize

variable {α : Type} [LinearOrderedField α]

/-- Local struct `Vertex` of `OptimizeMesh`. -/
@[ext]
structure Vertex (α : Type) where
  Position : Vector4 α
  UV : Vector4 α
  Normal : Vector4 α
  Tangent : Vector4 α
  ID0 : Nat
  ID1 : Nat
  ID2 : Nat
  ID3 : Nat
  W0 : α
  W1 : α
  W2 : α
deriving DecidableEq, Repr

/-- The vertex after `Vertex::Empty`. -/
def Vertex.Empty : Vertex α :=
  ⟨Vector4.Zero, Vector4.Zero, Vector4.Zero, Vector4.Zero, 0, 0, 0, 0, 0, 0, 0⟩

instance : Inhabited (Vertex α) := ⟨Vertex.Empty⟩

/-- Weights test `Vertex::HasSameWeights`. -/
def Vertex.HasSameWeights (v another : Vertex α) (epsilon : α) : Bool :=
  !(decide (|v.W0 - another.W0| > epsilon) ||
    decide (|v.W1 - another.W1| > epsilon) ||
    decide (|v.W2 - another.W2| > epsilon))

/-- Bone index test `Vertex::HasSameIDs`. -/
def Vertex.HasSameIDs (v another : Vertex α) : Bool :=
  v.ID0 == another.ID0 && v.ID1 == another.ID1 &&
    v.ID2 == another.ID2 && v.ID3 == another.ID3

/-- Local struct `VtxEntry` of `OptimizeMesh`: original vertex index, position and
distance to the sorting plane. -/
structure VtxEntry (α : Type) where
  index : Nat
  position : Vector4 α
  dist : α
deriving DecidableEq, Repr

instance : Inhabited (VtxEntry α) := ⟨⟨0, Vector4.Zero, 0⟩⟩

/-- The presence flags `hasNormal`, `hasTangent`, `hasUV`, `hasWeights`, `hasIDs`. -/
structure Flags where
  hasNormal : Bool
  hasTangent : Bool
  hasUV : Bool
  hasWeights : Bool
  hasIDs : Bool
deriving DecidableEq, Repr

/-- Flags of a mesh: an attribute is present when its array is not empty. -/
def Flags.ofMesh (mesh : Mesh α) : Flags :=
  { hasNormal := decide (mesh.Normals.length > 0)
    hasTangent := decide (mesh.Tangents.length > 0)
    hasUV := decide (mesh.UVs.length > 0)
    hasWeights := decide (mesh.Weights.length > 0)
    hasIDs := decide (mesh.IDs.length > 0) }

/-- Lambda `CreateVertex`: the vertex record of original vertex `index`. -/
def CreateVertex (mesh : Mesh α) (f : Flags) (index : Nat) : Vertex α :=
  let posIndex := index * 3
  let uvIndex := index * 2
  let weightIndex := index * 4
  let vtx : Vertex α := Vertex.Empty
  let vtx := { vtx with Position := ⟨mesh.Positions.getD posIndex 0,
    mesh.Positions.getD (posIndex + 1) 0, mesh.Positions.getD (posIndex + 2) 0⟩ }
  let vtx := if f.hasNormal then { vtx with Normal := ⟨mesh.Normals.getD posIndex 0,
    mesh.Normals.getD (posIndex + 1) 0, mesh.Normals.getD (posIndex + 2) 0⟩ } else vtx
  let vtx := if f.hasTangent then { vtx with Tangent := ⟨mesh.Tangents.getD posIndex 0,
    mesh.Tangents.getD (posIndex + 1) 0, mesh.Tangents.getD (posIndex + 2) 0⟩ } else vtx
  let vtx := if f.hasUV then { vtx with UV := ⟨mesh.UVs.getD uvIndex 0,
    mesh.UVs.getD (uvIndex + 1) 0, 0⟩ } else vtx
  if f.hasWeights then
    { vtx with
      ID0 := mesh.IDs.getD weightIndex 0
      ID1 := mesh.IDs.getD (weightIndex + 1) 0
      ID2 := mesh.IDs.getD (weightIndex + 2) 0
      ID3 := mesh.IDs.getD (weightIndex + 3) 0
      W0 := mesh.Weights.getD posIndex 0
      W1 := mesh.Weights.getD (posIndex + 1) 0
      W2 := mesh.Weights.getD (posIndex + 2) 0 }
  else vtx

/-- The halving-step search of `FindNeighbors`
(`while (binaryStepSize > 1) ...`), on 32-bit unsigned `index` and `binaryStepSize`.
The first argument bounds the number of iterations; `binaryStepSize` itself is enough. -/
def FindNeighbors.binarySearch (entries : List (VtxEntry α)) (minDist : α) :
    Nat → Nat → Nat → Nat
  | 0, index, _ => index
  | fuel + 1, index, binaryStepSize =>
    if binaryStepSize > 1 then
      let index := if (entries.getD index default).dist < minDist
        then (index + binaryStepSize) % 2 ^ 32
        else (index + 2 ^ 32 - binaryStepSize) % 2 ^ 32
      FindNeighbors.binarySearch entries minDist fuel index (binaryStepSize / 2)
    else index

/-- First correction loop of `FindNeighbors`:
`while (index > 0 && entries[index].dist > minDist) index--`. -/
def FindNeighbors.stepBack (entries : List (VtxEntry α)) (minDist : α) : Nat → Nat
  | 0 => 0
  | index + 1 =>
    if (entries.getD (index + 1) default).dist > minDist
    then FindNeighbors.stepBack entries minDist index
    else index + 1

/-- Second correction loop of `FindNeighbors`:
`while (index < entries.size() - 1 && entries[index].dist < minDist) index++`.
The first argument bounds the number of iterations; `entries.size()` is enough. -/
def FindNeighbors.stepForward (entries : List (VtxEntry α)) (minDist : α) : Nat → Nat → Nat
  | 0, index => index
  | fuel + 1, index =>
    if index < entries.length - 1 ∧ (entries.getD index default).dist < minDist
    then FindNeighbors.stepForward entries minDist fuel (index + 1)
    else index

/-- Final scan of `FindNeighbors`, run on the entries from the start iterator on:
`while (it->dist < maxDist) { if (...) push_back; ++it; if (it == end) break; }`. -/
def FindNeighbors.scan (pos : Vector4 α) (maxDist pSquared : α) : List (VtxEntry α) → List Nat
  | [] => []
  | e :: rest =>
    if e.dist < maxDist then
      if (e.position.sub pos).SquareLength < pSquared
      then e.index :: FindNeighbors.scan pos maxDist pSquared rest
      else FindNeighbors.scan pos maxDist pSquared rest
    else []

/-- Start index of the scan: binary search followed by the two correction loops. -/
def FindNeighbors.start (entries : List (VtxEntry α)) (minDist : α) : Nat :=
  let size := entries.length % 2 ^ 32
  let index := size / 2
  let binaryStepSize := size / 4
  let index := FindNeighbors.binarySearch entries minDist binaryStepSize index binaryStepSize
  let index := FindNeighbors.stepBack entries minDist index
  FindNeighbors.stepForward entries minDist entries.length index

/-- Lambda `FindNeighbors`: original indices of the entries near `pos`.  This is the lambda
in exact arithmetic: `dist`, `dist - radius`, `dist + radius` and `radius * radius` are not
rounded.  `Rounded.FindNeighbors` is the same lambda with every `float` operation rounded. -/
def FindNeighbors (dividePlane : Vector4 α) (entries : List (VtxEntry α))
    (pos : Vector4 α) (radius : α) : List Nat :=
  let dist := dividePlane.dot pos
  let minDist := dist - radius
  let maxDist := dist + radius
  if entries.length = 0 ∨ maxDist < (entries.head?.getD default).dist
      ∨ minDist > (entries.getLast?.getD default).dist then []
  else
    let index := FindNeighbors.start entries minDist
    FindNeighbors.scan pos maxDist (radius * radius) (entries.drop index)

/-- Entries of all vertices, in original order (the loop filling `entries`). -/
def makeEntries (dividePlane : Vector4 α) (mesh : Mesh α) : List (VtxEntry α) :=
  (List.range mesh.vertexCount).map fun i =>
    let index := i * 3
    let position : Vector4 α := ⟨mesh.Positions.getD index 0,
      mesh.Positions.getD (index + 1) 0, mesh.Positions.getD (index + 2) 0⟩
    ⟨i, position, dividePlane.dot position⟩

/-- Spatial sort `std::sort(entries.begin(), entries.end())` by `VtxEntry::operator <`,
that is by ascending `dist`.  `std::sort` leaves the order of entries with equal `dist`
open; the model takes the stable order. -/
def sortEntries (entries : List (VtxEntry α)) : List (VtxEntry α) :=
  entries.insertionSort (fun a b => a.dist ≤ b.dist)

/-- The attribute tests of the inner loop of `OptimizeMesh` for a resolved unique vertex
`vtxu` against the current vertex `vtx`: `true` when none of the four `continue`
branches is taken. -/
def attributesMatch (f : Flags) (epsilon squareEpsilon : α) (vtxu vtx : Vertex α) : Bool :=
  if f.hasNormal ∧ (vtxu.Normal.sub vtx.Normal).SquareLength > squareEpsilon then false
  else if f.hasTangent ∧ (vtxu.Tangent.sub vtx.Tangent).SquareLength > squareEpsilon then false
  else if f.hasUV ∧ (vtxu.UV.sub vtx.UV).SquareLength > squareEpsilon then false
  else if f.hasWeights ∧ (!vtxu.HasSameWeights vtx epsilon) ∧ (!vtxu.HasSameIDs vtx) then false
  else true

/-- Inner loop of `OptimizeMesh` over `verticesFound`: the value of `matchIndex` at its end,
`0xffffffff` when no candidate is accepted. -/
def findMatch (f : Flags) (epsilon squareEpsilon : α) (uniqueVertices : List (Vertex α))
    (replaceIndices : List Nat) (vtx : Vertex α) : List Nat → Nat
  | [] => 0xffffffff
  | found :: rest =>
    let uidx := replaceIndices.getD found 0
    if uidx &&& 0x80000000 ≠ 0 then
      findMatch f epsilon squareEpsilon uniqueVertices replaceIndices vtx rest
    else if attributesMatch f epsilon squareEpsilon (uniqueVertices.getD uidx default) vtx then
      uidx
    else findMatch f epsilon squareEpsilon uniqueVertices replaceIndices vtx rest

/-- State of the unique-vertex loop: `uniqueVertices` and `replaceIndices`. -/
structure WeldState (α : Type) where
  uniqueVertices : List (Vertex α)
  replaceIndices : List Nat
deriving DecidableEq, Repr

/-- The tolerance `epsilon = 1e-5f` in exact arithmetic, the number `1 / 100000`.  The `float`
constant itself is `Rounded.epsilon binary32`, which is `2748779 / 2 ^ 38`. -/
def epsilon : α := 1 / 100000

/-- The value `squareEpsilon = epsilon * epsilon`. -/
def squareEpsilon : α := epsilon * epsilon

/-- One iteration of the unique-vertex loop of `OptimizeMesh`, for original vertex `i`. -/
def weldStep (dividePlane : Vector4 α) (entries : List (VtxEntry α)) (mesh : Mesh α)
    (f : Flags) (st : WeldState α) (i : Nat) : WeldState α :=
  let vtx := CreateVertex mesh f i
  let verticesFound := FindNeighbors dividePlane entries vtx.Position epsilon
  let matchIndex :=
    findMatch f epsilon squareEpsilon st.uniqueVertices st.replaceIndices vtx verticesFound
  if matchIndex ≠ 0xffffffff then
    { st with replaceIndices := st.replaceIndices.set i (matchIndex ||| 0x80000000) }
  else
    { uniqueVertices := st.uniqueVertices ++ [vtx]
      replaceIndices := st.replaceIndices.set i (st.uniqueVertices.length % 2 ^ 32) }

/-- The unique-vertex loop of `OptimizeMesh` over the given original indices. -/
def weldLoop (dividePlane : Vector4 α) (entries : List (VtxEntry α)) (mesh : Mesh α)
    (f : Flags) (st : WeldState α) (is : List Nat) : WeldState α :=
  is.foldl (weldStep dividePlane entries mesh f) st

/-- The final index rewrite `replaceIndices[idx] & ~0x80000000`. -/
def remapIndex (replaceIndices : List Nat) (idx : Nat) : Nat :=
  replaceIndices.getD idx 0 &&& 0x7fffffff

/-- The part of `OptimizeMesh` after the skin check, for given sorted `entries`:
unique-vertex loop, compaction of the attribute arrays and index rewrite. -/
def OptimizeMeshWith (dividePlane : Vector4 α) (entries : List (VtxEntry α))
    (mesh : Mesh α) : Mesh α :=
  let verticesCount := mesh.vertexCount
  let f := Flags.ofMesh mesh
  let st := weldLoop dividePlane entries mesh f
    ⟨[], List.replicate verticesCount 0xffffffff⟩ (List.range verticesCount)
  let uniqueVertices := st.uniqueVertices
  { Positions := uniqueVertices.flatMap fun u => [u.Position.x, u.Position.y, u.Position.z]
    Normals := if f.hasNormal
      then uniqueVertices.flatMap fun u => [u.Normal.x, u.Normal.y, u.Normal.z]
      else mesh.Normals
    Tangents := if f.hasTangent
      then uniqueVertices.flatMap fun u => [u.Tangent.x, u.Tangent.y, u.Tangent.z]
      else mesh.Tangents
    UVs := if f.hasUV
      then uniqueVertices.flatMap fun u => [u.UV.x, u.UV.y]
      else mesh.UVs
    IDs := if f.hasWeights
      then uniqueVertices.flatMap fun u => [u.ID0, u.ID1, u.ID2, u.ID3]
      else mesh.IDs
    Weights := if f.hasWeights
      then uniqueVertices.flatMap fun u => [u.W0, u.W1, u.W2]
      else mesh.Weights
    Indices := mesh.Indices.map (remapIndex st.replaceIndices)
    SubMeshes := mesh.SubMeshes.map fun sub => sub.map (remapIndex st.replaceIndices) }

/-- Function `MeshUtil::OptimizeMesh`.  The plane normal `dividePlane` stands for the constant
`Vector4(0.6f, 0.7f, -0.4f, 1.0f)` after `Normalize()` (`Vector4::Normalize` is not part of
the sources at hand).  The result is `none` when the skin check
`ASSERT_MSG(false, "Error: Invalid Skin Info!")` fires. -/
def OptimizeMesh (dividePlane : Vector4 α) (mesh : Mesh α) : Option (Mesh α) :=
  let f := Flags.ofMesh mesh
  if (f.hasWeights || f.hasIDs) && (!f.hasWeights || !f.hasIDs) then none
  else some (OptimizeMeshWith dividePlane (sortEntries (makeEntries dividePlane mesh)) mesh)

end Optimize

/-! ## Single-precision arithmetic -/

section Binary32

/-- The number of halvings that take `n` below 2, at most `fuel` of them: with `fuel = n`
the binary logarithm of `n`, rounded down. -/
def halvings : Nat → Nat → Nat
  | 0, _ => 0
  | fuel + 1, n => if n < 2 then 0 else halvings fuel (n / 2) + 1

/-- The binade of a positive rational `q`: the integer `e` with `2 ^ e ≤ q < 2 ^ (e + 1)`. -/
def binade (q : ℚ) : Int :=
  let e : Int := (halvings q.num.natAbs q.num.natAbs : Int) - (halvings q.den q.den : Int)
  if 0 ≤ e then
    if q.den * 2 ^ e.toNat ≤ q.num.natAbs then e else e - 1
  else
    if q.den ≤ q.num.natAbs * 2 ^ (-e).toNat then e else e - 1

/-- Rounding of a non-negative rational to the nearest integer, ties to the even one. -/
def roundHalfEven (q : ℚ) : Nat :=
  let n := q.num.natAbs / q.den
  let r := q.num.natAbs % q.den
  if 2 * r < q.den then n
  else if q.den < 2 * r then n + 1
  else if n % 2 = 0 then n else n + 1

/-- The value `2 ^ e` for an integer exponent. -/
def twoPow (e : Int) : ℚ :=
  if 0 ≤ e then ((2 ^ e.toNat : Nat) : ℚ) else 1 / ((2 ^ (-e).toNat : Nat) : ℚ)

/-- Rounding to the C++ type `float` (IEEE 754 binary32, round to nearest, ties to even): a
significand of 24 bits, the least exponent `-126` (below it the numbers are equally spaced).
Overflow to infinity is not modelled: the function is meant for results below `2 ^ 128`. -/
def binary32 (q : ℚ) : ℚ :=
  if q = 0 then 0
  else
    let e := max (binade |q|) (-126)
    let quantum := twoPow (e - 23)
    let r := (roundHalfEven (|q| / quantum) : ℚ) * quantum
    if 0 < q then r else -r

end Binary32

/-! ## OptimizeMesh in float arithmetic -/

section Rounded

variable {α : Type} [LinearOrderedField α]

/-- Modelled from the spec: `Vector4::operator -` (header `Vector4.h`, not part of the
sources at hand) in `float` arithmetic; `fl` rounds the result of every operation. -/
def Rounded.sub (fl : α → α) (a b : Vector4 α) : Vector4 α :=
  ⟨fl (a.x - b.x), fl (a.y - b.y), fl (a.z - b.z)⟩

/-- Modelled from the spec: the dot product `Vector4::operator * (Vector4)` in `float`
arithmetic, the three products summed from left to right. -/
def Rounded.dot (fl : α → α) (a b : Vector4 α) : α :=
  fl (fl (fl (a.x * b.x) + fl (a.y * b.y)) + fl (a.z * b.z))

/-- Modelled from the spec: `Vector4::SquareLength` in `float` arithmetic. -/
def Rounded.SquareLength (fl : α → α) (a : Vector4 α) : α :=
  fl (fl (fl (a.x * a.x) + fl (a.y * a.y)) + fl (a.z * a.z))

/-- The tolerance `float epsilon = 1e-5f`: the `float` nearest to `1 / 100000`. -/
def Rounded.epsilon (fl : α → α) : α := fl (1 / 100000)

/-- The value `float squareEpsilon = epsilon * epsilon`. -/
def Rounded.squareEpsilon (fl : α → α) : α := fl (Rounded.epsilon fl * Rounded.epsilon fl)

/-- Weights test `Vertex::HasSameWeights` in `float` arithmetic. -/
def Rounded.HasSameWeights (fl : α → α) (v another : Vertex α) (epsilon : α) : Bool :=
  !(decide (|fl (v.W0 - another.W0)| > epsilon) ||
    decide (|fl (v.W1 - another.W1)| > epsilon) ||
    decide (|fl (v.W2 - another.W2)| > epsilon))

/-- The attribute tests of the inner loop of `OptimizeMesh` in `float` arithmetic: `true`
when none of the four `continue` branches is taken. -/
def Rounded.attributesMatch (fl : α → α) (f : Flags) (epsilon squareEpsilon : α)
    (vtxu vtx : Vertex α) : Bool :=
  if f.hasNormal ∧
      Rounded.SquareLength fl (Rounded.sub fl vtxu.Normal vtx.Normal) > squareEpsilon then false
  else if f.hasTangent ∧
      Rounded.SquareLength fl (Rounded.sub fl vtxu.Tangent vtx.Tangent) > squareEpsilon
  then false
  else if f.hasUV ∧ Rounded.SquareLength fl (Rounded.sub fl vtxu.UV vtx.UV) > squareEpsilon
  then false
  else if f.hasWeights ∧ (!Rounded.HasSameWeights fl vtxu vtx epsilon) ∧
      (!vtxu.HasSameIDs vtx) then false
  else true

/-- Inner loop of `OptimizeMesh` over `verticesFound` in `float` arithmetic: the value of
`matchIndex` at its end, `0xffffffff` when no candidate is accepted. -/
def Rounded.findMatch (fl : α → α) (f : Flags) (epsilon squareEpsilon : α)
    (uniqueVertices : List (Vertex α)) (replaceIndices : List Nat) (vtx : Vertex α) :
    List Nat → Nat
  | [] => 0xffffffff
  | found :: rest =>
    let uidx := replaceIndices.getD found 0
    if uidx &&& 0x80000000 ≠ 0 then
      Rounded.findMatch fl f epsilon squareEpsilon uniqueVertices replaceIndices vtx rest
    else if Rounded.attributesMatch fl f epsilon squareEpsilon
        (uniqueVertices.getD uidx default) vtx then
      uidx
    else Rounded.findMatch fl f epsilon squareEpsilon uniqueVertices replaceIndices vtx rest

/-- Entries of all vertices, in original order, the key `dividePlane * position` computed in
`float` arithmetic. -/
def Rounded.makeEntries (fl : α → α) (dividePlane : Vector4 α) (mesh : Mesh α) :
    List (VtxEntry α) :=
  (List.range mesh.vertexCount).map fun i =>
    let index := i * 3
    let position : Vector4 α := ⟨mesh.Positions.getD index 0,
      mesh.Positions.getD (index + 1) 0, mesh.Positions.getD (index + 2) 0⟩
    ⟨i, position, Rounded.dot fl dividePlane position⟩

/-- Final scan of `FindNeighbors` in `float` arithmetic, run on the entries from the start
iterator on. -/
def Rounded.scan (fl : α → α) (pos : Vector4 α) (maxDist pSquared : α) :
    List (VtxEntry α) → List Nat
  | [] => []
  | e :: rest =>
    if e.dist < maxDist then
      if Rounded.SquareLength fl (Rounded.sub fl e.position pos) < pSquared
      then e.index :: Rounded.scan fl pos maxDist pSquared rest
      else Rounded.scan fl pos maxDist pSquared rest
    else []

/-- Lambda `FindNeighbors` in `float` arithmetic: `dist`, `minDist = dist - radius`,
`maxDist = dist + radius` and `pSquared = radius * radius` are rounded results; the search
for the start index compares keys and does no arithmetic on them. -/
def Rounded.FindNeighbors (fl : α → α) (dividePlane : Vector4 α)
    (entries : List (VtxEntry α)) (pos : Vector4 α) (radius : α) : List Nat :=
  let dist := Rounded.dot fl dividePlane pos
  let minDist := fl (dist - radius)
  let maxDist := fl (dist + radius)
  if entries.length = 0 ∨ maxDist < (entries.head?.getD default).dist
      ∨ minDist > (entries.getLast?.getD default).dist then []
  else
    let index := FindNeighbors.start entries minDist
    let pSquared := fl (radius * radius)
    Rounded.scan fl pos maxDist pSquared (entries.drop index)

/-- One iteration of the unique-vertex loop of `OptimizeMesh` in `float` arithmetic, for
original vertex `i`. -/
def Rounded.weldStep (fl : α → α) (dividePlane : Vector4 α) (entries : List (VtxEntry α))
    (mesh : Mesh α) (f : Flags) (st : WeldState α) (i : Nat) : WeldState α :=
  let vtx := CreateVertex mesh f i
  let verticesFound :=
    Rounded.FindNeighbors fl dividePlane entries vtx.Position (Rounded.epsilon fl)
  let matchIndex := Rounded.findMatch fl f (Rounded.epsilon fl) (Rounded.squareEpsilon fl)
    st.uniqueVertices st.replaceIndices vtx verticesFound
  if matchIndex ≠ 0xffffffff then
    { st with replaceIndices := st.replaceIndices.set i (matchIndex ||| 0x80000000) }
  else
    { uniqueVertices := st.uniqueVertices ++ [vtx]
      replaceIndices := st.replaceIndices.set i (st.uniqueVertices.length % 2 ^ 32) }

/-- The unique-vertex loop of `OptimizeMesh` in `float` arithmetic over the given original
indices. -/
def Rounded.weldLoop (fl : α → α) (dividePlane : Vector4 α) (entries : List (VtxEntry α))
    (mesh : Mesh α) (f : Flags) (st : WeldState α) (is : List Nat) : WeldState α :=
  is.foldl (Rounded.weldStep fl dividePlane entries mesh f) st

/-- The part of `OptimizeMesh` after the unique-vertex loop: the attribute arrays are
rebuilt from `uniqueVertices` and every index is rewritten through `replaceIndices`.  No
arithmetic on `float` values takes place here. -/
def OptimizeMesh.compact (mesh : Mesh α) (st : WeldState α) : Mesh α :=
  let f := Flags.ofMesh mesh
  let uniqueVertices := st.uniqueVertices
  { Positions := uniqueVertices.flatMap fun u => [u.Position.x, u.Position.y, u.Position.z]
    Normals := if f.hasNormal
      then uniqueVertices.flatMap fun u => [u.Normal.x, u.Normal.y, u.Normal.z]
      else mesh.Normals
    Tangents := if f.hasTangent
      then uniqueVertices.flatMap fun u => [u.Tangent.x, u.Tangent.y, u.Tangent.z]
      else mesh.Tangents
    UVs := if f.hasUV
      then uniqueVertices.flatMap fun u => [u.UV.x, u.UV.y]
      else mesh.UVs
    IDs := if f.hasWeights
      then uniqueVertices.flatMap fun u => [u.ID0, u.ID1, u.ID2, u.ID3]
      else mesh.IDs
    Weights := if f.hasWeights
      then uniqueVertices.flatMap fun u => [u.W0, u.W1, u.W2]
      else mesh.Weights
    Indices := mesh.Indices.map (remapIndex st.replaceIndices)
    SubMeshes := mesh.SubMeshes.map fun sub => sub.map (remapIndex st.replaceIndices) }

/-- The part of `OptimizeMesh` after the skin check in `float` arithmetic, for given sorted
`entries`: unique-vertex loop, compaction of the attribute arrays and index rewrite. -/
def Rounded.OptimizeMeshWith (fl : α → α) (dividePlane : Vector4 α)
    (entries : List (VtxEntry α)) (mesh : Mesh α) : Mesh α :=
  OptimizeMesh.compact mesh
    (Rounded.weldLoop fl dividePlane entries mesh (Flags.ofMesh mesh)
      ⟨[], List.replicate mesh.vertexCount 0xffffffff⟩ (List.range mesh.vertexCount))

/-- Function `MeshUtil::OptimizeMesh` in `float` arithmetic: `fl` rounds the result of every
arithmetic operation on `float` values to the type `float`.  The plane normal `dividePlane`
stands for the constant `Vector4(0.6f, 0.7f, -0.4f, 1.0f)` after `Normalize()`; the result is
`none` when the skin check fires. -/
def Rounded.OptimizeMesh (fl : α → α) (dividePlane : Vector4 α) (mesh : Mesh α) :
    Option (Mesh α) :=
  let f := Flags.ofMesh mesh
  if (f.hasWeights || f.hasIDs) && (!f.hasWeights || !f.hasIDs) then none
  else some (Rounded.OptimizeMeshWith fl dividePlane
    (sortEntries (Rounded.makeEntries fl dividePlane mesh)) mesh)

end Rounded

/-- Modelled from the spec: the plane `Vector4(0.6f, 0.7f, -0.4f, 1.0f)` after `Normalize()`
in `float` arithmetic (`Vector4::Normalize` is not part of the sources at hand).  The three
components `0.6f`, `0.7f`, `-0.4f` are divided by the `float` square root of the `float` sum
of their squares; multiplying them by the `float` reciprocal of that root gives the same
three values. -/
def dividePlane32 : Vector4 ℚ :=
  ⟨2504093 / 4194304, 11685767 / 16777216, -13355163 / 33554432⟩

/-! ## Primitive generators -/

section Primitives

variable {α : Type} [LinearOrderedField α]

/-- Function `MeshUtil::CreateCube` (the debug log and `CalculateAABB` leave the arrays
alone). -/
def CreateCube (min max : Vector4 α) : Mesh α :=
  { (Mesh.Create : Mesh α) with
    Positions := [
      -- FTR, FTL, FBL, FBR
      max.x, max.y, max.z,
      min.x, max.y, max.z,
      min.x, min.y, max.z,
      max.x, min.y, max.z,
      -- BTR, BTL, BBL, BBR
      max.x, max.y, min.z,
      min.x, max.y, min.z,
      min.x, min.y, min.z,
      max.x, min.y, min.z]
    Indices := [
      -- front
      0, 3, 2, 2, 1, 0,
      -- back
      4, 5, 6, 6, 7, 4,
      -- left
      2, 6, 5, 5, 1, 2,
      -- right
      4, 7, 3, 3, 0, 4,
      -- top
      4, 0, 1, 1, 5, 4,
      -- bottom
      2, 3, 7, 7, 6, 2] }

/-- Lambda `GetPositionAt` of `CalculateNormal`. -/
def GetPositionAt (mesh : Mesh α) (index : Nat) : Vector4 α :=
  let j := index * 3
  ⟨mesh.Positions.getD j 0, mesh.Positions.getD (j + 1) 0, mesh.Positions.getD (j + 2) 0⟩

/-- The unnormalised face normal that the triangle loop of `CalculateNormal` computes for
triangle `i`: `e0.CrossProduct(e1)` with `e0 = b - a`, `e1 = c - b`. -/
def CalculateNormal.faceNormal (mesh : Mesh α) (i : Nat) : Vector4 α :=
  let j := i * 3
  let ia := mesh.Indices.getD j 0
  let ib := mesh.Indices.getD (j + 1) 0
  let ic := mesh.Indices.getD (j + 2) 0
  let a := GetPositionAt mesh ia
  let b := GetPositionAt mesh ib
  let c := GetPositionAt mesh ic
  let e0 := b.sub a
  let e1 := c.sub b
  e0.CrossProduct e1

/-- Positions of the three corners of triangle `i`, in index order. -/
def trianglePositions (mesh : Mesh α) (i : Nat) : List (Vector4 α) :=
  [GetPositionAt mesh (mesh.Indices.getD (i * 3) 0),
   GetPositionAt mesh (mesh.Indices.getD (i * 3 + 1) 0),
   GetPositionAt mesh (mesh.Indices.getD (i * 3 + 2) 0)]

/-- Centroid of triangle `i`. -/
def triangleCentroid (mesh : Mesh α) (i : Nat) : Vector4 α :=
  (((GetPositionAt mesh (mesh.Indices.getD (i * 3) 0)).add
    (GetPositionAt mesh (mesh.Indices.getD (i * 3 + 1) 0))).add
    (GetPositionAt mesh (mesh.Indices.getD (i * 3 + 2) 0))).scale (1 / 3)

/-- Working state of `CreateIcoSphere`: the positions written so far, the cache
`middlePointIndexCache` (searched by key, newest entry first) and the counter `index`. -/
structure IcoState (α : Type) where
  Positions : List α
  middlePointIndexCache : List (Nat × Nat)
  index : Nat
deriving DecidableEq, Repr

/-- Lambda `AddVertex` of `CreateIcoSphere`: the point is scaled onto the sphere, appended,
and its index returned.  `sqrt` stands for `std::sqrt`. -/
def IcoSphere.AddVertex (sqrt : α → α) (radius : α) (st : IcoState α) (x y z : α) :
    IcoState α × Nat :=
  let inverse_length := radius / sqrt (x * x + y * y + z * z)
  ({ st with
      Positions := st.Positions ++ [x * inverse_length, y * inverse_length, z * inverse_length]
      index := st.index + 1 },
    st.index)

/-- The cache key of `GetMidPoint`: `(smallerIndex << 32) + greaterIndex`. -/
def IcoSphere.key (p1 p2 : Nat) : Nat :=
  let firstIsSmaller := decide (p1 < p2)
  let smallerIndex := if firstIsSmaller then p1 else p2
  let greaterIndex := if firstIsSmaller then p2 else p1
  smallerIndex <<< 32 + greaterIndex

/-- Lambda `GetMidPoint` of `CreateIcoSphere`. -/
def IcoSphere.GetMidPoint (sqrt : α → α) (radius : α) (st : IcoState α) (p1 p2 : Nat) :
    IcoState α × Nat :=
  let key := IcoSphere.key p1 p2
  match st.middlePointIndexCache.lookup key with
  | some i => (st, i)
  | none =>
    let p1x := st.Positions.getD (p1 * 3) 0
    let p1y := st.Positions.getD (p1 * 3 + 1) 0
    let p1z := st.Positions.getD (p1 * 3 + 2) 0
    let p2x := st.Positions.getD (p2 * 3) 0
    let p2y := st.Positions.getD (p2 * 3 + 1) 0
    let p2z := st.Positions.getD (p2 * 3 + 2) 0
    let r := IcoSphere.AddVertex sqrt radius st
      ((p1x + p2x) * (1 / 2)) ((p1y + p2y) * (1 / 2)) ((p1z + p2z) * (1 / 2))
    ({ r.1 with middlePointIndexCache := (key, r.2) :: r.1.middlePointIndexCache }, r.2)

/-- The inner loop of the refinement (`for j < numIndices`), reading the index array three
entries at a time and appending twelve indices per triangle to `newIndices`. -/
def IcoSphere.refine (sqrt : α → α) (radius : α) :
    IcoState α → List Nat → List Nat → IcoState α × List Nat
  | st, index1 :: index2 :: index3 :: rest, newIndices =>
    let ra := IcoSphere.GetMidPoint sqrt radius st index1 index2
    let rb := IcoSphere.GetMidPoint sqrt radius ra.1 index2 index3
    let rc := IcoSphere.GetMidPoint sqrt radius rb.1 index3 index1
    let a := ra.2
    let b := rb.2
    let c := rc.2
    IcoSphere.refine sqrt radius rc.1 rest
      (newIndices ++ [index1, a, c, index2, b, a, index3, c, b, a, b, c])
  | st, _, newIndices => (st, newIndices)

/-- The outer loop of the refinement, `for (int i = 0; i < level; i++)`. -/
def IcoSphere.refineLevels (sqrt : α → α) (radius : α) :
    Nat → IcoState α × List Nat → IcoState α × List Nat
  | 0, r => r
  | n + 1, r =>
    IcoSphere.refineLevels sqrt radius n (IcoSphere.refine sqrt radius r.1 r.2 [])

/-- The twelve `AddVertex` calls that create the icosahedron. -/
def IcoSphere.initialState (sqrt : α → α) (radius : α) : IcoState α :=
  let t : α := (1 + sqrt 5) * (1 / 2)
  let st : IcoState α := ⟨[], [], 0⟩
  let st := (IcoSphere.AddVertex sqrt radius st (-1) t 0).1
  let st := (IcoSphere.AddVertex sqrt radius st 1 t 0).1
  let st := (IcoSphere.AddVertex sqrt radius st (-1) (-t) 0).1
  let st := (IcoSphere.AddVertex sqrt radius st 1 (-t) 0).1
  let st := (IcoSphere.AddVertex sqrt radius st 0 (-1) t).1
  let st := (IcoSphere.AddVertex sqrt radius st 0 1 t).1
  let st := (IcoSphere.AddVertex sqrt radius st 0 (-1) (-t)).1
  let st := (IcoSphere.AddVertex sqrt radius st 0 1 (-t)).1
  let st := (IcoSphere.AddVertex sqrt radius st t 0 (-1)).1
  let st := (IcoSphere.AddVertex sqrt radius st t 0 1).1
  let st := (IcoSphere.AddVertex sqrt radius st (-t) 0 (-1)).1
  (IcoSphere.AddVertex sqrt radius st (-t) 0 1).1

/-- The twenty triangles of the icosahedron. -/
def IcoSphere.initialIndices : List Nat := [
  -- 5 faces around point 0
  0, 11, 5, 0, 5, 1, 0, 1, 7, 0, 7, 10, 0, 10, 11,
  -- 5 adjacent faces
  1, 5, 9, 5, 11, 4, 11, 10, 2, 10, 7, 6, 7, 1, 8,
  -- 5 faces around point 3
  3, 9, 4, 3, 4, 2, 3, 2, 6, 3, 6, 8, 3, 8, 9,
  -- 5 adjacent faces
  4, 9, 5, 2, 4, 11, 6, 2, 10, 8, 6, 7, 9, 8, 1]

/-- Function `MeshUtil::CreateIcoSphere`.  The parameter `level` is the C++ `int`; a negative
level runs no refinement pass. -/
def CreateIcoSphere (sqrt : α → α) (radius : α) (level : Int) : Mesh α :=
  let r := IcoSphere.refineLevels sqrt radius level.toNat
    (IcoSphere.initialState sqrt radius, IcoSphere.initialIndices)
  { (Mesh.Create : Mesh α) with
    Positions := r.1.Positions
    Indices := r.2 }

/-- Function `MeshUtil::CreateQuad` (the debug log and `CalculateAABB` leave the arrays
alone).  Vertex 0 is the `max` corner, the vertices run 1----0 / 2----3. -/
def CreateQuad (min max : Vector4 α) : Mesh α :=
  { (Mesh.Create : Mesh α) with
    Positions := [max.x, max.y, max.z, min.x, max.y, max.z,
      min.x, min.y, min.z, max.x, min.y, min.z]
    Indices := [0, 1, 2, 2, 3, 0]
    UVs := [1, 1, 0, 1, 0, 0, 1, 0] }

/-- Modelled from the spec: `Vector4::Normalized` (header `Vector4.h`) is not part of the
sources at hand.  The spec normalises each accumulated vector and lets a zero accumulator keep
a zero vector: the vector is scaled by the inverse of its length, `sqrt` standing for
`std::sqrt`. -/
def Vector4.Normalized (sqrt : α → α) (v : Vector4 α) : Vector4 α :=
  v.scale (1 / sqrt v.SquareLength)

/-- The body shared by the lambdas `SetNormalAt` and `SetTangentAt`: the three entries of
vertex `index` are increased by the components of `v` (`Data[j] += v.x`, ...). -/
def addVectorAt (data : List α) (index : Nat) (v : Vector4 α) : List α :=
  let j := index * 3
  let data := data.set j (data.getD j 0 + v.x)
  let data := data.set (j + 1) (data.getD (j + 1) 0 + v.y)
  data.set (j + 2) (data.getD (j + 2) 0 + v.z)

/-- The body shared by the final loops of `CalculateNormal` and `CalculateTangent`: the three
entries of vertex `i` are replaced by the components of the normalised vector. -/
def normalizeVectorAt (sqrt : α → α) (data : List α) (i : Nat) : List α :=
  let j := i * 3
  let x := data.getD j 0
  let y := data.getD (j + 1) 0
  let z := data.getD (j + 2) 0
  let normal := Vector4.Normalized sqrt ⟨x, y, z⟩
  ((data.set j normal.x).set (j + 1) normal.y).set (j + 2) normal.z

/-- Lambda `SetNormalAt` of `CalculateNormal`. -/
def CalculateNormal.SetNormalAt (normals : List α) (index : Nat) (normal : Vector4 α) :
    List α :=
  addVectorAt normals index normal

/-- One iteration of the triangle loop of `CalculateNormal`, for triangle `i`. -/
def CalculateNormal.triangleStep (mesh : Mesh α) (normals : List α) (i : Nat) : List α :=
  let j := i * 3
  let ia := mesh.Indices.getD j 0
  let ib := mesh.Indices.getD (j + 1) 0
  let ic := mesh.Indices.getD (j + 2) 0
  let normal := CalculateNormal.faceNormal mesh i
  let normals := CalculateNormal.SetNormalAt normals ia normal
  let normals := CalculateNormal.SetNormalAt normals ib normal
  CalculateNormal.SetNormalAt normals ic normal

/-- The array `Normals.Data` of `CalculateNormal` after the triangle loop and before the
normalisation loop: resized to the length of `Positions`, zero-filled, then accumulated. -/
def CalculateNormal.accumulate (mesh : Mesh α) : List α :=
  let numTriangles := mesh.Indices.length / 3
  (List.range numTriangles).foldl (CalculateNormal.triangleStep mesh)
    (List.replicate mesh.Positions.length 0)

/-- Function `MeshUtil::CalculateNormal`. -/
def CalculateNormal (sqrt : α → α) (mesh : Mesh α) : Mesh α :=
  let numVertices := mesh.Positions.length / 3
  { mesh with
    Normals := (List.range numVertices).foldl (normalizeVectorAt sqrt)
      (CalculateNormal.accumulate mesh) }

/-- Lambda `GetUVAt` of `CalculateTangent`; the offset is `index * 3`, as in the source.  A
read behind the end of `UVs`, which the C++ leaves undefined, gives `0` here;
`CalculateTangent.checkedGetUVAt` fails there. -/
def CalculateTangent.GetUVAt (mesh : Mesh α) (index : Nat) : Vector4 α :=
  let j := index * 3
  ⟨mesh.UVs.getD j 0, mesh.UVs.getD (j + 1) 0, 0⟩

/-- The arithmetic of the triangle loop of `CalculateTangent`, from the three positions and
the three UVs read: `dp0`, `dp1`, `duv0`, `duv1`, `cross`, `r` and `tangent`. -/
def CalculateTangent.tangentOf (p0 p1 p2 uv0 uv1 uv2 : Vector4 α) : Vector4 α :=
  let dp0 := p1.sub p0
  let dp1 := p2.sub p1
  let duv0 := uv1.sub uv0
  let duv1 := uv2.sub uv1
  let cross := duv0.x * duv1.y - duv0.y * duv1.x
  let r : α := if cross ≠ 0 then 1 / cross else 0
  ((dp0.scale duv1.y).sub (dp1.scale duv0.y)).scale r

/-- The vector `tangent` that the triangle loop of `CalculateTangent` computes for
triangle `i`. -/
def CalculateTangent.triangleTangent (mesh : Mesh α) (i : Nat) : Vector4 α :=
  let j := i * 3
  let ia := mesh.Indices.getD j 0
  let ib := mesh.Indices.getD (j + 1) 0
  let ic := mesh.Indices.getD (j + 2) 0
  let p0 := GetPositionAt mesh ia
  let p1 := GetPositionAt mesh ib
  let p2 := GetPositionAt mesh ic
  let uv0 := CalculateTangent.GetUVAt mesh ia
  let uv1 := CalculateTangent.GetUVAt mesh ib
  let uv2 := CalculateTangent.GetUVAt mesh ic
  CalculateTangent.tangentOf p0 p1 p2 uv0 uv1 uv2

/-- Lambda `SetTangentAt` of `CalculateTangent`. -/
def CalculateTangent.SetTangentAt (tangents : List α) (index : Nat) (tangent : Vector4 α) :
    List α :=
  addVectorAt tangents index tangent

/-- One iteration of the triangle loop of `CalculateTangent`, for triangle `i`. -/
def CalculateTangent.triangleStep (mesh : Mesh α) (tangents : List α) (i : Nat) : List α :=
  let j := i * 3
  let ia := mesh.Indices.getD j 0
  let ib := mesh.Indices.getD (j + 1) 0
  let ic := mesh.Indices.getD (j + 2) 0
  let tangent := CalculateTangent.triangleTangent mesh i
  let tangents := CalculateTangent.SetTangentAt tangents ia tangent
  let tangents := CalculateTangent.SetTangentAt tangents ib tangent
  CalculateTangent.SetTangentAt tangents ic tangent

/-- The array `Tangents.Data` of `CalculateTangent` after the triangle loop and before the
normalisation loop. -/
def CalculateTangent.accumulate (mesh : Mesh α) : List α :=
  let numTriangles := mesh.Indices.length / 3
  (List.range numTriangles).foldl (CalculateTangent.triangleStep mesh)
    (List.replicate mesh.Positions.length 0)

/-- Function `MeshUtil::CalculateTangent` (the warning of the guard only logs). -/
def CalculateTangent (sqrt : α → α) (mesh : Mesh α) : Mesh α :=
  if mesh.Normals.length = 0 ∨ mesh.UVs.length = 0 then mesh
  else
    let numVertices := mesh.Positions.length / 3
    { mesh with
      Tangents := (List.range numVertices).foldl (normalizeVectorAt sqrt)
        (CalculateTangent.accumulate mesh) }

/-- A read `Data[j]` that fails outside the bounds of the array. -/
def checkedRead {β : Type} (data : List β) (j : Nat) : Option β := data[j]?

/-- Bounds-checked `Data[j] += x`. -/
def checkedAdd (data : List α) (j : Nat) (x : α) : Option (List α) :=
  (checkedRead data j).map fun y => data.set j (y + x)

/-- Bounds-checked `Data[j] = x`. -/
def checkedWrite (data : List α) (j : Nat) (x : α) : Option (List α) :=
  (checkedRead data j).map fun _ => data.set j x

/-- Lambda `GetPositionAt` of `CalculateTangent` with bounds-checked reads. -/
def CalculateTangent.checkedGetPositionAt (mesh : Mesh α) (index : Nat) :
    Option (Vector4 α) := do
  let j := index * 3
  let x ← checkedRead mesh.Positions j
  let y ← checkedRead mesh.Positions (j + 1)
  let z ← checkedRead mesh.Positions (j + 2)
  pure ⟨x, y, z⟩

/-- Lambda `GetUVAt` of `CalculateTangent` with bounds-checked reads. -/
def CalculateTangent.checkedGetUVAt (mesh : Mesh α) (index : Nat) : Option (Vector4 α) := do
  let j := index * 3
  let x ← checkedRead mesh.UVs j
  let y ← checkedRead mesh.UVs (j + 1)
  pure ⟨x, y, 0⟩

/-- Lambda `SetTangentAt` of `CalculateTangent` with bounds-checked accesses. -/
def CalculateTangent.checkedSetTangentAt (tangents : List α) (index : Nat)
    (tangent : Vector4 α) : Option (List α) := do
  let j := index * 3
  let tangents ← checkedAdd tangents j tangent.x
  let tangents ← checkedAdd tangents (j + 1) tangent.y
  checkedAdd tangents (j + 2) tangent.z

/-- The reads of the three corner indices of triangle `i`, bounds-checked. -/
def CalculateTangent.checkedCorners (mesh : Mesh α) (i : Nat) : Option (Nat × Nat × Nat) := do
  let j := i * 3
  let ia ← checkedRead mesh.Indices j
  let ib ← checkedRead mesh.Indices (j + 1)
  let ic ← checkedRead mesh.Indices (j + 2)
  pure (ia, ib, ic)

/-- The reads of the three corner positions, bounds-checked. -/
def CalculateTangent.checkedPositions (mesh : Mesh α) (ia ib ic : Nat) :
    Option (Vector4 α × Vector4 α × Vector4 α) := do
  let p0 ← CalculateTangent.checkedGetPositionAt mesh ia
  let p1 ← CalculateTangent.checkedGetPositionAt mesh ib
  let p2 ← CalculateTangent.checkedGetPositionAt mesh ic
  pure (p0, p1, p2)

/-- The reads of the three corner UVs, bounds-checked. -/
def CalculateTangent.checkedUVs (mesh : Mesh α) (ia ib ic : Nat) :
    Option (Vector4 α × Vector4 α × Vector4 α) := do
  let uv0 ← CalculateTangent.checkedGetUVAt mesh ia
  let uv1 ← CalculateTangent.checkedGetUVAt mesh ib
  let uv2 ← CalculateTangent.checkedGetUVAt mesh ic
  pure (uv0, uv1, uv2)

/-- The three `SetTangentAt` calls of one triangle, bounds-checked. -/
def CalculateTangent.checkedSetCorners (tangents : List α) (ia ib ic : Nat)
    (tangent : Vector4 α) : Option (List α) := do
  let tangents ← CalculateTangent.checkedSetTangentAt tangents ia tangent
  let tangents ← CalculateTangent.checkedSetTangentAt tangents ib tangent
  CalculateTangent.checkedSetTangentAt tangents ic tangent

/-- One iteration of the triangle loop of `CalculateTangent` with bounds-checked accesses. -/
def CalculateTangent.checkedTriangleStep (mesh : Mesh α) (tangents : List α) (i : Nat) :
    Option (List α) := do
  let c ← CalculateTangent.checkedCorners mesh i
  let p ← CalculateTangent.checkedPositions mesh c.1 c.2.1 c.2.2
  let uv ← CalculateTangent.checkedUVs mesh c.1 c.2.1 c.2.2
  let tangent := CalculateTangent.tangentOf p.1 p.2.1 p.2.2 uv.1 uv.2.1 uv.2.2
  CalculateTangent.checkedSetCorners tangents c.1 c.2.1 c.2.2 tangent

/-- One iteration of the normalisation loop of `CalculateTangent` with bounds-checked
accesses. -/
def CalculateTangent.checkedNormalizeStep (sqrt : α → α) (tangents : List α) (i : Nat) :
    Option (List α) := do
  let j := i * 3
  let x ← checkedRead tangents j
  let y ← checkedRead tangents (j + 1)
  let z ← checkedRead tangents (j + 2)
  let tangent := Vector4.Normalized sqrt ⟨x, y, z⟩
  let tangents ← checkedWrite tangents j tangent.x
  let tangents ← checkedWrite tangents (j + 1) tangent.y
  checkedWrite tangents (j + 2) tangent.z

/-- Function `MeshUtil::CalculateTangent` with every array access bounds-checked: the result
is `none` as soon as one access of `Indices`, `Positions`, `UVs` or `Tangents` falls outside
its array. -/
def CalculateTangent.checked (sqrt : α → α) (mesh : Mesh α) : Option (Mesh α) :=
  if mesh.Normals.length = 0 ∨ mesh.UVs.length = 0 then some mesh
  else do
    let numTriangles := mesh.Indices.length / 3
    let numVertices := mesh.Positions.length / 3
    let tangents ← (List.range numTriangles).foldlM (CalculateTangent.checkedTriangleStep mesh)
      (List.replicate mesh.Positions.length 0)
    let tangents ← (List.range numVertices).foldlM (CalculateTangent.checkedNormalizeStep sqrt)
      tangents
    pure { mesh with Tangents := tangents }

/-- Working state of the ring generators `CreateSphere` and `CreateCylinder`: the two arrays
of the mesh written so far, the counter `index` and the vectors `previousRing` and
`currentRing`. -/
structure RingState (α : Type) where
  Positions : List α
  Indices : List Nat
  index : Nat
  previousRing : List Nat
  currentRing : List Nat
deriving DecidableEq, Repr

/-- Lambda `AddVertex` of the ring generators: the point is appended and its index
returned. -/
def RingState.AddVertex (st : RingState α) (x y z : α) : RingState α × Nat :=
  ({ st with Positions := st.Positions ++ [x, y, z], index := st.index + 1 }, st.index)

/-- The loop `for (int v = 0; v < segV; v++)` that fills the current ring. -/
def RingState.fillRing (cos sin : α → α) (avgRadian currentRadius currentHeight : α)
    (segV : Int) (st : RingState α) : RingState α :=
  (List.range segV.toNat).foldl (fun (st : RingState α) (v : Nat) =>
    let radian := avgRadian * (v : α)
    let r := st.AddVertex (cos radian * currentRadius) currentHeight (sin radian * currentRadius)
    { r.1 with currentRing := r.1.currentRing ++ [r.2] }) st

/-- The branch `previousRing.size() > 0`: the previous and the current ring are connected by
two triangles per segment.  The loop bound `currentRing.size() - 1` is reached with a
non-empty ring only. -/
def RingState.connectRings (st : RingState α) : RingState α :=
  let st := (List.range (st.currentRing.length - 1)).foldl (fun (st : RingState α) (i : Nat) =>
    { st with Indices := st.Indices ++ [
        st.previousRing.getD i 0, st.previousRing.getD (i + 1) 0, st.currentRing.getD (i + 1) 0,
        st.currentRing.getD (i + 1) 0, st.currentRing.getD i 0, st.previousRing.getD i 0] }) st
  { st with Indices := st.Indices ++ [
      st.previousRing.getLastD 0, st.previousRing.headD 0, st.currentRing.headD 0,
      st.currentRing.headD 0, st.currentRing.getLastD 0, st.previousRing.getLastD 0] }

/-- The branch without a previous ring: the top ring is closed by a fan around a new centre
vertex. -/
def RingState.closeTop (currentHeight : α) (st : RingState α) : RingState α :=
  let r := st.AddVertex 0 currentHeight 0
  let center := r.2
  let st := (List.range (r.1.currentRing.length - 1)).foldl (fun (st : RingState α) (i : Nat) =>
    { st with Indices := st.Indices ++ [
        center, st.currentRing.getD (i + 1) 0, st.currentRing.getD i 0] }) r.1
  { st with Indices := st.Indices ++ [
      center, st.currentRing.headD 0, st.currentRing.getLastD 0] }

/-- The code after the ring loop: the bottom ring is closed by a fan around a new centre
vertex at height `y`. -/
def RingState.closeBottom (y : α) (st : RingState α) : RingState α :=
  let r := st.AddVertex 0 y 0
  let center := r.2
  let st := (List.range (r.1.previousRing.length - 1)).foldl (fun (st : RingState α) (i : Nat) =>
    { st with Indices := st.Indices ++ [
        center, st.previousRing.getD i 0, st.previousRing.getD (i + 1) 0] }) r.1
  { st with Indices := st.Indices ++ [
      center, st.previousRing.getLastD 0, st.previousRing.headD 0] }

/-- The part of the ring loop after the ring is filled: connect or close, then
`previousRing = currentRing` and the current ring is emptied. -/
def RingState.finishRing (currentHeight : α) (st : RingState α) : RingState α :=
  let st := if st.previousRing.length > 0 then st.connectRings else st.closeTop currentHeight
  { st with previousRing := st.currentRing, currentRing := [] }

/-- The geometry that `CreateSphere` builds before `OptimizeMesh` is called.  The functions
`sin`, `cos` and the constant `PI` (`MathUtil::PI`, defined outside the sources at hand) are
parameters. -/
def CreateSphere.raw (sin cos : α → α) (PI : α) (radius : α) (segH segV : Int) : Mesh α :=
  let avgRadianH := PI / ((segH - 1 : Int) : α)
  let avgRadianV := PI * 2 / (segV : α)
  let st := (List.range segH.toNat).foldl (fun (st : RingState α) (h : Nat) =>
    let currentRadius := sin ((h : α) * avgRadianH) * radius
    let currentHeight := cos ((h : α) * avgRadianH) * radius
    let st := RingState.fillRing cos sin avgRadianV currentRadius currentHeight segV st
    RingState.finishRing currentHeight st) (⟨[], [], 0, [], []⟩ : RingState α)
  let st := RingState.closeBottom (-radius) st
  { (Mesh.Create : Mesh α) with Positions := st.Positions, Indices := st.Indices }

/-- Function `MeshUtil::CreateSphere`; `none` is the `nullptr` of the guard (the fatal skin
check of `OptimizeMesh` would also give `none`). -/
def CreateSphere (sin cos : α → α) (PI : α) (dividePlane : Vector4 α) (radius : α)
    (segH segV : Int) : Option (Mesh α) :=
  if segH < 2 ∨ segV < 3 then none
  else OptimizeMesh dividePlane (CreateSphere.raw sin cos PI radius segH segV)

/-- The geometry that `CreateCylinder` builds before the test `topR == 0 || bottomR == 0`.
The ring loop carries `currentHeight` and `currentRadius` next to the ring state. -/
def CreateCylinder.raw (sin cos : α → α) (PI : α) (topR bottomR height : α)
    (segH segV : Int) : Mesh α :=
  let avgRadian := PI * 2 / (segV : α)
  let heightStep := height / ((segH - 1 : Int) : α)
  let radiusSetp := (topR - bottomR) / ((segH - 1 : Int) : α)
  let r := (List.range segH.toNat).foldl (fun (s : RingState α × α × α) (_ : Nat) =>
    let st := s.1
    let currentHeight := s.2.1
    let currentRadius := s.2.2
    let st := RingState.fillRing cos sin avgRadian currentRadius currentHeight segV st
    let st := RingState.finishRing currentHeight st
    (st, currentHeight - heightStep, currentRadius - radiusSetp))
    ((⟨[], [], 0, [], []⟩ : RingState α), height / 2, topR)
  let st := RingState.closeBottom (-height / 2) r.1
  { (Mesh.Create : Mesh α) with Positions := st.Positions, Indices := st.Indices }

/-- Function `MeshUtil::CreateCylinder`; `none` is the `nullptr` of the guard (the fatal skin
check of `OptimizeMesh` would also give `none`). -/
def CreateCylinder (sin cos : α → α) (PI : α) (dividePlane : Vector4 α)
    (topR bottomR height : α) (segH segV : Int) : Option (Mesh α) :=
  if segH < 2 ∨ segV < 3 then none
  else
    let mesh := CreateCylinder.raw sin cos PI topR bottomR height segH segV
    if topR = 0 ∨ bottomR = 0 then OptimizeMesh dividePlane mesh else some mesh

/-- Modelled from the spec: the class `Matrix4` (header `Matrix4.h`) is not part of the
sources at hand.  A 4x4 matrix, `m i j` its entry in row `i` and column `j`. -/
structure Matrix4 (α : Type) where
  m : Fin 4 → Fin 4 → α

/-- Modelled from the spec: `Matrix4::Multiply(Vector4)` is not part of the sources at hand.
The product of the matrix with the homogeneous vector `(v, w)`; the mesh code reads only its
`x`, `y`, `z`. -/
def Matrix4.Multiply (matrix : Matrix4 α) (v : Vector4 α) (w : α) : Vector4 α :=
  ⟨matrix.m 0 0 * v.x + matrix.m 0 1 * v.y + matrix.m 0 2 * v.z + matrix.m 0 3 * w,
   matrix.m 1 0 * v.x + matrix.m 1 1 * v.y + matrix.m 1 2 * v.z + matrix.m 1 3 * w,
   matrix.m 2 0 * v.x + matrix.m 2 1 * v.y + matrix.m 2 2 * v.z + matrix.m 2 3 * w⟩

/-- The pattern of the loop body of `TransformMesh` on one array: the three entries of
vertex `i` are read as a vector, the vector is mapped by `g` and written back. -/
def updateVectorAt (g : Vector4 α → Vector4 α) (data : List α) (i : Nat) : List α :=
  let j := i * 3
  let v := g ⟨data.getD j 0, data.getD (j + 1) 0, data.getD (j + 2) 0⟩
  ((data.set j v.x).set (j + 1) v.y).set (j + 2) v.z

/-- One iteration of the loop of `TransformMesh`, for vertex `i`. -/
def TransformMesh.step (sqrt : α → α) (matrix : Matrix4 α) (hasNormal hasTangent : Bool)
    (mesh : Mesh α) (i : Nat) : Mesh α :=
  let positions := updateVectorAt (fun pos => matrix.Multiply pos 1) mesh.Positions i
  let normals := updateVectorAt
    (fun normal => Vector4.Normalized sqrt (matrix.Multiply normal 0)) mesh.Normals i
  let tangents := updateVectorAt
    (fun tangent => Vector4.Normalized sqrt (matrix.Multiply tangent 0)) mesh.Tangents i
  { mesh with
    Positions := positions
    Normals := if hasNormal then normals else mesh.Normals
    Tangents := if hasTangent then tangents else mesh.Tangents }

/-- Function `MeshUtil::TransformMesh`.  The flag `updateBuffer` only asks the buffers to
upload themselves and leaves the arrays alone. -/
def TransformMesh (sqrt : α → α) (mesh : Mesh α) (matrix : Matrix4 α) (_updateBuffer : Bool) :
    Mesh α :=
  let count := mesh.Positions.length
  if count = 0 then mesh
  else
    let count := count / 3
    let hasNormal := decide (mesh.Normals.length > 0)
    let hasTangent := decide (mesh.Tangents.length > 0)
    (List.range count).foldl (TransformMesh.step sqrt matrix hasNormal hasTangent) mesh

end Primitives

/-! ## FindNeighbors with every access checked -/

section CheckedSearch

variable {α : Type} [LinearOrderedField α]

/-- The halving-step search of `FindNeighbors` with its safety conditions made explicit.
The result is `none` as soon as `entries[index]` is read outside the array,
`index += binaryStepSize` reaches `entries.size()` or leaves the 32-bit range,
`index -= binaryStepSize` would go below zero, or the iteration bound (first argument) is
used up while the loop condition still holds. -/
def FindNeighbors.checkedBinarySearch (entries : List (VtxEntry α)) (minDist : α) :
    Nat → Nat → Nat → Option Nat
  | 0, index, binaryStepSize => if binaryStepSize > 1 then none else some index
  | fuel + 1, index, binaryStepSize =>
    if binaryStepSize > 1 then
      match checkedRead entries index with
      | none => none
      | some e =>
        if e.dist < minDist then
          if index + binaryStepSize < entries.length ∧ index + binaryStepSize < 2 ^ 32 then
            FindNeighbors.checkedBinarySearch entries minDist fuel (index + binaryStepSize)
              (binaryStepSize / 2)
          else none
        else if binaryStepSize ≤ index then
          FindNeighbors.checkedBinarySearch entries minDist fuel (index - binaryStepSize)
            (binaryStepSize / 2)
        else none
    else some index

/-- First correction loop of `FindNeighbors` with bounds-checked reads:
`while (index > 0 && entries[index].dist > minDist) index--`. -/
def FindNeighbors.checkedStepBack (entries : List (VtxEntry α)) (minDist : α) :
    Nat → Option Nat
  | 0 => some 0
  | index + 1 =>
    match checkedRead entries (index + 1) with
    | none => none
    | some e =>
      if e.dist > minDist then FindNeighbors.checkedStepBack entries minDist index
      else some (index + 1)

/-- Second correction loop of `FindNeighbors` with bounds-checked reads:
`while (index < entries.size() - 1 && entries[index].dist < minDist) index++`; `none` also
when the iteration bound (first argument) is used up before the loop is left. -/
def FindNeighbors.checkedStepForward (entries : List (VtxEntry α)) (minDist : α) :
    Nat → Nat → Option Nat
  | 0, _ => none
  | fuel + 1, index =>
    if index < entries.length - 1 then
      match checkedRead entries index with
      | none => none
      | some e =>
        if e.dist < minDist
        then FindNeighbors.checkedStepForward entries minDist fuel (index + 1)
        else some index
    else some index

/-- Final scan of `FindNeighbors` on the iterator position `it = entries.begin() + index`,
every dereference `it->` bounds-checked; `none` also when the iteration bound (first
argument) is used up before the loop is left. -/
def FindNeighbors.checkedScan (entries : List (VtxEntry α)) (pos : Vector4 α)
    (maxDist pSquared : α) : Nat → Nat → Option (List Nat)
  | 0, _ => none
  | fuel + 1, index =>
    match checkedRead entries index with
    | none => none
    | some e =>
      if e.dist < maxDist then
        let output := if (e.position.sub pos).SquareLength < pSquared then [e.index] else []
        if index + 1 = entries.length then some output
        else (FindNeighbors.checkedScan entries pos maxDist pSquared fuel (index + 1)).map
          fun rest => output ++ rest
      else some []

/-- Lambda `FindNeighbors` with every array access and every update of the unsigned search
index checked: the output of the lambda, or `none` when an access falls outside `entries`
or the index leaves `[0, entries.size() - 1]`. -/
def FindNeighbors.checked (dividePlane : Vector4 α) (entries : List (VtxEntry α))
    (pos : Vector4 α) (radius : α) : Option (List Nat) :=
  let dist := dividePlane.dot pos
  let minDist := dist - radius
  let maxDist := dist + radius
  if entries.length = 0 ∨ maxDist < (entries.head?.getD default).dist
      ∨ minDist > (entries.getLast?.getD default).dist then some []
  else do
    let size := entries.length % 2 ^ 32
    let index ← FindNeighbors.checkedBinarySearch entries minDist (size / 4) (size / 2)
      (size / 4)
    let index ← FindNeighbors.checkedStepBack entries minDist index
    let index ← FindNeighbors.checkedStepForward entries minDist entries.length index
    FindNeighbors.checkedScan entries pos maxDist (radius * radius) entries.length index

end CheckedSearch

/-! ## Material: the texture and uniform tables -/

section Materials

variable {τ υ β : Type}

/-- Member `find` of a name table (an associative container of the standard library, keyed by
name): the value bound to `name`, `none` for `end()`. -/
def Table.find : List (String × β) → String → Option β
  | [], _ => none
  | pair :: rest, name => if pair.1 = name then some pair.2 else Table.find rest name

/-- The assignment `it->second = ptr` for the binding `it` that `find(name)` returned. -/
def Table.assign : List (String × β) → String → β → List (String × β)
  | [], _, _ => []
  | pair :: rest, name, ptr =>
    if pair.1 = name then (pair.1, ptr) :: rest else pair :: Table.assign rest name ptr

/-- Member `erase(it)` for the binding `it` that `find(name)` returned. -/
def Table.erase : List (String × β) → String → List (String × β)
  | [], _ => []
  | pair :: rest, name => if pair.1 = name then rest else pair :: Table.erase rest name

/-- The update that `SetTexture` and `SetUniform` perform on their table: a binding that is
found is overwritten by a non-null pointer and erased by a null pointer; without a binding a
non-null pointer is inserted (`table[name] = ptr`) and a null pointer does nothing.  A pointer
is an `Option`, `none` the null pointer. -/
def Table.set (table : List (String × Option β)) (name : String) (ptr : Option β) :
    List (String × Option β) :=
  match Table.find table name with
  | some _ => if ptr.isSome then Table.assign table name ptr else Table.erase table name
  | none => if ptr.isSome then (name, ptr) :: table else table

/-- The enumeration `ShaderTexture` (header `Shader.h`, not part of the sources at hand): its
four values that `SetTexture` reads are parameters. -/
structure ShaderTexture where
  COLOR_ONLY : Nat
  DIFFUSE : Nat
  SPECULAR : Nat
  NORMAL : Nat

/-- The members of class `Material` that the texture and uniform accessors read or write: the
tables `m_Textures` and `m_Uniforms`, and `m_TextureFlags`. -/
structure Material (τ υ : Type) where
  m_Textures : List (String × Option τ)
  m_Uniforms : List (String × Option υ)
  m_TextureFlags : Nat

/-- Constant `Material::DIFFUSE_TEXTURE`. -/
def Material.DIFFUSE_TEXTURE : String := "diffuse_texture"

/-- Constant `Material::SPECULAR_TEXTURE`. -/
def Material.SPECULAR_TEXTURE : String := "specular_texture"

/-- Constant `Material::NORMAL_TEXTURE`. -/
def Material.NORMAL_TEXTURE : String := "normal_texture"

/-- The constructor of `Material`: empty tables, `m_TextureFlags(0)`. -/
def Material.Create : Material τ υ := ⟨[], [], 0⟩

/-- Function `Material::GetTexture`. -/
def Material.GetTexture (m : Material τ υ) (name : String) : Option τ :=
  match Table.find m.m_Textures name with
  | some second => second
  | none => none

/-- The loop `for (auto pair : m_Textures)` of `SetTexture`, left at the first pair whose
name is one of the three texture names: the values of `hasTexture` and `m_TextureFlags`
after it.  The pairs are visited in the order of the list; the order in which the container
of the code visits them is not fixed by the sources at hand. -/
def Material.scanTextures (shaderTexture : ShaderTexture) :
    List (String × Option τ) → Bool × Nat
  | [] => (false, 0)
  | pair :: rest =>
    if pair.1 = Material.DIFFUSE_TEXTURE then (true, 0 ||| shaderTexture.DIFFUSE % 2 ^ 32)
    else if pair.1 = Material.SPECULAR_TEXTURE
    then (true, 0 ||| shaderTexture.SPECULAR % 2 ^ 32)
    else if pair.1 = Material.NORMAL_TEXTURE then (true, 0 ||| shaderTexture.NORMAL % 2 ^ 32)
    else Material.scanTextures shaderTexture rest

/-- Function `Material::SetTexture`. -/
def Material.SetTexture (shaderTexture : ShaderTexture) (m : Material τ υ) (name : String)
    (ptr : Option τ) : Material τ υ :=
  let textures := Table.set m.m_Textures name ptr
  let r := Material.scanTextures shaderTexture textures
  { m with
    m_Textures := textures
    m_TextureFlags := if !r.1 then shaderTexture.COLOR_ONLY % 2 ^ 32 else r.2 }

/-- Function `Material::GetTextureCount`; the size is returned as `unsigned int`. -/
def Material.GetTextureCount (m : Material τ υ) : Nat := m.m_Textures.length % 2 ^ 32

/-- Function `Material::SetUniform`. -/
def Material.SetUniform (m : Material τ υ) (name : String) (ptr : Option υ) : Material τ υ :=
  { m with m_Uniforms := Table.set m.m_Uniforms name ptr }

/-- Function `Material::GetUniform`. -/
def Material.GetUniform (m : Material τ υ) (name : String) : Option υ :=
  match Table.find m.m_Uniforms name with
  | some second => second
  | none => none

/-- Function `Material::GetUniformCount`; the size is returned as `unsigned int`. -/
def Material.GetUniformCount (m : Material τ υ) : Nat := m.m_Uniforms.length % 2 ^ 32

end Materials

/-! ## Predicates, invariants and auxiliary functions used in the statements -/

section Auxiliary

variable {α : Type} [LinearOrderedField α]

/-- Invariant of the unique-vertex loop before original vertex `k` of `n` is processed. -/
structure WeldInv (n k : Nat) (st : WeldState α) : Prop where
  len : st.replaceIndices.length = n
  ulen : st.uniqueVertices.length ≤ k
  done : ∀ j, j < k → st.replaceIndices.getD j 0 &&& 0x7fffffff < st.uniqueVertices.length
  clear : ∀ j, j < k → st.replaceIndices.getD j 0 &&& 0x80000000 = 0 →
    st.replaceIndices.getD j 0 < st.uniqueVertices.length
  todo : ∀ j, k ≤ j → j < n → st.replaceIndices.getD j 0 = 0xffffffff

/-- The final state of the unique-vertex loop of `OptimizeMeshWith`. -/
def finalState (dividePlane : Vector4 α) (entries : List (VtxEntry α)) (mesh : Mesh α) :
    WeldState α :=
  weldLoop dividePlane entries mesh (Flags.ofMesh mesh)
    ⟨[], List.replicate mesh.vertexCount 0xffffffff⟩ (List.range mesh.vertexCount)

/-- Entries are in ascending order of `dist`. -/
def EntriesSorted (entries : List (VtxEntry α)) : Prop :=
  entries.Pairwise fun a b => a.dist ≤ b.dist

instance : IsTotal (VtxEntry α) (fun a b => a.dist ≤ b.dist) := ⟨fun _ _ => le_total _ _⟩

instance : IsTrans (VtxEntry α) (fun a b => a.dist ≤ b.dist) :=
  ⟨fun _ _ _ h1 h2 => le_trans h1 h2⟩

/-- The entry array fits the mesh: sorted by key, one entry per vertex carrying its
position and its plane distance. -/
structure EntriesFor (dividePlane : Vector4 α) (mesh : Mesh α) (f : Flags)
    (entries : List (VtxEntry α)) : Prop where
  sorted : EntriesSorted entries
  key : ∀ e ∈ entries, e.dist = dividePlane.dot e.position
  idx : ∀ e ∈ entries, e.index < mesh.vertexCount
  pos : ∀ e ∈ entries, e.position = (CreateVertex mesh f e.index).Position
  all : ∀ c, c < mesh.vertexCount → ∃ e ∈ entries, e.index = c
  len : entries.length = mesh.vertexCount

/-- Two original vertices are kept apart by the welder: their squared distance is at least
`squareEpsilon`, or the attribute test of the inner loop rejects the pair. -/
def Sep (mesh : Mesh α) (f : Flags) (c c' : Nat) : Prop :=
  squareEpsilon ≤
      ((CreateVertex mesh f c).Position.sub (CreateVertex mesh f c').Position).SquareLength ∨
    attributesMatch f epsilon squareEpsilon (CreateVertex mesh f c) (CreateVertex mesh f c')
      = false

/-- Semantic invariant of the unique-vertex loop: `orig` lists, for every unique vertex, the
original vertex that created it. -/
structure SemInv (mesh : Mesh α) (f : Flags) (k : Nat) (st : WeldState α)
    (orig : List Nat) : Prop where
  uniq_eq : st.uniqueVertices = orig.map (CreateVertex mesh f)
  repl_orig : ∀ u (h : u < orig.length), st.replaceIndices.getD orig[u] 0 = u
  lt : ∀ c ∈ orig, c < k
  sep : orig.Pairwise (Sep mesh f)

/-- A vertex record carries zeros in the channels that the flags mark as absent, as every
record made by `CreateVertex` does. -/
def Vertex.Canonical (f : Flags) (v : Vertex α) : Prop :=
  (f.hasNormal = false → v.Normal = Vector4.Zero) ∧
  (f.hasTangent = false → v.Tangent = Vector4.Zero) ∧
  (f.hasUV = false → v.UV = Vector4.Zero) ∧ v.UV.z = 0 ∧
  (f.hasWeights = false →
    v.ID0 = 0 ∧ v.ID1 = 0 ∧ v.ID2 = 0 ∧ v.ID3 = 0 ∧ v.W0 = 0 ∧ v.W1 = 0 ∧ v.W2 = 0)

/-- Vertex `u` of a mesh, read with the presence flags of that mesh. -/
def vertexAt (mesh : Mesh α) (u : Nat) : Vertex α :=
  CreateVertex mesh (Flags.ofMesh mesh) u

/-- Two vertex records differ in some present attribute beyond its tolerance: normal,
tangent or UV at squared distance above `squareEpsilon`, or skin data for which neither the
weights agree within `epsilon` nor the bone indices agree exactly. -/
def Vertex.differs (f : Flags) (a b : Vertex α) : Prop :=
  (f.hasNormal = true ∧ (a.Normal.sub b.Normal).SquareLength > squareEpsilon) ∨
  (f.hasTangent = true ∧ (a.Tangent.sub b.Tangent).SquareLength > squareEpsilon) ∨
  (f.hasUV = true ∧ (a.UV.sub b.UV).SquareLength > squareEpsilon) ∨
  (f.hasWeights = true ∧ a.HasSameWeights b epsilon = false ∧ a.HasSameIDs b = false)

instance (f : Flags) (a b : Vertex α) : Decidable (Vertex.differs f a b) := by
  unfold Vertex.differs; infer_instance

/-- State of the unique-vertex loop before original vertex `k` is processed. -/
def stateAt (dividePlane : Vector4 α) (entries : List (VtxEntry α)) (mesh : Mesh α)
    (k : Nat) : WeldState α :=
  weldLoop dividePlane entries mesh (Flags.ofMesh mesh)
    ⟨[], List.replicate mesh.vertexCount 0xffffffff⟩ (List.range k)

/-- Value of `matchIndex` when original vertex `k` is processed. -/
def matchAt (dividePlane : Vector4 α) (entries : List (VtxEntry α)) (mesh : Mesh α)
    (k : Nat) : Nat :=
  findMatch (Flags.ofMesh mesh) epsilon squareEpsilon
    (stateAt dividePlane entries mesh k).uniqueVertices
    (stateAt dividePlane entries mesh k).replaceIndices
    (CreateVertex mesh (Flags.ofMesh mesh) k)
    (FindNeighbors dividePlane entries (CreateVertex mesh (Flags.ofMesh mesh) k).Position epsilon)

/-- The unique index that the replacement table of `OptimizeMesh` records for original
vertex `i`, flag bit removed. -/
def replacementOf (dividePlane : Vector4 α) (mesh : Mesh α) (i : Nat) : Nat :=
  remapIndex
    (finalState dividePlane (sortEntries (makeEntries dividePlane mesh)) mesh).replaceIndices i

/-- The index array read as a list of triangles, three entries at a time. -/
def triples : List Nat → List (Nat × Nat × Nat)
  | a :: b :: c :: rest => (a, b, c) :: triples rest
  | _ => []

/-- The three directed edges of a triangle, in the order in which the refinement loop asks
for their midpoints. -/
def dedges (t : Nat × Nat × Nat) : List (Nat × Nat) :=
  [(t.1, t.2.1), (t.2.1, t.2.2), (t.2.2, t.1)]

/-- The vertex that the cache holds for the edge between `u` and `v` (`0` when absent). -/
def midOf (st : IcoState α) (u v : Nat) : Nat :=
  (st.middlePointIndexCache.lookup (IcoSphere.key u v)).getD 0

/-- The twelve indices that the refinement loop emits for one triangle, given the midpoint
vertex of each edge. -/
def subdivIndices (m : Nat → Nat → Nat) (t : Nat × Nat × Nat) : List Nat :=
  [t.1, m t.1 t.2.1, m t.2.2 t.1, t.2.1, m t.2.1 t.2.2, m t.1 t.2.1,
   t.2.2, m t.2.2 t.1, m t.2.1 t.2.2, m t.1 t.2.1, m t.2.1 t.2.2, m t.2.2 t.1]

/-- The four triangles that replace one triangle. -/
def subdivTriangles (m : Nat → Nat → Nat) (t : Nat × Nat × Nat) : List (Nat × Nat × Nat) :=
  [(t.1, m t.1 t.2.1, m t.2.2 t.1), (t.2.1, m t.2.1 t.2.2, m t.1 t.2.1),
   (t.2.2, m t.2.2 t.1, m t.2.1 t.2.2), (m t.1 t.2.1, m t.2.1 t.2.2, m t.2.2 t.1)]

/-- The three coordinates that `GetMidPoint` appends for a new midpoint vertex. -/
def midCoordinates (sqrt : α → α) (radius : α) (st : IcoState α) (p1 p2 : Nat) : List α :=
  (IcoSphere.AddVertex sqrt radius st
    ((st.Positions.getD (p1 * 3) 0 + st.Positions.getD (p2 * 3) 0) * (1 / 2))
    ((st.Positions.getD (p1 * 3 + 1) 0 + st.Positions.getD (p2 * 3 + 1) 0) * (1 / 2))
    ((st.Positions.getD (p1 * 3 + 2) 0 + st.Positions.getD (p2 * 3 + 2) 0) * (1 / 2))
    ).1.Positions.drop st.Positions.length

/-- Invariant of the working state: every vertex beyond the first twelve was created for
exactly one cache entry. -/
structure CacheInv (st : IcoState α) : Prop where
  keys : (st.middlePointIndexCache.map Prod.fst).Nodup
  vals : (st.middlePointIndexCache.map Prod.snd).Nodup
  bound : ∀ p ∈ st.middlePointIndexCache, p.2 < st.index
  idx : st.index = 12 + st.middlePointIndexCache.length
  plen : st.Positions.length = 3 * st.index

/-- Relation between the state before and after the midpoints of the edges `E` were asked
for. -/
structure PassRel (st st' : IcoState α) (E : List (Nat × Nat)) : Prop where
  stable : ∀ k i, st.middlePointIndexCache.lookup k = some i →
    st'.middlePointIndexCache.lookup k = some i
  found : ∀ e ∈ E, ∃ i, st'.middlePointIndexCache.lookup (IcoSphere.key e.1 e.2) = some i
  fresh : ∀ p ∈ st'.middlePointIndexCache, p ∈ st.middlePointIndexCache ∨
    (st.index ≤ p.2 ∧ ∃ e ∈ E, p.1 = IcoSphere.key e.1 e.2)
  mono : st.index ≤ st'.index
  positions : ∃ extra, st'.Positions = st.Positions ++ extra
  inv : CacheInv st → CacheInv st'

/-- The three rotations of a triangle: each one stands for a directed edge `(u, v)` of the
triangle together with the opposite vertex `w`. -/
def rot (t : Nat × Nat × Nat) : List (Nat × Nat × Nat) :=
  [(t.1, t.2.1, t.2.2), (t.2.1, t.2.2, t.1), (t.2.2, t.1, t.2.1)]

/-- All rotations of all triangles. -/
def corners (T : List (Nat × Nat × Nat)) : List (Nat × Nat × Nat) := T.flatMap rot

/-- All directed edges of all triangles. -/
def allEdges (T : List (Nat × Nat × Nat)) : List (Nat × Nat) := T.flatMap dedges

/-- A triangle list over vertices `< V` is a closed, consistently oriented triangulation:
every directed edge occurs once, its reverse occurs too, and the two triangles along an edge
have different opposite vertices. -/
structure Manifold (T : List (Nat × Nat × Nat)) (V : Nat) : Prop where
  lt : ∀ r ∈ corners T, r.1 < V
  ne : ∀ r ∈ corners T, r.1 ≠ r.2.1
  nodup : (allEdges T).Nodup
  rev : ∀ e ∈ allEdges T, (e.2, e.1) ∈ allEdges T
  nopillow : ∀ r ∈ corners T, (r.2.1, r.1, r.2.2) ∉ corners T

/-- The midpoint function of a pass: symmetric, and sending the edges of the triangulation
injectively (up to direction) to fresh vertices in `[V, V')`. -/
structure MidOK (m : Nat → Nat → Nat) (T : List (Nat × Nat × Nat)) (V V' : Nat) : Prop where
  symm : ∀ u v, m u v = m v u
  fresh : ∀ e ∈ allEdges T, V ≤ m e.1 e.2 ∧ m e.1 e.2 < V'
  inj : ∀ e ∈ allEdges T, ∀ e' ∈ allEdges T, m e.1 e.2 = m e'.1 e'.2 →
    (e.1 = e'.1 ∧ e.2 = e'.2) ∨ (e.1 = e'.2 ∧ e.2 = e'.1)

/-- The rotations of the four triangles that replace the triangle of rotation `(u, v, w)`,
grouped by the directed edge `(u, v)` they come from: the first half of the edge, its second
half, the inner edge of the corner triangle at `u` and the edge of the middle triangle. -/
def splitCorners (m : Nat → Nat → Nat) (r : Nat × Nat × Nat) : List (Nat × Nat × Nat) :=
  [(r.1, m r.1 r.2.1, m r.2.2 r.1), (m r.1 r.2.1, r.2.1, m r.2.1 r.2.2),
   (m r.1 r.2.1, m r.2.2 r.1, r.1), (m r.1 r.2.1, m r.2.1 r.2.2, m r.2.2 r.1)]

/-- The directed edges of `splitCorners`. -/
def splitEdges (m : Nat → Nat → Nat) (r : Nat × Nat × Nat) : List (Nat × Nat) :=
  [(r.1, m r.1 r.2.1), (m r.1 r.2.1, r.2.1),
   (m r.1 r.2.1, m r.2.2 r.1), (m r.1 r.2.1, m r.2.1 r.2.2)]

/-- State of `CreateIcoSphere` after `k` refinement passes. -/
structure LevelInv (k : Nat) (st : IcoState α) (indices : List Nat) : Prop where
  cache : CacheInv st
  man : Manifold (triples indices) st.index
  tris : (triples indices).length = 20 * 4 ^ k
  verts : st.index = 10 * 4 ^ k + 2
  old : ∃ B, B ≤ st.index ∧
    (∀ p ∈ st.middlePointIndexCache, ∃ u v, u < B ∧ v < B ∧ p.1 = IcoSphere.key u v) ∧
    (∀ e ∈ allEdges (triples indices), B ≤ e.1 ∨ B ≤ e.2)

/-- Vertex `i` of a flat position array. -/
def posOf (positions : List α) (i : Nat) : Vector4 α :=
  ⟨positions.getD (i * 3) 0, positions.getD (i * 3 + 1) 0, positions.getD (i * 3 + 2) 0⟩

/-- The point that `AddVertex` stores for the arguments `x`, `y`, `z`. -/
def projected (sqrt : α → α) (radius : α) (x y z : α) : Vector4 α :=
  ⟨x * (radius / sqrt (x * x + y * y + z * z)), y * (radius / sqrt (x * x + y * y + z * z)),
    z * (radius / sqrt (x * x + y * y + z * z))⟩

/-- The point that `GetMidPoint` stores for the edge between the points `a` and `b`. -/
def normMid (sqrt : α → α) (radius : α) (a b : Vector4 α) : Vector4 α :=
  projected sqrt radius ((a.x + b.x) * (1 / 2)) ((a.y + b.y) * (1 / 2)) ((a.z + b.z) * (1 / 2))

/-- Geometric invariant of the working state: every vertex lies on the sphere, and every
cache entry holds the projected midpoint of the edge of its key. -/
structure GeoInv (sqrt : α → α) (radius : α) (st : IcoState α) : Prop where
  plen : st.Positions.length = 3 * st.index
  sphere : ∀ i, i < st.index → (posOf st.Positions i).SquareLength = radius * radius
  cache : ∀ p ∈ st.middlePointIndexCache, ∃ u v, u < st.index ∧ v < st.index ∧
    p.2 < st.index ∧ p.1 = IcoSphere.key u v ∧
    posOf st.Positions p.2
      = normMid sqrt radius (posOf st.Positions u) (posOf st.Positions v)

/-- Geometric state of `CreateIcoSphere` between two passes: all vertices on the sphere and
the two ends of every edge at positive dot product. -/
structure GeoLevel (sqrt : α → α) (radius : α) (st : IcoState α) (indices : List Nat) :
    Prop where
  geo : GeoInv sqrt radius st
  adj : ∀ r ∈ corners (triples indices),
    0 < (posOf st.Positions r.1).dot (posOf st.Positions r.2.1)

/-- The twelve points handed to `AddVertex` for the icosahedron, for the golden ratio `t`. -/
def rawVertices (t : α) : List (Vector4 α) :=
  [⟨-1, t, 0⟩, ⟨1, t, 0⟩, ⟨-1, -t, 0⟩, ⟨1, -t, 0⟩,
   ⟨0, -1, t⟩, ⟨0, 1, t⟩, ⟨0, -1, -t⟩, ⟨0, 1, -t⟩,
   ⟨t, 0, -1⟩, ⟨t, 0, 1⟩, ⟨-t, 0, -1⟩, ⟨-t, 0, 1⟩]

instance : Zero (Vector4 α) := ⟨Vector4.Zero⟩

instance : Add (Vector4 α) := ⟨Vector4.add⟩

/-- Vectors add component-wise; the sum of the face vectors of a family of triangles is
taken in this monoid. -/
instance : AddCommMonoid (Vector4 α) where
  add_assoc a b c := by
    ext <;> exact add_assoc _ _ _
  zero_add a := by
    ext <;> exact zero_add _
  add_zero a := by
    ext <;> exact add_zero _
  add_comm a b := by
    ext <;> exact add_comm _ _
  nsmul := nsmulRec

/-- The sum, over the first `n` triangles of an index array and every occurrence of vertex `v`
among the three corners of a triangle, of the vector `face i` of that triangle. -/
def cornerSum (indices : List Nat) (face : Nat → Vector4 α) (n v : Nat) : Vector4 α :=
  ∑ i ∈ Finset.range n, ∑ k ∈ Finset.range 3,
    if indices.getD (i * 3 + k) 0 = v then face i else 0

/-- The UV of vertex `i` read as a pair at offset `stride * i`: `(UVs[stride * i],
UVs[stride * i + 1])`.  The specification of the tangent pass reads UV pairs, `stride = 2`. -/
def Stated.UVAt (stride : Nat) (mesh : Mesh α) (i : Nat) : Vector4 α :=
  ⟨mesh.UVs.getD (stride * i) 0, mesh.UVs.getD (stride * i + 1) 0, 0⟩

/-- The contribution of triangle `i` as the specification of the tangent pass states it, for
UVs read with the given stride: with `dp0 = P(b) - P(a)`, `dp1 = P(c) - P(b)`,
`duv0 = UV(b) - UV(a)`, `duv1 = UV(c) - UV(b)` and
`cross = duv0.x * duv1.y - duv0.y * duv1.x`, the vector
`(dp0 * duv1.y - dp1 * duv0.y) / cross`, and the zero vector when `cross = 0`. -/
def Stated.triangleTangent (stride : Nat) (mesh : Mesh α) (i : Nat) : Vector4 α :=
  let a := mesh.Indices.getD (3 * i) 0
  let b := mesh.Indices.getD (3 * i + 1) 0
  let c := mesh.Indices.getD (3 * i + 2) 0
  let dp0 := (posOf mesh.Positions b).sub (posOf mesh.Positions a)
  let dp1 := (posOf mesh.Positions c).sub (posOf mesh.Positions b)
  let duv0 := (Stated.UVAt stride mesh b).sub (Stated.UVAt stride mesh a)
  let duv1 := (Stated.UVAt stride mesh c).sub (Stated.UVAt stride mesh b)
  let cross := duv0.x * duv1.y - duv0.y * duv1.x
  if cross = 0 then Vector4.Zero
  else ((dp0.scale duv1.y).sub (dp1.scale duv0.y)).scale (1 / cross)

/-- State of a ring generator after `k` rings of `n` vertices each: the top centre is the only
other vertex written, the last ring is kept in `previousRing`, the current ring is empty. -/
structure RingInv (n k : Nat) (st : RingState α) : Prop where
  plen : st.Positions.length = if k = 0 then 0 else 3 * (k * n + 1)
  prev : st.previousRing.length = if k = 0 then 0 else n
  cur : st.currentRing = []

/-- The brute-force neighbour search: the original indices of all entries whose squared
Euclidean distance to `pos` is below `radius * radius`, in the order of the entry array. -/
def bruteForceNeighbors (entries : List (VtxEntry α)) (pos : Vector4 α) (radius : α) :
    List Nat :=
  (entries.filter fun e =>
    decide ((e.position.sub pos).SquareLength < radius * radius)).map fun e => e.index

/-- The neighbour search read as a filter: the original indices of all entries whose key
lies in `[k - radius, k + radius)`, `k` the plane key of `pos`, and whose squared Euclidean
distance to `pos` is below `radius * radius`, in the order of the entry array. -/
def windowNeighbors (dividePlane : Vector4 α) (entries : List (VtxEntry α)) (pos : Vector4 α)
    (radius : α) : List Nat :=
  (entries.filter fun e =>
    decide (dividePlane.dot pos - radius ≤ e.dist ∧ e.dist < dividePlane.dot pos + radius ∧
      (e.position.sub pos).SquareLength < radius * radius)).map fun e => e.index

/-- The original vertices below `k` for which the inner loop accepts no candidate
(`matchIndex` stays `0xffffffff`), in ascending order: the vertices that are appended to
`uniqueVertices` before vertex `k` is processed. -/
def creators (dividePlane : Vector4 α) (entries : List (VtxEntry α)) (mesh : Mesh α)
    (k : Nat) : List Nat :=
  (List.range k).filter fun i => decide (matchAt dividePlane entries mesh i = 0xffffffff)

/-- The unique index that the loop records for original vertex `i`: the accepted
`matchIndex`, or else the number of unique vertices created before `i`. -/
def uniqueIndexOf (dividePlane : Vector4 α) (entries : List (VtxEntry α)) (mesh : Mesh α)
    (i : Nat) : Nat :=
  if matchAt dividePlane entries mesh i ≠ 0xffffffff then matchAt dividePlane entries mesh i
  else (creators dividePlane entries mesh i).length

/-- The invariants of a mesh buffer: fewer than `2 ^ 31` vertices, `Positions` a whole number
of triples, every present attribute array with one slot per vertex (stride 3 for normals,
tangents and weights, 2 for UVs, 4 for bone IDs), weights and bone IDs present together, and
every index of `Indices` and of the submeshes below the vertex count. -/
structure Mesh.WellFormed (mesh : Mesh α) : Prop where
  count : mesh.vertexCount < 2 ^ 31
  positions : mesh.Positions.length = 3 * mesh.vertexCount
  normals : mesh.Normals = [] ∨ mesh.Normals.length = 3 * mesh.vertexCount
  tangents : mesh.Tangents = [] ∨ mesh.Tangents.length = 3 * mesh.vertexCount
  uvs : mesh.UVs = [] ∨ mesh.UVs.length = 2 * mesh.vertexCount
  skin : (mesh.Weights = [] ∧ mesh.IDs = []) ∨
    (mesh.Weights ≠ [] ∧ mesh.Weights.length = 3 * mesh.vertexCount ∧
      mesh.IDs.length = 4 * mesh.vertexCount)
  indices : ∀ i ∈ mesh.Indices, i < mesh.vertexCount
  submeshes : ∀ sub ∈ mesh.SubMeshes, ∀ i ∈ sub, i < mesh.vertexCount

/-- The index side of the state of a ring generator after `k` rings of `n` vertices each:
the counter `index` is the number of vertices written, the index array holds the top fan and
two triangles per segment for every later ring, and every index written and every entry of
the previous ring is the index of a vertex written. -/
structure RingIdx (n k : Nat) (st : RingState α) : Prop where
  index : st.index * 3 = st.Positions.length
  ilen : st.Indices.length = if k = 0 then 0 else 3 * n + (k - 1) * (6 * n)
  ibound : ∀ i ∈ st.Indices, i < st.index
  pbound : ∀ i ∈ st.previousRing, i < st.index

/-- The triangles of `T` that have the directed edge `e`. -/
def trianglesWith (T : List (Nat × Nat × Nat)) (e : Nat × Nat) : List (Nat × Nat × Nat) :=
  T.filter fun t => decide (e ∈ dedges t)

/-- The triangles of `T` along the undirected edge `e`: those that have `e` or its reverse. -/
def trianglesAlong (T : List (Nat × Nat × Nat)) (e : Nat × Nat) : List (Nat × Nat × Nat) :=
  T.filter fun t => decide (e ∈ dedges t ∨ (e.2, e.1) ∈ dedges t)

/-- The triangle list is closed and consistently oriented, by counting: every directed edge
of a triangle lies in exactly one triangle, its reverse lies in exactly one triangle, which
is another one, and the undirected edge is shared by exactly two triangles. -/
def ClosedOriented (T : List (Nat × Nat × Nat)) : Prop :=
  ∀ e ∈ allEdges T,
    (trianglesWith T e).length = 1 ∧
    (trianglesWith T (e.2, e.1)).length = 1 ∧
    (∀ t ∈ trianglesWith T e, t ∉ trianglesWith T (e.2, e.1)) ∧
    (trianglesAlong T e).length = 2

/-- The invariant of a name table: no name is bound twice, which the container guarantees,
and no bound pointer is null. -/
def Table.WellFormed {β : Type} (table : List (String × Option β)) : Prop :=
  (table.map Prod.fst).Nodup ∧ ∀ pair ∈ table, pair.2.isSome = true

/-- Both tables of the material satisfy the table invariant. -/
structure Material.WellFormed {τ υ : Type} (m : Material τ υ) : Prop where
  textures : Table.WellFormed m.m_Textures
  uniforms : Table.WellFormed m.m_Uniforms

end Auxiliary

section AuxWeld

variable {α : Type} [LinearOrderedField α]

/-- The inner loop of `OptimizeMesh` with the attribute tests left open: `accept vtxu vtx`
says whether the unique vertex `vtxu` passes all tests against the current vertex `vtx`. -/
def findMatchWith (accept : Vertex α → Vertex α → Bool) (uniqueVertices : List (Vertex α))
    (replaceIndices : List Nat) (vtx : Vertex α) : List Nat → Nat
  | [] => 0xffffffff
  | found :: rest =>
    let uidx := replaceIndices.getD found 0
    if uidx &&& 0x80000000 ≠ 0 then
      findMatchWith accept uniqueVertices replaceIndices vtx rest
    else if accept (uniqueVertices.getD uidx default) vtx then uidx
    else findMatchWith accept uniqueVertices replaceIndices vtx rest

/-- One iteration of the unique-vertex loop with the neighbour search and the attribute tests
left open: `found pos` lists the candidates that the search returns for the position `pos`. -/
def weldStepWith (found : Vector4 α → List Nat) (accept : Vertex α → Vertex α → Bool)
    (mesh : Mesh α) (f : Flags) (st : WeldState α) (i : Nat) : WeldState α :=
  let vtx := CreateVertex mesh f i
  let matchIndex :=
    findMatchWith accept st.uniqueVertices st.replaceIndices vtx (found vtx.Position)
  if matchIndex ≠ 0xffffffff then
    { st with replaceIndices := st.replaceIndices.set i (matchIndex ||| 0x80000000) }
  else
    { uniqueVertices := st.uniqueVertices ++ [vtx]
      replaceIndices := st.replaceIndices.set i (st.uniqueVertices.length % 2 ^ 32) }

/-- The unique-vertex loop with the neighbour search and the attribute tests left open. -/
def weldLoopWith (found : Vector4 α → List Nat) (accept : Vertex α → Vertex α → Bool)
    (mesh : Mesh α) (f : Flags) (st : WeldState α) (is : List Nat) : WeldState α :=
  is.foldl (weldStepWith found accept mesh f) st

/-- State of that loop before original vertex `k` is processed. -/
def stateAtWith (found : Vector4 α → List Nat) (accept : Vertex α → Vertex α → Bool)
    (mesh : Mesh α) (k : Nat) : WeldState α :=
  weldLoopWith found accept mesh (Flags.ofMesh mesh)
    ⟨[], List.replicate mesh.vertexCount 0xffffffff⟩ (List.range k)

/-- Value of `matchIndex` when original vertex `k` is processed. -/
def matchAtWith (found : Vector4 α → List Nat) (accept : Vertex α → Vertex α → Bool)
    (mesh : Mesh α) (k : Nat) : Nat :=
  findMatchWith accept (stateAtWith found accept mesh k).uniqueVertices
    (stateAtWith found accept mesh k).replaceIndices
    (CreateVertex mesh (Flags.ofMesh mesh) k)
    (found (CreateVertex mesh (Flags.ofMesh mesh) k).Position)

/-- The original vertices below `k` for which no candidate is accepted, in ascending
order. -/
def creatorsWith (found : Vector4 α → List Nat) (accept : Vertex α → Vertex α → Bool)
    (mesh : Mesh α) (k : Nat) : List Nat :=
  (List.range k).filter fun i => decide (matchAtWith found accept mesh i = 0xffffffff)

/-- The final state of the unique-vertex loop of `Rounded.OptimizeMesh`. -/
def Rounded.finalState (fl : α → α) (dividePlane : Vector4 α) (mesh : Mesh α) :
    WeldState α :=
  Rounded.weldLoop fl dividePlane (sortEntries (Rounded.makeEntries fl dividePlane mesh)) mesh
    (Flags.ofMesh mesh) ⟨[], List.replicate mesh.vertexCount 0xffffffff⟩
    (List.range mesh.vertexCount)

/-- The unique index that the replacement table of `Rounded.OptimizeMesh` records for
original vertex `i`, flag bit removed. -/
def Rounded.replacementOf (fl : α → α) (dividePlane : Vector4 α) (mesh : Mesh α) (i : Nat) :
    Nat :=
  remapIndex (Rounded.finalState fl dividePlane mesh).replaceIndices i

/-- Two vertex records differ in some present attribute beyond its tolerance, as the inner
loop computes it in `float` arithmetic: normal, tangent or UV at computed squared distance
above `squareEpsilon`, or skin data for which neither the weights agree within `epsilon` nor
the bone indices agree exactly. -/
def Rounded.differs (fl : α → α) (f : Flags) (a b : Vertex α) : Prop :=
  (f.hasNormal = true ∧
    Rounded.SquareLength fl (Rounded.sub fl a.Normal b.Normal) > Rounded.squareEpsilon fl) ∨
  (f.hasTangent = true ∧
    Rounded.SquareLength fl (Rounded.sub fl a.Tangent b.Tangent) > Rounded.squareEpsilon fl) ∨
  (f.hasUV = true ∧
    Rounded.SquareLength fl (Rounded.sub fl a.UV b.UV) > Rounded.squareEpsilon fl) ∨
  (f.hasWeights = true ∧ Rounded.HasSameWeights fl a b (Rounded.epsilon fl) = false ∧
    a.HasSameIDs b = false)

/-- The candidates that the neighbour search of `Rounded.OptimizeMesh` returns for a
position: `FindNeighbors(pos, epsilon, verticesFound)` over the sorted entries of the
mesh. -/
def Rounded.found (fl : α → α) (dividePlane : Vector4 α) (mesh : Mesh α) (pos : Vector4 α) :
    List Nat :=
  Rounded.FindNeighbors fl dividePlane (sortEntries (Rounded.makeEntries fl dividePlane mesh))
    pos (Rounded.epsilon fl)

/-- The attribute tests of `Rounded.OptimizeMesh` on a mesh, with its flags and the two
tolerances of the code. -/
def Rounded.accept (fl : α → α) (mesh : Mesh α) (vtxu vtx : Vertex α) : Bool :=
  Rounded.attributesMatch fl (Flags.ofMesh mesh) (Rounded.epsilon fl) (Rounded.squareEpsilon fl)
    vtxu vtx

/-- The brute-force neighbour search in `float` arithmetic: the original indices of all
entries whose computed squared distance to `pos` is below the computed `radius * radius`, in
the order of the entry array. -/
def Rounded.bruteForceNeighbors (fl : α → α) (entries : List (VtxEntry α)) (pos : Vector4 α)
    (radius : α) : List Nat :=
  (entries.filter fun e =>
    decide (Rounded.SquareLength fl (Rounded.sub fl e.position pos)
      < fl (radius * radius))).map fun e => e.index

/-- The neighbour search as the specification words it, in `float` arithmetic: the entries
with a key in `[k - radius, k + radius)`, `k` the plane key of `pos`, and a squared distance
of at most `radius * radius`, in the order of the entry array. -/
def Stated.roundedWindowNeighbors (fl : α → α) (dividePlane : Vector4 α)
    (entries : List (VtxEntry α)) (pos : Vector4 α) (radius : α) : List Nat :=
  (entries.filter fun e =>
    decide (fl (Rounded.dot fl dividePlane pos - radius) ≤ e.dist ∧
      e.dist < fl (Rounded.dot fl dividePlane pos + radius) ∧
      Rounded.SquareLength fl (Rounded.sub fl e.position pos) ≤ fl (radius * radius))).map
    fun e => e.index

instance (fl : α → α) (f : Flags) (a b : Vertex α) : Decidable (Rounded.differs fl f a b) := by
  unfold Rounded.differs; infer_instance

end AuxWeld

/-! ## Sample inputs -/

/-- A small mesh with repeated positions and one submesh, used to exercise the welder. -/
def sampleMesh : Mesh ℚ :=
  { Positions := [0, 0, 0, 1, 0, 0, 0, 0, 0, 0, 1, 0, 1, 0, 0]
    Normals := []
    Tangents := []
    UVs := []
    IDs := []
    Weights := []
    Indices := [0, 1, 3, 2, 4, 3]
    SubMeshes := [[2, 4, 3]] }

/-- A rational unit vector standing for the sorting plane normal. -/
def samplePlane : Vector4 ℚ := ⟨3 / 5, 4 / 5, 0⟩

/-- The quad from `(0,0,0)` to `(1,1,0)` with the normals `(0,0,1)` that `CalculateNormal`
gives it: a well-formed input of `CalculateTangent`. -/
def unitQuad : Mesh ℚ :=
  { CreateQuad (⟨0, 0, 0⟩ : Vector4 ℚ) ⟨1, 1, 0⟩ with
    Normals := [0, 0, 1, 0, 0, 1, 0, 0, 1, 0, 0, 1] }

/-- A material with the diffuse and the normal texture bound and one uniform, built by the
setters from the empty material; textures and uniforms are numbered. -/
def sampleMaterial : Material Nat Nat :=
  ((((Material.Create : Material Nat Nat).SetTexture ⟨0, 1, 2, 4⟩ "diffuse_texture" (some 7)
    ).SetTexture ⟨0, 1, 2, 4⟩ "normal_texture" (some 9)).SetUniform "shininess" (some 3))

/-- Three vertices with `float` coordinates: two at `(0, 0, 41)` and one at
`(7 / 2 ^ 20, 7 / 2 ^ 20, 41)`, which lies within `0.95 epsilon` of them. -/
def nearTripleMesh : Mesh ℚ :=
  { Positions := [0, 0, 41, 0, 0, 41, 7 / 1048576, 7 / 1048576, 41]
    Normals := []
    Tangents := []
    UVs := []
    IDs := []
    Weights := []
    Indices := [0, 1, 2]
    SubMeshes := [] }

/-- Two vertices with `float` coordinates: `(7 / 2 ^ 20, 7 / 2 ^ 20, 41)` and
`(0, 0, 41)`, within `0.95 epsilon` of each other. -/
def nearPairMesh : Mesh ℚ :=
  { Positions := [7 / 1048576, 7 / 1048576, 41, 0, 0, 41]
    Normals := []
    Tangents := []
    UVs := []
    IDs := []
    Weights := []
    Indices := [0, 1]
    SubMeshes := [] }

/-- Two identical vertices at `(1000, 0, 0)`. -/
def farPairMesh : Mesh ℚ :=
  { Positions := [1000, 0, 0, 1000, 0, 0]
    Normals := []
    Tangents := []
    UVs := []
    IDs := []
    Weights := []
    Indices := [0, 1]
    SubMeshes := [] }

/-- Two vertices on the x axis whose distance is the `float` value of `epsilon`,
`2748779 / 2 ^ 38`. -/
def epsilonPairMesh32 : Mesh ℚ :=
  { Positions := [0, 0, 0, 2748779 / 274877906944, 0, 0]
    Normals := []
    Tangents := []
    UVs := []
    IDs := []
    Weights := []
    Indices := [0, 1]
    SubMeshes := [] }

/-- Four vertices on the x axis with `float` coordinates; vertices 1 and 3 are identical,
vertex 0 lies `2 ^ -17` (about `0.76 epsilon`) on one side of them and vertex 2 as far on the
other side. -/
def greedyMesh32 : Mesh ℚ :=
  { Positions := [1 / 131072, 0, 0, 0, 0, 0, -1 / 131072, 0, 0, 0, 0, 0]
    Normals := []
    Tangents := []
    UVs := []
    IDs := []
    Weights := []
    Indices := [0, 1, 2, 0, 2, 3]
    SubMeshes := [] }

/-- Three vertices with `float` coordinates: two at `(0, 0, 41)` with one at `(1, 0, 41)`
between them in the vertex order. -/
def duplicateMesh32 : Mesh ℚ :=
  { Positions := [0, 0, 41, 1, 0, 41, 0, 0, 41]
    Normals := []
    Tangents := []
    UVs := []
    IDs := []
    Weights := []
    Indices := [0, 1, 2]
    SubMeshes := [[2, 1, 0]] }

end fury

/-! # Properties -/

namespace fury

/-! ## The flag bit of the replacement table -/

theorem flag_clear_of_lt {m : Nat} (h : m < 2 ^ 31) : m &&& 0x80000000 = 0 := by
  apply Nat.eq_of_testBit_eq
  intro i
  have h2 : (0x80000000 : Nat) = 2 ^ 31 := by norm_num
  rw [h2, Nat.testBit_and, Nat.testBit_two_pow, Nat.zero_testBit]
  by_cases hi : 31 = i
  · subst hi
    simp [Nat.testBit_lt_two_pow h]
  · simp [hi]

theorem strip_of_lt {m : Nat} (h : m < 2 ^ 31) : m &&& 0x7fffffff = m := by
  have h2 : (0x7fffffff : Nat) = 2 ^ 31 - 1 := by norm_num
  rw [h2]
  exact Nat.and_pow_two_sub_one_of_lt_two_pow h

theorem or_flag_eq_add {m : Nat} (h : m < 2 ^ 31) : m ||| 0x80000000 = 2 ^ 31 + m := by
  have h2 : (0x80000000 : Nat) = 2 ^ 31 * 1 := by norm_num
  rw [h2, Nat.lor_comm, ← Nat.mul_add_lt_is_or h 1]
  ring

theorem strip_or_flag {m : Nat} (h : m < 2 ^ 31) : (m ||| 0x80000000) &&& 0x7fffffff = m := by
  have h2 : (0x7fffffff : Nat) = 2 ^ 31 - 1 := by norm_num
  rw [or_flag_eq_add h, h2, Nat.and_pow_two_sub_one_eq_mod, Nat.add_mod_left]
  exact Nat.mod_eq_of_lt h

theorem flag_set_or_flag (m : Nat) : (m ||| 0x80000000) &&& 0x80000000 ≠ 0 := by
  intro h0
  have h2 : (0x80000000 : Nat) = 2 ^ 31 := by norm_num
  have := congrArg (fun x => Nat.testBit x 31) h0
  simp only [h2, Nat.testBit_and, Nat.testBit_or, Nat.testBit_two_pow_self,
    Nat.zero_testBit] at this
  simp at this

/-! ## The unique-vertex loop: bounds on the replacement table -/

section WeldBounds

variable {α : Type} [LinearOrderedField α]

theorem scan_index_mem (pos : Vector4 α) (maxDist pSquared : α) (l : List (VtxEntry α)) :
    ∀ x ∈ FindNeighbors.scan pos maxDist pSquared l, ∃ e ∈ l, e.index = x := by
  induction l with
  | nil => intro x hx; simp [FindNeighbors.scan] at hx
  | cons e rest ih =>
    intro x hx
    unfold FindNeighbors.scan at hx
    split_ifs at hx with h1 h2
    · rcases List.mem_cons.mp hx with rfl | hx
      · exact ⟨e, List.mem_cons_self _ _, rfl⟩
      · obtain ⟨e', he', hx'⟩ := ih x hx
        exact ⟨e', List.mem_cons_of_mem _ he', hx'⟩
    · obtain ⟨e', he', hx'⟩ := ih x hx
      exact ⟨e', List.mem_cons_of_mem _ he', hx'⟩
    · simp at hx

theorem FindNeighbors_index_mem (dividePlane : Vector4 α) (entries : List (VtxEntry α))
    (pos : Vector4 α) (radius : α) :
    ∀ x ∈ FindNeighbors dividePlane entries pos radius, ∃ e ∈ entries, e.index = x := by
  intro x hx
  unfold FindNeighbors at hx
  simp only at hx
  split_ifs at hx with h
  · simp at hx
  · obtain ⟨e, he, hxe⟩ := scan_index_mem _ _ _ _ x hx
    exact ⟨e, List.mem_of_mem_drop he, hxe⟩

theorem findMatch_spec (f : Flags) (eps sq : α) (uniq : List (Vertex α)) (repl : List Nat)
    (vtx : Vertex α) (found : List Nat) :
    findMatch f eps sq uniq repl vtx found = 0xffffffff ∨
      ∃ c ∈ found, findMatch f eps sq uniq repl vtx found = repl.getD c 0
        ∧ repl.getD c 0 &&& 0x80000000 = 0
        ∧ attributesMatch f eps sq (uniq.getD (repl.getD c 0) default) vtx = true := by
  induction found with
  | nil => left; rfl
  | cons c rest ih =>
    unfold findMatch
    simp only
    split_ifs with h1 h2
    · rcases ih with h | ⟨c', hc', h⟩
      · exact Or.inl h
      · exact Or.inr ⟨c', List.mem_cons_of_mem _ hc', h⟩
    · exact Or.inr ⟨c, List.mem_cons_self _ _, rfl, not_not.mp h1, h2⟩
    · rcases ih with h | ⟨c', hc', h⟩
      · exact Or.inl h
      · exact Or.inr ⟨c', List.mem_cons_of_mem _ hc', h⟩

theorem WeldInv_init (n : Nat) :
    WeldInv n 0 (⟨[], List.replicate n 0xffffffff⟩ : WeldState α) where
  len := by simp
  ulen := by simp
  done := by intro j hj; omega
  clear := by intro j hj; omega
  todo := by
    intro j _ hj
    simp [List.getD_eq_getElem?_getD, List.getElem?_replicate, hj]

theorem getD_set_self {β : Type} (l : List β) (i : Nat) (v d : β) (h : i < l.length) :
    (l.set i v).getD i d = v := by
  simp [List.getD_eq_getElem?_getD, List.getElem?_set, h]

theorem getD_set_ne {β : Type} (l : List β) (i j : Nat) (v d : β) (h : i ≠ j) :
    (l.set i v).getD j d = l.getD j d := by
  simp [List.getD_eq_getElem?_getD, List.getElem?_set, h]

theorem WeldInv_step (dividePlane : Vector4 α) (entries : List (VtxEntry α)) (mesh : Mesh α)
    (f : Flags) (n k : Nat) (st : WeldState α) (hn : n ≤ 2 ^ 31) (hk : k < n)
    (hent : ∀ e ∈ entries, e.index < n) (inv : WeldInv n k st) :
    WeldInv n (k + 1) (weldStep dividePlane entries mesh f st k) := by
  have hu31 : st.uniqueVertices.length < 2 ^ 31 := by have := inv.ulen; omega
  have hklen : k < st.replaceIndices.length := by rw [inv.len]; exact hk
  unfold weldStep
  simp only
  split_ifs with hm
  · -- a resolved unique vertex was accepted
    rcases findMatch_spec f epsilon squareEpsilon st.uniqueVertices st.replaceIndices
      (CreateVertex mesh f k)
      (FindNeighbors dividePlane entries (CreateVertex mesh f k).Position epsilon)
      with h | ⟨c, hc, hval, hflag, _⟩
    · exact absurd h hm
    · obtain ⟨e, he, hec⟩ := FindNeighbors_index_mem _ _ _ _ c hc
      have hcn : c < n := hec ▸ hent e he
      have hck : c < k := by
        by_contra hge
        have := inv.todo c (by omega) hcn
        rw [this] at hflag
        exact absurd hflag (by decide)
      have hlt : st.replaceIndices.getD c 0 < st.uniqueVertices.length := inv.clear c hck hflag
      rw [hval]
      have hm31 : st.replaceIndices.getD c 0 < 2 ^ 31 := by omega
      refine ⟨by simp [inv.len], by have := inv.ulen; simp only; omega, ?_, ?_, ?_⟩
      · intro j hj
        by_cases hjk : j = k
        · subst hjk
          simp only [getD_set_self _ _ _ _ hklen, strip_or_flag hm31]
          exact hlt
        · simp only [getD_set_ne _ _ _ _ _ (Ne.symm hjk)]
          exact inv.done j (by omega)
      · intro j hj
        by_cases hjk : j = k
        · subst hjk
          simp only [getD_set_self _ _ _ _ hklen]
          intro h0
          exact absurd h0 (flag_set_or_flag _)
        · simp only [getD_set_ne _ _ _ _ _ (Ne.symm hjk)]
          exact inv.clear j (by omega)
      · intro j hj hjn
        simp only [getD_set_ne _ _ _ _ _ (show k ≠ j by omega)]
        exact inv.todo j (by omega) hjn
  · -- the vertex becomes a new unique vertex
    have hmod : st.uniqueVertices.length % 2 ^ 32 = st.uniqueVertices.length :=
      Nat.mod_eq_of_lt (by omega)
    refine ⟨by simp [inv.len], by have := inv.ulen; simp; omega, ?_, ?_, ?_⟩
    · intro j hj
      by_cases hjk : j = k
      · subst hjk
        simp only [getD_set_self _ _ _ _ hklen, hmod, strip_of_lt hu31]
        simp
      · simp only [getD_set_ne _ _ _ _ _ (Ne.symm hjk)]
        have := inv.done j (by omega)
        simp only [List.length_append, List.length_singleton]
        omega
    · intro j hj
      by_cases hjk : j = k
      · subst hjk
        simp only [getD_set_self _ _ _ _ hklen, hmod]
        intro _
        simp
      · simp only [getD_set_ne _ _ _ _ _ (Ne.symm hjk)]
        intro h0
        have := inv.clear j (by omega) h0
        simp only [List.length_append, List.length_singleton]
        omega
    · intro j hj hjn
      simp only [getD_set_ne _ _ _ _ _ (show k ≠ j by omega)]
      exact inv.todo j (by omega) hjn

theorem weldLoop_range_succ (dividePlane : Vector4 α) (entries : List (VtxEntry α))
    (mesh : Mesh α) (f : Flags) (st : WeldState α) (k : Nat) :
    weldLoop dividePlane entries mesh f st (List.range (k + 1)) =
      weldStep dividePlane entries mesh f
        (weldLoop dividePlane entries mesh f st (List.range k)) k := by
  simp [weldLoop, List.range_succ, List.foldl_append]

theorem WeldInv_loop (dividePlane : Vector4 α) (entries : List (VtxEntry α)) (mesh : Mesh α)
    (f : Flags) (n : Nat) (hn : n ≤ 2 ^ 31) (hent : ∀ e ∈ entries, e.index < n) :
    ∀ k, k ≤ n → WeldInv n k (weldLoop dividePlane entries mesh f
      ⟨[], List.replicate n 0xffffffff⟩ (List.range k)) := by
  intro k
  induction k with
  | zero => intro _; simpa [weldLoop] using WeldInv_init n
  | succ k ih =>
    intro hk
    rw [weldLoop_range_succ]
    exact WeldInv_step dividePlane entries mesh f n k _ hn (by omega) hent (ih (by omega))

theorem makeEntries_index_lt (dividePlane : Vector4 α) (mesh : Mesh α) :
    ∀ e ∈ makeEntries dividePlane mesh, e.index < mesh.vertexCount := by
  intro e he
  simp only [makeEntries, List.mem_map, List.mem_range] at he
  obtain ⟨i, hi, rfl⟩ := he
  exact hi

theorem sortEntries_perm (entries : List (VtxEntry α)) :
    (sortEntries entries).Perm entries :=
  List.perm_insertionSort _ _

theorem sortEntries_index_lt (dividePlane : Vector4 α) (mesh : Mesh α) :
    ∀ e ∈ sortEntries (makeEntries dividePlane mesh), e.index < mesh.vertexCount := by
  intro e he
  exact makeEntries_index_lt dividePlane mesh e ((sortEntries_perm _).mem_iff.mp he)

theorem finalState_inv (dividePlane : Vector4 α) (entries : List (VtxEntry α)) (mesh : Mesh α)
    (hcount : mesh.vertexCount < 2 ^ 31) (hent : ∀ e ∈ entries, e.index < mesh.vertexCount) :
    WeldInv mesh.vertexCount mesh.vertexCount (finalState dividePlane entries mesh) :=
  WeldInv_loop dividePlane entries mesh _ _ (by omega) hent _ (le_refl _)

theorem length_flatMap_three {β γ : Type} (l : List β) (a b c : β → γ) :
    (l.flatMap fun u => [a u, b u, c u]).length = 3 * l.length := by
  induction l with
  | nil => rfl
  | cons u rest ih => simp only [List.flatMap_cons, List.length_append, ih, List.length_cons,
      List.length_nil]; omega

theorem OptimizeMeshWith_vertexCount (dividePlane : Vector4 α) (entries : List (VtxEntry α))
    (mesh : Mesh α) :
    (OptimizeMeshWith dividePlane entries mesh).vertexCount =
      (finalState dividePlane entries mesh).uniqueVertices.length := by
  simp only [OptimizeMeshWith, Mesh.vertexCount, finalState, length_flatMap_three]
  omega

theorem OptimizeMeshWith_Indices (dividePlane : Vector4 α) (entries : List (VtxEntry α))
    (mesh : Mesh α) :
    (OptimizeMeshWith dividePlane entries mesh).Indices =
      mesh.Indices.map (remapIndex (finalState dividePlane entries mesh).replaceIndices) := rfl

theorem OptimizeMeshWith_SubMeshes (dividePlane : Vector4 α) (entries : List (VtxEntry α))
    (mesh : Mesh α) :
    (OptimizeMeshWith dividePlane entries mesh).SubMeshes =
      mesh.SubMeshes.map fun sub =>
        sub.map (remapIndex (finalState dividePlane entries mesh).replaceIndices) := rfl

theorem OptimizeMesh_eq_some (dividePlane : Vector4 α) (mesh : Mesh α)
    (hskin : mesh.Weights.length > 0 ↔ mesh.IDs.length > 0) :
    OptimizeMesh dividePlane mesh =
      some (OptimizeMeshWith dividePlane (sortEntries (makeEntries dividePlane mesh)) mesh) := by
  unfold OptimizeMesh
  simp only [Flags.ofMesh]
  by_cases hw : mesh.Weights.length > 0
  · have hi := hskin.mp hw
    simp [hw, hi]
  · have hi : ¬ mesh.IDs.length > 0 := fun h => hw (hskin.mpr h)
    simp [hw, hi]

end WeldBounds

/-! ## FindNeighbors: the start index and the scan -/

section Neighbors

variable {α : Type} [LinearOrderedField α]

theorem sortEntries_sorted (entries : List (VtxEntry α)) :
    EntriesSorted (sortEntries entries) :=
  List.sorted_insertionSort _ _

theorem getD_eq_getElem_of_lt {β : Type} (l : List β) (i : Nat) (d : β) (h : i < l.length) :
    l.getD i d = l[i] := by
  simp [List.getD_eq_getElem?_getD, List.getElem?_eq_getElem h]

theorem EntriesSorted.getD_le {entries : List (VtxEntry α)} (hs : EntriesSorted entries)
    {i j : Nat} (hij : i ≤ j) (hj : j < entries.length) :
    (entries.getD i default).dist ≤ (entries.getD j default).dist := by
  rw [getD_eq_getElem_of_lt _ _ _ hj, getD_eq_getElem_of_lt _ _ _ (by omega)]
  rcases Nat.lt_or_eq_of_le hij with h | h
  · exact (List.pairwise_iff_getElem.mp hs) i j (by omega) hj h
  · subst h; exact le_refl _

theorem binarySearch_lt (entries : List (VtxEntry α)) (minDist : α) (n : Nat)
    (hn : n < 2 ^ 32) :
    ∀ fuel index step, 2 * step ≤ index → index + 2 * step ≤ n → index < n →
      FindNeighbors.binarySearch entries minDist fuel index step < n := by
  intro fuel
  induction fuel with
  | zero => intro index step _ _ h; simpa [FindNeighbors.binarySearch] using h
  | succ fuel ih =>
    intro index step h1 h2 h3
    unfold FindNeighbors.binarySearch
    split_ifs with hstep hlt
    · have e : (index + step) % 2 ^ 32 = index + step := Nat.mod_eq_of_lt (by omega)
      simp only [e]
      exact ih _ _ (by omega) (by omega) (by omega)
    · have e : (index + 2 ^ 32 - step) % 2 ^ 32 = index - step := by
        have : index + 2 ^ 32 - step = (index - step) + 2 ^ 32 := by omega
        rw [this, Nat.add_mod_right]
        exact Nat.mod_eq_of_lt (by omega)
      simp only [e]
      exact ih _ _ (by omega) (by omega) (by omega)
    · exact h3

theorem stepBack_spec (entries : List (VtxEntry α)) (minDist : α) (index : Nat) :
    FindNeighbors.stepBack entries minDist index ≤ index ∧
      (FindNeighbors.stepBack entries minDist index = 0 ∨
        (entries.getD (FindNeighbors.stepBack entries minDist index) default).dist ≤ minDist) := by
  induction index with
  | zero => simp [FindNeighbors.stepBack]
  | succ index ih =>
    unfold FindNeighbors.stepBack
    split_ifs with h
    · exact ⟨by omega, ih.2⟩
    · exact ⟨le_refl _, Or.inr (not_lt.mp h)⟩

theorem stepForward_spec (entries : List (VtxEntry α)) (minDist : α) :
    ∀ fuel index, index ≤ FindNeighbors.stepForward entries minDist fuel index ∧
      (index < entries.length →
        FindNeighbors.stepForward entries minDist fuel index < entries.length) ∧
      ∀ j, index ≤ j → j < FindNeighbors.stepForward entries minDist fuel index →
        (entries.getD j default).dist < minDist := by
  intro fuel
  induction fuel with
  | zero =>
    intro index
    simp only [FindNeighbors.stepForward]
    exact ⟨le_refl _, fun h => h, fun j h1 h2 => by omega⟩
  | succ fuel ih =>
    intro index
    unfold FindNeighbors.stepForward
    split_ifs with h
    · obtain ⟨_, b, c⟩ := ih (index + 1)
      refine ⟨by omega, fun _ => b (by omega), ?_⟩
      intro j hj1 hj2
      rcases Nat.lt_or_eq_of_le hj1 with hlt | heq
      · exact c j (by omega) hj2
      · subst heq; exact h.2
    · exact ⟨le_refl _, fun h => h, fun j h1 h2 => by omega⟩

/-- The scan starts inside the array, and every entry before the start index has
`dist ≤ minDist`. -/
theorem start_spec (entries : List (VtxEntry α)) (minDist : α) (hs : EntriesSorted entries)
    (hpos : 0 < entries.length) (hlen : entries.length < 2 ^ 32) :
    FindNeighbors.start entries minDist < entries.length ∧
      ∀ j, j < FindNeighbors.start entries minDist →
        (entries.getD j default).dist ≤ minDist := by
  unfold FindNeighbors.start
  simp only [Nat.mod_eq_of_lt hlen]
  have hb := binarySearch_lt entries minDist entries.length hlen (entries.length / 4)
    (entries.length / 2) (entries.length / 4) (by omega) (by omega) (by omega)
  obtain ⟨hsb1, hsb2⟩ := stepBack_spec entries minDist
    (FindNeighbors.binarySearch entries minDist (entries.length / 4) (entries.length / 2)
      (entries.length / 4))
  obtain ⟨hf1, hf2, hf3⟩ := stepForward_spec entries minDist entries.length
    (FindNeighbors.stepBack entries minDist
      (FindNeighbors.binarySearch entries minDist (entries.length / 4) (entries.length / 2)
        (entries.length / 4)))
  refine ⟨hf2 (by omega), ?_⟩
  intro j hj
  by_cases hjs : j < FindNeighbors.stepBack entries minDist
      (FindNeighbors.binarySearch entries minDist (entries.length / 4) (entries.length / 2)
        (entries.length / 4))
  · rcases hsb2 with h0 | hle
    · omega
    · exact le_trans (hs.getD_le (le_of_lt hjs) (by omega)) hle
  · exact le_of_lt (hf3 j (by omega) hj)

theorem scan_sound (pos : Vector4 α) (maxDist pSquared : α) (l : List (VtxEntry α)) :
    ∀ x ∈ FindNeighbors.scan pos maxDist pSquared l,
      ∃ e ∈ l, e.index = x ∧ (e.position.sub pos).SquareLength < pSquared := by
  induction l with
  | nil => intro x hx; simp [FindNeighbors.scan] at hx
  | cons e rest ih =>
    intro x hx
    unfold FindNeighbors.scan at hx
    split_ifs at hx with h1 h2
    · rcases List.mem_cons.mp hx with rfl | hx
      · exact ⟨e, List.mem_cons_self _ _, rfl, h2⟩
      · obtain ⟨e', he', hx'⟩ := ih x hx
        exact ⟨e', List.mem_cons_of_mem _ he', hx'⟩
    · obtain ⟨e', he', hx'⟩ := ih x hx
      exact ⟨e', List.mem_cons_of_mem _ he', hx'⟩
    · simp at hx

theorem scan_complete (pos : Vector4 α) (maxDist pSquared : α) (l : List (VtxEntry α))
    (hs : EntriesSorted l) :
    ∀ e ∈ l, e.dist < maxDist → (e.position.sub pos).SquareLength < pSquared →
      e.index ∈ FindNeighbors.scan pos maxDist pSquared l := by
  induction l with
  | nil => intro e he; simp at he
  | cons x rest ih =>
    intro e he hd hq
    have hs' := List.pairwise_cons.mp hs
    have hx : x.dist < maxDist := by
      rcases List.mem_cons.mp he with rfl | her
      · exact hd
      · exact lt_of_le_of_lt (hs'.1 e her) hd
    unfold FindNeighbors.scan
    rw [if_pos hx]
    rcases List.mem_cons.mp he with rfl | her
    · rw [if_pos hq]; exact List.mem_cons_self _ _
    · have := ih hs'.2 e her hd hq
      split_ifs
      · exact List.mem_cons_of_mem _ this
      · exact this

/-- Every index returned by `FindNeighbors` belongs to an entry whose position is at squared
distance below `radius * radius` from the query position. -/
theorem FindNeighbors_sound (dividePlane : Vector4 α) (entries : List (VtxEntry α))
    (pos : Vector4 α) (radius : α) :
    ∀ x ∈ FindNeighbors dividePlane entries pos radius,
      ∃ e ∈ entries, e.index = x ∧ (e.position.sub pos).SquareLength < radius * radius := by
  intro x hx
  unfold FindNeighbors at hx
  simp only at hx
  split_ifs at hx with h
  · simp at hx
  · obtain ⟨e, he, hxe⟩ := scan_sound _ _ _ _ x hx
    exact ⟨e, List.mem_of_mem_drop he, hxe⟩

theorem dot_sq_le (n d : Vector4 α) :
    n.dot d * n.dot d ≤ n.SquareLength * d.SquareLength := by
  simp only [Vector4.dot, Vector4.SquareLength]
  nlinarith [sq_nonneg (n.x * d.y - n.y * d.x), sq_nonneg (n.y * d.z - n.z * d.y),
    sq_nonneg (n.z * d.x - n.x * d.z)]

theorem SquareLength_nonneg (d : Vector4 α) : 0 ≤ d.SquareLength := by
  simp only [Vector4.SquareLength]
  nlinarith [mul_self_nonneg d.x, mul_self_nonneg d.y, mul_self_nonneg d.z]

/-- A point at Euclidean distance below `radius` from the query lies strictly inside the
plane-distance window when the plane normal has length at most one. -/
theorem window_of_close (n p pos : Vector4 α) (radius : α) (hn : n.SquareLength ≤ 1)
    (hr : 0 < radius) (hclose : (p.sub pos).SquareLength < radius * radius) :
    n.dot pos - radius < n.dot p ∧ n.dot p < n.dot pos + radius := by
  have hlin : n.dot p - n.dot pos = n.dot (p.sub pos) := by
    simp only [Vector4.dot, Vector4.sub]; ring
  have h1 := dot_sq_le n (p.sub pos)
  have h2 : n.SquareLength * (p.sub pos).SquareLength ≤ (p.sub pos).SquareLength := by
    have := SquareLength_nonneg (p.sub pos)
    nlinarith
  have h3 : (n.dot p - n.dot pos) * (n.dot p - n.dot pos) < radius * radius := by
    rw [hlin]; exact lt_of_le_of_lt (le_trans h1 h2) hclose
  have h4 : |n.dot p - n.dot pos| < radius := by
    apply abs_lt_of_sq_lt_sq _ (le_of_lt hr)
    simpa [sq] using h3
  have := abs_lt.mp h4
  constructor <;> linarith [this.1, this.2]

theorem EntriesSorted.drop {entries : List (VtxEntry α)} (hs : EntriesSorted entries)
    (k : Nat) : EntriesSorted (entries.drop k) :=
  List.Pairwise.sublist (List.drop_sublist k entries) hs

/-- The plane-distance window loses no neighbour: on sorted entries keyed by
`dot dividePlane position` with a plane normal of length at most one, every entry at squared
distance below `radius * radius` from the query is returned. -/
theorem FindNeighbors_complete (dividePlane : Vector4 α) (entries : List (VtxEntry α))
    (pos : Vector4 α) (radius : α) (hs : EntriesSorted entries)
    (hkey : ∀ e ∈ entries, e.dist = dividePlane.dot e.position)
    (hn : dividePlane.SquareLength ≤ 1) (hlen : entries.length < 2 ^ 32) (hr : 0 < radius)
    (e : VtxEntry α) (he : e ∈ entries)
    (hclose : (e.position.sub pos).SquareLength < radius * radius) :
    e.index ∈ FindNeighbors dividePlane entries pos radius := by
  obtain ⟨hw1, hw2⟩ := window_of_close dividePlane e.position pos radius hn hr hclose
  rw [← hkey e he] at hw1 hw2
  obtain ⟨p, hp, hpe⟩ := List.getElem_of_mem he
  have hpos : 0 < entries.length := by omega
  have hpD : entries.getD p default = e := by rw [getD_eq_getElem_of_lt _ _ _ hp, hpe]
  unfold FindNeighbors
  simp only
  have hfront : ¬ dividePlane.dot pos + radius < (entries.head?.getD default).dist := by
    have h0 : entries.head?.getD default = entries.getD 0 default := by
      cases entries with
      | nil => simp at hpos
      | cons a l => simp
    rw [h0]
    have := hs.getD_le (Nat.zero_le p) hp
    rw [hpD] at this
    exact not_lt.mpr (le_trans this (le_of_lt hw2))
  have hback : ¬ dividePlane.dot pos - radius > (entries.getLast?.getD default).dist := by
    have h0 : entries.getLast?.getD default = entries.getD (entries.length - 1) default := by
      rw [List.getLast?_eq_getElem?]
      simp [List.getD_eq_getElem?_getD]
    rw [h0]
    have := hs.getD_le (show p ≤ entries.length - 1 by omega) (by omega)
    rw [hpD] at this
    exact not_lt.mpr (le_trans (le_of_lt hw1) this)
  rw [if_neg (by
    intro h
    rcases h with h | h | h
    · omega
    · exact hfront h
    · exact hback h)]
  obtain ⟨_, hst⟩ := start_spec entries (dividePlane.dot pos - radius) hs hpos hlen
  have hps : FindNeighbors.start entries (dividePlane.dot pos - radius) ≤ p := by
    by_contra hlt
    have := hst p (by omega)
    rw [hpD] at this
    exact absurd hw1 (not_lt.mpr this)
  apply scan_complete _ _ _ _ (hs.drop _) e _ hw2 hclose
  rw [← hpe]
  apply List.mem_iff_getElem.mpr
  refine ⟨p - FindNeighbors.start entries (dividePlane.dot pos - radius), ?_, ?_⟩
  · rw [List.length_drop]; omega
  · rw [List.getElem_drop]
    congr 1
    omega

theorem binarySearch_succ (entries : List (VtxEntry α)) (minDist : α) (fuel index step : Nat) :
    FindNeighbors.binarySearch entries minDist (fuel + 1) index step =
      if step > 1 then
        FindNeighbors.binarySearch entries minDist fuel
          (if (entries.getD index default).dist < minDist
            then (index + step) % 2 ^ 32
            else (index + 2 ^ 32 - step) % 2 ^ 32) (step / 2)
      else index := rfl

theorem stepForward_succ (entries : List (VtxEntry α)) (minDist : α) (fuel index : Nat) :
    FindNeighbors.stepForward entries minDist (fuel + 1) index =
      if index < entries.length - 1 ∧ (entries.getD index default).dist < minDist
      then FindNeighbors.stepForward entries minDist fuel (index + 1)
      else index := rfl

/-- The iteration bound of `binarySearch` is never what stops it: with at least
`binaryStepSize` iterations allowed, one more changes nothing. -/
theorem binarySearch_fuel (entries : List (VtxEntry α)) (minDist : α) :
    ∀ fuel index step, step ≤ fuel →
      FindNeighbors.binarySearch entries minDist (fuel + 1) index step
        = FindNeighbors.binarySearch entries minDist fuel index step := by
  intro fuel
  induction fuel with
  | zero =>
    intro index step h
    have : step = 0 := by omega
    subst this
    simp [FindNeighbors.binarySearch]
  | succ fuel ih =>
    intro index step h
    rw [binarySearch_succ entries minDist (fuel + 1) index step,
      binarySearch_succ entries minDist fuel index step]
    by_cases h1 : step > 1
    · rw [if_pos h1, if_pos h1]
      exact ih _ _ (by omega)
    · rw [if_neg h1, if_neg h1]

/-- The iteration bound of `stepForward` is never what stops it: with `entries.size()`
iterations allowed, one more changes nothing. -/
theorem stepForward_fuel (entries : List (VtxEntry α)) (minDist : α) :
    ∀ fuel index, entries.length ≤ fuel + index →
      FindNeighbors.stepForward entries minDist (fuel + 1) index
        = FindNeighbors.stepForward entries minDist fuel index := by
  intro fuel
  induction fuel with
  | zero =>
    intro index h
    have hc : ¬ (index < entries.length - 1 ∧ (entries.getD index default).dist < minDist) := by
      intro hh; omega
    rw [stepForward_succ, if_neg hc]
    rfl
  | succ fuel ih =>
    intro index h
    rw [stepForward_succ entries minDist (fuel + 1) index,
      stepForward_succ entries minDist fuel index]
    by_cases h1 : index < entries.length - 1 ∧ (entries.getD index default).dist < minDist
    · rw [if_pos h1, if_pos h1]
      exact ih _ (by omega)
    · rw [if_neg h1, if_neg h1]

end Neighbors

/-! ## The unique-vertex loop: which vertices stay unique -/

section WeldSemantics

variable {α : Type} [LinearOrderedField α]

theorem epsilon_pos : (0 : α) < epsilon := by
  unfold epsilon; positivity

theorem CreateVertex_Position (mesh : Mesh α) (f : Flags) (c : Nat) :
    (CreateVertex mesh f c).Position = ⟨mesh.Positions.getD (c * 3) 0,
      mesh.Positions.getD (c * 3 + 1) 0, mesh.Positions.getD (c * 3 + 2) 0⟩ := by
  unfold CreateVertex
  simp only
  split_ifs <;> rfl

theorem EntriesFor_sortEntries (dividePlane : Vector4 α) (mesh : Mesh α) (f : Flags) :
    EntriesFor dividePlane mesh f (sortEntries (makeEntries dividePlane mesh)) where
  sorted := sortEntries_sorted _
  key := by
    intro e he
    have := (sortEntries_perm _).mem_iff.mp he
    simp only [makeEntries, List.mem_map, List.mem_range] at this
    obtain ⟨i, _, rfl⟩ := this
    rfl
  idx := sortEntries_index_lt dividePlane mesh
  pos := by
    intro e he
    have := (sortEntries_perm _).mem_iff.mp he
    simp only [makeEntries, List.mem_map, List.mem_range] at this
    obtain ⟨i, _, rfl⟩ := this
    rw [CreateVertex_Position]
  all := by
    intro c hc
    refine ⟨⟨c, ⟨mesh.Positions.getD (c * 3) 0, mesh.Positions.getD (c * 3 + 1) 0,
      mesh.Positions.getD (c * 3 + 2) 0⟩, dividePlane.dot ⟨mesh.Positions.getD (c * 3) 0,
      mesh.Positions.getD (c * 3 + 1) 0, mesh.Positions.getD (c * 3 + 2) 0⟩⟩,
      (sortEntries_perm _).mem_iff.mpr ?_, rfl⟩
    simp only [makeEntries, List.mem_map, List.mem_range]
    exact ⟨c, hc, rfl⟩
  len := by
    rw [(sortEntries_perm _).length_eq]
    simp [makeEntries]

theorem findMatch_none (f : Flags) (eps sq : α) (uniq : List (Vertex α)) (repl : List Nat)
    (vtx : Vertex α) (found : List Nat)
    (h : findMatch f eps sq uniq repl vtx found = 0xffffffff) :
    ∀ c ∈ found, repl.getD c 0 &&& 0x80000000 ≠ 0 ∨
      attributesMatch f eps sq (uniq.getD (repl.getD c 0) default) vtx = false := by
  induction found with
  | nil => intro c hc; simp at hc
  | cons x rest ih =>
    unfold findMatch at h
    simp only at h
    intro c hc
    split_ifs at h with h1 h2
    · rcases List.mem_cons.mp hc with rfl | hc
      · exact Or.inl h1
      · exact ih h c hc
    · exfalso
      rw [h] at h1
      exact h1 (by decide)
    · rcases List.mem_cons.mp hc with rfl | hc
      · exact Or.inr (by simpa using h2)
      · exact ih h c hc

theorem SemInv_step (dividePlane : Vector4 α) (entries : List (VtxEntry α)) (mesh : Mesh α)
    (f : Flags) (k : Nat) (st : WeldState α) (orig : List Nat)
    (hcount : mesh.vertexCount < 2 ^ 31) (hk : k < mesh.vertexCount)
    (hn : dividePlane.SquareLength ≤ 1) (hent : EntriesFor dividePlane mesh f entries)
    (inv : WeldInv mesh.vertexCount k st) (sem : SemInv mesh f k st orig) :
    ∃ orig', SemInv mesh f (k + 1) (weldStep dividePlane entries mesh f st k) orig' := by
  have hklen : k < st.replaceIndices.length := by rw [inv.len]; exact hk
  have hlen : st.uniqueVertices.length = orig.length := by rw [sem.uniq_eq]; simp
  unfold weldStep
  simp only
  split_ifs with hm
  · refine ⟨orig, sem.uniq_eq, ?_, fun c hc => by have := sem.lt c hc; omega, sem.sep⟩
    intro u hu
    have : orig[u] < k := sem.lt _ (List.getElem_mem _)
    simp only [getD_set_ne _ _ _ _ _ (show k ≠ orig[u] by omega)]
    exact sem.repl_orig u hu
  · have hnone := findMatch_none f epsilon squareEpsilon st.uniqueVertices st.replaceIndices
      (CreateVertex mesh f k)
      (FindNeighbors dividePlane entries (CreateVertex mesh f k).Position epsilon)
      (not_not.mp hm)
    refine ⟨orig ++ [k], by simp [sem.uniq_eq], ?_, ?_, ?_⟩
    · intro u hu
      simp only [List.length_append, List.length_singleton] at hu
      by_cases hul : u < orig.length
      · have hlt : orig[u] < k := sem.lt _ (List.getElem_mem _)
        rw [List.getElem_append_left hul]
        simp only [getD_set_ne _ _ _ _ _ (show k ≠ orig[u] by omega)]
        exact sem.repl_orig u hul
      · have hu' : u = orig.length := by omega
        subst hu'
        simp only [List.getElem_append_right (le_refl _), Nat.sub_self, List.getElem_cons_zero]
        rw [getD_set_self _ _ _ _ hklen, hlen]
        exact Nat.mod_eq_of_lt (by have := inv.ulen; omega)
    · intro c hc
      rcases List.mem_append.mp hc with h | h
      · have := sem.lt c h; omega
      · simp at h; omega
    · rw [List.pairwise_append]
      refine ⟨sem.sep, List.pairwise_singleton _ _, ?_⟩
      intro a ha b hb
      simp only [List.mem_singleton] at hb
      subst hb
      unfold Sep
      by_cases hclose : ((CreateVertex mesh f a).Position.sub
          (CreateVertex mesh f b).Position).SquareLength < squareEpsilon
      · right
        obtain ⟨u, hu, hua⟩ := List.getElem_of_mem ha
        have hab : a < b := sem.lt a ha
        obtain ⟨e, he, hea⟩ := hent.all a (by omega)
        have hmem := FindNeighbors_complete dividePlane entries
          (CreateVertex mesh f b).Position epsilon hent.sorted hent.key hn
          (by rw [hent.len]; omega) epsilon_pos e he
          (by rw [hent.pos e he, hea]; exact hclose)
        rw [hea] at hmem
        have hrepl : st.replaceIndices.getD a 0 = u := by
          have := sem.repl_orig u hu
          rwa [hua] at this
        rcases hnone a hmem with h | h
        · exfalso
          apply h
          rw [hrepl]
          exact flag_clear_of_lt (by have := inv.ulen; omega)
        · rw [hrepl, sem.uniq_eq] at h
          have hget : (List.map (CreateVertex mesh f) orig).getD u default
              = CreateVertex mesh f a := by
            rw [getD_eq_getElem_of_lt _ _ _ (by simpa using hu)]
            simp [hua]
          rwa [hget] at h
      · left
        exact not_lt.mp hclose

theorem SemInv_loop (dividePlane : Vector4 α) (entries : List (VtxEntry α)) (mesh : Mesh α)
    (f : Flags) (hcount : mesh.vertexCount < 2 ^ 31) (hn : dividePlane.SquareLength ≤ 1)
    (hent : EntriesFor dividePlane mesh f entries) :
    ∀ k, k ≤ mesh.vertexCount → ∃ orig, SemInv mesh f k (weldLoop dividePlane entries mesh f
      ⟨[], List.replicate mesh.vertexCount 0xffffffff⟩ (List.range k)) orig := by
  intro k
  induction k with
  | zero =>
    intro _
    exact ⟨[], by simp [weldLoop], by intro u hu; simp at hu, by simp, List.Pairwise.nil⟩
  | succ k ih =>
    intro hk
    obtain ⟨orig, sem⟩ := ih (by omega)
    rw [weldLoop_range_succ]
    exact SemInv_step dividePlane entries mesh f k _ orig hcount (by omega) hn hent
      (WeldInv_loop dividePlane entries mesh f _ (by omega) hent.idx k (by omega)) sem

/-! ### Reading the compacted arrays back -/

theorem getD_cons_add_two {γ : Type} (d y1 y2 : γ) (t : List γ) (k : Nat) :
    (y1 :: y2 :: t).getD (k + 2) d = t.getD k d := by
  rw [show k + 2 = (k + 1) + 1 from rfl]
  simp only [List.getD_cons_succ]

theorem getD_cons_add_three {γ : Type} (d y1 y2 y3 : γ) (t : List γ) (k : Nat) :
    (y1 :: y2 :: y3 :: t).getD (k + 3) d = t.getD k d := by
  rw [show k + 3 = ((k + 1) + 1) + 1 from rfl]
  simp only [List.getD_cons_succ]

theorem getD_cons_add_four {γ : Type} (d y1 y2 y3 y4 : γ) (t : List γ) (k : Nat) :
    (y1 :: y2 :: y3 :: y4 :: t).getD (k + 4) d = t.getD k d := by
  rw [show k + 4 = (((k + 1) + 1) + 1) + 1 from rfl]
  simp only [List.getD_cons_succ]

theorem getD_flatMap_three {β γ : Type} (a b c : β → γ) (d : γ) (l : List β) :
    ∀ u (h : u < l.length),
      (l.flatMap fun x => [a x, b x, c x]).getD (u * 3) d = a l[u] ∧
      (l.flatMap fun x => [a x, b x, c x]).getD (u * 3 + 1) d = b l[u] ∧
      (l.flatMap fun x => [a x, b x, c x]).getD (u * 3 + 2) d = c l[u] := by
  induction l with
  | nil => intro u h; simp at h
  | cons x rest ih =>
    intro u h
    cases u with
    | zero => simp
    | succ u =>
      have hu : u < rest.length := by simpa using h
      obtain ⟨h1, h2, h3⟩ := ih u hu
      simp only [List.flatMap_cons, List.cons_append, List.nil_append, List.getElem_cons_succ]
      refine ⟨?_, ?_, ?_⟩
      · rw [show (u + 1) * 3 = u * 3 + 3 by ring, getD_cons_add_three]; exact h1
      · rw [show (u + 1) * 3 + 1 = (u * 3 + 1) + 3 by ring, getD_cons_add_three]; exact h2
      · rw [show (u + 1) * 3 + 2 = (u * 3 + 2) + 3 by ring, getD_cons_add_three]; exact h3

theorem getD_flatMap_two {β γ : Type} (a b : β → γ) (d : γ) (l : List β) :
    ∀ u (h : u < l.length),
      (l.flatMap fun x => [a x, b x]).getD (u * 2) d = a l[u] ∧
      (l.flatMap fun x => [a x, b x]).getD (u * 2 + 1) d = b l[u] := by
  induction l with
  | nil => intro u h; simp at h
  | cons x rest ih =>
    intro u h
    cases u with
    | zero => simp
    | succ u =>
      have hu : u < rest.length := by simpa using h
      obtain ⟨h1, h2⟩ := ih u hu
      simp only [List.flatMap_cons, List.cons_append, List.nil_append, List.getElem_cons_succ]
      refine ⟨?_, ?_⟩
      · rw [show (u + 1) * 2 = u * 2 + 2 by ring, getD_cons_add_two]; exact h1
      · rw [show (u + 1) * 2 + 1 = (u * 2 + 1) + 2 by ring, getD_cons_add_two]; exact h2

theorem getD_flatMap_four {β γ : Type} (a b c e : β → γ) (d : γ) (l : List β) :
    ∀ u (h : u < l.length),
      (l.flatMap fun x => [a x, b x, c x, e x]).getD (u * 4) d = a l[u] ∧
      (l.flatMap fun x => [a x, b x, c x, e x]).getD (u * 4 + 1) d = b l[u] ∧
      (l.flatMap fun x => [a x, b x, c x, e x]).getD (u * 4 + 2) d = c l[u] ∧
      (l.flatMap fun x => [a x, b x, c x, e x]).getD (u * 4 + 3) d = e l[u] := by
  induction l with
  | nil => intro u h; simp at h
  | cons x rest ih =>
    intro u h
    cases u with
    | zero => simp
    | succ u =>
      have hu : u < rest.length := by simpa using h
      obtain ⟨h1, h2, h3, h4⟩ := ih u hu
      simp only [List.flatMap_cons, List.cons_append, List.nil_append, List.getElem_cons_succ]
      refine ⟨?_, ?_, ?_, ?_⟩
      · rw [show (u + 1) * 4 = u * 4 + 4 by ring, getD_cons_add_four]; exact h1
      · rw [show (u + 1) * 4 + 1 = (u * 4 + 1) + 4 by ring, getD_cons_add_four]; exact h2
      · rw [show (u + 1) * 4 + 2 = (u * 4 + 2) + 4 by ring, getD_cons_add_four]; exact h3
      · rw [show (u + 1) * 4 + 3 = (u * 4 + 3) + 4 by ring, getD_cons_add_four]; exact h4

theorem CreateVertex_canonical (mesh : Mesh α) (f : Flags) (c : Nat) :
    (CreateVertex mesh f c).Canonical f := by
  obtain ⟨a, b, c', d, e⟩ := f
  unfold Vertex.Canonical CreateVertex
  cases a <;> cases b <;> cases c' <;> cases d <;>
    simp [Vertex.Empty, Vector4.Zero]

theorem CreateVertex_congr_flags (mesh : Mesh α) (f f' : Flags) (c : Nat)
    (h1 : f.hasNormal = f'.hasNormal) (h2 : f.hasTangent = f'.hasTangent)
    (h3 : f.hasUV = f'.hasUV) (h4 : f.hasWeights = f'.hasWeights) :
    CreateVertex mesh f c = CreateVertex mesh f' c := by
  obtain ⟨a, b, c', d, e⟩ := f
  obtain ⟨a', b', c'', d', e'⟩ := f'
  simp only at h1 h2 h3 h4
  subst h1 h2 h3 h4
  rfl

theorem attributesMatch_congr_flags (f f' : Flags) (eps sq : α) (a b : Vertex α)
    (h1 : f.hasNormal = f'.hasNormal) (h2 : f.hasTangent = f'.hasTangent)
    (h3 : f.hasUV = f'.hasUV) (h4 : f.hasWeights = f'.hasWeights) :
    attributesMatch f eps sq a b = attributesMatch f' eps sq a b := by
  unfold attributesMatch
  rw [h1, h2, h3, h4]

/-- Reading vertex `u` back from arrays that were compacted from the records `uniq` gives
the record `uniq[u]`. -/
theorem CreateVertex_readback (f : Flags) (uniq : List (Vertex α)) (out : Mesh α)
    (hcan : ∀ v ∈ uniq, v.Canonical f)
    (hP : out.Positions = uniq.flatMap fun u => [u.Position.x, u.Position.y, u.Position.z])
    (hN : f.hasNormal = true →
      out.Normals = uniq.flatMap fun u => [u.Normal.x, u.Normal.y, u.Normal.z])
    (hT : f.hasTangent = true →
      out.Tangents = uniq.flatMap fun u => [u.Tangent.x, u.Tangent.y, u.Tangent.z])
    (hUV : f.hasUV = true → out.UVs = uniq.flatMap fun u => [u.UV.x, u.UV.y])
    (hID : f.hasWeights = true →
      out.IDs = uniq.flatMap fun u => [u.ID0, u.ID1, u.ID2, u.ID3])
    (hW : f.hasWeights = true → out.Weights = uniq.flatMap fun u => [u.W0, u.W1, u.W2])
    (u : Nat) (hu : u < uniq.length) : CreateVertex out f u = uniq[u] := by
  obtain ⟨cN, cT, cUV, cz, cW⟩ := hcan uniq[u] (List.getElem_mem _)
  obtain ⟨p1, p2, p3⟩ := getD_flatMap_three (fun v : Vertex α => v.Position.x)
    (fun v => v.Position.y) (fun v => v.Position.z) 0 uniq u hu
  obtain ⟨n1, n2, n3⟩ := getD_flatMap_three (fun v : Vertex α => v.Normal.x)
    (fun v => v.Normal.y) (fun v => v.Normal.z) 0 uniq u hu
  obtain ⟨t1, t2, t3⟩ := getD_flatMap_three (fun v : Vertex α => v.Tangent.x)
    (fun v => v.Tangent.y) (fun v => v.Tangent.z) 0 uniq u hu
  obtain ⟨w1, w2, w3⟩ := getD_flatMap_three (fun v : Vertex α => v.W0)
    (fun v => v.W1) (fun v => v.W2) 0 uniq u hu
  obtain ⟨u1, u2⟩ := getD_flatMap_two (fun v : Vertex α => v.UV.x)
    (fun v => v.UV.y) 0 uniq u hu
  obtain ⟨i1, i2, i3, i4⟩ := getD_flatMap_four (fun v : Vertex α => v.ID0)
    (fun v => v.ID1) (fun v => v.ID2) (fun v => v.ID3) 0 uniq u hu
  obtain ⟨a, b, c', d, e⟩ := f
  simp only at cN cT cUV cW hN hT hUV hID hW
  unfold CreateVertex
  simp only [hP, p1, p2, p3]
  cases a <;> cases b <;> cases c' <;> cases d <;>
    simp only [Bool.false_eq_true, if_false, if_true, Vertex.Empty, true_implies,
      forall_const] at cN cT cUV cW hN hT hUV hID hW ⊢ <;>
    apply Vertex.ext <;>
    simp only [hN, hT, hUV, hID, hW, n1, n2, n3, t1, t2, t3, w1, w2, w3, u1, u2,
      i1, i2, i3, i4, cN, cT, cUV, cW] <;>
    first
      | rfl
      | (apply Vector4.ext <;> simp only [cz])

theorem attributesMatch_eq_false_iff (f : Flags) (a b : Vertex α) :
    attributesMatch f epsilon squareEpsilon a b = false ↔ Vertex.differs f a b := by
  unfold attributesMatch Vertex.differs
  by_cases h1 : f.hasNormal = true ∧ (a.Normal.sub b.Normal).SquareLength > squareEpsilon
  · simp [h1]
  by_cases h2 : f.hasTangent = true ∧ (a.Tangent.sub b.Tangent).SquareLength > squareEpsilon
  · simp [h2]
  by_cases h3 : f.hasUV = true ∧ (a.UV.sub b.UV).SquareLength > squareEpsilon
  · simp [h3]
  by_cases h4 : f.hasWeights = true ∧ a.HasSameWeights b epsilon = false ∧
      a.HasSameIDs b = false
  · have h4' : f.hasWeights = true ∧ (!a.HasSameWeights b epsilon) = true ∧
        (!a.HasSameIDs b) = true := by simpa using h4
    rw [if_neg h1, if_neg h2, if_neg h3, if_pos h4']
    simp only [true_iff]
    exact Or.inr (Or.inr (Or.inr h4))
  · have h4' : ¬ (f.hasWeights = true ∧ (!a.HasSameWeights b epsilon) = true ∧
        (!a.HasSameIDs b) = true) := by simpa using h4
    rw [if_neg h1, if_neg h2, if_neg h3, if_neg h4']
    simp only [Bool.true_eq_false, false_iff]
    rintro (h | h | h | h)
    · exact h1 h
    · exact h2 h
    · exact h3 h
    · exact h4 h

theorem SquareLength_sub_comm (a b : Vector4 α) :
    (a.sub b).SquareLength = (b.sub a).SquareLength := by
  simp only [Vector4.sub, Vector4.SquareLength]; ring

theorem HasSameWeights_comm (a b : Vertex α) (eps : α) :
    a.HasSameWeights b eps = b.HasSameWeights a eps := by
  unfold Vertex.HasSameWeights
  rw [abs_sub_comm a.W0, abs_sub_comm a.W1, abs_sub_comm a.W2]

theorem HasSameIDs_comm (a b : Vertex α) : a.HasSameIDs b = b.HasSameIDs a := by
  unfold Vertex.HasSameIDs
  rw [Bool.eq_iff_iff]
  simp only [Bool.and_eq_true, beq_iff_eq]
  constructor <;> rintro ⟨⟨⟨h1, h2⟩, h3⟩, h4⟩ <;> exact ⟨⟨⟨h1.symm, h2.symm⟩, h3.symm⟩, h4.symm⟩

theorem differs_symm (f : Flags) (a b : Vertex α) (h : Vertex.differs f a b) :
    Vertex.differs f b a := by
  unfold Vertex.differs at h ⊢
  rw [SquareLength_sub_comm b.Normal, SquareLength_sub_comm b.Tangent,
    SquareLength_sub_comm b.UV, HasSameWeights_comm b, HasSameIDs_comm b]
  exact h

theorem length_flatMap_two {β γ : Type} (l : List β) (a b : β → γ) :
    (l.flatMap fun u => [a u, b u]).length = 2 * l.length := by
  induction l with
  | nil => rfl
  | cons u rest ih => simp only [List.flatMap_cons, List.length_append, ih, List.length_cons,
      List.length_nil]; omega

theorem OptimizeMeshWith_arrays (dividePlane : Vector4 α) (entries : List (VtxEntry α))
    (mesh : Mesh α) :
    (OptimizeMeshWith dividePlane entries mesh).Positions =
      ((finalState dividePlane entries mesh).uniqueVertices.flatMap
        fun u => [u.Position.x, u.Position.y, u.Position.z]) ∧
    (OptimizeMeshWith dividePlane entries mesh).Normals =
      (if (Flags.ofMesh mesh).hasNormal
        then (finalState dividePlane entries mesh).uniqueVertices.flatMap
          fun u => [u.Normal.x, u.Normal.y, u.Normal.z]
        else mesh.Normals) ∧
    (OptimizeMeshWith dividePlane entries mesh).Tangents =
      (if (Flags.ofMesh mesh).hasTangent
        then (finalState dividePlane entries mesh).uniqueVertices.flatMap
          fun u => [u.Tangent.x, u.Tangent.y, u.Tangent.z]
        else mesh.Tangents) ∧
    (OptimizeMeshWith dividePlane entries mesh).UVs =
      (if (Flags.ofMesh mesh).hasUV
        then (finalState dividePlane entries mesh).uniqueVertices.flatMap
          fun u => [u.UV.x, u.UV.y]
        else mesh.UVs) ∧
    (OptimizeMeshWith dividePlane entries mesh).IDs =
      (if (Flags.ofMesh mesh).hasWeights
        then (finalState dividePlane entries mesh).uniqueVertices.flatMap
          fun u => [u.ID0, u.ID1, u.ID2, u.ID3]
        else mesh.IDs) ∧
    (OptimizeMeshWith dividePlane entries mesh).Weights =
      (if (Flags.ofMesh mesh).hasWeights
        then (finalState dividePlane entries mesh).uniqueVertices.flatMap
          fun u => [u.W0, u.W1, u.W2]
        else mesh.Weights) :=
  ⟨rfl, rfl, rfl, rfl, rfl, rfl⟩

/-- The four flags that `CreateVertex` and the attribute tests read are the same for a mesh
and for its welded result, as soon as the result has a vertex. -/
theorem Flags_OptimizeMeshWith (dividePlane : Vector4 α) (entries : List (VtxEntry α))
    (mesh : Mesh α) (hpos : 0 < (finalState dividePlane entries mesh).uniqueVertices.length) :
    (Flags.ofMesh (OptimizeMeshWith dividePlane entries mesh)).hasNormal
        = (Flags.ofMesh mesh).hasNormal ∧
    (Flags.ofMesh (OptimizeMeshWith dividePlane entries mesh)).hasTangent
        = (Flags.ofMesh mesh).hasTangent ∧
    (Flags.ofMesh (OptimizeMeshWith dividePlane entries mesh)).hasUV
        = (Flags.ofMesh mesh).hasUV ∧
    (Flags.ofMesh (OptimizeMeshWith dividePlane entries mesh)).hasWeights
        = (Flags.ofMesh mesh).hasWeights := by
  obtain ⟨_, hN, hT, hUV, _, hW⟩ := OptimizeMeshWith_arrays dividePlane entries mesh
  refine ⟨?_, ?_, ?_, ?_⟩
  · show decide (_ > 0) = decide (_ > 0)
    rw [hN]
    by_cases h : mesh.Normals.length > 0
    · simp only [Flags.ofMesh, h, decide_True, if_true, length_flatMap_three,
        decide_eq_true_eq]
      omega
    · simp [Flags.ofMesh, h]
  · show decide (_ > 0) = decide (_ > 0)
    rw [hT]
    by_cases h : mesh.Tangents.length > 0
    · simp only [Flags.ofMesh, h, decide_True, if_true, length_flatMap_three,
        decide_eq_true_eq]
      omega
    · simp [Flags.ofMesh, h]
  · show decide (_ > 0) = decide (_ > 0)
    rw [hUV]
    by_cases h : mesh.UVs.length > 0
    · simp only [Flags.ofMesh, h, decide_True, if_true, length_flatMap_two,
        decide_eq_true_eq]
      omega
    · simp [Flags.ofMesh, h]
  · show decide (_ > 0) = decide (_ > 0)
    rw [hW]
    by_cases h : mesh.Weights.length > 0
    · simp only [Flags.ofMesh, h, decide_True, if_true, length_flatMap_three,
        decide_eq_true_eq]
      omega
    · simp [Flags.ofMesh, h]

/-- Every vertex read back from the welded mesh is the record of the unique vertex with
that index. -/
theorem vertexAt_OptimizeMeshWith (dividePlane : Vector4 α) (entries : List (VtxEntry α))
    (mesh : Mesh α) (orig : List Nat)
    (huniq : (finalState dividePlane entries mesh).uniqueVertices
      = orig.map (CreateVertex mesh (Flags.ofMesh mesh)))
    (u : Nat) (hu : u < orig.length) :
    vertexAt (OptimizeMeshWith dividePlane entries mesh) u
      = CreateVertex mesh (Flags.ofMesh mesh) orig[u] := by
  have hlen : (finalState dividePlane entries mesh).uniqueVertices.length = orig.length := by
    rw [huniq]; simp
  obtain ⟨f1, f2, f3, f4⟩ := Flags_OptimizeMeshWith dividePlane entries mesh (by omega)
  obtain ⟨hP, hN, hT, hUV, hID, hW⟩ := OptimizeMeshWith_arrays dividePlane entries mesh
  unfold vertexAt
  rw [CreateVertex_congr_flags _ _ (Flags.ofMesh mesh) u f1 f2 f3 f4]
  rw [CreateVertex_readback (Flags.ofMesh mesh)
    (finalState dividePlane entries mesh).uniqueVertices _ ?_ hP
    (fun h => by rw [hN, if_pos h]) (fun h => by rw [hT, if_pos h])
    (fun h => by rw [hUV, if_pos h]) (fun h => by rw [hID, if_pos h])
    (fun h => by rw [hW, if_pos h]) u (by omega)]
  · simp [huniq]
  · intro v hv
    rw [huniq] at hv
    obtain ⟨c, _, rfl⟩ := List.mem_map.mp hv
    exact CreateVertex_canonical mesh _ c

theorem finalState_sem (dividePlane : Vector4 α) (mesh : Mesh α)
    (hcount : mesh.vertexCount < 2 ^ 31) (hn : dividePlane.SquareLength ≤ 1) :
    ∃ orig, SemInv mesh (Flags.ofMesh mesh) mesh.vertexCount
      (finalState dividePlane (sortEntries (makeEntries dividePlane mesh)) mesh) orig :=
  SemInv_loop dividePlane _ mesh _ hcount hn (EntriesFor_sortEntries dividePlane mesh _)
    mesh.vertexCount (le_refl _)

theorem Sep_vertexAt (dividePlane : Vector4 α) (entries : List (VtxEntry α)) (mesh : Mesh α)
    (orig : List Nat)
    (huniq : (finalState dividePlane entries mesh).uniqueVertices
      = orig.map (CreateVertex mesh (Flags.ofMesh mesh)))
    (u v : Nat) (hu : u < orig.length) (hv : v < orig.length)
    (hsep : Sep mesh (Flags.ofMesh mesh) orig[u] orig[v]) :
    squareEpsilon ≤ ((vertexAt (OptimizeMeshWith dividePlane entries mesh) u).Position.sub
        (vertexAt (OptimizeMeshWith dividePlane entries mesh) v).Position).SquareLength ∨
      (vertexAt (OptimizeMeshWith dividePlane entries mesh) u).differs
        (Flags.ofMesh (OptimizeMeshWith dividePlane entries mesh))
        (vertexAt (OptimizeMeshWith dividePlane entries mesh) v) := by
  have hlen : (finalState dividePlane entries mesh).uniqueVertices.length = orig.length := by
    rw [huniq]; simp
  obtain ⟨f1, f2, f3, f4⟩ := Flags_OptimizeMeshWith dividePlane entries mesh (by omega)
  rw [vertexAt_OptimizeMeshWith dividePlane entries mesh orig huniq u hu,
    vertexAt_OptimizeMeshWith dividePlane entries mesh orig huniq v hv]
  rcases hsep with h | h
  · exact Or.inl h
  · right
    rw [← attributesMatch_eq_false_iff,
      attributesMatch_congr_flags _ (Flags.ofMesh mesh) _ _ _ _ f1 f2 f3 f4]
    exact h

/-! ### The state of the loop at different times -/

theorem stateAt_succ (dividePlane : Vector4 α) (entries : List (VtxEntry α)) (mesh : Mesh α)
    (k : Nat) :
    stateAt dividePlane entries mesh (k + 1) =
      weldStep dividePlane entries mesh (Flags.ofMesh mesh)
        (stateAt dividePlane entries mesh k) k :=
  weldLoop_range_succ _ _ _ _ _ _

theorem stateAt_succ_repl (dividePlane : Vector4 α) (entries : List (VtxEntry α))
    (mesh : Mesh α) (k : Nat) :
    (stateAt dividePlane entries mesh (k + 1)).replaceIndices =
      (stateAt dividePlane entries mesh k).replaceIndices.set k
        (if matchAt dividePlane entries mesh k ≠ 0xffffffff
          then matchAt dividePlane entries mesh k ||| 0x80000000
          else (stateAt dividePlane entries mesh k).uniqueVertices.length % 2 ^ 32) := by
  rw [stateAt_succ]
  unfold weldStep matchAt
  simp only
  split_ifs <;> rfl

theorem stateAt_succ_uniq (dividePlane : Vector4 α) (entries : List (VtxEntry α))
    (mesh : Mesh α) (k : Nat) :
    (stateAt dividePlane entries mesh (k + 1)).uniqueVertices =
      if matchAt dividePlane entries mesh k ≠ 0xffffffff
        then (stateAt dividePlane entries mesh k).uniqueVertices
        else (stateAt dividePlane entries mesh k).uniqueVertices
          ++ [CreateVertex mesh (Flags.ofMesh mesh) k] := by
  rw [stateAt_succ]
  unfold weldStep matchAt
  simp only
  split_ifs <;> rfl

theorem stateAt_repl_stable (dividePlane : Vector4 α) (entries : List (VtxEntry α))
    (mesh : Mesh α) (c k : Nat) (hc : c < k) :
    ∀ k', k ≤ k' → (stateAt dividePlane entries mesh k').replaceIndices.getD c 0
      = (stateAt dividePlane entries mesh k).replaceIndices.getD c 0 := by
  intro k' hk
  induction k' with
  | zero => have : k = 0 := by omega
            subst this; rfl
  | succ k' ih =>
    rcases Nat.lt_or_eq_of_le hk with h | h
    · rw [stateAt_succ_repl, getD_set_ne _ _ _ _ _ (show k' ≠ c by omega)]
      exact ih (by omega)
    · subst h; rfl

theorem stateAt_uniq_stable (dividePlane : Vector4 α) (entries : List (VtxEntry α))
    (mesh : Mesh α) (k u : Nat)
    (hu : u < (stateAt dividePlane entries mesh k).uniqueVertices.length) :
    ∀ k', k ≤ k' →
      u < (stateAt dividePlane entries mesh k').uniqueVertices.length ∧
      (stateAt dividePlane entries mesh k').uniqueVertices.getD u default
        = (stateAt dividePlane entries mesh k).uniqueVertices.getD u default := by
  intro k' hk
  induction k' with
  | zero => have : k = 0 := by omega
            subst this; exact ⟨hu, rfl⟩
  | succ k' ih =>
    rcases Nat.lt_or_eq_of_le hk with h | h
    · obtain ⟨h1, h2⟩ := ih (by omega)
      rw [stateAt_succ_uniq]
      split_ifs
      · exact ⟨h1, h2⟩
      · refine ⟨by simp only [List.length_append, List.length_singleton]; omega, ?_⟩
        rw [← h2]
        simp only [List.getD_eq_getElem?_getD, List.getElem?_append_left h1]
    · subst h; exact ⟨hu, rfl⟩

theorem stateAt_inv (dividePlane : Vector4 α) (entries : List (VtxEntry α)) (mesh : Mesh α)
    (hcount : mesh.vertexCount < 2 ^ 31) (hent : ∀ e ∈ entries, e.index < mesh.vertexCount)
    (k : Nat) (hk : k ≤ mesh.vertexCount) :
    WeldInv mesh.vertexCount k (stateAt dividePlane entries mesh k) :=
  WeldInv_loop dividePlane entries mesh _ _ (by omega) hent k hk

theorem findMatch_congr (f : Flags) (eps sq : α) (uniq uniq' : List (Vertex α))
    (repl repl' : List Nat) (vtx : Vertex α) (found : List Nat)
    (h : ∀ c ∈ found,
      (repl.getD c 0 &&& 0x80000000 ≠ 0 ∧ repl'.getD c 0 &&& 0x80000000 ≠ 0) ∨
      (repl'.getD c 0 = repl.getD c 0 ∧
        (repl.getD c 0 &&& 0x80000000 = 0 →
          uniq'.getD (repl.getD c 0) default = uniq.getD (repl.getD c 0) default))) :
    findMatch f eps sq uniq' repl' vtx found = findMatch f eps sq uniq repl vtx found := by
  induction found with
  | nil => rfl
  | cons c rest ih =>
    have hrest := ih (fun c' hc' => h c' (List.mem_cons_of_mem _ hc'))
    unfold findMatch
    simp only
    rcases h c (List.mem_cons_self _ _) with ⟨hf, hf'⟩ | ⟨h1, h2⟩
    · rw [if_pos hf, if_pos hf']; exact hrest
    · rw [h1]
      by_cases hf : repl.getD c 0 &&& 0x80000000 ≠ 0
      · rw [if_pos hf, if_pos hf]; exact hrest
      · rw [if_neg hf, if_neg hf, h2 (not_not.mp hf), hrest]

/-- The inner loop returns `x` when some candidate is accepted with value `x` and every
candidate is either skipped, rejected, or holds the value `x`. -/
theorem findMatch_eq_of_accept (f : Flags) (eps sq : α) (uniq : List (Vertex α))
    (repl : List Nat) (vtx : Vertex α) (x : Nat) (found : List Nat)
    (hmem : ∃ c ∈ found, repl.getD c 0 = x ∧ x &&& 0x80000000 = 0 ∧
      attributesMatch f eps sq (uniq.getD x default) vtx = true)
    (hall : ∀ c ∈ found, repl.getD c 0 &&& 0x80000000 ≠ 0 ∨
      attributesMatch f eps sq (uniq.getD (repl.getD c 0) default) vtx = false ∨
      repl.getD c 0 = x) :
    findMatch f eps sq uniq repl vtx found = x := by
  induction found with
  | nil => obtain ⟨c, hc, _⟩ := hmem; simp at hc
  | cons c rest ih =>
    unfold findMatch
    simp only
    obtain ⟨c0, hc0, hx, hflag, hacc⟩ := hmem
    have hrest : c0 ≠ c → findMatch f eps sq uniq repl vtx rest = x := by
      intro hne
      refine ih ⟨c0, ?_, hx, hflag, hacc⟩ (fun c' hc' => hall c' (List.mem_cons_of_mem _ hc'))
      rcases List.mem_cons.mp hc0 with h | h
      · exact absurd h hne
      · exact h
    by_cases hcc : c0 = c
    · subst hcc
      rw [hx, if_neg (not_not.mpr hflag), if_pos hacc]
    · split_ifs with h1 h2
      · exact hrest hcc
      · rcases hall c (List.mem_cons_self _ _) with h | h | h
        · exact absurd h h1
        · rw [h] at h2; exact absurd h2 (by simp)
        · exact h
      · exact hrest hcc

theorem attributesMatch_self (f : Flags) (v : Vertex α) :
    attributesMatch f epsilon squareEpsilon v v = true := by
  have hsq : (0 : α) ≤ squareEpsilon := by
    unfold squareEpsilon; exact mul_nonneg (le_of_lt epsilon_pos) (le_of_lt epsilon_pos)
  have hz : ∀ a : Vector4 α, ¬ (a.sub a).SquareLength > squareEpsilon := by
    intro a
    simp only [Vector4.sub, Vector4.SquareLength, sub_self, mul_zero, add_zero]
    exact not_lt.mpr hsq
  have hw : v.HasSameWeights v epsilon = true := by
    unfold Vertex.HasSameWeights
    simp only [sub_self, abs_zero]
    have : ¬ ((0 : α) > epsilon) := not_lt.mpr (le_of_lt epsilon_pos)
    simp [this]
  unfold attributesMatch
  simp [hz, hw]

/-- Two identical vertices with no vertex of intermediate index within `epsilon` of them
receive the same entry of the replacement table, up to the flag bit. -/
theorem remapIndex_duplicate (dividePlane : Vector4 α) (entries : List (VtxEntry α))
    (mesh : Mesh α) (hn : dividePlane.SquareLength ≤ 1) (hcount : mesh.vertexCount < 2 ^ 31)
    (hent : EntriesFor dividePlane mesh (Flags.ofMesh mesh) entries)
    (i j : Nat) (hij : i < j) (hj : j < mesh.vertexCount)
    (heq : CreateVertex mesh (Flags.ofMesh mesh) i = CreateVertex mesh (Flags.ofMesh mesh) j)
    (hgap : ∀ k, i < k → k < j → squareEpsilon ≤
      ((CreateVertex mesh (Flags.ofMesh mesh) k).Position.sub
        (CreateVertex mesh (Flags.ofMesh mesh) i).Position).SquareLength) :
    remapIndex (finalState dividePlane entries mesh).replaceIndices i =
      remapIndex (finalState dividePlane entries mesh).replaceIndices j := by
  have inv_i := stateAt_inv dividePlane entries mesh hcount hent.idx i (by omega)
  have inv_j := stateAt_inv dividePlane entries mesh hcount hent.idx j (by omega)
  have hu31 : (stateAt dividePlane entries mesh i).uniqueVertices.length < 2 ^ 31 := by
    have := inv_i.ulen; omega
  -- the final table entries of `i` and `j` are those written when they were processed
  have hfi : (finalState dividePlane entries mesh).replaceIndices.getD i 0 =
      (stateAt dividePlane entries mesh (i + 1)).replaceIndices.getD i 0 :=
    stateAt_repl_stable dividePlane entries mesh i (i + 1) (by omega) _ (by omega)
  have hfj : (finalState dividePlane entries mesh).replaceIndices.getD j 0 =
      (stateAt dividePlane entries mesh (j + 1)).replaceIndices.getD j 0 :=
    stateAt_repl_stable dividePlane entries mesh j (j + 1) (by omega) _ (by omega)
  have hji : (stateAt dividePlane entries mesh j).replaceIndices.getD i 0 =
      (stateAt dividePlane entries mesh (i + 1)).replaceIndices.getD i 0 :=
    stateAt_repl_stable dividePlane entries mesh i (i + 1) (by omega) _ (by omega)
  have hli : i < (stateAt dividePlane entries mesh i).replaceIndices.length := by
    rw [inv_i.len]; omega
  have hlj : j < (stateAt dividePlane entries mesh j).replaceIndices.length := by
    rw [inv_j.len]; omega
  rw [stateAt_succ_repl, getD_set_self _ _ _ _ hli] at hfi hji
  rw [stateAt_succ_repl, getD_set_self _ _ _ _ hlj] at hfj
  -- candidates other than `i` look the same at both times
  have hother : ∀ c ∈ FindNeighbors dividePlane entries
      (CreateVertex mesh (Flags.ofMesh mesh) i).Position epsilon, c ≠ i →
      (stateAt dividePlane entries mesh j).replaceIndices.getD c 0
        = (stateAt dividePlane entries mesh i).replaceIndices.getD c 0 ∧
      ((stateAt dividePlane entries mesh i).replaceIndices.getD c 0 &&& 0x80000000 = 0 →
        (stateAt dividePlane entries mesh j).uniqueVertices.getD
          ((stateAt dividePlane entries mesh i).replaceIndices.getD c 0) default
        = (stateAt dividePlane entries mesh i).uniqueVertices.getD
          ((stateAt dividePlane entries mesh i).replaceIndices.getD c 0) default) := by
    intro c hc hci
    obtain ⟨e, he, hec, hclose⟩ := FindNeighbors_sound _ _ _ _ c hc
    have hcn : c < mesh.vertexCount := hec ▸ hent.idx e he
    rw [hent.pos e he, hec] at hclose
    have hcases : c < i ∨ j ≤ c := by
      by_contra hcon
      have := hgap c (by omega) (by omega)
      exact absurd hclose (not_lt.mpr this)
    constructor
    · rcases hcases with h | h
      · exact stateAt_repl_stable dividePlane entries mesh c i h j (by omega)
      · rw [inv_j.todo c h hcn, inv_i.todo c (by omega) hcn]
    · intro hflag
      have hci' : c < i := by
        by_contra hge
        rw [inv_i.todo c (by omega) hcn] at hflag
        exact absurd hflag (by decide)
      exact (stateAt_uniq_stable dividePlane entries mesh i _ (inv_i.clear c hci' hflag)
        j (by omega)).2
  have hmj : matchAt dividePlane entries mesh j =
      findMatch (Flags.ofMesh mesh) epsilon squareEpsilon
        (stateAt dividePlane entries mesh j).uniqueVertices
        (stateAt dividePlane entries mesh j).replaceIndices
        (CreateVertex mesh (Flags.ofMesh mesh) i)
        (FindNeighbors dividePlane entries
          (CreateVertex mesh (Flags.ofMesh mesh) i).Position epsilon) := by
    unfold matchAt; rw [heq]
  by_cases hm : matchAt dividePlane entries mesh i ≠ 0xffffffff
  · -- `i` was replaced: `j` finds the same unique vertex
    rw [if_pos hm] at hfi hji
    have hsame : matchAt dividePlane entries mesh j = matchAt dividePlane entries mesh i := by
      rw [hmj]
      unfold matchAt
      apply findMatch_congr
      intro c hc
      by_cases hci : c = i
      · left
        subst hci
        rw [inv_i.todo c (le_refl _) (by omega), hji]
        exact ⟨by decide, flag_set_or_flag _⟩
      · exact Or.inr (hother c hc hci)
    rw [hsame, if_pos hm] at hfj
    unfold remapIndex
    rw [hfi, hfj]
  · -- `i` became a unique vertex: `j` is replaced by it
    have hm' : matchAt dividePlane entries mesh i = 0xffffffff := not_not.mp hm
    rw [if_neg hm, Nat.mod_eq_of_lt (by omega)] at hfi hji
    have huniq := stateAt_succ_uniq dividePlane entries mesh i
    rw [if_neg hm] at huniq
    have hget : (stateAt dividePlane entries mesh j).uniqueVertices.getD
        (stateAt dividePlane entries mesh i).uniqueVertices.length default
        = CreateVertex mesh (Flags.ofMesh mesh) i := by
      have h1 : (stateAt dividePlane entries mesh i).uniqueVertices.length
          < (stateAt dividePlane entries mesh (i + 1)).uniqueVertices.length := by
        rw [huniq]; simp
      rw [(stateAt_uniq_stable dividePlane entries mesh (i + 1) _ h1 j (by omega)).2, huniq]
      simp [List.getD_eq_getElem?_getD]
    have hnone := findMatch_none _ _ _ _ _ _ _ hm'
    have hsame : matchAt dividePlane entries mesh j
        = (stateAt dividePlane entries mesh i).uniqueVertices.length := by
      rw [hmj]
      apply findMatch_eq_of_accept
      · obtain ⟨e, he, hei⟩ := hent.all i (by omega)
        have hmem := FindNeighbors_complete dividePlane entries
          (CreateVertex mesh (Flags.ofMesh mesh) i).Position epsilon hent.sorted hent.key hn
          (by rw [hent.len]; omega) epsilon_pos e he (by
            rw [hent.pos e he, hei]
            simp only [Vector4.sub, Vector4.SquareLength, sub_self, mul_zero, add_zero]
            exact mul_pos epsilon_pos epsilon_pos)
        rw [hei] at hmem
        exact ⟨i, hmem, hji, flag_clear_of_lt hu31, by rw [hget]; exact attributesMatch_self _ _⟩
      · intro c hc
        by_cases hci : c = i
        · subst hci; exact Or.inr (Or.inr hji)
        · obtain ⟨h1, h2⟩ := hother c hc hci
          rcases hnone c hc with h | h
          · left; rw [h1]; exact h
          · by_cases hflag : (stateAt dividePlane entries mesh i).replaceIndices.getD c 0
                &&& 0x80000000 = 0
            · right; left
              rw [h1, h2 hflag]; exact h
            · left; rw [h1]; exact hflag
    have hne : (stateAt dividePlane entries mesh i).uniqueVertices.length ≠ 0xffffffff := by
      omega
    rw [hsame, if_pos hne] at hfj
    unfold remapIndex
    rw [hfi, hfj, strip_or_flag hu31, strip_of_lt hu31]

/-! ### Meshes the welder leaves alone -/

theorem findMatch_all_skip (f : Flags) (eps sq : α) (uniq : List (Vertex α))
    (repl : List Nat) (vtx : Vertex α) (found : List Nat)
    (h : ∀ c ∈ found, repl.getD c 0 &&& 0x80000000 ≠ 0 ∨
      attributesMatch f eps sq (uniq.getD (repl.getD c 0) default) vtx = false) :
    findMatch f eps sq uniq repl vtx found = 0xffffffff := by
  induction found with
  | nil => rfl
  | cons c rest ih =>
    have hrest := ih (fun c' hc' => h c' (List.mem_cons_of_mem _ hc'))
    unfold findMatch
    simp only
    rcases h c (List.mem_cons_self _ _) with h1 | h1
    · rw [if_pos h1]; exact hrest
    · split_ifs with h2 h3
      · exact hrest
      · rw [h1] at h3; exact absurd h3 (by simp)
      · exact hrest

/-- When every two vertices of a mesh are kept apart (squared distance at least
`squareEpsilon`, or rejected by the attribute test), the unique-vertex loop makes every
vertex its own unique vertex. -/
theorem stateAt_of_apart (dividePlane : Vector4 α) (entries : List (VtxEntry α))
    (mesh : Mesh α) (hcount : mesh.vertexCount < 2 ^ 31)
    (hidx : ∀ e ∈ entries, e.index < mesh.vertexCount)
    (hpos : ∀ e ∈ entries, e.position = (vertexAt mesh e.index).Position)
    (hapart : ∀ u v, u < v → v < mesh.vertexCount →
      squareEpsilon ≤ ((vertexAt mesh u).Position.sub (vertexAt mesh v).Position).SquareLength ∨
      attributesMatch (Flags.ofMesh mesh) epsilon squareEpsilon (vertexAt mesh u)
        (vertexAt mesh v) = false) :
    ∀ k, k ≤ mesh.vertexCount →
      (stateAt dividePlane entries mesh k).uniqueVertices = (List.range k).map (vertexAt mesh) ∧
      ∀ c, c < k → (stateAt dividePlane entries mesh k).replaceIndices.getD c 0 = c := by
  intro k
  induction k with
  | zero =>
    intro _
    exact ⟨by simp [stateAt, weldLoop], fun c hc => by omega⟩
  | succ k ih =>
    intro hk
    obtain ⟨hu, hr⟩ := ih (by omega)
    have inv := stateAt_inv dividePlane entries mesh hcount hidx k (by omega)
    have hlen : (stateAt dividePlane entries mesh k).uniqueVertices.length = k := by
      rw [hu]; simp
    have hnone : matchAt dividePlane entries mesh k = 0xffffffff := by
      unfold matchAt
      apply findMatch_all_skip
      intro c hc
      obtain ⟨e, he, hec, hclose⟩ := FindNeighbors_sound _ _ _ _ c hc
      have hcn : c < mesh.vertexCount := hec ▸ hidx e he
      rw [hpos e he, hec] at hclose
      by_cases hck : c < k
      · right
        rw [hr c hck, hu]
        have hget : (List.map (vertexAt mesh) (List.range k)).getD c default
            = vertexAt mesh c := by
          rw [getD_eq_getElem_of_lt _ _ _ (by simpa using hck)]
          simp
        rw [hget]
        rcases hapart c k hck (by omega) with h | h
        · exact absurd hclose (not_lt.mpr h)
        · exact h
      · left
        rw [inv.todo c (by omega) hcn]
        decide
    have hklen : k < (stateAt dividePlane entries mesh k).replaceIndices.length := by
      rw [inv.len]; omega
    constructor
    · rw [stateAt_succ_uniq, if_neg (not_not.mpr hnone), hu]
      simp [List.range_succ, vertexAt]
    · intro c hc
      rw [stateAt_succ_repl, if_neg (not_not.mpr hnone)]
      by_cases hck : c = k
      · subst hck
        rw [getD_set_self _ _ _ _ hklen, hlen]
        exact Nat.mod_eq_of_lt (by omega)
      · rw [getD_set_ne _ _ _ _ _ (Ne.symm hck)]
        exact hr c (by omega)

theorem makeEntries_position (dividePlane : Vector4 α) (mesh : Mesh α) :
    ∀ e ∈ sortEntries (makeEntries dividePlane mesh),
      e.position = (vertexAt mesh e.index).Position :=
  (EntriesFor_sortEntries dividePlane mesh (Flags.ofMesh mesh)).pos

theorem map_remapIndex_id (repl : List Nat) (l : List Nat) (n : Nat) (hn : n < 2 ^ 31)
    (hrepl : ∀ c, c < n → repl.getD c 0 = c) (hl : ∀ i ∈ l, i < n) :
    l.map (remapIndex repl) = l := by
  induction l with
  | nil => rfl
  | cons i rest ih =>
    have hi := hl i (List.mem_cons_self _ _)
    rw [List.map_cons, ih (fun x hx => hl x (List.mem_cons_of_mem _ hx))]
    unfold remapIndex
    rw [hrepl i hi, strip_of_lt (by omega)]

theorem compacted_array_fixed {γ : Type} (X Xout F : List γ) (b b' : Bool)
    (hb : b = decide (X.length > 0)) (hb' : b' = decide (Xout.length > 0))
    (hout : Xout = if b = true then F else X) :
    (if b' = true then F else Xout) = Xout := by
  cases b' with
  | false => simp
  | true =>
    cases b with
    | true => simpa using hout.symm
    | false =>
      exfalso
      simp only [Bool.false_eq_true, if_false] at hout
      have h1 : ¬ X.length > 0 := by simpa using hb.symm
      have h2 : Xout.length > 0 := by simpa using hb'.symm
      rw [hout] at h2
      exact h1 h2

/-- Running the welder on its own result changes nothing. -/
theorem OptimizeMeshWith_fixed (dividePlane : Vector4 α) (mesh : Mesh α)
    (hn : dividePlane.SquareLength ≤ 1)
    (hcount : mesh.vertexCount < 2 ^ 31)
    (hidx : ∀ i ∈ mesh.Indices, i < mesh.vertexCount)
    (hsub : ∀ sub ∈ mesh.SubMeshes, ∀ i ∈ sub, i < mesh.vertexCount)
    (out : Mesh α)
    (hout : out = OptimizeMeshWith dividePlane (sortEntries (makeEntries dividePlane mesh)) mesh) :
    OptimizeMeshWith dividePlane (sortEntries (makeEntries dividePlane out)) out = out := by
  obtain ⟨orig, sem⟩ := finalState_sem dividePlane mesh hcount hn
  have inv := finalState_inv dividePlane _ mesh hcount (sortEntries_index_lt dividePlane mesh)
  have hlen : (finalState dividePlane (sortEntries (makeEntries dividePlane mesh))
      mesh).uniqueVertices.length = orig.length := by rw [sem.uniq_eq]; simp
  have hvc : out.vertexCount = orig.length := by
    rw [hout, OptimizeMeshWith_vertexCount, hlen]
  have hcount' : out.vertexCount < 2 ^ 31 := by
    have := inv.ulen; omega
  -- the vertices of the result are kept apart
  have hapart : ∀ u v, u < v → v < out.vertexCount →
      squareEpsilon ≤ ((vertexAt out u).Position.sub (vertexAt out v).Position).SquareLength ∨
      attributesMatch (Flags.ofMesh out) epsilon squareEpsilon (vertexAt out u)
        (vertexAt out v) = false := by
    intro u v huv hv
    rw [hvc] at hv
    rw [attributesMatch_eq_false_iff, hout]
    exact Sep_vertexAt dividePlane _ mesh orig sem.uniq_eq u v (by omega) hv
      ((List.pairwise_iff_getElem.mp sem.sep) u v (by omega) hv huv)
  obtain ⟨hu2, hr2⟩ := stateAt_of_apart dividePlane
    (sortEntries (makeEntries dividePlane out)) out hcount'
    (sortEntries_index_lt dividePlane out) (makeEntries_position dividePlane out) hapart
    out.vertexCount (le_refl _)
  -- the second pass finds the same unique vertices
  have huniq : (finalState dividePlane (sortEntries (makeEntries dividePlane out))
      out).uniqueVertices = (finalState dividePlane (sortEntries (makeEntries dividePlane mesh))
      mesh).uniqueVertices := by
    show (stateAt dividePlane _ out out.vertexCount).uniqueVertices = _
    rw [hu2, sem.uniq_eq]
    apply List.ext_getElem
    · simp [hvc]
    · intro u h1 h2
      have hu : u < orig.length := by simpa using h2
      simp only [List.getElem_map, List.getElem_range]
      rw [hout]
      exact vertexAt_OptimizeMeshWith dividePlane _ mesh orig sem.uniq_eq u hu
  obtain ⟨aP, aN, aT, aUV, aID, aW⟩ := OptimizeMeshWith_arrays dividePlane
    (sortEntries (makeEntries dividePlane out)) out
  obtain ⟨bP, bN, bT, bUV, bID, bW⟩ := OptimizeMeshWith_arrays dividePlane
    (sortEntries (makeEntries dividePlane mesh)) mesh
  rw [← hout] at bP bN bT bUV bID bW
  rw [huniq] at aP aN aT aUV aID aW
  apply Mesh.ext
  · rw [aP, bP]
  · rw [aN]; exact compacted_array_fixed mesh.Normals _ _ _ _ rfl rfl bN
  · rw [aT]; exact compacted_array_fixed mesh.Tangents _ _ _ _ rfl rfl bT
  · rw [aUV]; exact compacted_array_fixed mesh.UVs _ _ _ _ rfl rfl bUV
  · rw [aID]
    by_cases h' : (Flags.ofMesh out).hasWeights = true
    · rw [if_pos h']
      by_cases h : (Flags.ofMesh mesh).hasWeights = true
      · rw [bID, if_pos h]
      · exfalso
        rw [if_neg h] at bW
        have h1 : ¬ mesh.Weights.length > 0 := by simpa [Flags.ofMesh] using h
        have h2 : out.Weights.length > 0 := by simpa [Flags.ofMesh] using h'
        rw [bW] at h2
        exact h1 h2
    · rw [if_neg h']
  · rw [aW]; exact compacted_array_fixed mesh.Weights _ _ _ _ rfl rfl bW
  · rw [OptimizeMeshWith_Indices]
    apply map_remapIndex_id _ _ out.vertexCount hcount' hr2
    intro i hi
    rw [hout, OptimizeMeshWith_Indices] at hi
    rw [hout, OptimizeMeshWith_vertexCount]
    obtain ⟨j, hj, rfl⟩ := List.mem_map.mp hi
    exact inv.done j (hidx j hj)
  · rw [OptimizeMeshWith_SubMeshes]
    have hfix : ∀ sub ∈ out.SubMeshes,
        sub.map (remapIndex (finalState dividePlane
          (sortEntries (makeEntries dividePlane out)) out).replaceIndices) = sub := by
      intro sub hs
      apply map_remapIndex_id _ _ out.vertexCount hcount' hr2
      intro i hi
      rw [hout, OptimizeMeshWith_SubMeshes] at hs
      rw [hout, OptimizeMeshWith_vertexCount]
      obtain ⟨sub0, hs0, rfl⟩ := List.mem_map.mp hs
      obtain ⟨j, hj, rfl⟩ := List.mem_map.mp hi
      exact inv.done j (hsub sub0 hs0 j hj)
    conv_rhs => rw [← List.map_id out.SubMeshes]
    exact List.map_congr_left hfix

theorem OptimizeMeshWith_skin (dividePlane : Vector4 α) (entries : List (VtxEntry α))
    (mesh : Mesh α) (hskin : mesh.Weights.length > 0 ↔ mesh.IDs.length > 0) :
    (OptimizeMeshWith dividePlane entries mesh).Weights.length > 0 ↔
      (OptimizeMeshWith dividePlane entries mesh).IDs.length > 0 := by
  obtain ⟨_, _, _, _, hID, hW⟩ := OptimizeMeshWith_arrays dividePlane entries mesh
  rw [hID, hW]
  by_cases h : (Flags.ofMesh mesh).hasWeights = true
  · rw [if_pos h, if_pos h, length_flatMap_three]
    have h4 : ∀ l : List (Vertex α),
        (l.flatMap fun u => [u.ID0, u.ID1, u.ID2, u.ID3]).length = 4 * l.length := by
      intro l
      induction l with
      | nil => rfl
      | cons u rest ih => simp only [List.flatMap_cons, List.length_append, ih,
          List.length_cons, List.length_nil]; omega
    rw [h4]
    omega
  · rw [if_neg h, if_neg h]
    exact hskin

end WeldSemantics

/-! ## Claims on OptimizeMesh -/

section WeldClaims

variable {α : Type} [LinearOrderedField α]

/-- C1: for every mesh whose indices and submesh indices are below the vertex count (and
whose skin arrays are both present or both absent, with fewer than `2 ^ 31` vertices),
`OptimizeMesh` returns a mesh in which every index and every submesh index is below the
new vertex count. -/
theorem OptimizeMesh_indices_lt_vertexCount (dividePlane : Vector4 α) (mesh : Mesh α)
    (hcount : mesh.vertexCount < 2 ^ 31)
    (hskin : mesh.Weights.length > 0 ↔ mesh.IDs.length > 0)
    (hidx : ∀ i ∈ mesh.Indices, i < mesh.vertexCount)
    (hsub : ∀ sub ∈ mesh.SubMeshes, ∀ i ∈ sub, i < mesh.vertexCount) :
    ∃ out, OptimizeMesh dividePlane mesh = some out ∧
      (∀ i ∈ out.Indices, i < out.vertexCount) ∧
      ∀ sub ∈ out.SubMeshes, ∀ i ∈ sub, i < out.vertexCount := by
  refine ⟨_, OptimizeMesh_eq_some dividePlane mesh hskin, ?_, ?_⟩
  · intro i hi
    rw [OptimizeMeshWith_Indices] at hi
    rw [OptimizeMeshWith_vertexCount]
    obtain ⟨j, hj, rfl⟩ := List.mem_map.mp hi
    exact (finalState_inv dividePlane _ mesh hcount
      (sortEntries_index_lt dividePlane mesh)).done j (hidx j hj)
  · intro sub hs i hi
    rw [OptimizeMeshWith_SubMeshes] at hs
    rw [OptimizeMeshWith_vertexCount]
    obtain ⟨sub0, hs0, rfl⟩ := List.mem_map.mp hs
    obtain ⟨j, hj, rfl⟩ := List.mem_map.mp hi
    exact (finalState_inv dividePlane _ mesh hcount
      (sortEntries_index_lt dividePlane mesh)).done j (hsub sub0 hs0 j hj)

theorem OptimizeMesh_indices_lt_vertexCount_witness :
    ∃ out, OptimizeMesh samplePlane sampleMesh = some out ∧
      (∀ i ∈ out.Indices, i < out.vertexCount) ∧
      ∀ sub ∈ out.SubMeshes, ∀ i ∈ sub, i < out.vertexCount :=
  OptimizeMesh_indices_lt_vertexCount samplePlane sampleMesh (by decide) (by decide)
    (by decide) (by decide)

/-- C5: `OptimizeMesh` never increases the vertex count: for every mesh with fewer than
`2 ^ 31` vertices whose skin arrays are both present or both absent, the call returns a
mesh whose vertex count is at most the vertex count before the call. -/
theorem OptimizeMesh_vertexCount_le (dividePlane : Vector4 α) (mesh : Mesh α)
    (hcount : mesh.vertexCount < 2 ^ 31)
    (hskin : mesh.Weights.length > 0 ↔ mesh.IDs.length > 0) :
    ∃ out, OptimizeMesh dividePlane mesh = some out ∧ out.vertexCount ≤ mesh.vertexCount := by
  refine ⟨_, OptimizeMesh_eq_some dividePlane mesh hskin, ?_⟩
  rw [OptimizeMeshWith_vertexCount]
  exact (finalState_inv dividePlane _ mesh hcount (sortEntries_index_lt dividePlane mesh)).ulen

theorem OptimizeMesh_vertexCount_le_witness :
    ∃ out, OptimizeMesh samplePlane sampleMesh = some out ∧
      out.vertexCount ≤ sampleMesh.vertexCount :=
  OptimizeMesh_vertexCount_le samplePlane sampleMesh (by decide) (by decide)

end WeldClaims

/-! ## CreateIcoSphere: the midpoint cache -/

section IcoCache

variable {α : Type} [LinearOrderedField α]

theorem key_eq (p1 p2 : Nat) : IcoSphere.key p1 p2 = min p1 p2 * 2 ^ 32 + max p1 p2 := by
  unfold IcoSphere.key
  simp only [Nat.shiftLeft_eq]
  by_cases h : p1 < p2
  · simp [h, Nat.min_eq_left (le_of_lt h), Nat.max_eq_right (le_of_lt h)]
  · have h' : p2 ≤ p1 := not_lt.mp h
    simp [h, Nat.min_eq_right h', Nat.max_eq_left h']

theorem key_comm (p1 p2 : Nat) : IcoSphere.key p1 p2 = IcoSphere.key p2 p1 := by
  rw [key_eq, key_eq, Nat.min_comm, Nat.max_comm]

/-- The cache key determines the unordered pair of indices, for 32-bit indices. -/
theorem key_inj {p1 p2 q1 q2 : Nat} (hp1 : p1 < 2 ^ 32) (hp2 : p2 < 2 ^ 32)
    (hq1 : q1 < 2 ^ 32) (hq2 : q2 < 2 ^ 32)
    (h : IcoSphere.key p1 p2 = IcoSphere.key q1 q2) :
    (p1 = q1 ∧ p2 = q2) ∨ (p1 = q2 ∧ p2 = q1) := by
  rw [key_eq, key_eq] at h
  omega

theorem GetMidPoint_hit (sqrt : α → α) (radius : α) (st : IcoState α) (p1 p2 i : Nat)
    (h : st.middlePointIndexCache.lookup (IcoSphere.key p1 p2) = some i) :
    IcoSphere.GetMidPoint sqrt radius st p1 p2 = (st, i) := by
  unfold IcoSphere.GetMidPoint
  simp only [h]

theorem GetMidPoint_miss (sqrt : α → α) (radius : α) (st : IcoState α) (p1 p2 : Nat)
    (h : st.middlePointIndexCache.lookup (IcoSphere.key p1 p2) = none) :
    IcoSphere.GetMidPoint sqrt radius st p1 p2 =
      (⟨st.Positions ++ midCoordinates sqrt radius st p1 p2,
        (IcoSphere.key p1 p2, st.index) :: st.middlePointIndexCache, st.index + 1⟩,
        st.index) := by
  unfold IcoSphere.GetMidPoint
  simp only [h, midCoordinates, IcoSphere.AddVertex, List.drop_left]

theorem midCoordinates_length (sqrt : α → α) (radius : α) (st : IcoState α) (p1 p2 : Nat) :
    (midCoordinates sqrt radius st p1 p2).length = 3 := by
  simp [midCoordinates, IcoSphere.AddVertex]

/-! ### Association-list facts -/

theorem lookup_mem {l : List (Nat × Nat)} {k i : Nat} (h : l.lookup k = some i) :
    (k, i) ∈ l := by
  induction l with
  | nil => simp at h
  | cons p rest ih =>
    obtain ⟨k', i'⟩ := p
    rw [List.lookup_cons] at h
    by_cases hk : k == k'
    · simp only [hk] at h
      have hk' : k = k' := by simpa using hk
      have hi : i' = i := by simpa using h
      subst hk' hi
      exact List.mem_cons_self _ _
    · simp only [hk] at h
      exact List.mem_cons_of_mem _ (ih h)

theorem lookup_isSome_iff {l : List (Nat × Nat)} {k : Nat} :
    (∃ i, l.lookup k = some i) ↔ k ∈ l.map Prod.fst := by
  induction l with
  | nil => simp
  | cons p rest ih =>
    obtain ⟨k', i'⟩ := p
    simp only [List.lookup_cons, List.map_cons, List.mem_cons]
    by_cases hk : k == k'
    · have hk' : k = k' := by simpa using hk
      simp [hk, hk']
    · have hk' : k ≠ k' := by simpa using hk
      simp only [hk, hk', false_or]
      exact ih

theorem lookup_eq_none_iff' {l : List (Nat × Nat)} {k : Nat} :
    l.lookup k = none ↔ k ∉ l.map Prod.fst := by
  rw [← lookup_isSome_iff]
  cases h : l.lookup k <;> simp

theorem lookup_of_mem {l : List (Nat × Nat)} (hn : (l.map Prod.fst).Nodup) {k i : Nat}
    (h : (k, i) ∈ l) : l.lookup k = some i := by
  induction l with
  | nil => simp at h
  | cons p rest ih =>
    obtain ⟨k', i'⟩ := p
    simp only [List.map_cons, List.nodup_cons] at hn
    rw [List.lookup_cons]
    rcases List.mem_cons.mp h with hh | hr
    · have h1 : k = k' := congrArg Prod.fst hh
      have h2 : i = i' := congrArg Prod.snd hh
      subst h1 h2
      simp
    · have hk : k ≠ k' := by
        intro hkk
        exact hn.1 (List.mem_map.mpr ⟨(k, i), hr, hkk⟩)
      have hk' : (k == k') = false := by simpa using hk
      simp only [hk']
      exact ih hn.2 hr

/-! ### State invariant and the effect of a run of `GetMidPoint` calls -/

theorem PassRel.refl (st : IcoState α) : PassRel st st [] where
  stable := fun _ _ h => h
  found := by intro e he; simp at he
  fresh := fun p hp => Or.inl hp
  mono := le_refl _
  positions := ⟨[], by simp⟩
  inv := fun h => h

theorem PassRel.trans {st st' st'' : IcoState α} {E E' : List (Nat × Nat)}
    (h1 : PassRel st st' E) (h2 : PassRel st' st'' E') : PassRel st st'' (E ++ E') where
  stable := fun k i h => h2.stable k i (h1.stable k i h)
  found := by
    intro e he
    rcases List.mem_append.mp he with h | h
    · obtain ⟨i, hi⟩ := h1.found e h
      exact ⟨i, h2.stable _ _ hi⟩
    · exact h2.found e h
  fresh := by
    intro p hp
    rcases h2.fresh p hp with h | ⟨hge, e, he, hk⟩
    · rcases h1.fresh p h with h' | ⟨hge, e, he, hk⟩
      · exact Or.inl h'
      · exact Or.inr ⟨hge, e, List.mem_append_left _ he, hk⟩
    · exact Or.inr ⟨le_trans h1.mono hge, e, List.mem_append_right _ he, hk⟩
  mono := le_trans h1.mono h2.mono
  positions := by
    obtain ⟨x, hx⟩ := h1.positions
    obtain ⟨y, hy⟩ := h2.positions
    exact ⟨x ++ y, by rw [hy, hx, List.append_assoc]⟩
  inv := fun h => h2.inv (h1.inv h)

/-- One call of `GetMidPoint`: the returned vertex is the one the cache holds afterwards. -/
theorem GetMidPoint_rel (sqrt : α → α) (radius : α) (st : IcoState α) (p1 p2 : Nat) :
    PassRel st (IcoSphere.GetMidPoint sqrt radius st p1 p2).1 [(p1, p2)] ∧
      (IcoSphere.GetMidPoint sqrt radius st p1 p2).1.middlePointIndexCache.lookup
        (IcoSphere.key p1 p2) = some (IcoSphere.GetMidPoint sqrt radius st p1 p2).2 := by
  cases h : st.middlePointIndexCache.lookup (IcoSphere.key p1 p2) with
  | some i =>
    rw [GetMidPoint_hit sqrt radius st p1 p2 i h]
    refine ⟨⟨fun _ _ h => h, ?_, fun p hp => Or.inl hp, le_refl _, ⟨[], by simp⟩, fun h => h⟩, h⟩
    intro e he
    simp only [List.mem_singleton] at he
    subst he
    exact ⟨i, h⟩
  | none =>
    rw [GetMidPoint_miss sqrt radius st p1 p2 h]
    have hnot := lookup_eq_none_iff'.mp h
    refine ⟨⟨?_, ?_, ?_, by simp, ⟨_, rfl⟩, ?_⟩, by simp⟩
    · intro k i hk
      simp only [List.lookup_cons]
      have hne : k ≠ IcoSphere.key p1 p2 := by
        rintro rfl
        rw [h] at hk
        exact absurd hk (by simp)
      have : (k == IcoSphere.key p1 p2) = false := by simpa using hne
      simp only [this]
      exact hk
    · intro e he
      simp only [List.mem_singleton] at he
      subst he
      exact ⟨st.index, by simp⟩
    · intro p hp
      rcases List.mem_cons.mp hp with hp | hp
      · right
        subst hp
        exact ⟨le_refl _, (p1, p2), List.mem_singleton_self _, rfl⟩
      · exact Or.inl hp
    · intro inv
      refine ⟨?_, ?_, ?_, ?_, ?_⟩
      · simp only [List.map_cons, List.nodup_cons]
        exact ⟨hnot, inv.keys⟩
      · simp only [List.map_cons, List.nodup_cons]
        refine ⟨?_, inv.vals⟩
        intro hmem
        obtain ⟨p, hp, hp2⟩ := List.mem_map.mp hmem
        have := inv.bound p hp
        omega
      · intro p hp
        rcases List.mem_cons.mp hp with hp | hp
        · subst hp; simp
        · have := inv.bound p hp
          simp only
          omega
      · simp only [List.length_cons]
        have := inv.idx
        omega
      · simp only [List.length_append, midCoordinates_length]
        have := inv.plen
        omega

/-- One refinement pass: the state afterwards holds a midpoint for every edge of every
triangle, and the emitted indices are those of the four-way split by these midpoints. -/
theorem refine_spec (sqrt : α → α) (radius : α) :
    ∀ (indices : List Nat) (st : IcoState α) (newIndices : List Nat),
      PassRel st (IcoSphere.refine sqrt radius st indices newIndices).1
        ((triples indices).flatMap dedges) ∧
      (IcoSphere.refine sqrt radius st indices newIndices).2 = newIndices ++
        (triples indices).flatMap
          (subdivIndices (midOf (IcoSphere.refine sqrt radius st indices newIndices).1))
  | i1 :: i2 :: i3 :: rest, st, newIndices => by
    obtain ⟨ra, la⟩ := GetMidPoint_rel sqrt radius st i1 i2
    obtain ⟨rb, lb⟩ := GetMidPoint_rel sqrt radius
      (IcoSphere.GetMidPoint sqrt radius st i1 i2).1 i2 i3
    obtain ⟨rc, lc⟩ := GetMidPoint_rel sqrt radius
      (IcoSphere.GetMidPoint sqrt radius
        (IcoSphere.GetMidPoint sqrt radius st i1 i2).1 i2 i3).1 i3 i1
    rw [IcoSphere.refine]
    obtain ⟨rrest, hout⟩ := refine_spec sqrt radius rest
      (IcoSphere.GetMidPoint sqrt radius
        (IcoSphere.GetMidPoint sqrt radius
          (IcoSphere.GetMidPoint sqrt radius st i1 i2).1 i2 i3).1 i3 i1).1
      (newIndices ++ [i1, (IcoSphere.GetMidPoint sqrt radius st i1 i2).2,
        (IcoSphere.GetMidPoint sqrt radius
          (IcoSphere.GetMidPoint sqrt radius
            (IcoSphere.GetMidPoint sqrt radius st i1 i2).1 i2 i3).1 i3 i1).2,
        i2, (IcoSphere.GetMidPoint sqrt radius
          (IcoSphere.GetMidPoint sqrt radius st i1 i2).1 i2 i3).2,
        (IcoSphere.GetMidPoint sqrt radius st i1 i2).2,
        i3, (IcoSphere.GetMidPoint sqrt radius
          (IcoSphere.GetMidPoint sqrt radius
            (IcoSphere.GetMidPoint sqrt radius st i1 i2).1 i2 i3).1 i3 i1).2,
        (IcoSphere.GetMidPoint sqrt radius
          (IcoSphere.GetMidPoint sqrt radius st i1 i2).1 i2 i3).2,
        (IcoSphere.GetMidPoint sqrt radius st i1 i2).2,
        (IcoSphere.GetMidPoint sqrt radius
          (IcoSphere.GetMidPoint sqrt radius st i1 i2).1 i2 i3).2,
        (IcoSphere.GetMidPoint sqrt radius
          (IcoSphere.GetMidPoint sqrt radius
            (IcoSphere.GetMidPoint sqrt radius st i1 i2).1 i2 i3).1 i3 i1).2])
    constructor
    · have := (ra.trans rb).trans (rc.trans rrest)
      simpa [triples, dedges] using this
    · rw [hout]
      have ha := rrest.stable _ _ (rc.stable _ _ (rb.stable _ _ la))
      have hb := rrest.stable _ _ (rc.stable _ _ lb)
      have hc := rrest.stable _ _ lc
      simp only [triples, List.flatMap_cons, subdivIndices, midOf, ha, hb, hc,
        Option.getD_some, List.append_assoc]
  | [], st, newIndices => by
    simp only [IcoSphere.refine, triples, List.flatMap_nil, List.append_nil, and_true]
    exact PassRel.refl st
  | [_], st, newIndices => by
    simp only [IcoSphere.refine, triples, List.flatMap_nil, List.append_nil, and_true]
    exact PassRel.refl st
  | [_, _], st, newIndices => by
    simp only [IcoSphere.refine, triples, List.flatMap_nil, List.append_nil, and_true]
    exact PassRel.refl st

theorem triples_subdivIndices (m : Nat → Nat → Nat) (T : List (Nat × Nat × Nat)) :
    triples (T.flatMap (subdivIndices m)) = T.flatMap (subdivTriangles m) := by
  induction T with
  | nil => rfl
  | cons t rest ih =>
    rw [List.flatMap_cons, List.flatMap_cons]
    show triples (_ :: _ :: _ :: _ :: _ :: _ :: _ :: _ :: _ :: _ :: _ :: _ ::
      rest.flatMap (subdivIndices m)) = _
    simp only [triples, ih, subdivTriangles, List.cons_append, List.nil_append]

/-! ### Closed oriented triangulations and their four-way split -/

theorem corners_rot {T : List (Nat × Nat × Nat)} {r : Nat × Nat × Nat} (h : r ∈ corners T) :
    (r.2.1, r.2.2, r.1) ∈ corners T := by
  simp only [corners, List.mem_flatMap] at h ⊢
  obtain ⟨t, ht, hr⟩ := h
  refine ⟨t, ht, ?_⟩
  simp only [rot, List.mem_cons, List.mem_singleton, List.not_mem_nil, or_false] at hr ⊢
  rcases hr with rfl | rfl | rfl <;> simp

theorem mem_allEdges_iff {T : List (Nat × Nat × Nat)} {e : Nat × Nat} :
    e ∈ allEdges T ↔ ∃ w, (e.1, e.2, w) ∈ corners T := by
  simp only [allEdges, corners, List.mem_flatMap]
  constructor
  · rintro ⟨t, ht, he⟩
    simp only [dedges, List.mem_cons, List.mem_singleton, List.not_mem_nil, or_false] at he
    rcases he with rfl | rfl | rfl
    · exact ⟨t.2.2, t, ht, by simp [rot]⟩
    · exact ⟨t.1, t, ht, by simp [rot]⟩
    · exact ⟨t.2.1, t, ht, by simp [rot]⟩
  · rintro ⟨w, t, ht, hr⟩
    refine ⟨t, ht, ?_⟩
    simp only [rot, List.mem_cons, List.mem_singleton, List.not_mem_nil, or_false,
      Prod.mk.injEq] at hr
    simp only [dedges, List.mem_cons, List.mem_singleton, List.not_mem_nil, or_false]
    rcases hr with ⟨h1, h2, _⟩ | ⟨h1, h2, _⟩ | ⟨h1, h2, _⟩
    · left; exact Prod.ext h1 h2
    · right; left; exact Prod.ext h1 h2
    · right; right; exact Prod.ext h1 h2

theorem edge_of_corner {T : List (Nat × Nat × Nat)} {r : Nat × Nat × Nat}
    (h : r ∈ corners T) : (r.1, r.2.1) ∈ allEdges T :=
  mem_allEdges_iff.mpr ⟨r.2.2, h⟩

/-- Everything the split needs to know about one rotation `(u, v, w)`. -/
theorem corner_facts {T : List (Nat × Nat × Nat)} {V V' : Nat} {m : Nat → Nat → Nat}
    (hM : Manifold T V) (hm : MidOK m T V V') {r : Nat × Nat × Nat} (h : r ∈ corners T) :
    r.1 < V ∧ r.2.1 < V ∧ r.2.2 < V ∧ r.1 ≠ r.2.1 ∧ r.2.1 ≠ r.2.2 ∧ r.2.2 ≠ r.1 ∧
    V ≤ m r.1 r.2.1 ∧ V ≤ m r.2.1 r.2.2 ∧ V ≤ m r.2.2 r.1 ∧
    m r.1 r.2.1 < V' ∧ m r.2.1 r.2.2 < V' ∧ m r.2.2 r.1 < V' := by
  have h2 := corners_rot h
  have h3 := corners_rot h2
  have f1 := hm.fresh _ (edge_of_corner h)
  have f2 := hm.fresh _ (edge_of_corner h2)
  have f3 := hm.fresh _ (edge_of_corner h3)
  exact ⟨hM.lt _ h, hM.lt _ h2, hM.lt _ h3, hM.ne _ h, hM.ne _ h2, hM.ne _ h3,
    f1.1, f2.1, f3.1, f1.2, f2.2, f3.2⟩

/-- Injectivity of the midpoint function between an edge of rotation `r` and an edge of
rotation `s`. -/
theorem corner_inj {T : List (Nat × Nat × Nat)} {V V' : Nat} {m : Nat → Nat → Nat}
    (hm : MidOK m T V V') {r s : Nat × Nat × Nat} (hr : r ∈ corners T) (hs : s ∈ corners T) :
    m r.1 r.2.1 = m s.1 s.2.1 → (r.1 = s.1 ∧ r.2.1 = s.2.1) ∨ (r.1 = s.2.1 ∧ r.2.1 = s.1) :=
  hm.inj _ (edge_of_corner hr) _ (edge_of_corner hs)

/-- The directed edge determines the rotation. -/
theorem corner_unique {T : List (Nat × Nat × Nat)} {V : Nat} (hM : Manifold T V)
    {r s : Nat × Nat × Nat} (hr : r ∈ corners T) (hs : s ∈ corners T)
    (h1 : r.1 = s.1) (h2 : r.2.1 = s.2.1) : r.2.2 = s.2.2 := by
  have hnd := List.nodup_flatMap.mp hM.nodup
  simp only [corners, List.mem_flatMap] at hr hs
  obtain ⟨t, ht, hrt⟩ := hr
  obtain ⟨t', ht', hst⟩ := hs
  have htt : t = t' := by
    by_contra hne
    have hdis := hnd.2.forall (fun a b h => h.symm) ht ht' hne
    have e1 : (r.1, r.2.1) ∈ dedges t := by
      simp only [rot, List.mem_cons, List.mem_singleton, List.not_mem_nil, or_false] at hrt
      rcases hrt with rfl | rfl | rfl <;> simp [dedges]
    have e2 : (r.1, r.2.1) ∈ dedges t' := by
      rw [h1, h2]
      simp only [rot, List.mem_cons, List.mem_singleton, List.not_mem_nil, or_false] at hst
      rcases hst with rfl | rfl | rfl <;> simp [dedges]
    exact hdis e1 e2
  subst htt
  have hd := hnd.1 t ht
  obtain ⟨i, j, k⟩ := t
  obtain ⟨u, v, w⟩ := r
  obtain ⟨u', v', w'⟩ := s
  simp only [dedges, List.nodup_cons, List.mem_cons, List.mem_singleton, Prod.mk.injEq,
    List.not_mem_nil, or_false, not_or, not_and, List.nodup_nil, and_true] at hd
  simp only [rot, List.mem_cons, List.mem_singleton, Prod.mk.injEq, List.not_mem_nil,
    or_false] at hrt hst
  simp only at h1 h2 ⊢
  omega

theorem split_rot_iff (m : Nat → Nat → Nat) (t x : Nat × Nat × Nat) :
    x ∈ (subdivTriangles m t).flatMap rot ↔ ∃ r ∈ rot t, x ∈ splitCorners m r := by
  simp only [subdivTriangles, rot, splitCorners, List.flatMap_cons, List.flatMap_nil,
    List.append_nil, List.mem_append, List.mem_cons, List.mem_singleton, List.not_mem_nil,
    or_false, exists_eq_or_imp, exists_eq_left]
  tauto

theorem split_dedges_iff (m : Nat → Nat → Nat) (t : Nat × Nat × Nat) (e : Nat × Nat) :
    e ∈ (subdivTriangles m t).flatMap dedges ↔ ∃ r ∈ rot t, e ∈ splitEdges m r := by
  simp only [subdivTriangles, rot, splitEdges, dedges, List.flatMap_cons, List.flatMap_nil,
    List.append_nil, List.mem_append, List.mem_cons, List.mem_singleton, List.not_mem_nil,
    or_false, exists_eq_or_imp, exists_eq_left]
  tauto

theorem mem_corners_split {m : Nat → Nat → Nat} {T : List (Nat × Nat × Nat)}
    {x : Nat × Nat × Nat} :
    x ∈ corners (T.flatMap (subdivTriangles m)) ↔ ∃ r ∈ corners T, x ∈ splitCorners m r := by
  simp only [corners, List.flatMap_assoc, List.mem_flatMap]
  constructor
  · rintro ⟨t, ht, hx⟩
    obtain ⟨r, hr, hxr⟩ := (split_rot_iff m t x).mp (List.mem_flatMap.mpr hx)
    exact ⟨r, ⟨t, ht, hr⟩, hxr⟩
  · rintro ⟨r, ⟨t, ht, hr⟩, hxr⟩
    exact ⟨t, ht, List.mem_flatMap.mp ((split_rot_iff m t x).mpr ⟨r, hr, hxr⟩)⟩

theorem mem_allEdges_split {m : Nat → Nat → Nat} {T : List (Nat × Nat × Nat)}
    {e : Nat × Nat} :
    e ∈ allEdges (T.flatMap (subdivTriangles m)) ↔ ∃ r ∈ corners T, e ∈ splitEdges m r := by
  simp only [allEdges, corners, List.flatMap_assoc, List.mem_flatMap]
  constructor
  · rintro ⟨t, ht, hx⟩
    obtain ⟨r, hr, hxr⟩ := (split_dedges_iff m t e).mp (List.mem_flatMap.mpr hx)
    exact ⟨r, ⟨t, ht, hr⟩, hxr⟩
  · rintro ⟨r, ⟨t, ht, hr⟩, hxr⟩
    exact ⟨t, ht, List.mem_flatMap.mp ((split_dedges_iff m t e).mpr ⟨r, hr, hxr⟩)⟩

/-- The relations between two rotations of a triangulation that the case analyses on split
triangles use: injectivity of the midpoint function, absence of two triangles with the same
vertices in opposite orientation, and uniqueness of the rotation of a directed edge. -/
theorem pair_facts {T : List (Nat × Nat × Nat)} {V V' : Nat} {m : Nat → Nat → Nat}
    (hM : Manifold T V) (hm : MidOK m T V V') {u v w u' v' w' : Nat}
    (hr : (u, v, w) ∈ corners T) (hs : (u', v', w') ∈ corners T) :
    ((m u v = m u' v' → (u = u' ∧ v = v') ∨ (u = v' ∧ v = u')) ∧
     (m u v = m v' w' → (u = v' ∧ v = w') ∨ (u = w' ∧ v = v')) ∧
     (m u v = m w' u' → (u = w' ∧ v = u') ∨ (u = u' ∧ v = w')) ∧
     (m v w = m u' v' → (v = u' ∧ w = v') ∨ (v = v' ∧ w = u')) ∧
     (m v w = m v' w' → (v = v' ∧ w = w') ∨ (v = w' ∧ w = v')) ∧
     (m v w = m w' u' → (v = w' ∧ w = u') ∨ (v = u' ∧ w = w')) ∧
     (m w u = m u' v' → (w = u' ∧ u = v') ∨ (w = v' ∧ u = u')) ∧
     (m w u = m v' w' → (w = v' ∧ u = w') ∨ (w = w' ∧ u = v')) ∧
     (m w u = m w' u' → (w = w' ∧ u = u') ∨ (w = u' ∧ u = w'))) ∧
    (¬ (u' = v ∧ v' = u ∧ w' = w) ∧ ¬ (u' = u ∧ v' = w ∧ w' = v) ∧
      ¬ (u' = w ∧ v' = v ∧ w' = u)) ∧
    ((u = u' → v = v' → w = w') ∧ (u = v' → v = w' → w = u') ∧
      (u = w' → v = u' → w = v')) := by
  have hr2 := corners_rot hr
  have hr3 := corners_rot hr2
  have hs2 := corners_rot hs
  have hs3 := corners_rot hs2
  refine ⟨⟨corner_inj hm hr hs, corner_inj hm hr hs2, corner_inj hm hr hs3,
    corner_inj hm hr2 hs, corner_inj hm hr2 hs2, corner_inj hm hr2 hs3,
    corner_inj hm hr3 hs, corner_inj hm hr3 hs2, corner_inj hm hr3 hs3⟩, ⟨?_, ?_, ?_⟩,
    ⟨fun h1 h2 => corner_unique hM hr hs h1 h2, fun h1 h2 => corner_unique hM hr hs2 h1 h2,
      fun h1 h2 => corner_unique hM hr hs3 h1 h2⟩⟩
  · rintro ⟨rfl, rfl, rfl⟩
    exact hM.nopillow _ hr hs
  · rintro ⟨rfl, rfl, rfl⟩
    exact hM.nopillow _ hr3 hs
  · rintro ⟨rfl, rfl, rfl⟩
    exact hM.nopillow _ hr2 hs

/-- Split edges coming from two different directed edges are different. -/
theorem splitEdges_disjoint {T : List (Nat × Nat × Nat)} {V V' : Nat} {m : Nat → Nat → Nat}
    (hM : Manifold T V) (hm : MidOK m T V V') {r s : Nat × Nat × Nat}
    (hr : r ∈ corners T) (hs : s ∈ corners T) (hne : ¬ (r.1 = s.1 ∧ r.2.1 = s.2.1))
    {e : Nat × Nat} (he : e ∈ splitEdges m r) (he' : e ∈ splitEdges m s) : False := by
  obtain ⟨u, v, w⟩ := r
  obtain ⟨u', v', w'⟩ := s
  obtain ⟨x, y⟩ := e
  have fr := corner_facts hM hm hr
  have fs := corner_facts hM hm hs
  have pf := pair_facts hM hm hr hs
  simp only [splitEdges, List.mem_cons, List.mem_singleton, List.not_mem_nil, or_false,
    Prod.mk.injEq] at he he' fr fs hne
  have i1 := pf.1.1
  have p1 := pf.2.1.1
  rcases he with ⟨rfl, rfl⟩ | ⟨rfl, rfl⟩ | ⟨rfl, rfl⟩ | ⟨rfl, rfl⟩ <;>
    rcases he' with ⟨h1, h2⟩ | ⟨h1, h2⟩ | ⟨h1, h2⟩ | ⟨h1, h2⟩ <;>
    first
      | (clear pf i1 p1; omega)
      | (clear pf; omega)
      | (have i5 := pf.1.2.2.2.2.1; clear pf; omega)
      | (have i6 := pf.1.2.2.2.2.2.1; clear pf; omega)
      | (have i8 := pf.1.2.2.2.2.2.2.2.1; clear pf; omega)
      | (have i9 := pf.1.2.2.2.2.2.2.2.2; clear pf; omega)

/-- The three midpoints of a triangle are different vertices. -/
theorem mid_distinct {T : List (Nat × Nat × Nat)} {V V' : Nat} {m : Nat → Nat → Nat}
    (hM : Manifold T V) (hm : MidOK m T V V') {u v w : Nat} (hr : (u, v, w) ∈ corners T) :
    m u v ≠ m v w ∧ m v w ≠ m w u ∧ m w u ≠ m u v := by
  have fr := corner_facts hM hm hr
  have pf := (pair_facts hM hm hr hr).1
  simp only at fr
  have i2 := pf.2.1
  have i6 := pf.2.2.2.2.2.1
  have i7 := pf.2.2.2.2.2.2.1
  clear pf
  omega

theorem splitEdges_nodup_triangle {T : List (Nat × Nat × Nat)} {V V' : Nat}
    {m : Nat → Nat → Nat} (hM : Manifold T V) (hm : MidOK m T V V')
    {t : Nat × Nat × Nat} (ht : t ∈ T) :
    ((subdivTriangles m t).flatMap dedges).Nodup := by
  obtain ⟨i, j, k⟩ := t
  have hr : (i, j, k) ∈ corners T := by
    simp only [corners, List.mem_flatMap]
    exact ⟨(i, j, k), ht, by simp [rot]⟩
  have fr := corner_facts hM hm hr
  have hd := mid_distinct hM hm hr
  simp only at fr
  simp only [subdivTriangles, dedges, List.flatMap_cons, List.flatMap_nil, List.append_nil,
    List.cons_append, List.nil_append, List.nodup_cons, List.mem_cons, List.mem_singleton,
    List.not_mem_nil, or_false, not_or, Prod.mk.injEq, List.nodup_nil, and_true, not_false_eq_true]
  omega

theorem Manifold_split {T : List (Nat × Nat × Nat)} {V V' : Nat} {m : Nat → Nat → Nat}
    (hM : Manifold T V) (hm : MidOK m T V V') :
    Manifold (T.flatMap (subdivTriangles m)) V' where
  lt := by
    intro x hx
    obtain ⟨r, hr, hxr⟩ := mem_corners_split.mp hx
    have fr := corner_facts hM hm hr
    simp only [splitCorners, List.mem_cons, List.mem_singleton, List.not_mem_nil,
      or_false] at hxr
    rcases hxr with rfl | rfl | rfl | rfl <;> simp only <;> omega
  ne := by
    intro x hx
    obtain ⟨r, hr, hxr⟩ := mem_corners_split.mp hx
    obtain ⟨u, v, w⟩ := r
    have fr := corner_facts hM hm hr
    have hd := mid_distinct hM hm hr
    simp only [splitCorners, List.mem_cons, List.mem_singleton, List.not_mem_nil,
      or_false] at hxr
    simp only at fr
    rcases hxr with rfl | rfl | rfl | rfl <;> simp only <;> omega
  nodup := by
    have hnd := List.nodup_flatMap.mp hM.nodup
    show ((T.flatMap (subdivTriangles m)).flatMap dedges).Nodup
    rw [List.flatMap_assoc]
    refine List.nodup_flatMap.mpr ⟨fun t ht => splitEdges_nodup_triangle hM hm ht, ?_⟩
    refine List.Pairwise.imp_of_mem ?_ hnd.2
    intro t t' ht ht' hdis e he he'
    obtain ⟨r, hr, her⟩ := (split_dedges_iff m t e).mp he
    obtain ⟨s, hs, hes⟩ := (split_dedges_iff m t' e).mp he'
    have hrc : r ∈ corners T := List.mem_flatMap.mpr ⟨t, ht, hr⟩
    have hsc : s ∈ corners T := List.mem_flatMap.mpr ⟨t', ht', hs⟩
    refine splitEdges_disjoint hM hm hrc hsc ?_ her hes
    rintro ⟨h1, h2⟩
    have e1 : (r.1, r.2.1) ∈ dedges t := by
      simp only [rot, List.mem_cons, List.mem_singleton, List.not_mem_nil, or_false] at hr
      rcases hr with rfl | rfl | rfl <;> simp [dedges]
    have e2 : (r.1, r.2.1) ∈ dedges t' := by
      rw [h1, h2]
      simp only [rot, List.mem_cons, List.mem_singleton, List.not_mem_nil, or_false] at hs
      rcases hs with rfl | rfl | rfl <;> simp [dedges]
    exact hdis e1 e2
  rev := by
    intro e he
    obtain ⟨r, hr, her⟩ := mem_allEdges_split.mp he
    obtain ⟨u, v, w⟩ := r
    have hr2 := corners_rot hr
    have hr3 := corners_rot hr2
    obtain ⟨w', hrev⟩ := mem_allEdges_iff.mp (hM.rev _ (edge_of_corner hr))
    simp only at hr2 hr3 hrev
    simp only [splitEdges, List.mem_cons, List.mem_singleton, List.not_mem_nil,
      or_false] at her
    apply mem_allEdges_split.mpr
    rcases her with rfl | rfl | rfl | rfl
    · exact ⟨_, hrev, by simp [splitEdges, hm.symm v u]⟩
    · exact ⟨_, hrev, by simp [splitEdges, hm.symm v u]⟩
    · exact ⟨_, hr3, by simp [splitEdges]⟩
    · exact ⟨_, hr2, by simp [splitEdges]⟩
  nopillow := by
    intro x hx hx'
    obtain ⟨r, hr, hxr⟩ := mem_corners_split.mp hx
    obtain ⟨s, hs, hxs⟩ := mem_corners_split.mp hx'
    obtain ⟨u, v, w⟩ := r
    obtain ⟨u', v', w'⟩ := s
    obtain ⟨x1, x2, x3⟩ := x
    have fr := corner_facts hM hm hr
    have fs := corner_facts hM hm hs
    have pf := pair_facts hM hm hr hs
    simp only [splitCorners, List.mem_cons, List.mem_singleton, List.not_mem_nil, or_false,
      Prod.mk.injEq] at hxr hxs fr fs
    have i1 := pf.1.1
    have p1 := pf.2.1.1
    have p2 := pf.2.1.2.1
    have p3 := pf.2.1.2.2
    rcases hxr with ⟨rfl, rfl, rfl⟩ | ⟨rfl, rfl, rfl⟩ | ⟨rfl, rfl, rfl⟩ | ⟨rfl, rfl, rfl⟩ <;>
      rcases hxs with ⟨h1, h2, h3⟩ | ⟨h1, h2, h3⟩ | ⟨h1, h2, h3⟩ | ⟨h1, h2, h3⟩ <;>
      first
        | (clear pf i1 p1 p2 p3; omega)
        | (have i8 := pf.1.2.2.2.2.2.2.2.1; clear pf; omega)
        | (have i6 := pf.1.2.2.2.2.2.1; clear pf; omega)
        | (have i7 := pf.1.2.2.2.2.2.2.1; have i3 := pf.1.2.2.1; clear pf i1; omega)
        | (have i4 := pf.1.2.2.2.1; have i2 := pf.1.2.1; clear pf i1; omega)

/-! ### Counting the edges -/

theorem edge_lt {T : List (Nat × Nat × Nat)} {V : Nat} (hM : Manifold T V) {e : Nat × Nat}
    (he : e ∈ allEdges T) : e.1 < V ∧ e.2 < V ∧ e.1 ≠ e.2 := by
  obtain ⟨w, hw⟩ := mem_allEdges_iff.mp he
  exact ⟨hM.lt _ hw, hM.lt _ (corners_rot hw), hM.ne _ hw⟩

/-- In a closed oriented triangulation with 32-bit indices, the directed edges map two-to-one
onto the cache keys. -/
theorem card_keys {T : List (Nat × Nat × Nat)} {V : Nat} (hM : Manifold T V)
    (hV : V ≤ 2 ^ 32) :
    2 * ((allEdges T).map fun e => IcoSphere.key e.1 e.2).toFinset.card
      = (allEdges T).length := by
  have himg : ((allEdges T).map fun e => IcoSphere.key e.1 e.2).toFinset
      = (allEdges T).toFinset.image (fun e : Nat × Nat => IcoSphere.key e.1 e.2) := by
    ext x; simp
  rw [← List.toFinset_card_of_nodup hM.nodup, himg,
    Finset.card_eq_sum_card_image (fun e : Nat × Nat => IcoSphere.key e.1 e.2)
      (allEdges T).toFinset]
  rw [Finset.sum_const_nat (m := 2), Nat.mul_comm]
  intro b hb
  obtain ⟨e, he, rfl⟩ := Finset.mem_image.mp hb
  have he' : e ∈ allEdges T := List.mem_toFinset.mp he
  obtain ⟨h1, h2, h3⟩ := edge_lt hM he'
  have hfib : (allEdges T).toFinset.filter
      (fun a => IcoSphere.key a.1 a.2 = IcoSphere.key e.1 e.2) = {e, (e.2, e.1)} := by
    ext x
    simp only [Finset.mem_filter, List.mem_toFinset, Finset.mem_insert, Finset.mem_singleton]
    constructor
    · rintro ⟨hx, hk⟩
      obtain ⟨x1, x2, _⟩ := edge_lt hM hx
      rcases key_inj (by omega) (by omega) (by omega) (by omega) hk with ⟨a, b⟩ | ⟨a, b⟩
      · left; exact Prod.ext a b
      · right; exact Prod.ext a b
    · rintro (rfl | rfl)
      · exact ⟨he', rfl⟩
      · exact ⟨hM.rev _ he', key_comm _ _⟩
  rw [hfib]
  apply Finset.card_pair
  intro heq
  exact h3 (congrArg Prod.fst heq)

theorem length_allEdges (T : List (Nat × Nat × Nat)) : (allEdges T).length = 3 * T.length := by
  induction T with
  | nil => rfl
  | cons t rest ih =>
    simp only [allEdges, List.flatMap_cons, List.length_append, dedges, List.length_cons,
      List.length_nil] at ih ⊢
    omega

theorem length_subdiv (m : Nat → Nat → Nat) (T : List (Nat × Nat × Nat)) :
    (T.flatMap (subdivTriangles m)).length = 4 * T.length := by
  induction T with
  | nil => rfl
  | cons t rest ih =>
    simp only [List.flatMap_cons, List.length_append, subdivTriangles, List.length_cons,
      List.length_nil] at ih ⊢
    omega

theorem snd_inj_of_nodup {l : List (Nat × Nat)} (hn : (l.map Prod.snd).Nodup)
    {k k' i : Nat} (h : (k, i) ∈ l) (h' : (k', i) ∈ l) : k = k' := by
  induction l with
  | nil => simp at h
  | cons p rest ih =>
    simp only [List.map_cons, List.nodup_cons] at hn
    rcases List.mem_cons.mp h with a | a <;> rcases List.mem_cons.mp h' with b | b
    · rw [← a] at b
      exact (congrArg Prod.fst b).symm
    · exfalso
      apply hn.1
      rw [← a]
      exact List.mem_map.mpr ⟨(k', i), b, rfl⟩
    · exfalso
      apply hn.1
      rw [← b]
      exact List.mem_map.mpr ⟨(k, i), a, rfl⟩
    · exact ih hn.2 a b

/-! ### One refinement pass, and all of them -/

theorem midOf_symm (st : IcoState α) (u v : Nat) : midOf st u v = midOf st v u := by
  unfold midOf; rw [key_comm]

/-- The cache after a pass over a triangulation with fresh edges is a valid midpoint
function for it. -/
theorem MidOK_of_pass {st st' : IcoState α} {T : List (Nat × Nat × Nat)} {B : Nat}
    (hM : Manifold T st.index) (hV : st.index ≤ 2 ^ 32) (hB : B ≤ st.index)
    (hold : ∀ p ∈ st.middlePointIndexCache, ∃ u v, u < B ∧ v < B ∧ p.1 = IcoSphere.key u v)
    (hnew : ∀ e ∈ allEdges T, B ≤ e.1 ∨ B ≤ e.2)
    (hrel : PassRel st st' (allEdges T)) (hinv : CacheInv st') :
    MidOK (midOf st') T st.index st'.index ∧
      ∀ e ∈ allEdges T, (IcoSphere.key e.1 e.2, midOf st' e.1 e.2) ∈ st'.middlePointIndexCache ∧
        (IcoSphere.key e.1 e.2, midOf st' e.1 e.2) ∉ st.middlePointIndexCache := by
  have hmem : ∀ e ∈ allEdges T,
      (IcoSphere.key e.1 e.2, midOf st' e.1 e.2) ∈ st'.middlePointIndexCache ∧
      (IcoSphere.key e.1 e.2, midOf st' e.1 e.2) ∉ st.middlePointIndexCache := by
    intro e he
    obtain ⟨i, hi⟩ := hrel.found e he
    have hm : midOf st' e.1 e.2 = i := by simp [midOf, hi]
    rw [hm]
    refine ⟨lookup_mem hi, ?_⟩
    intro hin
    obtain ⟨u, v, hu, hv, hk⟩ := hold _ hin
    obtain ⟨e1, e2, _⟩ := edge_lt hM he
    simp only at hk
    have := key_inj (by omega) (by omega) (by omega) (by omega) hk
    have := hnew e he
    omega
  refine ⟨⟨midOf_symm st', ?_, ?_⟩, hmem⟩
  · intro e he
    obtain ⟨h1, h2⟩ := hmem e he
    refine ⟨?_, hinv.bound _ h1⟩
    rcases hrel.fresh _ h1 with h | ⟨h, _⟩
    · exact absurd h h2
    · exact h
  · intro e he e' he' heq
    obtain ⟨h1, _⟩ := hmem e he
    obtain ⟨h1', _⟩ := hmem e' he'
    rw [heq] at h1
    have hk := snd_inj_of_nodup hinv.vals h1 h1'
    obtain ⟨a1, a2, _⟩ := edge_lt hM he
    obtain ⟨b1, b2, _⟩ := edge_lt hM he'
    exact key_inj (by omega) (by omega) (by omega) (by omega) hk

/-- A pass adds exactly one cache entry per undirected edge. -/
theorem cache_length_of_pass {st st' : IcoState α} {T : List (Nat × Nat × Nat)} {B : Nat}
    (hM : Manifold T st.index) (hV : st.index ≤ 2 ^ 32) (hB : B ≤ st.index)
    (hold : ∀ p ∈ st.middlePointIndexCache, ∃ u v, u < B ∧ v < B ∧ p.1 = IcoSphere.key u v)
    (hnew : ∀ e ∈ allEdges T, B ≤ e.1 ∨ B ≤ e.2)
    (hrel : PassRel st st' (allEdges T)) (hinv0 : CacheInv st) (hinv : CacheInv st') :
    2 * st'.middlePointIndexCache.length
      = 2 * st.middlePointIndexCache.length + 3 * T.length := by
  have hset : (st'.middlePointIndexCache.map Prod.fst).toFinset =
      (st.middlePointIndexCache.map Prod.fst).toFinset ∪
        ((allEdges T).map fun e => IcoSphere.key e.1 e.2).toFinset := by
    ext k
    simp only [Finset.mem_union, List.mem_toFinset]
    constructor
    · intro hk
      obtain ⟨p, hp, rfl⟩ := List.mem_map.mp hk
      rcases hrel.fresh p hp with h | ⟨_, e, he, hpe⟩
      · exact Or.inl (List.mem_map.mpr ⟨p, h, rfl⟩)
      · exact Or.inr (List.mem_map.mpr ⟨e, he, hpe.symm⟩)
    · rintro (hk | hk)
      · obtain ⟨i, hi⟩ := lookup_isSome_iff.mpr hk
        exact lookup_isSome_iff.mp ⟨i, hrel.stable _ _ hi⟩
      · obtain ⟨e, he, rfl⟩ := List.mem_map.mp hk
        exact lookup_isSome_iff.mp (hrel.found e he)
  have hdisj : Disjoint (st.middlePointIndexCache.map Prod.fst).toFinset
      ((allEdges T).map fun e => IcoSphere.key e.1 e.2).toFinset := by
    rw [Finset.disjoint_left]
    intro k hk hk'
    obtain ⟨p, hp, rfl⟩ := List.mem_map.mp (List.mem_toFinset.mp hk)
    obtain ⟨e, he, hke⟩ := List.mem_map.mp (List.mem_toFinset.mp hk')
    obtain ⟨u, v, hu, hv, hpk⟩ := hold p hp
    obtain ⟨e1, e2, _⟩ := edge_lt hM he
    have hke' : IcoSphere.key e.1 e.2 = IcoSphere.key u v := by rw [← hpk]; exact hke
    have := key_inj (by omega) (by omega) (by omega) (by omega) hke'
    have := hnew e he
    omega
  have hcard := congrArg Finset.card hset
  rw [Finset.card_union_of_disjoint hdisj, List.toFinset_card_of_nodup hinv.keys,
    List.toFinset_card_of_nodup hinv0.keys, List.length_map, List.length_map] at hcard
  have hk := card_keys hM hV
  rw [length_allEdges] at hk
  omega

/-- One refinement pass takes the state after `k` passes to the state after `k + 1`. -/
theorem LevelInv_refine (sqrt : α → α) (radius : α) (k : Nat) (st : IcoState α)
    (indices : List Nat) (h : LevelInv k st indices) (hV : st.index ≤ 2 ^ 32) :
    LevelInv (k + 1) (IcoSphere.refine sqrt radius st indices []).1
      (IcoSphere.refine sqrt radius st indices []).2 := by
  obtain ⟨hrel, hout⟩ := refine_spec sqrt radius indices st []
  obtain ⟨B, hB, hold, hnew⟩ := h.old
  have hinv := hrel.inv h.cache
  obtain ⟨hmid, hmem⟩ := MidOK_of_pass h.man hV hB hold hnew hrel hinv
  have hlen := cache_length_of_pass h.man hV hB hold hnew hrel h.cache hinv
  have htri : triples (IcoSphere.refine sqrt radius st indices []).2 =
      (triples indices).flatMap
        (subdivTriangles (midOf (IcoSphere.refine sqrt radius st indices []).1)) := by
    rw [hout, List.nil_append, triples_subdivIndices]
  refine ⟨hinv, ?_, ?_, ?_, ?_⟩
  · rw [htri]
    exact Manifold_split h.man hmid
  · rw [htri, length_subdiv, h.tris, pow_succ]
    omega
  · have h1 := hinv.idx
    have h2 := h.cache.idx
    have h3 := h.verts
    have h4 := h.tris
    rw [pow_succ]
    omega
  · refine ⟨st.index, hrel.mono, ?_, ?_⟩
    · intro p hp
      rcases hrel.fresh p hp with hp' | ⟨_, e, he, hpe⟩
      · obtain ⟨u, v, hu, hv, hk⟩ := hold p hp'
        exact ⟨u, v, by omega, by omega, hk⟩
      · obtain ⟨e1, e2, _⟩ := edge_lt h.man he
        exact ⟨e.1, e.2, e1, e2, hpe⟩
    · intro e he
      rw [htri] at he
      obtain ⟨r, hr, her⟩ := mem_allEdges_split.mp he
      have fr := corner_facts h.man hmid hr
      simp only [splitEdges, List.mem_cons, List.mem_singleton, List.not_mem_nil,
        or_false] at her
      rcases her with rfl | rfl | rfl | rfl <;> simp only <;> omega

theorem initialState_index (sqrt : α → α) (radius : α) :
    (IcoSphere.initialState sqrt radius).index = 12 := rfl

theorem initialState_cache (sqrt : α → α) (radius : α) :
    (IcoSphere.initialState sqrt radius).middlePointIndexCache = [] := rfl

theorem initialState_length (sqrt : α → α) (radius : α) :
    (IcoSphere.initialState sqrt radius).Positions.length = 36 := rfl

theorem initial_manifold : Manifold (triples IcoSphere.initialIndices) 12 where
  lt := by decide
  ne := by decide
  nodup := by decide
  rev := by decide
  nopillow := by decide

theorem LevelInv_initial (sqrt : α → α) (radius : α) :
    LevelInv 0 (IcoSphere.initialState sqrt radius) IcoSphere.initialIndices where
  cache := ⟨by rw [initialState_cache]; exact List.nodup_nil,
    by rw [initialState_cache]; exact List.nodup_nil,
    by rw [initialState_cache]; intro p hp; simp at hp,
    by rw [initialState_cache, initialState_index]; rfl,
    by rw [initialState_length, initialState_index]⟩
  man := by rw [initialState_index]; exact initial_manifold
  tris := by decide
  verts := by rw [initialState_index]; rfl
  old := ⟨0, Nat.zero_le _, by rw [initialState_cache]; intro p hp; simp at hp,
    fun e _ => Or.inl (Nat.zero_le _)⟩

theorem LevelInv_refineLevels (sqrt : α → α) (radius : α) :
    ∀ (n k : Nat) (r : IcoState α × List Nat), LevelInv k r.1 r.2 →
      10 * 4 ^ (k + n) + 2 ≤ 2 ^ 32 →
      LevelInv (k + n) (IcoSphere.refineLevels sqrt radius n r).1
        (IcoSphere.refineLevels sqrt radius n r).2 := by
  intro n
  induction n with
  | zero => intro k r h _; exact h
  | succ n ih =>
    intro k r h hb
    rw [IcoSphere.refineLevels]
    have hle : 4 ^ k ≤ 4 ^ (k + (n + 1)) := Nat.pow_le_pow_right (by norm_num) (by omega)
    have hstep := LevelInv_refine sqrt radius k r.1 r.2 h (by rw [h.verts]; omega)
    have := ih (k + 1) _ hstep (by rw [show k + 1 + n = k + (n + 1) by omega]; exact hb)
    rw [show k + 1 + n = k + (n + 1) by omega] at this
    exact this

/-- The state and index array of `CreateIcoSphere` after all passes. -/
theorem LevelInv_final (sqrt : α → α) (radius : α) (level : Nat)
    (hlevel : 10 * 4 ^ level + 2 ≤ 2 ^ 32) :
    LevelInv level
      (IcoSphere.refineLevels sqrt radius level
        (IcoSphere.initialState sqrt radius, IcoSphere.initialIndices)).1
      (IcoSphere.refineLevels sqrt radius level
        (IcoSphere.initialState sqrt radius, IcoSphere.initialIndices)).2 := by
  have := LevelInv_refineLevels sqrt radius level 0
    (IcoSphere.initialState sqrt radius, IcoSphere.initialIndices)
    (LevelInv_initial sqrt radius) (by rw [Nat.zero_add]; exact hlevel)
  rw [Nat.zero_add] at this
  exact this

end IcoCache

/-! ## CreateIcoSphere: every vertex lies on the sphere -/

section IcoGeometry

variable {α : Type} [LinearOrderedField α]

theorem normMid_comm (sqrt : α → α) (radius : α) (a b : Vector4 α) :
    normMid sqrt radius a b = normMid sqrt radius b a := by
  unfold normMid
  rw [add_comm a.x, add_comm a.y, add_comm a.z]

theorem posOf_append_lt (P extra : List α) (i : Nat) (h : i * 3 + 2 < P.length) :
    posOf (P ++ extra) i = posOf P i := by
  unfold posOf
  simp only [List.getD_eq_getElem?_getD]
  rw [List.getElem?_append_left (by omega), List.getElem?_append_left (by omega),
    List.getElem?_append_left (by omega)]

theorem posOf_append_new (P : List α) (x y z : α) (n : Nat) (h : P.length = 3 * n) :
    posOf (P ++ [x, y, z]) n = ⟨x, y, z⟩ := by
  unfold posOf
  simp only [List.getD_eq_getElem?_getD]
  rw [List.getElem?_append_right (by omega), List.getElem?_append_right (by omega),
    List.getElem?_append_right (by omega)]
  rw [show n * 3 - P.length = 0 by omega, show n * 3 + 1 - P.length = 1 by omega,
    show n * 3 + 2 - P.length = 2 by omega]
  rfl

theorem AddVertex_Positions (sqrt : α → α) (radius : α) (st : IcoState α) (x y z : α) :
    (IcoSphere.AddVertex sqrt radius st x y z).1.Positions = st.Positions ++
      [(projected sqrt radius x y z).x, (projected sqrt radius x y z).y,
        (projected sqrt radius x y z).z] := rfl

theorem midCoordinates_eq (sqrt : α → α) (radius : α) (st : IcoState α) (p1 p2 : Nat) :
    midCoordinates sqrt radius st p1 p2 =
      [(normMid sqrt radius (posOf st.Positions p1) (posOf st.Positions p2)).x,
       (normMid sqrt radius (posOf st.Positions p1) (posOf st.Positions p2)).y,
       (normMid sqrt radius (posOf st.Positions p1) (posOf st.Positions p2)).z] := by
  simp only [midCoordinates, AddVertex_Positions, List.drop_left, normMid, posOf]

/-- A point projected by `AddVertex` lies on the sphere, and is a positive multiple of the
point it was made from. -/
theorem projected_spec (sqrt : α → α) (radius : α)
    (hsqrt : ∀ s : α, 0 < s → 0 < sqrt s ∧ sqrt s * sqrt s = s) (hr : 0 < radius)
    (x y z : α) (hpos : 0 < x * x + y * y + z * z) :
    (projected sqrt radius x y z).SquareLength = radius * radius ∧
    0 < radius / sqrt (x * x + y * y + z * z) := by
  obtain ⟨hq, hqq⟩ := hsqrt _ hpos
  refine ⟨?_, div_pos hr hq⟩
  simp only [projected, Vector4.SquareLength]
  have hne : sqrt (x * x + y * y + z * z) ≠ 0 := ne_of_gt hq
  have : x * (radius / sqrt (x * x + y * y + z * z)) * (x * (radius / sqrt (x * x + y * y + z * z)))
      + y * (radius / sqrt (x * x + y * y + z * z)) * (y * (radius / sqrt (x * x + y * y + z * z)))
      + z * (radius / sqrt (x * x + y * y + z * z)) * (z * (radius / sqrt (x * x + y * y + z * z)))
      = (x * x + y * y + z * z) * (radius * radius)
        / (sqrt (x * x + y * y + z * z) * sqrt (x * x + y * y + z * z)) := by
    field_simp
    ring
  rw [this, hqq]
  field_simp

/-- The midpoint that `GetMidPoint` stores for two points of the sphere with positive dot
product lies on the sphere and is a positive multiple of their sum. -/
theorem normMid_spec (sqrt : α → α) (radius : α)
    (hsqrt : ∀ s : α, 0 < s → 0 < sqrt s ∧ sqrt s * sqrt s = s) (hr : 0 < radius)
    (a b : Vector4 α) (ha : a.SquareLength = radius * radius)
    (hb : b.SquareLength = radius * radius) (hab : 0 < a.dot b) :
    (normMid sqrt radius a b).SquareLength = radius * radius ∧
    ∃ c, 0 < c ∧ normMid sqrt radius a b = (a.add b).scale c := by
  have hpos : 0 < (a.x + b.x) * (1 / 2) * ((a.x + b.x) * (1 / 2))
      + (a.y + b.y) * (1 / 2) * ((a.y + b.y) * (1 / 2))
      + (a.z + b.z) * (1 / 2) * ((a.z + b.z) * (1 / 2)) := by
    simp only [Vector4.SquareLength, Vector4.dot] at ha hb hab
    have hrr : 0 < radius * radius := mul_pos hr hr
    nlinarith
  obtain ⟨h1, h2⟩ := projected_spec sqrt radius hsqrt hr _ _ _ hpos
  refine ⟨h1, (1 / 2) * (radius / sqrt ((a.x + b.x) * (1 / 2) * ((a.x + b.x) * (1 / 2))
      + (a.y + b.y) * (1 / 2) * ((a.y + b.y) * (1 / 2))
      + (a.z + b.z) * (1 / 2) * ((a.z + b.z) * (1 / 2)))), by positivity, ?_⟩
  simp only [normMid, projected, Vector4.add, Vector4.scale]
  apply Vector4.ext <;> simp only <;> ring

/-- Appending a vertex on the sphere keeps the geometric invariant. -/
theorem GeoInv_append (sqrt : α → α) (radius : α) (st : IcoState α) (q : Vector4 α)
    (cache : List (Nat × Nat)) (h : GeoInv sqrt radius st)
    (hq : q.SquareLength = radius * radius)
    (hcache : ∀ p ∈ cache, p ∈ st.middlePointIndexCache ∨
      ∃ u v, u < st.index ∧ v < st.index ∧ p.2 = st.index ∧ p.1 = IcoSphere.key u v ∧
        q = normMid sqrt radius (posOf st.Positions u) (posOf st.Positions v)) :
    GeoInv sqrt radius ⟨st.Positions ++ [q.x, q.y, q.z], cache, st.index + 1⟩ ∧
    ∀ i, i < st.index → posOf (st.Positions ++ [q.x, q.y, q.z]) i = posOf st.Positions i := by
  have hold : ∀ i, i < st.index →
      posOf (st.Positions ++ [q.x, q.y, q.z]) i = posOf st.Positions i := by
    intro i hi
    exact posOf_append_lt _ _ _ (by have := h.plen; omega)
  have hnew : posOf (st.Positions ++ [q.x, q.y, q.z]) st.index = q :=
    posOf_append_new _ _ _ _ _ h.plen
  refine ⟨⟨?_, ?_, ?_⟩, hold⟩
  · simp only [List.length_append, List.length_cons, List.length_nil]
    have := h.plen
    omega
  · intro i hi
    simp only at hi ⊢
    by_cases hlt : i < st.index
    · rw [hold i hlt]; exact h.sphere i hlt
    · have : i = st.index := by omega
      subst this
      rw [hnew]; exact hq
  · intro p hp
    simp only at hp ⊢
    rcases hcache p hp with hin | ⟨u, v, hu, hv, hp2, hp1, hqe⟩
    · obtain ⟨u, v, hu, hv, hp2, hp1, hpe⟩ := h.cache p hin
      refine ⟨u, v, by omega, by omega, by omega, hp1, ?_⟩
      rw [hold _ hp2, hold _ hu, hold _ hv]
      exact hpe
    · refine ⟨u, v, by omega, by omega, by omega, hp1, ?_⟩
      rw [hp2, hnew, hold _ hu, hold _ hv]
      exact hqe

/-- One call of `GetMidPoint` on an edge with positive dot product keeps the geometric
invariant and the positions of the existing vertices. -/
theorem GetMidPoint_geo (sqrt : α → α) (radius : α)
    (hsqrt : ∀ s : α, 0 < s → 0 < sqrt s ∧ sqrt s * sqrt s = s) (hr : 0 < radius)
    (st : IcoState α) (p1 p2 : Nat) (h : GeoInv sqrt radius st)
    (h1 : p1 < st.index) (h2 : p2 < st.index)
    (hdot : 0 < (posOf st.Positions p1).dot (posOf st.Positions p2)) :
    GeoInv sqrt radius (IcoSphere.GetMidPoint sqrt radius st p1 p2).1 ∧
    ∀ i, i < st.index →
      posOf (IcoSphere.GetMidPoint sqrt radius st p1 p2).1.Positions i
        = posOf st.Positions i := by
  cases hl : st.middlePointIndexCache.lookup (IcoSphere.key p1 p2) with
  | some i =>
    rw [GetMidPoint_hit sqrt radius st p1 p2 i hl]
    exact ⟨h, fun _ _ => rfl⟩
  | none =>
    rw [GetMidPoint_miss sqrt radius st p1 p2 hl, midCoordinates_eq]
    obtain ⟨hs, _⟩ := normMid_spec sqrt radius hsqrt hr _ _ (h.sphere p1 h1) (h.sphere p2 h2) hdot
    refine GeoInv_append sqrt radius st _ _ h hs ?_
    intro p hp
    rcases List.mem_cons.mp hp with hp | hp
    · right
      subst hp
      exact ⟨p1, p2, h1, h2, rfl, rfl, rfl⟩
    · exact Or.inl hp

/-- One refinement pass over triangles whose edges have positive dot product keeps the
geometric invariant and the positions of the existing vertices. -/
theorem refine_geo (sqrt : α → α) (radius : α)
    (hsqrt : ∀ s : α, 0 < s → 0 < sqrt s ∧ sqrt s * sqrt s = s) (hr : 0 < radius) :
    ∀ (indices : List Nat) (st : IcoState α) (newIndices : List Nat),
      GeoInv sqrt radius st →
      (∀ e ∈ allEdges (triples indices), e.1 < st.index ∧ e.2 < st.index ∧
        0 < (posOf st.Positions e.1).dot (posOf st.Positions e.2)) →
      GeoInv sqrt radius (IcoSphere.refine sqrt radius st indices newIndices).1 ∧
      ∀ i, i < st.index →
        posOf (IcoSphere.refine sqrt radius st indices newIndices).1.Positions i
          = posOf st.Positions i
  | i1 :: i2 :: i3 :: rest, st, newIndices => by
    intro h hedges
    have he1 := hedges (i1, i2) (by simp [allEdges, triples, dedges])
    have he2 := hedges (i2, i3) (by simp [allEdges, triples, dedges])
    have he3 := hedges (i3, i1) (by simp [allEdges, triples, dedges])
    simp only at he1 he2 he3
    obtain ⟨ga, ka⟩ := GetMidPoint_geo sqrt radius hsqrt hr st i1 i2 h he1.1 he1.2.1 he1.2.2
    have ma := (GetMidPoint_rel sqrt radius st i1 i2).1.mono
    obtain ⟨gb, kb⟩ := GetMidPoint_geo sqrt radius hsqrt hr _ i2 i3 ga (by omega) (by omega)
      (by rw [ka _ he2.1, ka _ he2.2.1]; exact he2.2.2)
    have mb := (GetMidPoint_rel sqrt radius
      (IcoSphere.GetMidPoint sqrt radius st i1 i2).1 i2 i3).1.mono
    obtain ⟨gc, kc⟩ := GetMidPoint_geo sqrt radius hsqrt hr _ i3 i1 gb (by omega) (by omega)
      (by rw [kb _ (by omega), kb _ (by omega), ka _ he3.1, ka _ he3.2.1]; exact he3.2.2)
    have mc := (GetMidPoint_rel sqrt radius
      (IcoSphere.GetMidPoint sqrt radius
        (IcoSphere.GetMidPoint sqrt radius st i1 i2).1 i2 i3).1 i3 i1).1.mono
    have hkeep : ∀ i, i < st.index →
        posOf (IcoSphere.GetMidPoint sqrt radius
          (IcoSphere.GetMidPoint sqrt radius
            (IcoSphere.GetMidPoint sqrt radius st i1 i2).1 i2 i3).1 i3 i1).1.Positions i
          = posOf st.Positions i := by
      intro i hi
      rw [kc _ (by omega), kb _ (by omega), ka _ hi]
    rw [IcoSphere.refine]
    obtain ⟨gr, kr⟩ := refine_geo sqrt radius hsqrt hr rest _
      (newIndices ++ [i1, (IcoSphere.GetMidPoint sqrt radius st i1 i2).2,
        (IcoSphere.GetMidPoint sqrt radius
          (IcoSphere.GetMidPoint sqrt radius
            (IcoSphere.GetMidPoint sqrt radius st i1 i2).1 i2 i3).1 i3 i1).2,
        i2, (IcoSphere.GetMidPoint sqrt radius
          (IcoSphere.GetMidPoint sqrt radius st i1 i2).1 i2 i3).2,
        (IcoSphere.GetMidPoint sqrt radius st i1 i2).2,
        i3, (IcoSphere.GetMidPoint sqrt radius
          (IcoSphere.GetMidPoint sqrt radius
            (IcoSphere.GetMidPoint sqrt radius st i1 i2).1 i2 i3).1 i3 i1).2,
        (IcoSphere.GetMidPoint sqrt radius
          (IcoSphere.GetMidPoint sqrt radius st i1 i2).1 i2 i3).2,
        (IcoSphere.GetMidPoint sqrt radius st i1 i2).2,
        (IcoSphere.GetMidPoint sqrt radius
          (IcoSphere.GetMidPoint sqrt radius st i1 i2).1 i2 i3).2,
        (IcoSphere.GetMidPoint sqrt radius
          (IcoSphere.GetMidPoint sqrt radius
            (IcoSphere.GetMidPoint sqrt radius st i1 i2).1 i2 i3).1 i3 i1).2])
      gc (by
        intro e he
        have := hedges e (by
          simp only [allEdges, triples, List.flatMap_cons, List.mem_append]
          exact Or.inr he)
        refine ⟨by omega, by omega, ?_⟩
        rw [hkeep _ this.1, hkeep _ this.2.1]
        exact this.2.2)
    refine ⟨gr, ?_⟩
    intro i hi
    rw [kr i (by omega), hkeep i hi]
  | [], st, newIndices => by
    intro h _
    have e : ∀ l : List Nat, l.length < 3 →
        IcoSphere.refine sqrt radius st l newIndices = (st, newIndices) := by
      intro l hl
      match l, hl with
      | [], _ => simp [IcoSphere.refine]
      | [_], _ => simp [IcoSphere.refine]
      | [_, _], _ => simp [IcoSphere.refine]
    rw [e _ (by simp)]
    exact ⟨h, fun _ _ => rfl⟩
  | [_], st, newIndices => by
    intro h _
    have e : ∀ l : List Nat, l.length < 3 →
        IcoSphere.refine sqrt radius st l newIndices = (st, newIndices) := by
      intro l hl
      match l, hl with
      | [], _ => simp [IcoSphere.refine]
      | [_], _ => simp [IcoSphere.refine]
      | [_, _], _ => simp [IcoSphere.refine]
    rw [e _ (by simp)]
    exact ⟨h, fun _ _ => rfl⟩
  | [_, _], st, newIndices => by
    intro h _
    have e : ∀ l : List Nat, l.length < 3 →
        IcoSphere.refine sqrt radius st l newIndices = (st, newIndices) := by
      intro l hl
      match l, hl with
      | [], _ => simp [IcoSphere.refine]
      | [_], _ => simp [IcoSphere.refine]
      | [_, _], _ => simp [IcoSphere.refine]
    rw [e _ (by simp)]
    exact ⟨h, fun _ _ => rfl⟩

theorem dot_comm (a b : Vector4 α) : a.dot b = b.dot a := by
  simp only [Vector4.dot]; ring

theorem dot_self (a : Vector4 α) : a.dot a = a.SquareLength := rfl

theorem dot_sum_scale (a b c d : Vector4 α) (x y : α) :
    ((a.add b).scale x).dot ((c.add d).scale y)
      = x * y * (a.dot c + a.dot d + b.dot c + b.dot d) := by
  simp only [Vector4.dot, Vector4.add, Vector4.scale]; ring

theorem dot_left_scale (a c d : Vector4 α) (y : α) :
    a.dot ((c.add d).scale y) = y * (a.dot c + a.dot d) := by
  simp only [Vector4.dot, Vector4.add, Vector4.scale]; ring

theorem dot_right_scale (a b c : Vector4 α) (x : α) :
    ((a.add b).scale x).dot c = x * (a.dot c + b.dot c) := by
  simp only [Vector4.dot, Vector4.add, Vector4.scale]; ring

theorem GeoLevel_refine (sqrt : α → α) (radius : α)
    (hsqrt : ∀ s : α, 0 < s → 0 < sqrt s ∧ sqrt s * sqrt s = s) (hr : 0 < radius)
    (k : Nat) (st : IcoState α) (indices : List Nat) (h : LevelInv k st indices)
    (g : GeoLevel sqrt radius st indices)
    (hV : (IcoSphere.refine sqrt radius st indices []).1.index ≤ 2 ^ 32) :
    GeoLevel sqrt radius (IcoSphere.refine sqrt radius st indices []).1
      (IcoSphere.refine sqrt radius st indices []).2 := by
  obtain ⟨hrel, hout⟩ := refine_spec sqrt radius indices st []
  obtain ⟨B, hB, hold, hnew⟩ := h.old
  have hinv := hrel.inv h.cache
  have hV0 : st.index ≤ 2 ^ 32 := le_trans hrel.mono hV
  obtain ⟨hmid, hmem⟩ := MidOK_of_pass h.man hV0 hB hold hnew hrel hinv
  have htri : triples (IcoSphere.refine sqrt radius st indices []).2 =
      (triples indices).flatMap
        (subdivTriangles (midOf (IcoSphere.refine sqrt radius st indices []).1)) := by
    rw [hout, List.nil_append, triples_subdivIndices]
  have hedge : ∀ e ∈ allEdges (triples indices), e.1 < st.index ∧ e.2 < st.index ∧
      0 < (posOf st.Positions e.1).dot (posOf st.Positions e.2) := by
    intro e he
    obtain ⟨w, hw⟩ := mem_allEdges_iff.mp he
    exact ⟨h.man.lt _ hw, h.man.lt _ (corners_rot hw), g.adj _ hw⟩
  obtain ⟨gfin, hkeep⟩ := refine_geo sqrt radius hsqrt hr indices st [] g.geo hedge
  -- the midpoint vertex of every edge is the projected midpoint of its two ends
  have hmidpos : ∀ e ∈ allEdges (triples indices),
      posOf (IcoSphere.refine sqrt radius st indices []).1.Positions
        (midOf (IcoSphere.refine sqrt radius st indices []).1 e.1 e.2)
      = normMid sqrt radius (posOf st.Positions e.1) (posOf st.Positions e.2) := by
    intro e he
    obtain ⟨u, v, hu, hv, _, hk, hp⟩ := gfin.cache _ (hmem e he).1
    obtain ⟨e1, e2, _⟩ := hedge e he
    simp only at hk hp
    rw [hp]
    rcases key_inj (by omega) (by omega) (by omega) (by omega) hk with ⟨a, b⟩ | ⟨a, b⟩
    · rw [← a, ← b, hkeep _ e1, hkeep _ e2]
    · rw [← a, ← b, hkeep _ e1, hkeep _ e2, normMid_comm]
  refine ⟨gfin, ?_⟩
  intro x hx
  rw [htri] at hx
  obtain ⟨r, hrc, hxr⟩ := mem_corners_split.mp hx
  obtain ⟨u, v, w⟩ := r
  have hr2 := corners_rot hrc
  have hr3 := corners_rot hr2
  simp only at hr2 hr3
  have fr := corner_facts h.man hmid hrc
  simp only at fr
  have pu := hkeep u fr.1
  have pv := hkeep v fr.2.1
  have pw := hkeep w fr.2.2.1
  have m1 := hmidpos _ (edge_of_corner hrc)
  have m2 := hmidpos _ (edge_of_corner hr2)
  have m3 := hmidpos _ (edge_of_corner hr3)
  simp only at m1 m2 m3
  have d1 := g.adj _ hrc
  have d2 := g.adj _ hr2
  have d3 := g.adj _ hr3
  simp only at d1 d2 d3
  have su := g.geo.sphere u fr.1
  have sv := g.geo.sphere v fr.2.1
  have sw := g.geo.sphere w fr.2.2.1
  obtain ⟨_, c1, hc1, n1⟩ := normMid_spec sqrt radius hsqrt hr _ _ su sv d1
  obtain ⟨_, c2, hc2, n2⟩ := normMid_spec sqrt radius hsqrt hr _ _ sv sw d2
  obtain ⟨_, c3, hc3, n3⟩ := normMid_spec sqrt radius hsqrt hr _ _ sw su d3
  have hrr : 0 < radius * radius := mul_pos hr hr
  have d1' : 0 < (posOf st.Positions v).dot (posOf st.Positions u) := by rw [dot_comm]; exact d1
  have d2' : 0 < (posOf st.Positions w).dot (posOf st.Positions v) := by rw [dot_comm]; exact d2
  have d3' : 0 < (posOf st.Positions u).dot (posOf st.Positions w) := by rw [dot_comm]; exact d3
  have su' : 0 < (posOf st.Positions u).dot (posOf st.Positions u) := by
    rw [dot_self, su]; exact hrr
  have sv' : 0 < (posOf st.Positions v).dot (posOf st.Positions v) := by
    rw [dot_self, sv]; exact hrr
  simp only [splitCorners, List.mem_cons, List.mem_singleton, List.not_mem_nil,
    or_false] at hxr
  rcases hxr with rfl | rfl | rfl | rfl
  · simp only
    rw [pu, m1, n1, dot_left_scale]
    exact mul_pos hc1 (add_pos su' d1)
  · simp only
    rw [pv, m1, n1, dot_right_scale]
    exact mul_pos hc1 (add_pos d1 sv')
  · simp only
    rw [m1, m3, n1, n3, dot_sum_scale]
    exact mul_pos (mul_pos hc1 hc3) (add_pos (add_pos (add_pos d3' su') d2) d1')
  · simp only
    rw [m1, m2, n1, n2, dot_sum_scale]
    exact mul_pos (mul_pos hc1 hc2) (add_pos (add_pos (add_pos d1 d3') sv') d2)

theorem initialState_Positions (sqrt : α → α) (radius : α) :
    (IcoSphere.initialState sqrt radius).Positions =
      (rawVertices ((1 + sqrt 5) * (1 / 2))).flatMap fun v =>
        [(projected sqrt radius v.x v.y v.z).x, (projected sqrt radius v.x v.y v.z).y,
          (projected sqrt radius v.x v.y v.z).z] := rfl

theorem golden_facts (sqrt : α → α)
    (hsqrt : ∀ s : α, 0 < s → 0 < sqrt s ∧ sqrt s * sqrt s = s) :
    0 < (1 + sqrt 5) * (1 / 2) ∧ 1 < (1 + sqrt 5) * (1 / 2) * ((1 + sqrt 5) * (1 / 2)) := by
  obtain ⟨h1, h2⟩ := hsqrt 5 (by norm_num)
  constructor
  · positivity
  · nlinarith

theorem rawVertices_adjacent (t : α) (ht : 0 < t) (ht2 : 1 < t * t) :
    ∀ r ∈ corners (triples IcoSphere.initialIndices),
      0 < ((rawVertices t).getD r.1 default).dot ((rawVertices t).getD r.2.1 default) := by
  simp only [corners, triples, IcoSphere.initialIndices, rot, List.flatMap_cons,
    List.flatMap_nil, List.cons_append, List.nil_append, List.append_nil,
    List.forall_mem_cons, List.not_mem_nil, false_implies, implies_true, and_true,
    rawVertices, List.getD_cons_zero, List.getD_cons_succ, Vector4.dot]
  norm_num [ht, ht2]

theorem rawVertices_nonzero (t : α) :
    ∀ v ∈ rawVertices t, 0 < v.x * v.x + v.y * v.y + v.z * v.z := by
  have ht := mul_self_nonneg t
  intro v hv
  simp only [rawVertices, List.mem_cons, List.mem_singleton, List.not_mem_nil, or_false] at hv
  rcases hv with rfl | rfl | rfl | rfl | rfl | rfl | rfl | rfl | rfl | rfl | rfl | rfl <;>
    simp only <;> nlinarith

theorem posOf_initial (sqrt : α → α) (radius : α) (i : Nat) (hi : i < 12) :
    posOf (IcoSphere.initialState sqrt radius).Positions i =
      projected sqrt radius ((rawVertices ((1 + sqrt 5) * (1 / 2))).getD i default).x
        ((rawVertices ((1 + sqrt 5) * (1 / 2))).getD i default).y
        ((rawVertices ((1 + sqrt 5) * (1 / 2))).getD i default).z := by
  have hlen : i < (rawVertices ((1 + sqrt 5) * (1 / 2))).length := by
    simpa [rawVertices] using hi
  obtain ⟨h1, h2, h3⟩ := getD_flatMap_three
    (fun v : Vector4 α => (projected sqrt radius v.x v.y v.z).x)
    (fun v => (projected sqrt radius v.x v.y v.z).y)
    (fun v => (projected sqrt radius v.x v.y v.z).z) 0
    (rawVertices ((1 + sqrt 5) * (1 / 2))) i hlen
  rw [initialState_Positions]
  unfold posOf
  rw [h1, h2, h3, getD_eq_getElem_of_lt _ _ _ hlen]

theorem GeoLevel_initial (sqrt : α → α) (radius : α)
    (hsqrt : ∀ s : α, 0 < s → 0 < sqrt s ∧ sqrt s * sqrt s = s) (hr : 0 < radius) :
    GeoLevel sqrt radius (IcoSphere.initialState sqrt radius) IcoSphere.initialIndices := by
  obtain ⟨ht, ht2⟩ := golden_facts sqrt hsqrt
  have hmem : ∀ i, i < 12 → (rawVertices ((1 + sqrt 5) * (1 / 2))).getD i default
      ∈ rawVertices ((1 + sqrt 5) * (1 / 2)) := by
    intro i hi
    have hlen : i < (rawVertices ((1 + sqrt 5) * (1 / 2))).length := by
      simpa [rawVertices] using hi
    rw [getD_eq_getElem_of_lt _ _ _ hlen]
    exact List.getElem_mem _
  refine ⟨⟨rfl, ?_, ?_⟩, ?_⟩
  · intro i hi
    rw [initialState_index] at hi
    rw [posOf_initial sqrt radius i hi]
    exact (projected_spec sqrt radius hsqrt hr _ _ _
      (rawVertices_nonzero _ _ (hmem i hi))).1
  · intro p hp
    rw [initialState_cache] at hp
    simp at hp
  · intro r hrc
    have h1 : r.1 < 12 := initial_manifold.lt r hrc
    have h2 : r.2.1 < 12 := initial_manifold.lt _ (corners_rot hrc)
    rw [posOf_initial sqrt radius _ h1, posOf_initial sqrt radius _ h2]
    have c1 := (projected_spec sqrt radius hsqrt hr _ _ _
      (rawVertices_nonzero _ _ (hmem _ h1))).2
    have c2 := (projected_spec sqrt radius hsqrt hr _ _ _
      (rawVertices_nonzero _ _ (hmem _ h2))).2
    have hd := rawVertices_adjacent _ ht ht2 r hrc
    simp only [projected, Vector4.dot] at hd ⊢
    have key : ∀ (a1 a2 a3 b1 b2 b3 c d : α), 0 < c → 0 < d →
        0 < a1 * b1 + a2 * b2 + a3 * b3 →
        0 < a1 * c * (b1 * d) + a2 * c * (b2 * d) + a3 * c * (b3 * d) := by
      intro a1 a2 a3 b1 b2 b3 c d hc hd' h
      have : a1 * c * (b1 * d) + a2 * c * (b2 * d) + a3 * c * (b3 * d)
          = c * d * (a1 * b1 + a2 * b2 + a3 * b3) := by ring
      rw [this]
      exact mul_pos (mul_pos hc hd') h
    exact key _ _ _ _ _ _ _ _ c1 c2 hd

/-- Combinatorial and geometric state after any number of passes. -/
theorem GeoLevel_refineLevels (sqrt : α → α) (radius : α)
    (hsqrt : ∀ s : α, 0 < s → 0 < sqrt s ∧ sqrt s * sqrt s = s) (hr : 0 < radius) :
    ∀ (n k : Nat) (r : IcoState α × List Nat), LevelInv k r.1 r.2 →
      GeoLevel sqrt radius r.1 r.2 → 10 * 4 ^ (k + n) + 2 ≤ 2 ^ 32 →
      GeoLevel sqrt radius (IcoSphere.refineLevels sqrt radius n r).1
        (IcoSphere.refineLevels sqrt radius n r).2 := by
  intro n
  induction n with
  | zero => intro k r _ g _; exact g
  | succ n ih =>
    intro k r h g hb
    rw [IcoSphere.refineLevels]
    have hle : 4 ^ k ≤ 4 ^ (k + (n + 1)) := Nat.pow_le_pow_right (by norm_num) (by omega)
    have hle' : 4 ^ (k + 1) ≤ 4 ^ (k + (n + 1)) := Nat.pow_le_pow_right (by norm_num) (by omega)
    have hstep := LevelInv_refine sqrt radius k r.1 r.2 h (by rw [h.verts]; omega)
    have gstep := GeoLevel_refine sqrt radius hsqrt hr k r.1 r.2 h g
      (by rw [hstep.verts]; omega)
    exact ih (k + 1) _ hstep gstep
      (by rw [show k + 1 + n = k + (n + 1) by omega]; exact hb)

end IcoGeometry

/-! ## Claims on the primitive generators -/

section PrimitiveClaims

variable {α : Type} [LinearOrderedField α]

/-- C10: for every `min` and `max`, `CreateCube` returns a mesh with exactly 8 vertices, which
are the 8 corner combinations of the `min`/`max` coordinates, exactly 12 triangles (36
indices, every index below 8), two triangles per face lying in the plane of that face, and
no UVs. -/
theorem CreateCube_shape (min max : Vector4 α) :
    (CreateCube min max).vertexCount = 8 ∧
    (List.range 8).map (GetPositionAt (CreateCube min max)) =
      [⟨max.x, max.y, max.z⟩, ⟨min.x, max.y, max.z⟩, ⟨min.x, min.y, max.z⟩,
       ⟨max.x, min.y, max.z⟩, ⟨max.x, max.y, min.z⟩, ⟨min.x, max.y, min.z⟩,
       ⟨min.x, min.y, min.z⟩, ⟨max.x, min.y, min.z⟩] ∧
    (CreateCube min max).triangleCount = 12 ∧
    (CreateCube min max).Indices.length = 36 ∧
    (∀ i ∈ (CreateCube min max).Indices, i < 8) ∧
    (CreateCube min max).UVs = [] ∧
    (∀ v ∈ trianglePositions (CreateCube min max) 0 ++ trianglePositions (CreateCube min max) 1,
      v.z = max.z) ∧
    (∀ v ∈ trianglePositions (CreateCube min max) 2 ++ trianglePositions (CreateCube min max) 3,
      v.z = min.z) ∧
    (∀ v ∈ trianglePositions (CreateCube min max) 4 ++ trianglePositions (CreateCube min max) 5,
      v.x = min.x) ∧
    (∀ v ∈ trianglePositions (CreateCube min max) 6 ++ trianglePositions (CreateCube min max) 7,
      v.x = max.x) ∧
    (∀ v ∈ trianglePositions (CreateCube min max) 8 ++ trianglePositions (CreateCube min max) 9,
      v.y = max.y) ∧
    (∀ v ∈ trianglePositions (CreateCube min max) 10 ++
        trianglePositions (CreateCube min max) 11, v.y = min.y) := by
  refine ⟨by simp [Mesh.vertexCount, CreateCube, Mesh.Create], rfl,
    by simp [Mesh.triangleCount, CreateCube, Mesh.Create], rfl, ?_, rfl, ?_, ?_, ?_, ?_, ?_, ?_⟩
  · intro i hi
    simp only [CreateCube, Mesh.Create, List.mem_cons, List.mem_singleton, List.not_mem_nil,
      or_false] at hi
    omega
  all_goals
    intro v hv
    simp only [trianglePositions, GetPositionAt, CreateCube, Mesh.Create, List.cons_append,
      List.nil_append, List.mem_cons, List.mem_singleton, List.not_mem_nil, or_false,
      List.getD_cons_zero, List.getD_cons_succ] at hv
    rcases hv with rfl | rfl | rfl | rfl | rfl | rfl <;> rfl

/-- C9 (amended): for `min < max` in every component, each of the 12 triangles of
`CreateCube` has a face normal `(b - a) x (c - b)` that points inward: its dot product with
(triangle centroid - cube centre) is negative. -/
theorem CreateCube_faceNormal_inward (min max : Vector4 α)
    (hx : min.x < max.x) (hy : min.y < max.y) (hz : min.z < max.z) :
    ∀ i, i < 12 →
      (CalculateNormal.faceNormal (CreateCube min max) i).dot
        ((triangleCentroid (CreateCube min max) i).sub ((min.add max).scale (1 / 2))) < 0 := by
  have hdx : 0 < max.x - min.x := sub_pos.mpr hx
  have hdy : 0 < max.y - min.y := sub_pos.mpr hy
  have hdz : 0 < max.z - min.z := sub_pos.mpr hz
  have hxyz := mul_pos (mul_pos hdx hdy) hdz
  have key : ∀ e : α,
      e = -(1 / 2) * ((max.x - min.x) * (max.y - min.y) * (max.z - min.z)) → e < 0 := by
    intro e he
    rw [he]
    linarith
  intro i hi
  interval_cases i <;>
    (apply key
     simp only [CalculateNormal.faceNormal, triangleCentroid, GetPositionAt, CreateCube,
      Mesh.Create, Vector4.dot, Vector4.sub, Vector4.add, Vector4.scale,
      Vector4.CrossProduct, Nat.zero_mul, Nat.zero_add, Nat.reduceMul, Nat.reduceAdd,
      List.getD_cons_zero, List.getD_cons_succ]
     ring)

theorem CreateCube_faceNormal_inward_witness :
    (0 : ℚ) < 1 ∧ (0 : ℚ) < 2 ∧ (0 : ℚ) < 3 ∧
    (CalculateNormal.faceNormal (CreateCube (⟨0, 0, 0⟩ : Vector4 ℚ) ⟨1, 2, 3⟩) 7).dot
      ((triangleCentroid (CreateCube (⟨0, 0, 0⟩ : Vector4 ℚ) ⟨1, 2, 3⟩) 7).sub
        (((⟨0, 0, 0⟩ : Vector4 ℚ).add ⟨1, 2, 3⟩).scale (1 / 2))) < 0 :=
  ⟨by norm_num, by norm_num, by norm_num,
    CreateCube_faceNormal_inward ⟨0, 0, 0⟩ ⟨1, 2, 3⟩ (by norm_num) (by norm_num) (by norm_num)
      7 (by norm_num)⟩

/-- C9 as stated fails: for the cube from `(0,0,0)` to `(1,2,3)` the face normals are not
all outward; already the first front triangle `(0,3,2)` has a normal whose dot product with
(centroid - centre) is negative. -/
theorem CreateCube_faceNormal_not_outward :
    ¬ (∀ i, i < 12 →
      0 < (CalculateNormal.faceNormal (CreateCube (⟨0, 0, 0⟩ : Vector4 ℚ) ⟨1, 2, 3⟩) i).dot
        ((triangleCentroid (CreateCube (⟨0, 0, 0⟩ : Vector4 ℚ) ⟨1, 2, 3⟩) i).sub
          (((⟨0, 0, 0⟩ : Vector4 ℚ).add ⟨1, 2, 3⟩).scale (1 / 2)))) := by
  intro h
  have h0 := h 0 (by decide)
  revert h0
  decide!

theorem refine_length (sqrt : α → α) (radius : α) :
    ∀ (indices : List Nat) (st : IcoState α) (newIndices : List Nat),
      (IcoSphere.refine sqrt radius st indices newIndices).2.length
        = newIndices.length + 12 * (indices.length / 3)
  | i1 :: i2 :: i3 :: rest, st, newIndices => by
    rw [IcoSphere.refine, refine_length sqrt radius rest]
    simp only [List.length_append, List.length_cons, List.length_nil]
    omega
  | [], st, newIndices => by simp [IcoSphere.refine]
  | [_], st, newIndices => by simp [IcoSphere.refine]
  | [_, _], st, newIndices => by simp [IcoSphere.refine]

theorem refineLevels_length (sqrt : α → α) (radius : α) :
    ∀ (n k : Nat) (r : IcoState α × List Nat), r.2.length = 60 * 4 ^ k →
      (IcoSphere.refineLevels sqrt radius n r).2.length = 60 * 4 ^ (k + n) := by
  intro n
  induction n with
  | zero => intro k r h; simpa [IcoSphere.refineLevels] using h
  | succ n ih =>
    intro k r h
    rw [IcoSphere.refineLevels, ih (k + 1)]
    · congr 2; omega
    · rw [refine_length, h]
      simp only [List.length_nil, pow_succ]
      omega

/-- C6: for every level `level ≥ 0`, `CreateIcoSphere` returns a mesh with exactly
`20 * 4 ^ level` triangles, that is `60 * 4 ^ level` indices. -/
theorem CreateIcoSphere_triangleCount (sqrt : α → α) (radius : α) (level : Nat) :
    (CreateIcoSphere sqrt radius (level : Int)).Indices.length = 60 * 4 ^ level ∧
    (CreateIcoSphere sqrt radius (level : Int)).triangleCount = 20 * 4 ^ level := by
  have h : (CreateIcoSphere sqrt radius (level : Int)).Indices.length = 60 * 4 ^ level := by
    simp only [CreateIcoSphere, Int.toNat_ofNat]
    have := refineLevels_length sqrt radius level 0
      (IcoSphere.initialState sqrt radius, IcoSphere.initialIndices)
      (by simp [IcoSphere.initialIndices])
    simpa using this
  refine ⟨h, ?_⟩
  unfold Mesh.triangleCount
  rw [h]
  omega

end PrimitiveClaims

section IcoClaims

variable {α : Type} [LinearOrderedField α]

/-- C7: for every level whose vertex indices fit the 32-bit `int` of the code
(`10 * 4 ^ level + 2 ≤ 2 ^ 31`), `CreateIcoSphere` returns a mesh with
`10 * 4 ^ level + 2` vertices, which is `triangle_count / 2 + 2`. -/
theorem CreateIcoSphere_vertexCount (sqrt : α → α) (radius : α) (level : Nat)
    (hlevel : 10 * 4 ^ level + 2 ≤ 2 ^ 31) :
    (CreateIcoSphere sqrt radius (level : Int)).vertexCount = 10 * 4 ^ level + 2 ∧
    (CreateIcoSphere sqrt radius (level : Int)).vertexCount =
      (CreateIcoSphere sqrt radius (level : Int)).triangleCount / 2 + 2 := by
  have hinv := LevelInv_final sqrt radius level (by omega)
  have hv : (CreateIcoSphere sqrt radius (level : Int)).vertexCount = 10 * 4 ^ level + 2 := by
    simp only [CreateIcoSphere, Int.toNat_ofNat, Mesh.vertexCount]
    rw [hinv.cache.plen, hinv.verts]
    omega
  have ht : (CreateIcoSphere sqrt radius (level : Int)).triangleCount = 20 * 4 ^ level := by
    have h60 := refineLevels_length sqrt radius level 0
      (IcoSphere.initialState sqrt radius, IcoSphere.initialIndices)
      (by simp [IcoSphere.initialIndices])
    simp only [CreateIcoSphere, Int.toNat_ofNat, Mesh.triangleCount]
    rw [h60, Nat.zero_add]
    omega
  refine ⟨hv, ?_⟩
  rw [hv, ht]
  omega

theorem CreateIcoSphere_vertexCount_witness :
    10 * 4 ^ 2 + 2 ≤ 2 ^ 31 ∧
    (CreateIcoSphere (fun x : ℚ => x) 1 ((2 : Nat) : Int)).vertexCount = 10 * 4 ^ 2 + 2 ∧
    (CreateIcoSphere (fun x : ℚ => x) 1 ((2 : Nat) : Int)).vertexCount =
      (CreateIcoSphere (fun x : ℚ => x) 1 ((2 : Nat) : Int)).triangleCount / 2 + 2 :=
  ⟨by norm_num, CreateIcoSphere_vertexCount (fun x : ℚ => x) 1 2 (by norm_num)⟩

/-- C8: for every radius `r > 0` and every level whose vertex indices fit the 32-bit `int` of
the code, every vertex of `CreateIcoSphere` satisfies `x^2 + y^2 + z^2 = r^2`, in exact
arithmetic with `sqrt` a square root on the positive numbers. -/
theorem CreateIcoSphere_on_sphere (sqrt : α → α) (radius : α)
    (hsqrt : ∀ s : α, 0 < s → 0 < sqrt s ∧ sqrt s * sqrt s = s) (hr : 0 < radius)
    (level : Nat) (hlevel : 10 * 4 ^ level + 2 ≤ 2 ^ 31) :
    ∀ i, i < (CreateIcoSphere sqrt radius (level : Int)).vertexCount →
      (GetPositionAt (CreateIcoSphere sqrt radius (level : Int)) i).SquareLength
        = radius * radius := by
  have hinv := LevelInv_final sqrt radius level (by omega)
  have hgeo := GeoLevel_refineLevels sqrt radius hsqrt hr level 0
    (IcoSphere.initialState sqrt radius, IcoSphere.initialIndices)
    (LevelInv_initial sqrt radius) (GeoLevel_initial sqrt radius hsqrt hr)
    (by rw [Nat.zero_add]; omega)
  intro i hi
  have hv : (CreateIcoSphere sqrt radius (level : Int)).vertexCount
      = (IcoSphere.refineLevels sqrt radius level
        (IcoSphere.initialState sqrt radius, IcoSphere.initialIndices)).1.index := by
    simp only [CreateIcoSphere, Int.toNat_ofNat, Mesh.vertexCount]
    rw [hinv.cache.plen]
    omega
  rw [hv] at hi
  have := hgeo.geo.sphere i hi
  simpa [CreateIcoSphere, GetPositionAt, posOf] using this

theorem CreateIcoSphere_on_sphere_witness :
    (∀ s : ℝ, 0 < s → 0 < Real.sqrt s ∧ Real.sqrt s * Real.sqrt s = s) ∧ (0 : ℝ) < 2 ∧
    10 * 4 ^ 1 + 2 ≤ 2 ^ 31 ∧
    ∀ i, i < (CreateIcoSphere Real.sqrt (2 : ℝ) ((1 : Nat) : Int)).vertexCount →
      (GetPositionAt (CreateIcoSphere Real.sqrt (2 : ℝ) ((1 : Nat) : Int)) i).SquareLength
        = 2 * 2 :=
  ⟨fun s hs => ⟨Real.sqrt_pos.mpr hs, Real.mul_self_sqrt hs.le⟩, by norm_num, by norm_num,
    CreateIcoSphere_on_sphere Real.sqrt 2
      (fun s hs => ⟨Real.sqrt_pos.mpr hs, Real.mul_self_sqrt hs.le⟩) (by norm_num) 1
      (by norm_num)⟩

end IcoClaims

/-! ## CalculateNormal and CalculateTangent: the accumulation loops -/

section NormalsTangents

variable {α : Type} [LinearOrderedField α]

theorem Vector4_add_def (a b : Vector4 α) : a + b = a.add b := rfl

theorem Vector4_zero_def : (0 : Vector4 α) = Vector4.Zero := rfl

theorem getD_set {β : Type} (l : List β) (i j : Nat) (a d : β) :
    (l.set i a).getD j d = if i = j ∧ i < l.length then a else l.getD j d := by
  by_cases h : i = j
  · subst h
    by_cases hl : i < l.length
    · rw [if_pos ⟨rfl, hl⟩, getD_set_self _ _ _ _ hl]
    · rw [if_neg (fun c => hl c.2), List.set_eq_of_length_le (by omega)]
  · rw [if_neg (fun c => h c.1), getD_set_ne _ _ _ _ _ h]

theorem length_addVectorAt (data : List α) (idx : Nat) (n : Vector4 α) :
    (addVectorAt data idx n).length = data.length := by
  simp [addVectorAt]

theorem posOf_addVectorAt (data : List α) (idx v : Nat) (n : Vector4 α)
    (hv : v * 3 + 2 < data.length) :
    posOf (addVectorAt data idx n) v
      = if idx = v then posOf data v + n else posOf data v := by
  by_cases h : idx = v
  · subst h
    rw [if_pos rfl, Vector4_add_def]
    simp only [posOf, addVectorAt, Vector4.add, getD_set, List.length_set, Vector4.mk.injEq]
    refine ⟨?_, ?_, ?_⟩ <;> split_ifs <;>
      first | rfl | omega | (simp only [true_and] at *; omega)
  · rw [if_neg h]
    simp only [posOf, addVectorAt, getD_set, List.length_set, Vector4.mk.injEq]
    refine ⟨?_, ?_, ?_⟩ <;> split_ifs <;> first | rfl | omega

theorem posOf_normalizeVectorAt (sqrt : α → α) (data : List α) (i v : Nat)
    (hi : i * 3 + 2 < data.length) :
    posOf (normalizeVectorAt sqrt data i) v
      = if i = v then Vector4.Normalized sqrt (posOf data v) else posOf data v := by
  by_cases h : i = v
  · subst h
    rw [if_pos rfl]
    simp only [posOf, normalizeVectorAt, getD_set, List.length_set, Vector4.mk.injEq]
    ext <;> simp only <;> split_ifs <;>
      first | rfl | omega | (simp only [true_and] at *; omega)
  · rw [if_neg h]
    simp only [posOf, normalizeVectorAt, getD_set, List.length_set, Vector4.mk.injEq]
    refine ⟨?_, ?_, ?_⟩ <;> split_ifs <;> first | rfl | omega

theorem length_normalizeVectorAt (sqrt : α → α) (data : List α) (i : Nat) :
    (normalizeVectorAt sqrt data i).length = data.length := by
  simp [normalizeVectorAt]

/-- The accumulation loop shared by `CalculateNormal` and `CalculateTangent`, for an
arbitrary per-triangle vector `face`. -/
theorem posOf_foldl_addVectorAt (indices : List Nat) (face : Nat → Vector4 α) (init : List α)
    (v : Nat) (hv : v * 3 + 2 < init.length) (n : Nat) :
    ((List.range n).foldl (fun data i =>
        addVectorAt (addVectorAt (addVectorAt data (indices.getD (i * 3) 0) (face i))
          (indices.getD (i * 3 + 1) 0) (face i)) (indices.getD (i * 3 + 2) 0) (face i))
        init).length = init.length ∧
    posOf ((List.range n).foldl (fun data i =>
        addVectorAt (addVectorAt (addVectorAt data (indices.getD (i * 3) 0) (face i))
          (indices.getD (i * 3 + 1) 0) (face i)) (indices.getD (i * 3 + 2) 0) (face i))
        init) v
      = posOf init v + cornerSum indices face n v := by
  induction n with
  | zero => simp [cornerSum]
  | succ n ih =>
    obtain ⟨hlen, hpos⟩ := ih
    rw [List.range_succ, List.foldl_append]
    simp only [List.foldl_cons, List.foldl_nil]
    refine ⟨by rw [length_addVectorAt, length_addVectorAt, length_addVectorAt, hlen], ?_⟩
    rw [posOf_addVectorAt _ _ _ _ (by rw [length_addVectorAt, length_addVectorAt, hlen]; exact hv),
      posOf_addVectorAt _ _ _ _ (by rw [length_addVectorAt, hlen]; exact hv),
      posOf_addVectorAt _ _ _ _ (by rw [hlen]; exact hv), hpos]
    unfold cornerSum
    rw [Finset.sum_range_succ, Finset.sum_range_succ, Finset.sum_range_succ,
      Finset.sum_range_one]
    simp only [Nat.add_zero]
    split_ifs <;> abel

theorem posOf_foldl_normalizeVectorAt (sqrt : α → α) (data : List α) (v : Nat) (n : Nat)
    (hn : n * 3 ≤ data.length) :
    ((List.range n).foldl (normalizeVectorAt sqrt) data).length = data.length ∧
    posOf ((List.range n).foldl (normalizeVectorAt sqrt) data) v
      = if v < n then Vector4.Normalized sqrt (posOf data v) else posOf data v := by
  induction n with
  | zero => simp
  | succ n ih =>
    obtain ⟨hlen, hpos⟩ := ih (by omega)
    rw [List.range_succ, List.foldl_append]
    simp only [List.foldl_cons, List.foldl_nil]
    refine ⟨by rw [length_normalizeVectorAt, hlen], ?_⟩
    rw [posOf_normalizeVectorAt _ _ _ _ (by rw [hlen]; omega), hpos]
    by_cases h : n = v
    · subst h
      rw [if_pos rfl, if_neg (lt_irrefl _), if_pos (Nat.lt_succ_self _)]
    · rw [if_neg h]
      by_cases h2 : v < n
      · rw [if_pos h2, if_pos (by omega)]
      · rw [if_neg h2, if_neg (by omega)]

theorem CalculateNormal_accumulate_spec (mesh : Mesh α) (v : Nat)
    (hv : v < mesh.vertexCount) :
    (CalculateNormal.accumulate mesh).length = mesh.Positions.length ∧
    posOf (CalculateNormal.accumulate mesh) v
      = cornerSum mesh.Indices (CalculateNormal.faceNormal mesh) mesh.triangleCount v := by
  have hv3 : v * 3 + 2 < (List.replicate mesh.Positions.length (0 : α)).length := by
    rw [List.length_replicate]
    unfold Mesh.vertexCount at hv
    omega
  have h := posOf_foldl_addVectorAt mesh.Indices (CalculateNormal.faceNormal mesh)
    (List.replicate mesh.Positions.length 0) v hv3 mesh.triangleCount
  have hz : posOf (List.replicate mesh.Positions.length (0 : α)) v = 0 := by
    rw [Vector4_zero_def]
    simp only [posOf, Vector4.Zero, List.getD_eq_getElem?_getD, List.getElem?_replicate]
    ext <;> simp only <;> split_ifs <;> rfl
  rw [hz, zero_add, List.length_replicate] at h
  exact h

theorem CalculateTangent_accumulate_spec (mesh : Mesh α) (v : Nat)
    (hv : v < mesh.vertexCount) :
    (CalculateTangent.accumulate mesh).length = mesh.Positions.length ∧
    posOf (CalculateTangent.accumulate mesh) v
      = cornerSum mesh.Indices (CalculateTangent.triangleTangent mesh) mesh.triangleCount v := by
  have hv3 : v * 3 + 2 < (List.replicate mesh.Positions.length (0 : α)).length := by
    rw [List.length_replicate]
    unfold Mesh.vertexCount at hv
    omega
  have h := posOf_foldl_addVectorAt mesh.Indices (CalculateTangent.triangleTangent mesh)
    (List.replicate mesh.Positions.length 0) v hv3 mesh.triangleCount
  have hz : posOf (List.replicate mesh.Positions.length (0 : α)) v = 0 := by
    rw [Vector4_zero_def]
    simp only [posOf, Vector4.Zero, List.getD_eq_getElem?_getD, List.getElem?_replicate]
    ext <;> simp only <;> split_ifs <;> rfl
  rw [hz, zero_add, List.length_replicate] at h
  exact h

theorem CalculateNormal_Normals (sqrt : α → α) (mesh : Mesh α) (v : Nat)
    (hv : v < mesh.vertexCount) :
    (CalculateNormal sqrt mesh).Normals.length = mesh.Positions.length ∧
    posOf (CalculateNormal sqrt mesh).Normals v
      = Vector4.Normalized sqrt (posOf (CalculateNormal.accumulate mesh) v) := by
  have hl := (CalculateNormal_accumulate_spec mesh v hv).1
  have h := posOf_foldl_normalizeVectorAt sqrt (CalculateNormal.accumulate mesh) v
    (mesh.Positions.length / 3) (by rw [hl]; omega)
  have hv2 : v < mesh.Positions.length / 3 := hv
  rw [if_pos hv2, hl] at h
  exact h

end NormalsTangents

/-! ## The quad of CreateQuad under CalculateNormal -/

section QuadClaims

variable {α : Type} [LinearOrderedField α]

theorem cornerSum_quad (face : Nat → Vector4 α) :
    cornerSum [0, 1, 2, 2, 3, 0] face 2 0 = face 0 + face 1 ∧
    cornerSum [0, 1, 2, 2, 3, 0] face 2 1 = face 0 ∧
    cornerSum [0, 1, 2, 2, 3, 0] face 2 2 = face 0 + face 1 ∧
    cornerSum [0, 1, 2, 2, 3, 0] face 2 3 = face 1 := by
  simp [cornerSum, Finset.sum_range_succ]

theorem CreateQuad_faceNormal (min max : Vector4 α) (hz : min.z = max.z) (i : Nat)
    (hi : i < 2) :
    CalculateNormal.faceNormal (CreateQuad min max) i
      = ⟨0, 0, (max.x - min.x) * (max.y - min.y)⟩ := by
  interval_cases i <;>
    (simp only [CalculateNormal.faceNormal, GetPositionAt, CreateQuad, Mesh.Create,
      Vector4.sub, Vector4.CrossProduct, Nat.zero_mul, Nat.zero_add, Nat.reduceMul,
      Nat.reduceAdd, List.getD_cons_zero, List.getD_cons_succ, hz, Vector4.mk.injEq]
     refine ⟨?_, ?_, ?_⟩ <;> ring)

theorem CreateQuad_counts (min max : Vector4 α) :
    (CreateQuad min max).vertexCount = 4 ∧ (CreateQuad min max).triangleCount = 2 := by
  simp [Mesh.vertexCount, Mesh.triangleCount, CreateQuad, Mesh.Create]

/-- The accumulated normal of every vertex of a planar quad is a multiple `1` or `2` of
`(0, 0, dx * dy)`. -/
theorem CreateQuad_accumulate (min max : Vector4 α) (hz : min.z = max.z) (v : Nat)
    (hv : v < 4) :
    ∃ c : α, (c = 1 ∨ c = 2) ∧
      posOf (CalculateNormal.accumulate (CreateQuad min max)) v
        = ⟨0, 0, c * ((max.x - min.x) * (max.y - min.y))⟩ := by
  have hcnt := CreateQuad_counts min max
  have hacc := (CalculateNormal_accumulate_spec (CreateQuad min max) v
    (by rw [hcnt.1]; exact hv)).2
  rw [hcnt.2] at hacc
  have hI : (CreateQuad min max).Indices = [0, 1, 2, 2, 3, 0] := rfl
  rw [hI] at hacc
  have hs := cornerSum_quad (CalculateNormal.faceNormal (CreateQuad min max))
  rw [CreateQuad_faceNormal min max hz 0 (by norm_num),
    CreateQuad_faceNormal min max hz 1 (by norm_num)] at hs
  obtain ⟨h0, h1, h2, h3⟩ := hs
  interval_cases v
  · refine ⟨2, Or.inr rfl, ?_⟩
    rw [hacc, h0, Vector4_add_def]
    simp only [Vector4.add, Vector4.mk.injEq]
    refine ⟨?_, ?_, ?_⟩ <;> ring
  · refine ⟨1, Or.inl rfl, ?_⟩
    rw [hacc, h1, one_mul]
  · refine ⟨2, Or.inr rfl, ?_⟩
    rw [hacc, h2, Vector4_add_def]
    simp only [Vector4.add, Vector4.mk.injEq]
    refine ⟨?_, ?_, ?_⟩ <;> ring
  · refine ⟨1, Or.inl rfl, ?_⟩
    rw [hacc, h3, one_mul]

theorem Normalized_z_axis (sqrt : α → α)
    (hsqrt : ∀ s, 0 < s → 0 < sqrt s ∧ sqrt s * sqrt s = s) (c : α) (hc : c ≠ 0) :
    (Vector4.Normalized sqrt ⟨0, 0, c⟩).z = 1 ∨ (Vector4.Normalized sqrt ⟨0, 0, c⟩).z = -1 := by
  have hcc : 0 < c * c := mul_self_pos.mpr hc
  have hsl : (⟨0, 0, c⟩ : Vector4 α).SquareLength = c * c := by
    simp [Vector4.SquareLength]
  obtain ⟨hp, hm⟩ := hsqrt (c * c) hcc
  simp only [Vector4.Normalized, Vector4.scale, hsl]
  have hfac : (sqrt (c * c) - c) * (sqrt (c * c) + c) = 0 := by
    have : (sqrt (c * c) - c) * (sqrt (c * c) + c)
        = sqrt (c * c) * sqrt (c * c) - c * c := by ring
    rw [this, hm, sub_self]
  rcases mul_eq_zero.mp hfac with h | h
  · left
    have hs : sqrt (c * c) = c := by linarith
    rw [hs]
    field_simp
  · right
    have hs : sqrt (c * c) = -c := by linarith
    rw [hs]
    field_simp

end QuadClaims

/-! ## Claims on CreateQuad and CalculateNormal -/

section QuadTheorems

variable {α : Type} [LinearOrderedField α]

/-- C11: for every `min` and `max`, `CreateQuad` returns a mesh with exactly 4 vertices and
2 triangles, `Indices = 0,1,2,2,3,0` and the per-vertex UVs `(1,1)`, `(0,1)`, `(0,0)`, `(1,0)`
in vertex order; for `min < max` in x and y with `min.z = max.z` both triangles have the face
normal `(b - a) x (c - b)` along the positive z axis (counter-clockwise winding). -/
theorem CreateQuad_shape (min max : Vector4 α) :
    (CreateQuad min max).vertexCount = 4 ∧
    (CreateQuad min max).triangleCount = 2 ∧
    (CreateQuad min max).Indices = [0, 1, 2, 2, 3, 0] ∧
    (CreateQuad min max).UVs = [1, 1, 0, 1, 0, 0, 1, 0] ∧
    (vertexAt (CreateQuad min max) 0).UV = ⟨1, 1, 0⟩ ∧
    (vertexAt (CreateQuad min max) 1).UV = ⟨0, 1, 0⟩ ∧
    (vertexAt (CreateQuad min max) 2).UV = ⟨0, 0, 0⟩ ∧
    (vertexAt (CreateQuad min max) 3).UV = ⟨1, 0, 0⟩ ∧
    (min.x < max.x → min.y < max.y → min.z = max.z →
      ∀ i, i < 2 →
        (CalculateNormal.faceNormal (CreateQuad min max) i).x = 0 ∧
        (CalculateNormal.faceNormal (CreateQuad min max) i).y = 0 ∧
        0 < (CalculateNormal.faceNormal (CreateQuad min max) i).z) := by
  refine ⟨(CreateQuad_counts min max).1, (CreateQuad_counts min max).2, rfl, rfl,
    ?_, ?_, ?_, ?_, ?_⟩
  · simp [vertexAt, CreateVertex, Flags.ofMesh, CreateQuad, Mesh.Create, Vertex.Empty]
  · simp [vertexAt, CreateVertex, Flags.ofMesh, CreateQuad, Mesh.Create, Vertex.Empty]
  · simp [vertexAt, CreateVertex, Flags.ofMesh, CreateQuad, Mesh.Create, Vertex.Empty]
  · simp [vertexAt, CreateVertex, Flags.ofMesh, CreateQuad, Mesh.Create, Vertex.Empty]
  · intro hx hy hz i hi
    rw [CreateQuad_faceNormal min max hz i hi]
    exact ⟨rfl, rfl, mul_pos (sub_pos.mpr hx) (sub_pos.mpr hy)⟩

theorem CreateQuad_shape_witness :
    (0 : ℚ) < 2 ∧ (0 : ℚ) < 3 ∧ (5 : ℚ) = 5 ∧
    0 < (CalculateNormal.faceNormal (CreateQuad (⟨0, 0, 5⟩ : Vector4 ℚ) ⟨2, 3, 5⟩) 1).z :=
  ⟨by norm_num, by norm_num, rfl,
    ((CreateQuad_shape (⟨0, 0, 5⟩ : Vector4 ℚ) ⟨2, 3, 5⟩).2.2.2.2.2.2.2.2
      (by norm_num) (by norm_num) rfl 1 (by norm_num)).2.2⟩

/-- C12: for a quad of `CreateQuad` in an XY plane (`min.z = max.z`, `min.x < max.x`,
`min.y < max.y`), the vector that `CalculateNormal` accumulates for each of the 4 vertices has
zero x and y and a non-zero z, and the normal it stores has x = 0, y = 0 and z = 1 or -1. -/
theorem CalculateNormal_quad (sqrt : α → α)
    (hsqrt : ∀ s, 0 < s → 0 < sqrt s ∧ sqrt s * sqrt s = s)
    (min max : Vector4 α) (hz : min.z = max.z) (hx : min.x < max.x) (hy : min.y < max.y) :
    ∀ v, v < 4 →
      ((posOf (CalculateNormal.accumulate (CreateQuad min max)) v).x = 0 ∧
       (posOf (CalculateNormal.accumulate (CreateQuad min max)) v).y = 0 ∧
       (posOf (CalculateNormal.accumulate (CreateQuad min max)) v).z ≠ 0) ∧
      ((posOf (CalculateNormal sqrt (CreateQuad min max)).Normals v).x = 0 ∧
       (posOf (CalculateNormal sqrt (CreateQuad min max)).Normals v).y = 0 ∧
       ((posOf (CalculateNormal sqrt (CreateQuad min max)).Normals v).z = 1 ∨
        (posOf (CalculateNormal sqrt (CreateQuad min max)).Normals v).z = -1)) := by
  intro v hv
  obtain ⟨c, hc, hacc⟩ := CreateQuad_accumulate min max hz v hv
  have hd : 0 < (max.x - min.x) * (max.y - min.y) := mul_pos (sub_pos.mpr hx) (sub_pos.mpr hy)
  have hcpos : (0 : α) < c := by rcases hc with h | h <;> rw [h] <;> norm_num
  have hne : c * ((max.x - min.x) * (max.y - min.y)) ≠ 0 := (mul_pos hcpos hd).ne.symm
  have hN := (CalculateNormal_Normals sqrt (CreateQuad min max) v
    (by rw [(CreateQuad_counts min max).1]; exact hv)).2
  rw [hN, hacc]
  refine ⟨⟨rfl, rfl, hne⟩, ?_, ?_, Normalized_z_axis sqrt hsqrt _ hne⟩
  · simp [Vector4.Normalized, Vector4.scale]
  · simp [Vector4.Normalized, Vector4.scale]

theorem CalculateNormal_quad_witness :
    (∀ s : ℝ, 0 < s → 0 < Real.sqrt s ∧ Real.sqrt s * Real.sqrt s = s) ∧
    (5 : ℝ) = 5 ∧ (0 : ℝ) < 2 ∧ (0 : ℝ) < 3 ∧
    ∀ v, v < 4 →
      ((posOf (CalculateNormal.accumulate (CreateQuad (⟨0, 0, 5⟩ : Vector4 ℝ) ⟨2, 3, 5⟩)) v).x = 0 ∧
       (posOf (CalculateNormal.accumulate (CreateQuad (⟨0, 0, 5⟩ : Vector4 ℝ) ⟨2, 3, 5⟩)) v).y = 0 ∧
       (posOf (CalculateNormal.accumulate (CreateQuad (⟨0, 0, 5⟩ : Vector4 ℝ) ⟨2, 3, 5⟩)) v).z ≠ 0) ∧
      ((posOf (CalculateNormal Real.sqrt
          (CreateQuad (⟨0, 0, 5⟩ : Vector4 ℝ) ⟨2, 3, 5⟩)).Normals v).x = 0 ∧
       (posOf (CalculateNormal Real.sqrt
          (CreateQuad (⟨0, 0, 5⟩ : Vector4 ℝ) ⟨2, 3, 5⟩)).Normals v).y = 0 ∧
       ((posOf (CalculateNormal Real.sqrt
          (CreateQuad (⟨0, 0, 5⟩ : Vector4 ℝ) ⟨2, 3, 5⟩)).Normals v).z = 1 ∨
        (posOf (CalculateNormal Real.sqrt
          (CreateQuad (⟨0, 0, 5⟩ : Vector4 ℝ) ⟨2, 3, 5⟩)).Normals v).z = -1)) :=
  ⟨fun s hs => ⟨Real.sqrt_pos.mpr hs, Real.mul_self_sqrt hs.le⟩, rfl, by norm_num, by norm_num,
    CalculateNormal_quad Real.sqrt
      (fun s hs => ⟨Real.sqrt_pos.mpr hs, Real.mul_self_sqrt hs.le⟩)
      ⟨0, 0, 5⟩ ⟨2, 3, 5⟩ rfl (by norm_num) (by norm_num)⟩

/-- C19: for every mesh with all indices below `len(Positions)/3`, `CalculateNormal` sets
`Normals` to the length of `Positions` (and every write of the triangle loop lands inside
it); before normalisation the accumulator of vertex `v` is the sum, over every triangle
`(a,b,c)` of `Indices` and every occurrence of `v` among `a`, `b`, `c`, of the face vector
`(P(b)-P(a)) x (P(c)-P(b))`; the final normal of `v` is that sum normalised. -/
theorem CalculateNormal_accumulates (sqrt : α → α) (mesh : Mesh α)
    (hidx : ∀ i ∈ mesh.Indices, i < mesh.vertexCount) :
    (CalculateNormal sqrt mesh).Normals.length = mesh.Positions.length ∧
    (∀ i ∈ mesh.Indices, i * 3 + 2 < (CalculateNormal.accumulate mesh).length) ∧
    (∀ i, CalculateNormal.faceNormal mesh i
      = ((posOf mesh.Positions (mesh.Indices.getD (i * 3 + 1) 0)).sub
          (posOf mesh.Positions (mesh.Indices.getD (i * 3) 0))).CrossProduct
        ((posOf mesh.Positions (mesh.Indices.getD (i * 3 + 2) 0)).sub
          (posOf mesh.Positions (mesh.Indices.getD (i * 3 + 1) 0)))) ∧
    ∀ v, v < mesh.vertexCount →
      posOf (CalculateNormal.accumulate mesh) v
        = ∑ i ∈ Finset.range mesh.triangleCount, ∑ k ∈ Finset.range 3,
            (if mesh.Indices.getD (i * 3 + k) 0 = v
              then CalculateNormal.faceNormal mesh i else 0) ∧
      posOf (CalculateNormal sqrt mesh).Normals v
        = Vector4.Normalized sqrt (posOf (CalculateNormal.accumulate mesh) v) := by
  have hlenA : (CalculateNormal.accumulate mesh).length = mesh.Positions.length := by
    have h := posOf_foldl_addVectorAt mesh.Indices (CalculateNormal.faceNormal mesh)
      (List.replicate mesh.Positions.length 0)
    rcases Nat.lt_or_ge 2 mesh.Positions.length with hp | hp
    · have := (h 0 (by rw [List.length_replicate]; omega) mesh.triangleCount).1
      rw [List.length_replicate] at this
      exact this
    · -- fewer than three entries: no vertex, every write falls outside
      have hnil : mesh.Indices = [] := by
        cases hI : mesh.Indices with
        | nil => rfl
        | cons a l =>
          have := hidx a (by rw [hI]; exact List.mem_cons_self _ _)
          unfold Mesh.vertexCount at this
          omega
      simp [CalculateNormal.accumulate, hnil]
  have hlenN : (CalculateNormal sqrt mesh).Normals.length = mesh.Positions.length := by
    have h := (posOf_foldl_normalizeVectorAt sqrt (CalculateNormal.accumulate mesh) 0
      (mesh.Positions.length / 3) (by rw [hlenA]; omega)).1
    rw [hlenA] at h
    exact h
  refine ⟨hlenN, ?_, fun i => rfl, ?_⟩
  · intro i hi
    have := hidx i hi
    unfold Mesh.vertexCount at this
    rw [hlenA]
    omega
  · intro v hv
    exact ⟨(CalculateNormal_accumulate_spec mesh v hv).2,
      (CalculateNormal_Normals sqrt mesh v hv).2⟩

theorem CalculateNormal_accumulates_witness :
    (∀ i ∈ (CreateQuad (⟨0, 0, 0⟩ : Vector4 ℚ) ⟨1, 1, 0⟩).Indices,
      i < (CreateQuad (⟨0, 0, 0⟩ : Vector4 ℚ) ⟨1, 1, 0⟩).vertexCount) ∧
    (CalculateNormal (fun s => s) (CreateQuad (⟨0, 0, 0⟩ : Vector4 ℚ) ⟨1, 1, 0⟩)).Normals.length
      = (CreateQuad (⟨0, 0, 0⟩ : Vector4 ℚ) ⟨1, 1, 0⟩).Positions.length :=
  ⟨by decide,
    (CalculateNormal_accumulates (fun s => s) (CreateQuad (⟨0, 0, 0⟩ : Vector4 ℚ) ⟨1, 1, 0⟩)
      (by decide)).1⟩

end QuadTheorems

/-! ## Claims on CalculateTangent -/

section TangentClaims

variable {α : Type} [LinearOrderedField α]

theorem tangentOf_z (p0 p1 p2 uv0 uv1 uv2 : Vector4 α) (h01 : p0.z = p1.z)
    (h12 : p1.z = p2.z) : (CalculateTangent.tangentOf p0 p1 p2 uv0 uv1 uv2).z = 0 := by
  simp only [CalculateTangent.tangentOf, Vector4.sub, Vector4.scale, h01, h12, sub_self,
    zero_mul]

theorem CalculateTangent_Tangents (sqrt : α → α) (mesh : Mesh α) (hN : mesh.Normals ≠ [])
    (hU : mesh.UVs ≠ []) (v : Nat) (hv : v < mesh.vertexCount) :
    (CalculateTangent sqrt mesh).Normals = mesh.Normals ∧
    (CalculateTangent sqrt mesh).Tangents.length = mesh.Positions.length ∧
    posOf (CalculateTangent sqrt mesh).Tangents v
      = Vector4.Normalized sqrt (posOf (CalculateTangent.accumulate mesh) v) := by
  have hg : ¬ (mesh.Normals.length = 0 ∨ mesh.UVs.length = 0) := by
    simp [List.length_eq_zero, hN, hU]
  have hl := (CalculateTangent_accumulate_spec mesh v hv).1
  have h := posOf_foldl_normalizeVectorAt sqrt (CalculateTangent.accumulate mesh) v
    (mesh.Positions.length / 3) (by rw [hl]; omega)
  have hv2 : v < mesh.Positions.length / 3 := hv
  rw [if_pos hv2, hl] at h
  unfold CalculateTangent
  rw [if_neg hg]
  exact ⟨rfl, h.1, h.2⟩

/-- Whatever the UV array of the planar quad holds, every tangent that `CalculateTangent`
stores lies in the plane of the quad and is orthogonal to the normal. -/
theorem CalculateTangent_quad_anyUV (sqrt : α → α) (min max : Vector4 α)
    (hz : min.z = max.z) (uvs : List α) (huv : uvs ≠ []) :
    (CalculateTangent sqrt
      { CalculateNormal sqrt (CreateQuad min max) with UVs := uvs }).Tangents.length = 12 ∧
    ∀ v, v < 4 →
      (posOf (CalculateTangent sqrt
        { CalculateNormal sqrt (CreateQuad min max) with UVs := uvs }).Tangents v).dot
      (posOf (CalculateTangent sqrt
        { CalculateNormal sqrt (CreateQuad min max) with UVs := uvs }).Normals v) = 0 := by
  have hcnt := CreateQuad_counts min max
  have hNlen := (CalculateNormal_Normals sqrt (CreateQuad min max) 0
    (by rw [hcnt.1]; norm_num)).1
  have hN : (CalculateNormal sqrt (CreateQuad min max)).Normals ≠ [] := by
    intro h
    rw [h] at hNlen
    simp [CreateQuad] at hNlen
  generalize hm : ({ CalculateNormal sqrt (CreateQuad min max) with UVs := uvs } : Mesh α) = m
  have hmP : m.Positions = [max.x, max.y, max.z, min.x, max.y, max.z,
      min.x, min.y, min.z, max.x, min.y, min.z] := by rw [← hm]; rfl
  have hmI : m.Indices = [0, 1, 2, 2, 3, 0] := by rw [← hm]; rfl
  have hmN : m.Normals = (CalculateNormal sqrt (CreateQuad min max)).Normals := by
    rw [← hm]
  have hmU : m.UVs ≠ [] := by rw [← hm]; exact huv
  have hmv : m.vertexCount = 4 := by simp [Mesh.vertexCount, hmP]
  have hmt : m.triangleCount = 2 := by simp [Mesh.triangleCount, hmI]
  have hface : ∀ i, i < 2 → (CalculateTangent.triangleTangent m i).z = 0 := by
    intro i hi
    unfold CalculateTangent.triangleTangent
    apply tangentOf_z <;>
      interval_cases i <;>
        simp only [GetPositionAt, hmP, hmI, Nat.zero_mul, Nat.zero_add, Nat.reduceMul,
          Nat.reduceAdd, List.getD_cons_zero, List.getD_cons_succ, hz]
  refine ⟨?_, ?_⟩
  · have := (CalculateTangent_Tangents sqrt m (by rw [hmN]; exact hN) hmU 0
      (by rw [hmv]; norm_num)).2.1
    rw [this, hmP]
    rfl
  · intro v hv
    obtain ⟨hNs, -, hT⟩ := CalculateTangent_Tangents sqrt m (by rw [hmN]; exact hN) hmU v
      (by rw [hmv]; exact hv)
    have hacc := (CalculateTangent_accumulate_spec m v (by rw [hmv]; exact hv)).2
    rw [hmt, hmI] at hacc
    have hs := cornerSum_quad (CalculateTangent.triangleTangent m)
    have hTz : (posOf (CalculateTangent.accumulate m) v).z = 0 := by
      rw [hacc]
      obtain ⟨h0, h1, h2, h3⟩ := hs
      have e0 := hface 0 (by norm_num)
      have e1 := hface 1 (by norm_num)
      interval_cases v
      · rw [h0, Vector4_add_def]; simp [Vector4.add, e0, e1]
      · rw [h1]; exact e0
      · rw [h2, Vector4_add_def]; simp [Vector4.add, e0, e1]
      · rw [h3]; exact e1
    obtain ⟨c, -, hNacc⟩ := CreateQuad_accumulate min max hz v hv
    have hNv := (CalculateNormal_Normals sqrt (CreateQuad min max) v
      (by rw [hcnt.1]; exact hv)).2
    rw [hNs, hmN, hNv, hNacc, hT]
    simp [Vector4.dot, Vector4.Normalized, Vector4.scale, hTz]

end TangentClaims

/-! ## The bounds-checked run of CalculateTangent -/

section CheckedTangent

variable {α : Type} [LinearOrderedField α]

theorem checkedRead_some (data : List α) (j : Nat) (x : α)
    (h : checkedRead data j = some x) : data.getD j 0 = x := by
  unfold checkedRead at h
  rw [List.getD_eq_getElem?_getD, h]
  rfl

theorem checkedRead_nat_some (data : List Nat) (j : Nat) (x : Nat)
    (h : checkedRead data j = some x) : data.getD j 0 = x := by
  unfold checkedRead at h
  rw [List.getD_eq_getElem?_getD, h]
  rfl

theorem checkedAdd_some (data : List α) (j : Nat) (x : α) (d : List α)
    (h : checkedAdd data j x = some d) : d = data.set j (data.getD j 0 + x) := by
  unfold checkedAdd at h
  cases hr : checkedRead data j with
  | none => rw [hr] at h; simp at h
  | some y =>
    rw [hr] at h
    simp only [Option.map_some', Option.some.injEq] at h
    rw [checkedRead_some data j y hr, h]

theorem checkedWrite_some (data : List α) (j : Nat) (x : α) (d : List α)
    (h : checkedWrite data j x = some d) : d = data.set j x := by
  unfold checkedWrite at h
  cases hr : checkedRead data j with
  | none => rw [hr] at h; simp at h
  | some y =>
    rw [hr] at h
    simp only [Option.map_some', Option.some.injEq] at h
    exact h.symm

theorem checkedGetPositionAt_some (mesh : Mesh α) (index : Nat) (p : Vector4 α)
    (h : CalculateTangent.checkedGetPositionAt mesh index = some p) :
    p = GetPositionAt mesh index := by
  simp only [CalculateTangent.checkedGetPositionAt, bind, Option.bind_eq_some, pure,
    Option.some.injEq] at h
  obtain ⟨x, hx, y, hy, z, hz, rfl⟩ := h
  simp only [GetPositionAt, checkedRead_some _ _ _ hx, checkedRead_some _ _ _ hy,
    checkedRead_some _ _ _ hz]

theorem checkedGetUVAt_some (mesh : Mesh α) (index : Nat) (p : Vector4 α)
    (h : CalculateTangent.checkedGetUVAt mesh index = some p) :
    p = CalculateTangent.GetUVAt mesh index := by
  simp only [CalculateTangent.checkedGetUVAt, bind, Option.bind_eq_some, pure,
    Option.some.injEq] at h
  obtain ⟨x, hx, y, hy, rfl⟩ := h
  simp only [CalculateTangent.GetUVAt, checkedRead_some _ _ _ hx, checkedRead_some _ _ _ hy]

theorem checkedSetTangentAt_some (tangents : List α) (index : Nat) (t : Vector4 α)
    (d : List α) (h : CalculateTangent.checkedSetTangentAt tangents index t = some d) :
    d = CalculateTangent.SetTangentAt tangents index t := by
  simp only [CalculateTangent.checkedSetTangentAt, bind, Option.bind_eq_some] at h
  obtain ⟨d1, h1, d2, h2, h3⟩ := h
  rw [checkedAdd_some _ _ _ _ h3, checkedAdd_some _ _ _ _ h2, checkedAdd_some _ _ _ _ h1]
  rfl

theorem checkedTriangleStep_some (mesh : Mesh α) (tangents : List α) (i : Nat) (d : List α)
    (h : CalculateTangent.checkedTriangleStep mesh tangents i = some d) :
    d = CalculateTangent.triangleStep mesh tangents i := by
  simp only [CalculateTangent.checkedTriangleStep, CalculateTangent.checkedCorners,
    CalculateTangent.checkedPositions, CalculateTangent.checkedUVs,
    CalculateTangent.checkedSetCorners, bind, Option.bind_eq_some, pure,
    Option.some.injEq] at h
  obtain ⟨c, ⟨ia, hia, ib, hib, ic, hic, rfl⟩, p, ⟨p0, hp0, p1, hp1, p2, hp2, rfl⟩,
    uv, ⟨uv0, hu0, uv1, hu1, uv2, hu2, rfl⟩, d1, h1, d2, h2, h3⟩ := h
  simp only at hp0 hp1 hp2 hu0 hu1 hu2 h1 h2 h3
  rw [checkedSetTangentAt_some _ _ _ _ h3, checkedSetTangentAt_some _ _ _ _ h2,
    checkedSetTangentAt_some _ _ _ _ h1, checkedGetPositionAt_some _ _ _ hp0,
    checkedGetPositionAt_some _ _ _ hp1, checkedGetPositionAt_some _ _ _ hp2,
    checkedGetUVAt_some _ _ _ hu0, checkedGetUVAt_some _ _ _ hu1,
    checkedGetUVAt_some _ _ _ hu2]
  simp only [CalculateTangent.triangleStep, CalculateTangent.triangleTangent,
    checkedRead_nat_some _ _ _ hia, checkedRead_nat_some _ _ _ hib,
    checkedRead_nat_some _ _ _ hic]

theorem checkedNormalizeStep_some (sqrt : α → α) (tangents : List α) (i : Nat) (d : List α)
    (h : CalculateTangent.checkedNormalizeStep sqrt tangents i = some d) :
    d = normalizeVectorAt sqrt tangents i := by
  simp only [CalculateTangent.checkedNormalizeStep, bind, Option.bind_eq_some] at h
  obtain ⟨x, hx, y, hy, z, hz, d1, h1, d2, h2, h3⟩ := h
  rw [checkedWrite_some _ _ _ _ h3, checkedWrite_some _ _ _ _ h2,
    checkedWrite_some _ _ _ _ h1]
  simp only [normalizeVectorAt, checkedRead_some _ _ _ hx, checkedRead_some _ _ _ hy,
    checkedRead_some _ _ _ hz]

theorem foldlM_some_eq_foldl {β γ : Type} (f : β → γ → Option β) (g : β → γ → β)
    (hfg : ∀ a i b, f a i = some b → b = g a i) (l : List γ) (a b : β)
    (h : l.foldlM f a = some b) : b = l.foldl g a := by
  induction l generalizing a with
  | nil =>
    simp only [List.foldlM, pure, Option.some.injEq] at h
    simp [h]
  | cons i l ih =>
    simp only [List.foldlM, bind, Option.bind_eq_some] at h
    obtain ⟨a1, h1, h2⟩ := h
    rw [List.foldl_cons, ← hfg a i a1 h1]
    exact ih a1 h2

/-- When no access of the bounds-checked run fails, it returns the mesh that
`CalculateTangent` returns. -/
theorem CalculateTangent_checked_some (sqrt : α → α) (mesh out : Mesh α)
    (h : CalculateTangent.checked sqrt mesh = some out) : out = CalculateTangent sqrt mesh := by
  unfold CalculateTangent.checked at h
  unfold CalculateTangent
  split_ifs at h ⊢ with hg
  · exact (Option.some.inj h).symm
  · simp only [bind, Option.bind_eq_some, pure, Option.some.injEq] at h
    obtain ⟨t1, h1, t2, h2, rfl⟩ := h
    have e1 := foldlM_some_eq_foldl _ _ (checkedTriangleStep_some mesh) _ _ _ h1
    have e2 := foldlM_some_eq_foldl _ _ (checkedNormalizeStep_some sqrt) _ _ _ h2
    rw [e2, e1]
    rfl

end CheckedTangent

/-! ## CalculateTangent: the UV offset and the guard -/

section TangentBugs

variable {α : Type} [LinearOrderedField α]

theorem unitQuad_eq :
    CalculateNormal (fun s => if s = 4 then 2 else s) (CreateQuad (⟨0, 0, 0⟩ : Vector4 ℚ) ⟨1, 1, 0⟩)
      = unitQuad := by
  decide!

theorem tangentOf_stated (p0 p1 p2 uv0 uv1 uv2 : Vector4 α) :
    CalculateTangent.tangentOf p0 p1 p2 uv0 uv1 uv2 =
      if (uv1.sub uv0).x * (uv2.sub uv1).y - (uv1.sub uv0).y * (uv2.sub uv1).x = 0
      then Vector4.Zero
      else (((p1.sub p0).scale (uv2.sub uv1).y).sub ((p2.sub p1).scale (uv1.sub uv0).y)).scale
        (1 / ((uv1.sub uv0).x * (uv2.sub uv1).y - (uv1.sub uv0).y * (uv2.sub uv1).x)) := by
  unfold CalculateTangent.tangentOf
  by_cases h : (uv1.sub uv0).x * (uv2.sub uv1).y - (uv1.sub uv0).y * (uv2.sub uv1).x = 0
  · simp only [h, ne_eq, not_true_eq_false, if_false, if_true]
    simp [Vector4.scale, Vector4.Zero]
  · simp only [h, ne_eq, not_false_eq_true, if_false, if_true]

/-- The vector that the triangle loop of `CalculateTangent` adds for triangle `i` is the
stated contribution with the UV of vertex `v` read at offset `3 * v`. -/
theorem CalculateTangent_triangleTangent_stride (mesh : Mesh α) (i : Nat) :
    CalculateTangent.triangleTangent mesh i = Stated.triangleTangent 3 mesh i := by
  unfold CalculateTangent.triangleTangent
  rw [tangentOf_stated]
  simp only [Stated.triangleTangent, CalculateTangent.GetUVAt, Stated.UVAt, GetPositionAt,
    posOf, Nat.mul_comm 3]

/-- C14, the code against the claim at a concrete input: on the unit quad with normals,
`GetUVAt` reads the UV of vertex 1 at offset `1 * 3` and finds `(1, 0)` where the stated pair
`(UVs[2], UVs[3])` is `(0, 1)`; for triangle `(0, 1, 2)` the code computes `cross = 0` and
contributes the zero vector where the stated contribution is `(1, 0, 0)`, and vertex 1 ends
with the zero vector as accumulated tangent. -/
theorem CalculateTangent_triangleTangent_unitQuad :
    CalculateTangent.GetUVAt unitQuad 1 = ⟨1, 0, 0⟩ ∧
    Stated.UVAt 2 unitQuad 1 = ⟨0, 1, 0⟩ ∧
    CalculateTangent.triangleTangent unitQuad 0 = ⟨0, 0, 0⟩ ∧
    Stated.triangleTangent 2 unitQuad 0 = ⟨1, 0, 0⟩ ∧
    posOf (CalculateTangent.accumulate unitQuad) 1 = ⟨0, 0, 0⟩ := by
  decide!

/-- C15, the code against the claim at a concrete input: the unit quad with normals is
well formed (`len(UVs)/2 = len(Positions)/3 = 4`, normals present, every index below 4), and
`GetUVAt` of vertex 3 reads `UVs[9]` in an array of 8 entries; the bounds-checked run of
`CalculateTangent` fails, for every `sqrt`. -/
theorem CalculateTangent_checked_unitQuad :
    (unitQuad.UVs.length / 2 = unitQuad.Positions.length / 3 ∧
      unitQuad.Normals ≠ [] ∧
      ∀ i ∈ unitQuad.Indices, i < unitQuad.Positions.length / 3) ∧
    unitQuad.UVs.length = 8 ∧
    checkedRead unitQuad.UVs (3 * 3) = none ∧
    CalculateTangent.checkedGetUVAt unitQuad 3 = none ∧
    ∀ sqrt : ℚ → ℚ, CalculateTangent.checked sqrt unitQuad = none := by
  refine ⟨by decide, by decide, by decide, by decide, ?_⟩
  intro sqrt
  have h : (List.range (unitQuad.Indices.length / 3)).foldlM
      (CalculateTangent.checkedTriangleStep unitQuad)
      (List.replicate unitQuad.Positions.length 0) = none := by decide!
  have hg : ¬ (unitQuad.Normals.length = 0 ∨ unitQuad.UVs.length = 0) := by decide
  unfold CalculateTangent.checked
  rw [if_neg hg]
  simp only [h]
  rfl

/-- C16: for every mesh whose `Normals` array is empty or whose `UVs` array is empty,
`CalculateTangent` returns the mesh unchanged (the `Tangents` included), and the bounds-checked
run returns it without a failed access. -/
theorem CalculateTangent_noop (sqrt : α → α) (mesh : Mesh α)
    (h : mesh.Normals = [] ∨ mesh.UVs = []) :
    CalculateTangent sqrt mesh = mesh ∧ CalculateTangent.checked sqrt mesh = some mesh := by
  have hg : mesh.Normals.length = 0 ∨ mesh.UVs.length = 0 := by
    rcases h with h | h
    · left; rw [h]; rfl
    · right; rw [h]; rfl
  unfold CalculateTangent CalculateTangent.checked
  rw [if_pos hg, if_pos hg]
  exact ⟨rfl, rfl⟩

theorem CalculateTangent_noop_witness :
    ((CreateQuad (⟨0, 0, 0⟩ : Vector4 ℚ) ⟨1, 1, 0⟩).Normals = [] ∨
      (CreateQuad (⟨0, 0, 0⟩ : Vector4 ℚ) ⟨1, 1, 0⟩).UVs = []) ∧
    CalculateTangent (fun s => s) (CreateQuad (⟨0, 0, 0⟩ : Vector4 ℚ) ⟨1, 1, 0⟩)
      = CreateQuad (⟨0, 0, 0⟩ : Vector4 ℚ) ⟨1, 1, 0⟩ :=
  ⟨Or.inl rfl,
    (CalculateTangent_noop (fun s => s) (CreateQuad (⟨0, 0, 0⟩ : Vector4 ℚ) ⟨1, 1, 0⟩)
      (Or.inl rfl)).1⟩

end TangentBugs

/-! ## The ring generators CreateSphere and CreateCylinder -/

section Rings

variable {α : Type} [LinearOrderedField α]

theorem fillRing_spec (cos sin : α → α) (avgRadian currentRadius currentHeight : α)
    (segV : Int) (st : RingState α) :
    (RingState.fillRing cos sin avgRadian currentRadius currentHeight segV st).Positions.length
      = st.Positions.length + 3 * segV.toNat ∧
    (RingState.fillRing cos sin avgRadian currentRadius currentHeight segV st).currentRing.length
      = st.currentRing.length + segV.toNat ∧
    (RingState.fillRing cos sin avgRadian currentRadius currentHeight segV st).previousRing
      = st.previousRing := by
  unfold RingState.fillRing
  induction segV.toNat with
  | zero => simp
  | succ m ih =>
    rw [List.range_succ, List.foldl_append, List.foldl_cons, List.foldl_nil]
    obtain ⟨h1, h2, h3⟩ := ih
    refine ⟨?_, ?_, ?_⟩
    · show ((List.foldl _ st (List.range m)).Positions ++ [_, _, _]).length = _
      rw [List.length_append, h1]
      simp only [List.length_cons, List.length_nil]
      omega
    · show ((List.foldl _ st (List.range m)).currentRing ++ [_]).length = _
      rw [List.length_append, h2]
      simp only [List.length_cons, List.length_nil]
      omega
    · exact h3

theorem foldl_Indices_only (g : RingState α → Nat → List Nat) (l : List Nat)
    (st : RingState α) :
    (l.foldl (fun st i => { st with Indices := st.Indices ++ g st i }) st).Positions
      = st.Positions ∧
    (l.foldl (fun st i => { st with Indices := st.Indices ++ g st i }) st).previousRing
      = st.previousRing ∧
    (l.foldl (fun st i => { st with Indices := st.Indices ++ g st i }) st).currentRing
      = st.currentRing := by
  induction l generalizing st with
  | nil => exact ⟨rfl, rfl, rfl⟩
  | cons i l ih =>
    rw [List.foldl_cons]
    obtain ⟨h1, h2, h3⟩ := ih { st with Indices := st.Indices ++ g st i }
    exact ⟨h1, h2, h3⟩

theorem connectRings_spec (st : RingState α) :
    st.connectRings.Positions = st.Positions ∧
    st.connectRings.previousRing = st.previousRing ∧
    st.connectRings.currentRing = st.currentRing := by
  unfold RingState.connectRings
  simp only
  exact foldl_Indices_only
    (fun st i => [st.previousRing.getD i 0, st.previousRing.getD (i + 1) 0,
      st.currentRing.getD (i + 1) 0, st.currentRing.getD (i + 1) 0, st.currentRing.getD i 0,
      st.previousRing.getD i 0]) _ st

theorem closeTop_spec (y : α) (st : RingState α) :
    (st.closeTop y).Positions.length = st.Positions.length + 3 ∧
    (st.closeTop y).previousRing = st.previousRing ∧
    (st.closeTop y).currentRing = st.currentRing := by
  unfold RingState.closeTop
  simp only
  obtain ⟨h1, h2, h3⟩ := foldl_Indices_only
    (fun s i => [(st.AddVertex 0 y 0).2, s.currentRing.getD (i + 1) 0, s.currentRing.getD i 0])
    (List.range ((st.AddVertex 0 y 0).1.currentRing.length - 1)) (st.AddVertex 0 y 0).1
  refine ⟨?_, h2, h3⟩
  rw [h1]
  simp [RingState.AddVertex]

theorem closeBottom_spec (y : α) (st : RingState α) :
    (st.closeBottom y).Positions.length = st.Positions.length + 3 := by
  unfold RingState.closeBottom
  simp only
  obtain ⟨h1, -, -⟩ := foldl_Indices_only
    (fun s i => [(st.AddVertex 0 y 0).2, s.previousRing.getD i 0, s.previousRing.getD (i + 1) 0])
    (List.range ((st.AddVertex 0 y 0).1.previousRing.length - 1)) (st.AddVertex 0 y 0).1
  rw [h1]
  simp [RingState.AddVertex]

/-- One pass of the ring loop: the ring is filled, connected to the previous ring (or closed
by the top centre), and becomes the previous ring. -/
theorem RingInv_step (cos sin : α → α) (avgRadian currentRadius currentHeight : α)
    (segV : Int) (hV : 0 < segV.toNat) (k : Nat) (st : RingState α)
    (inv : RingInv segV.toNat k st) :
    RingInv segV.toNat (k + 1) (RingState.finishRing currentHeight
      (RingState.fillRing cos sin avgRadian currentRadius currentHeight segV st)) := by
  obtain ⟨f1, f2, f3⟩ := fillRing_spec cos sin avgRadian currentRadius currentHeight segV st
  generalize RingState.fillRing cos sin avgRadian currentRadius currentHeight segV st = s
    at f1 f2 f3
  have hcur : s.currentRing.length = segV.toNat := by
    rw [f2, inv.cur]
    simp
  unfold RingState.finishRing
  simp only
  by_cases hk : k = 0
  · have hp : ¬ s.previousRing.length > 0 := by
      rw [f3, inv.prev, if_pos hk]
      omega
    rw [if_neg hp]
    obtain ⟨c1, c2, c3⟩ := closeTop_spec currentHeight s
    refine ⟨?_, ?_, rfl⟩
    · show (s.closeTop currentHeight).Positions.length = _
      rw [c1, f1, inv.plen, if_pos hk, hk, if_neg (by omega)]
      omega
    · show (s.closeTop currentHeight).currentRing.length = _
      rw [c3, hcur, if_neg (by omega)]
  · have hp : s.previousRing.length > 0 := by
      rw [f3, inv.prev, if_neg hk]
      exact hV
    rw [if_pos hp]
    obtain ⟨c1, c2, c3⟩ := connectRings_spec s
    refine ⟨?_, ?_, rfl⟩
    · show s.connectRings.Positions.length = _
      rw [c1, f1, inv.plen, if_neg hk, if_neg (by omega)]
      ring
    · show s.connectRings.currentRing.length = _
      rw [c3, hcur, if_neg (by omega)]

theorem RingInv_init (n : Nat) : RingInv n 0 (⟨[], [], 0, [], []⟩ : RingState α) :=
  ⟨rfl, rfl, rfl⟩

end Rings

/-! ## Claims on the ring generators and on the skin check -/

section RingClaims

variable {α : Type} [LinearOrderedField α]

theorem foldl_RingInv {σ : Type} (proj : σ → RingState α) (step : σ → Nat → σ) (n : Nat)
    (hstep : ∀ s i k, RingInv n k (proj s) → RingInv n (k + 1) (proj (step s i)))
    (init : σ) (h0 : RingInv n 0 (proj init)) (k : Nat) :
    RingInv n k (proj ((List.range k).foldl step init)) := by
  induction k with
  | zero => exact h0
  | succ k ih =>
    rw [List.range_succ, List.foldl_append, List.foldl_cons, List.foldl_nil]
    exact hstep _ _ _ ih

/-- The raw geometry of `CreateCylinder` has `segH * segV + 2` vertices. -/
theorem CreateCylinder_raw_vertexCount (sin cos : α → α) (PI topR bottomR height : α)
    (segH segV : Int) (hH : 2 ≤ segH) (hV : 3 ≤ segV) :
    ((CreateCylinder.raw sin cos PI topR bottomR height segH segV).vertexCount : Int)
      = segH * segV + 2 := by
  have hV0 : 0 < segV.toNat := by omega
  have inv := foldl_RingInv (fun s : RingState α × α × α => s.1)
    (fun (s : RingState α × α × α) (_ : Nat) =>
      (RingState.finishRing s.2.1
        (RingState.fillRing cos sin (PI * 2 / (segV : α)) s.2.2 s.2.1 segV s.1),
       s.2.1 - height / ((segH - 1 : Int) : α),
       s.2.2 - (topR - bottomR) / ((segH - 1 : Int) : α)))
    segV.toNat
    (fun s _ k inv => RingInv_step cos sin _ _ _ segV hV0 k s.1 inv)
    ((⟨[], [], 0, [], []⟩ : RingState α), height / 2, topR) (RingInv_init _) segH.toNat
  have hk : segH.toNat ≠ 0 := by omega
  have hlen := inv.plen
  rw [if_neg hk] at hlen
  have hraw : (CreateCylinder.raw sin cos PI topR bottomR height segH segV).Positions.length
      = 3 * (segH.toNat * segV.toNat + 1) + 3 := by
    unfold CreateCylinder.raw
    simp only
    rw [closeBottom_spec]
    exact congrArg (· + 3) hlen
  unfold Mesh.vertexCount
  rw [hraw]
  have e : (3 * (segH.toNat * segV.toNat + 1) + 3) / 3 = segH.toNat * segV.toNat + 2 := by
    omega
  rw [e]
  push_cast
  rw [Int.toNat_of_nonneg (by omega), Int.toNat_of_nonneg (by omega)]

/-- C17: `CreateSphere` and `CreateCylinder` return no mesh if and only if `segH < 2` or
`segV < 3`; for every `segH >= 2` and `segV >= 3` they return a mesh. -/
theorem CreateSphere_CreateCylinder_none_iff (sin cos : α → α) (PI : α)
    (dividePlane : Vector4 α) (radius topR bottomR height : α) (segH segV : Int) :
    (CreateSphere sin cos PI dividePlane radius segH segV = none ↔ segH < 2 ∨ segV < 3) ∧
    (CreateCylinder sin cos PI dividePlane topR bottomR height segH segV = none
      ↔ segH < 2 ∨ segV < 3) ∧
    (2 ≤ segH → 3 ≤ segV →
      (∃ mesh, CreateSphere sin cos PI dividePlane radius segH segV = some mesh) ∧
      ∃ mesh, CreateCylinder sin cos PI dividePlane topR bottomR height segH segV
        = some mesh) := by
  have hS : ∀ m : Mesh α, m.Weights = [] → m.IDs = [] →
      ∃ out, OptimizeMesh dividePlane m = some out := by
    intro m hw hi
    exact ⟨_, OptimizeMesh_eq_some dividePlane m (by rw [hw, hi]; exact Iff.rfl)⟩
  have hs := hS (CreateSphere.raw sin cos PI radius segH segV) rfl rfl
  have hc := hS (CreateCylinder.raw sin cos PI topR bottomR height segH segV) rfl rfl
  have hsphere : ¬ (segH < 2 ∨ segV < 3) →
      ∃ mesh, CreateSphere sin cos PI dividePlane radius segH segV = some mesh := by
    intro hg
    unfold CreateSphere
    rw [if_neg hg]
    exact hs
  have hcyl : ¬ (segH < 2 ∨ segV < 3) →
      ∃ mesh, CreateCylinder sin cos PI dividePlane topR bottomR height segH segV
        = some mesh := by
    intro hg
    unfold CreateCylinder
    rw [if_neg hg]
    simp only
    split_ifs
    · exact hc
    · exact ⟨_, rfl⟩
  refine ⟨⟨?_, ?_⟩, ⟨?_, ?_⟩, ?_⟩
  · intro h
    by_contra hg
    obtain ⟨m, hm⟩ := hsphere hg
    rw [hm] at h
    exact Option.noConfusion h
  · intro hg
    unfold CreateSphere
    rw [if_pos hg]
  · intro h
    by_contra hg
    obtain ⟨m, hm⟩ := hcyl hg
    rw [hm] at h
    exact Option.noConfusion h
  · intro hg
    unfold CreateCylinder
    rw [if_pos hg]
  · intro hH hV
    have hg : ¬ (segH < 2 ∨ segV < 3) := by omega
    exact ⟨hsphere hg, hcyl hg⟩

theorem CreateSphere_CreateCylinder_none_iff_witness :
    (2 : Int) ≤ 2 ∧ (3 : Int) ≤ 3 ∧
    ∃ mesh, CreateSphere (fun x => x) (fun x => x) 3 samplePlane (1 : ℚ) 2 3 = some mesh :=
  ⟨le_refl _, le_refl _,
    ((CreateSphere_CreateCylinder_none_iff (fun x => x) (fun x => x) 3 samplePlane
      (1 : ℚ) 1 1 1 2 3).2.2 (le_refl _) (le_refl _)).1⟩

/-- C18: `OptimizeMesh` fails fatally exactly when exactly one of the `Weights` and `IDs`
arrays is non-empty; the check comes first: without the failure the result is what the
welding pass proper (`OptimizeMeshWith`) makes of the untouched input, with the failure there
is no pass and no result. -/
theorem OptimizeMesh_fails_iff (dividePlane : Vector4 α) (mesh : Mesh α) :
    (OptimizeMesh dividePlane mesh = none ↔
      ((mesh.Weights ≠ [] ∧ mesh.IDs = []) ∨ (mesh.Weights = [] ∧ mesh.IDs ≠ []))) ∧
    (OptimizeMesh dividePlane mesh ≠ none →
      OptimizeMesh dividePlane mesh = some
        (OptimizeMeshWith dividePlane (sortEntries (makeEntries dividePlane mesh)) mesh)) := by
  constructor
  · unfold OptimizeMesh
    simp only [Flags.ofMesh]
    by_cases h1 : mesh.Weights = [] <;> by_cases h2 : mesh.IDs = [] <;> simp [h1, h2]
  · intro h
    unfold OptimizeMesh at h ⊢
    simp only at h ⊢
    split_ifs at h ⊢ with hc
    · exact absurd rfl h
    · rfl

/-- C20: for `segH >= 2` and `segV >= 3` the raw geometry of `CreateCylinder` has exactly
`segH * segV + 2` vertices; when `topR != 0` and `bottomR != 0` the returned mesh is that raw
geometry (the welder is not run), and when `topR = 0` or `bottomR = 0` the returned mesh is
`OptimizeMesh` applied to the raw geometry, which succeeds. -/
theorem CreateCylinder_welds_only_cones (sin cos : α → α) (PI : α) (dividePlane : Vector4 α)
    (topR bottomR height : α) (segH segV : Int) (hH : 2 ≤ segH) (hV : 3 ≤ segV) :
    ((CreateCylinder.raw sin cos PI topR bottomR height segH segV).vertexCount : Int)
      = segH * segV + 2 ∧
    (topR ≠ 0 → bottomR ≠ 0 →
      CreateCylinder sin cos PI dividePlane topR bottomR height segH segV
        = some (CreateCylinder.raw sin cos PI topR bottomR height segH segV)) ∧
    (topR = 0 ∨ bottomR = 0 →
      CreateCylinder sin cos PI dividePlane topR bottomR height segH segV
        = OptimizeMesh dividePlane (CreateCylinder.raw sin cos PI topR bottomR height segH segV)
      ∧ OptimizeMesh dividePlane (CreateCylinder.raw sin cos PI topR bottomR height segH segV)
        = some (OptimizeMeshWith dividePlane
            (sortEntries (makeEntries dividePlane
              (CreateCylinder.raw sin cos PI topR bottomR height segH segV)))
            (CreateCylinder.raw sin cos PI topR bottomR height segH segV))) := by
  have hg : ¬ (segH < 2 ∨ segV < 3) := by omega
  refine ⟨CreateCylinder_raw_vertexCount sin cos PI topR bottomR height segH segV hH hV,
    ?_, ?_⟩
  · intro ht hb
    unfold CreateCylinder
    rw [if_neg hg]
    simp only
    rw [if_neg (by rintro (h | h); exact ht h; exact hb h)]
  · intro h
    refine ⟨?_, OptimizeMesh_eq_some dividePlane _ Iff.rfl⟩
    unfold CreateCylinder
    rw [if_neg hg]
    simp only
    rw [if_pos h]

theorem CreateCylinder_welds_only_cones_witness :
    (2 : Int) ≤ 2 ∧ (3 : Int) ≤ 3 ∧
    ((CreateCylinder.raw (fun x => x) (fun x => x) (3 : ℚ) 1 2 4 2 3).vertexCount : Int)
      = 2 * 3 + 2 :=
  ⟨le_refl _, le_refl _,
    (CreateCylinder_welds_only_cones (fun x => x) (fun x => x) (3 : ℚ) samplePlane 1 2 4 2 3
      (le_refl _) (le_refl _)).1⟩

end RingClaims

/-! ## The skin test of the inner loop -/

section SkinMatch

variable {α : Type} [LinearOrderedField α]

end SkinMatch

/-! ## FindNeighbors: the scan as a filter -/

section NeighborsExact

variable {α : Type} [LinearOrderedField α]

theorem scan_eq_filter (pos : Vector4 α) (maxDist pSquared : α) (l : List (VtxEntry α)) :
    FindNeighbors.scan pos maxDist pSquared l
      = (((l.takeWhile fun e => decide (e.dist < maxDist)).filter fun e =>
          decide ((e.position.sub pos).SquareLength < pSquared)).map fun e => e.index) := by
  induction l with
  | nil => rfl
  | cons e rest ih =>
    unfold FindNeighbors.scan
    by_cases h1 : e.dist < maxDist
    · rw [if_pos h1, List.takeWhile_cons_of_pos (by simpa using h1)]
      by_cases h2 : (e.position.sub pos).SquareLength < pSquared
      · rw [if_pos h2, List.filter_cons_of_pos (by simpa using h2), List.map_cons, ih]
      · rw [if_neg h2, List.filter_cons_of_neg (by simpa using h2), ih]
    · rw [if_neg h1, List.takeWhile_cons_of_neg (by simpa using h1)]
      rfl

theorem filter_takeWhile_sorted (maxDist : α) (P : VtxEntry α → Bool)
    (l : List (VtxEntry α)) (hs : EntriesSorted l)
    (hP : ∀ e ∈ l, P e = true → e.dist < maxDist) :
    (l.takeWhile fun e => decide (e.dist < maxDist)).filter P = l.filter P := by
  induction l with
  | nil => rfl
  | cons e rest ih =>
    have hs' : EntriesSorted rest := (List.pairwise_cons.mp hs).2
    by_cases h1 : e.dist < maxDist
    · rw [List.takeWhile_cons_of_pos (by simpa using h1)]
      simp only [List.filter_cons]
      rw [ih hs' (fun x hx => hP x (List.mem_cons_of_mem _ hx))]
    · rw [List.takeWhile_cons_of_neg (by simpa using h1)]
      have hnone : ∀ x ∈ e :: rest, ¬ (P x = true) := by
        intro x hx hpx
        have hxm := hP x hx hpx
        rcases List.mem_cons.mp hx with rfl | hxr
        · exact h1 hxm
        · have := (List.pairwise_cons.mp hs).1 x hxr
          exact h1 (lt_of_le_of_lt this hxm)
      rw [List.filter_nil]
      exact (List.filter_eq_nil_iff.mpr hnone).symm

theorem filter_drop_of_prefix_fails {β : Type} (P : β → Bool) (l : List β) (k : Nat)
    (h : ∀ j (hj : j < l.length), j < k → P l[j] = false) :
    (l.drop k).filter P = l.filter P := by
  conv_rhs => rw [← List.take_append_drop k l, List.filter_append]
  have : (l.take k).filter P = [] := by
    apply List.filter_eq_nil_iff.mpr
    intro x hx
    obtain ⟨j, hj, rfl⟩ := List.mem_iff_getElem.mp hx
    rw [List.length_take] at hj
    rw [List.getElem_take]
    rw [h j (by omega) (by omega)]
    simp
  rw [this, List.nil_append]

theorem start_spec_any (entries : List (VtxEntry α)) (minDist : α) (hs : EntriesSorted entries)
    (hpos : 0 < entries.length) :
    FindNeighbors.start entries minDist < entries.length ∧
      ∀ j, j < FindNeighbors.start entries minDist →
        (entries.getD j default).dist ≤ minDist := by
  unfold FindNeighbors.start
  simp only
  have hsz : entries.length % 2 ^ 32 < 2 ^ 32 := Nat.mod_lt _ (by norm_num)
  have hle : entries.length % 2 ^ 32 ≤ entries.length := Nat.mod_le _ _
  have hb : FindNeighbors.binarySearch entries minDist (entries.length % 2 ^ 32 / 4)
      (entries.length % 2 ^ 32 / 2) (entries.length % 2 ^ 32 / 4) < entries.length := by
    rcases Nat.eq_zero_or_pos (entries.length % 2 ^ 32) with h0 | hp
    · rw [h0]
      cases hb0 : (0 / 4 : Nat) with
      | zero => simpa [FindNeighbors.binarySearch] using hpos
      | succ n => simp at hb0
    · have := binarySearch_lt entries minDist (entries.length % 2 ^ 32) hsz
        (entries.length % 2 ^ 32 / 4) (entries.length % 2 ^ 32 / 2)
        (entries.length % 2 ^ 32 / 4) (by omega) (by omega) (by omega)
      omega
  obtain ⟨hsb1, hsb2⟩ := stepBack_spec entries minDist
    (FindNeighbors.binarySearch entries minDist (entries.length % 2 ^ 32 / 4)
      (entries.length % 2 ^ 32 / 2) (entries.length % 2 ^ 32 / 4))
  obtain ⟨hf1, hf2, hf3⟩ := stepForward_spec entries minDist entries.length
    (FindNeighbors.stepBack entries minDist
      (FindNeighbors.binarySearch entries minDist (entries.length % 2 ^ 32 / 4)
        (entries.length % 2 ^ 32 / 2) (entries.length % 2 ^ 32 / 4)))
  refine ⟨hf2 (by omega), ?_⟩
  intro j hj
  by_cases hjs : j < FindNeighbors.stepBack entries minDist
      (FindNeighbors.binarySearch entries minDist (entries.length % 2 ^ 32 / 4)
        (entries.length % 2 ^ 32 / 2) (entries.length % 2 ^ 32 / 4))
  · rcases hsb2 with h0 | hle
    · omega
    · exact le_trans (hs.getD_le (le_of_lt hjs) (by omega)) hle
  · exact le_of_lt (hf3 j (by omega) hj)

/-- The neighbour search equals the brute-force search. -/
theorem FindNeighbors_eq_bruteForce (dividePlane : Vector4 α) (entries : List (VtxEntry α))
    (pos : Vector4 α) (radius : α) (hs : EntriesSorted entries)
    (hkey : ∀ e ∈ entries, e.dist = dividePlane.dot e.position)
    (hn : dividePlane.SquareLength ≤ 1) (hr : 0 < radius) :
    FindNeighbors dividePlane entries pos radius = bruteForceNeighbors entries pos radius := by
  have hwin : ∀ e ∈ entries, (e.position.sub pos).SquareLength < radius * radius →
      dividePlane.dot pos - radius < e.dist ∧ e.dist < dividePlane.dot pos + radius := by
    intro e he hc
    rw [hkey e he]
    exact window_of_close dividePlane e.position pos radius hn hr hc
  unfold FindNeighbors bruteForceNeighbors
  simp only
  split_ifs with hq
  · -- early return: nothing is within the radius
    symm
    rw [List.map_eq_nil_iff, List.filter_eq_nil_iff]
    intro e he hc
    have hc' : (e.position.sub pos).SquareLength < radius * radius := by simpa using hc
    obtain ⟨w1, w2⟩ := hwin e he hc'
    obtain ⟨p, hp, hpe⟩ := List.getElem_of_mem he
    have hpD : entries.getD p default = e := by rw [getD_eq_getElem_of_lt _ _ _ hp, hpe]
    rcases hq with h | h | h
    · omega
    · have h0 : entries.head?.getD default = entries.getD 0 default := by
        cases entries with
        | nil => simp at hp
        | cons a l => simp
      rw [h0] at h
      have := hs.getD_le (Nat.zero_le p) hp
      rw [hpD] at this
      exact absurd (lt_of_lt_of_le h this) (not_lt.mpr w2.le)
    · have h0 : entries.getLast?.getD default = entries.getD (entries.length - 1) default := by
        rw [List.getLast?_eq_getElem?]
        simp [List.getD_eq_getElem?_getD]
      rw [h0] at h
      have := hs.getD_le (show p ≤ entries.length - 1 by omega) (by omega)
      rw [hpD] at this
      exact absurd (lt_of_le_of_lt this h) (not_lt.mpr w1.le)
  · have hpos : 0 < entries.length := by
      rcases Nat.eq_zero_or_pos entries.length with h | h
      · exact absurd (Or.inl h) hq
      · exact h
    obtain ⟨_, hst⟩ := start_spec_any entries (dividePlane.dot pos - radius) hs hpos
    rw [scan_eq_filter, filter_takeWhile_sorted _ _ _ (hs.drop _),
      filter_drop_of_prefix_fails]
    · intro j hj hjs
      have hle := hst j hjs
      rw [getD_eq_getElem_of_lt _ _ _ hj] at hle
      by_contra hc
      have hc' : (entries[j].position.sub pos).SquareLength < radius * radius := by
        simpa using hc
      exact absurd (hwin _ (List.getElem_mem hj) hc').1 (not_lt.mpr hle)
    · intro e he hc
      have hc' : (e.position.sub pos).SquareLength < radius * radius := by simpa using hc
      exact (hwin e (List.mem_of_mem_drop he) hc').2

theorem bruteForce_eq_window (dividePlane : Vector4 α) (entries : List (VtxEntry α))
    (pos : Vector4 α) (radius : α)
    (hkey : ∀ e ∈ entries, e.dist = dividePlane.dot e.position)
    (hn : dividePlane.SquareLength ≤ 1) (hr : 0 < radius) :
    bruteForceNeighbors entries pos radius = windowNeighbors dividePlane entries pos radius := by
  unfold bruteForceNeighbors windowNeighbors
  congr 1
  apply List.filter_congr
  intro e he
  by_cases hc : (e.position.sub pos).SquareLength < radius * radius
  · have hw := window_of_close dividePlane e.position pos radius hn hr hc
    rw [← hkey e he] at hw
    simp [hc, hw.1.le, hw.2]
  · simp [hc]

end NeighborsExact

/-! ## FindNeighbors: window and brute force -/

section NeighbourClaims

variable {α : Type} [LinearOrderedField α]

end NeighbourClaims

/-! ## The unique-vertex loop: creators and unique indices -/

section Creators

variable {α : Type} [LinearOrderedField α]

theorem creators_succ (dividePlane : Vector4 α) (entries : List (VtxEntry α)) (mesh : Mesh α)
    (k : Nat) :
    creators dividePlane entries mesh (k + 1) =
      creators dividePlane entries mesh k ++
        (if matchAt dividePlane entries mesh k ≠ 0xffffffff then [] else [k]) := by
  unfold creators
  rw [List.range_succ, List.filter_append]
  by_cases h : matchAt dividePlane entries mesh k = 0xffffffff
  · simp [h]
  · simp [h]

theorem creators_prefix (dividePlane : Vector4 α) (entries : List (VtxEntry α))
    (mesh : Mesh α) (k : Nat) :
    ∀ k', k ≤ k' → ∃ t, creators dividePlane entries mesh k'
      = creators dividePlane entries mesh k ++ t := by
  intro k' hk
  induction k' with
  | zero =>
    have : k = 0 := by omega
    subst this
    exact ⟨[], by simp⟩
  | succ k' ih =>
    rcases Nat.lt_or_eq_of_le hk with h | h
    · obtain ⟨t, ht⟩ := ih (by omega)
      rw [creators_succ, ht, List.append_assoc]
      exact ⟨_, rfl⟩
    · subst h
      exact ⟨[], by simp⟩

theorem creators_lt (dividePlane : Vector4 α) (entries : List (VtxEntry α)) (mesh : Mesh α)
    (k : Nat) : ∀ c ∈ creators dividePlane entries mesh k,
      c < k ∧ matchAt dividePlane entries mesh c = 0xffffffff := by
  intro c hc
  unfold creators at hc
  rw [List.mem_filter, List.mem_range] at hc
  exact ⟨hc.1, by simpa using hc.2⟩

theorem creators_sorted (dividePlane : Vector4 α) (entries : List (VtxEntry α))
    (mesh : Mesh α) (k : Nat) :
    (creators dividePlane entries mesh k).Pairwise (· < ·) := by
  unfold creators
  exact List.Pairwise.filter _ (List.pairwise_lt_range k)

theorem creators_length_le (dividePlane : Vector4 α) (entries : List (VtxEntry α))
    (mesh : Mesh α) (k : Nat) : (creators dividePlane entries mesh k).length ≤ k := by
  unfold creators
  calc ((List.range k).filter _).length ≤ (List.range k).length := List.length_filter_le _ _
    _ = k := List.length_range k

/-- The unique vertices written so far are the records of the creators, in order. -/
theorem stateAt_uniq_creators (dividePlane : Vector4 α) (entries : List (VtxEntry α))
    (mesh : Mesh α) (k : Nat) :
    (stateAt dividePlane entries mesh k).uniqueVertices
      = (creators dividePlane entries mesh k).map (CreateVertex mesh (Flags.ofMesh mesh)) := by
  induction k with
  | zero => rfl
  | succ k ih =>
    rw [stateAt_succ_uniq, creators_succ, ih]
    split_ifs <;> simp

/-- A creator sits in `creators` at the position given by the number of creators before
it. -/
theorem creators_getElem (dividePlane : Vector4 α) (entries : List (VtxEntry α))
    (mesh : Mesh α) (c k : Nat) (hck : c < k)
    (hm : matchAt dividePlane entries mesh c = 0xffffffff) :
    ∃ h : (creators dividePlane entries mesh c).length
        < (creators dividePlane entries mesh k).length,
      (creators dividePlane entries mesh k)[(creators dividePlane entries mesh c).length] = c := by
  obtain ⟨t, ht⟩ := creators_prefix dividePlane entries mesh (c + 1) k (by omega)
  have hs : creators dividePlane entries mesh (c + 1)
      = creators dividePlane entries mesh c ++ [c] := by
    rw [creators_succ, if_neg (by simp [hm])]
  rw [hs, List.append_assoc] at ht
  have hlen : (creators dividePlane entries mesh c).length
      < (creators dividePlane entries mesh k).length := by
    rw [ht]
    simp
  refine ⟨hlen, ?_⟩
  simp only [ht]
  rw [List.getElem_append_right (le_refl _)]
  simp

/-- The slot of an original vertex `c` that was processed holds the accepted match with the
flag bit set, or else the number of creators before `c`. -/
theorem stateAt_repl_value (dividePlane : Vector4 α) (entries : List (VtxEntry α))
    (mesh : Mesh α) (hcount : mesh.vertexCount < 2 ^ 31)
    (hent : ∀ e ∈ entries, e.index < mesh.vertexCount)
    (c k : Nat) (hck : c < k) (hk : k ≤ mesh.vertexCount) :
    (stateAt dividePlane entries mesh k).replaceIndices.getD c 0 =
      if matchAt dividePlane entries mesh c ≠ 0xffffffff
        then matchAt dividePlane entries mesh c ||| 0x80000000
        else (creators dividePlane entries mesh c).length := by
  rw [stateAt_repl_stable dividePlane entries mesh c (c + 1) (by omega) k (by omega),
    stateAt_succ_repl]
  have inv := stateAt_inv dividePlane entries mesh hcount hent c (by omega)
  rw [getD_set_self _ _ _ _ (by rw [inv.len]; omega), stateAt_uniq_creators, List.length_map]
  have := creators_length_le dividePlane entries mesh c
  rw [Nat.mod_eq_of_lt (by omega)]

/-- An accepted match is the index of a unique vertex created before. -/
theorem matchAt_lt (dividePlane : Vector4 α) (entries : List (VtxEntry α))
    (mesh : Mesh α) (hcount : mesh.vertexCount < 2 ^ 31)
    (hent : ∀ e ∈ entries, e.index < mesh.vertexCount)
    (c : Nat) (hc : c < mesh.vertexCount)
    (hm : matchAt dividePlane entries mesh c ≠ 0xffffffff) :
    matchAt dividePlane entries mesh c < (creators dividePlane entries mesh c).length := by
  have inv := stateAt_inv dividePlane entries mesh hcount hent c (by omega)
  rcases findMatch_spec (Flags.ofMesh mesh) epsilon squareEpsilon
    (stateAt dividePlane entries mesh c).uniqueVertices
    (stateAt dividePlane entries mesh c).replaceIndices
    (CreateVertex mesh (Flags.ofMesh mesh) c)
    (FindNeighbors dividePlane entries (CreateVertex mesh (Flags.ofMesh mesh) c).Position epsilon)
    with h | ⟨x, hx, hval, hflag, _⟩
  · exact absurd h hm
  · obtain ⟨e, he, hex⟩ := FindNeighbors_index_mem dividePlane entries _ _ x hx
    have hxn : x < mesh.vertexCount := by rw [← hex]; exact hent e he
    have hxc : x < c := by
      by_contra hge
      have := inv.todo x (by omega) hxn
      rw [this] at hflag
      simp at hflag
    have := inv.clear x hxc hflag
    rw [stateAt_uniq_creators, List.length_map] at this
    show findMatch _ _ _ _ _ _ _ < _
    rw [hval]
    exact this

theorem uniqueIndexOf_lt (dividePlane : Vector4 α) (entries : List (VtxEntry α))
    (mesh : Mesh α) (hcount : mesh.vertexCount < 2 ^ 31)
    (hent : ∀ e ∈ entries, e.index < mesh.vertexCount)
    (c : Nat) (hc : c < mesh.vertexCount) :
    uniqueIndexOf dividePlane entries mesh c
      < (creators dividePlane entries mesh mesh.vertexCount).length := by
  obtain ⟨t, ht⟩ := creators_prefix dividePlane entries mesh (c + 1) mesh.vertexCount (by omega)
  have hs := creators_succ dividePlane entries mesh c
  unfold uniqueIndexOf
  split_ifs with hm
  · have := matchAt_lt dividePlane entries mesh hcount hent c hc hm
    rw [ht, hs, List.length_append, List.length_append]
    omega
  · rw [ht, hs, if_neg hm]
    simp

/-- The final index rewrite of slot `c` gives the recorded unique index. -/
theorem remapIndex_final (dividePlane : Vector4 α) (entries : List (VtxEntry α))
    (mesh : Mesh α) (hcount : mesh.vertexCount < 2 ^ 31)
    (hent : ∀ e ∈ entries, e.index < mesh.vertexCount)
    (c : Nat) (hc : c < mesh.vertexCount) :
    remapIndex (finalState dividePlane entries mesh).replaceIndices c
      = uniqueIndexOf dividePlane entries mesh c := by
  have hv := stateAt_repl_value dividePlane entries mesh hcount hent c mesh.vertexCount hc
    (le_refl _)
  have hfin : finalState dividePlane entries mesh
      = stateAt dividePlane entries mesh mesh.vertexCount := rfl
  unfold remapIndex uniqueIndexOf
  rw [hfin, hv]
  have hcl := creators_length_le dividePlane entries mesh c
  split_ifs with hm
  · have := matchAt_lt dividePlane entries mesh hcount hent c hc hm
    exact strip_or_flag (by omega)
  · exact strip_of_lt (by omega)

end Creators

/-! ## The compacted vertices -/

section WeldNumbering

variable {α : Type} [LinearOrderedField α]

theorem CreateVertex_fields (mesh : Mesh α) (f : Flags) (c : Nat) :
    (CreateVertex mesh f c).Position = posOf mesh.Positions c ∧
    (f.hasNormal = true → (CreateVertex mesh f c).Normal = posOf mesh.Normals c) ∧
    (f.hasTangent = true → (CreateVertex mesh f c).Tangent = posOf mesh.Tangents c) ∧
    (f.hasUV = true → (CreateVertex mesh f c).UV
      = ⟨mesh.UVs.getD (c * 2) 0, mesh.UVs.getD (c * 2 + 1) 0, 0⟩) ∧
    (f.hasWeights = true →
      (CreateVertex mesh f c).ID0 = mesh.IDs.getD (c * 4) 0 ∧
      (CreateVertex mesh f c).ID1 = mesh.IDs.getD (c * 4 + 1) 0 ∧
      (CreateVertex mesh f c).ID2 = mesh.IDs.getD (c * 4 + 2) 0 ∧
      (CreateVertex mesh f c).ID3 = mesh.IDs.getD (c * 4 + 3) 0 ∧
      (CreateVertex mesh f c).W0 = mesh.Weights.getD (c * 3) 0 ∧
      (CreateVertex mesh f c).W1 = mesh.Weights.getD (c * 3 + 1) 0 ∧
      (CreateVertex mesh f c).W2 = mesh.Weights.getD (c * 3 + 2) 0) := by
  rcases f with ⟨a, b, d, e, g⟩
  cases a <;> cases b <;> cases d <;> cases e <;>
    simp [CreateVertex, posOf, Vertex.Empty]

/-- Slot `u` of the compacted mesh holds the record of the creator of `u`. -/
theorem vertexAt_out_creator (dividePlane : Vector4 α) (entries : List (VtxEntry α))
    (mesh : Mesh α) (u : Nat)
    (hu : u < (creators dividePlane entries mesh mesh.vertexCount).length) :
    vertexAt (OptimizeMeshWith dividePlane entries mesh) u
      = vertexAt mesh (creators dividePlane entries mesh mesh.vertexCount)[u] :=
  vertexAt_OptimizeMeshWith dividePlane entries mesh _
    (stateAt_uniq_creators dividePlane entries mesh mesh.vertexCount) u hu

theorem out_vertexCount_creators (dividePlane : Vector4 α) (entries : List (VtxEntry α))
    (mesh : Mesh α) :
    (OptimizeMeshWith dividePlane entries mesh).vertexCount
      = (creators dividePlane entries mesh mesh.vertexCount).length := by
  rw [OptimizeMeshWith_vertexCount]
  have hfin : finalState dividePlane entries mesh
      = stateAt dividePlane entries mesh mesh.vertexCount := rfl
  rw [hfin, stateAt_uniq_creators, List.length_map]

/-- The first vertex never finds a resolved candidate. -/
theorem matchAt_zero (dividePlane : Vector4 α) (entries : List (VtxEntry α)) (mesh : Mesh α)
    (hent : ∀ e ∈ entries, e.index < mesh.vertexCount) :
    matchAt dividePlane entries mesh 0 = 0xffffffff := by
  unfold matchAt
  apply findMatch_all_skip
  intro c hc
  left
  obtain ⟨e, he, hex⟩ := FindNeighbors_index_mem dividePlane entries _ _ c hc
  have hcn : c < mesh.vertexCount := by rw [← hex]; exact hent e he
  have : (stateAt dividePlane entries mesh 0).replaceIndices
      = List.replicate mesh.vertexCount 0xffffffff := rfl
  rw [this, List.getD_eq_getElem?_getD, List.getElem?_replicate, if_pos hcn]
  decide

end WeldNumbering

/-! ## The replacement table and the tolerance -/

section WeldTableClaims

variable {α : Type} [LinearOrderedField α]

theorem getD_map_of_lt {β γ : Type} (g : β → γ) (l : List β) (k : Nat) (d : β) (d' : γ)
    (hk : k < l.length) : (l.map g).getD k d' = g (l.getD k d) := by
  rw [getD_eq_getElem_of_lt _ _ _ (by rw [List.length_map]; exact hk), List.getElem_map,
    getD_eq_getElem_of_lt _ _ _ hk]

/-- C23: `OptimizeMesh` rewrites `Indices` and the index array of every submesh through the
replacement table: the lengths of all index arrays are unchanged, the value at position `k`
becomes the unique index recorded for the original vertex `old[k]`, and the table slot of
vertex `i` holds that unique index, plain when `i` created the unique vertex and with the tag
bit `0x80000000` when `i` was replaced; stripping the tag gives the same unique index in both
cases. -/
theorem OptimizeMesh_rewrites_indices (dividePlane : Vector4 α) (mesh : Mesh α)
    (hcount : mesh.vertexCount < 2 ^ 31)
    (hskin : mesh.Weights.length > 0 ↔ mesh.IDs.length > 0)
    (hidx : ∀ i ∈ mesh.Indices, i < mesh.vertexCount)
    (hsub : ∀ sub ∈ mesh.SubMeshes, ∀ i ∈ sub, i < mesh.vertexCount) :
    ∃ out, OptimizeMesh dividePlane mesh = some out ∧
      out.Indices.length = mesh.Indices.length ∧
      (∀ k, k < mesh.Indices.length →
        out.Indices.getD k 0 = uniqueIndexOf dividePlane
          (sortEntries (makeEntries dividePlane mesh)) mesh (mesh.Indices.getD k 0)) ∧
      out.SubMeshes.length = mesh.SubMeshes.length ∧
      (∀ s, s < mesh.SubMeshes.length →
        (out.SubMeshes.getD s []).length = (mesh.SubMeshes.getD s []).length ∧
        ∀ k, k < (mesh.SubMeshes.getD s []).length →
          (out.SubMeshes.getD s []).getD k 0 = uniqueIndexOf dividePlane
            (sortEntries (makeEntries dividePlane mesh)) mesh
            ((mesh.SubMeshes.getD s []).getD k 0)) ∧
      ∀ i, i < mesh.vertexCount →
        (finalState dividePlane (sortEntries (makeEntries dividePlane mesh))
            mesh).replaceIndices.getD i 0
          = (if matchAt dividePlane (sortEntries (makeEntries dividePlane mesh)) mesh i
                ≠ 0xffffffff
              then uniqueIndexOf dividePlane (sortEntries (makeEntries dividePlane mesh)) mesh i
                ||| 0x80000000
              else uniqueIndexOf dividePlane (sortEntries (makeEntries dividePlane mesh)) mesh
                i) ∧
        (finalState dividePlane (sortEntries (makeEntries dividePlane mesh))
            mesh).replaceIndices.getD i 0 &&& 0x7fffffff
          = uniqueIndexOf dividePlane (sortEntries (makeEntries dividePlane mesh)) mesh i := by
  have hent := sortEntries_index_lt dividePlane mesh
  have hremap := remapIndex_final dividePlane (sortEntries (makeEntries dividePlane mesh)) mesh
    hcount hent
  refine ⟨_, OptimizeMesh_eq_some dividePlane mesh hskin, ?_, ?_, ?_, ?_, ?_⟩
  · rw [OptimizeMeshWith_Indices, List.length_map]
  · intro k hk
    rw [OptimizeMeshWith_Indices, getD_map_of_lt _ _ _ 0 _ hk]
    apply hremap
    apply hidx
    rw [getD_eq_getElem_of_lt _ _ _ hk]
    exact List.getElem_mem hk
  · rw [OptimizeMeshWith_SubMeshes, List.length_map]
  · intro s hs
    rw [OptimizeMeshWith_SubMeshes, getD_map_of_lt _ _ _ [] _ hs]
    refine ⟨by rw [List.length_map], ?_⟩
    intro k hk
    rw [getD_map_of_lt _ _ _ 0 _ hk]
    apply hremap
    apply hsub (mesh.SubMeshes.getD s [])
    · rw [getD_eq_getElem_of_lt _ _ _ hs]
      exact List.getElem_mem hs
    · rw [getD_eq_getElem_of_lt _ _ _ hk]
      exact List.getElem_mem hk
  · intro i hi
    have hv := stateAt_repl_value dividePlane (sortEntries (makeEntries dividePlane mesh)) mesh
      hcount hent i mesh.vertexCount hi (le_refl _)
    have hfin : finalState dividePlane (sortEntries (makeEntries dividePlane mesh)) mesh
        = stateAt dividePlane (sortEntries (makeEntries dividePlane mesh)) mesh
          mesh.vertexCount := rfl
    refine ⟨?_, hremap i hi⟩
    rw [hfin, hv]
    unfold uniqueIndexOf
    split_ifs <;> rfl

theorem OptimizeMesh_rewrites_indices_witness :
    sampleMesh.vertexCount < 2 ^ 31 ∧
    (∀ i ∈ sampleMesh.Indices, i < sampleMesh.vertexCount) ∧
    ∃ out, OptimizeMesh samplePlane sampleMesh = some out ∧
      out.Indices.length = sampleMesh.Indices.length ∧
      ∀ k, k < sampleMesh.Indices.length →
        out.Indices.getD k 0 = uniqueIndexOf samplePlane
          (sortEntries (makeEntries samplePlane sampleMesh)) sampleMesh
          (sampleMesh.Indices.getD k 0) :=
  ⟨by decide, by decide,
    (OptimizeMesh_rewrites_indices samplePlane sampleMesh (by decide) (by decide) (by decide)
      (by decide)).imp fun _ h => ⟨h.1, h.2.1, h.2.2.1⟩⟩

end WeldTableClaims

/-! ## First appearance and compaction -/

section WeldOrderClaims

variable {α : Type} [LinearOrderedField α]

theorem length_flatMap_four {β γ : Type} (l : List β) (a b c e : β → γ) :
    (l.flatMap fun u => [a u, b u, c u, e u]).length = 4 * l.length := by
  induction l with
  | nil => rfl
  | cons u rest ih => simp only [List.flatMap_cons, List.length_append, ih, List.length_cons,
      List.length_nil]; omega

theorem Flags_ofMesh_iff (mesh : Mesh α) :
    ((Flags.ofMesh mesh).hasNormal = true ↔ mesh.Normals ≠ []) ∧
    ((Flags.ofMesh mesh).hasTangent = true ↔ mesh.Tangents ≠ []) ∧
    ((Flags.ofMesh mesh).hasUV = true ↔ mesh.UVs ≠ []) ∧
    ((Flags.ofMesh mesh).hasWeights = true ↔ mesh.Weights ≠ []) := by
  simp [Flags.ofMesh, List.length_pos]

/-- Slot `u` of the arrays of the compacted mesh, read array by array. -/
theorem compacted_slots (dividePlane : Vector4 α) (entries : List (VtxEntry α))
    (mesh : Mesh α) (u : Nat)
    (hu : u < (creators dividePlane entries mesh mesh.vertexCount).length) :
    posOf (OptimizeMeshWith dividePlane entries mesh).Positions u
      = posOf mesh.Positions ((creators dividePlane entries mesh mesh.vertexCount).getD u 0) ∧
    (mesh.Normals ≠ [] →
      posOf (OptimizeMeshWith dividePlane entries mesh).Normals u
        = posOf mesh.Normals ((creators dividePlane entries mesh mesh.vertexCount).getD u 0)) ∧
    (mesh.Tangents ≠ [] →
      posOf (OptimizeMeshWith dividePlane entries mesh).Tangents u
        = posOf mesh.Tangents ((creators dividePlane entries mesh mesh.vertexCount).getD u 0)) ∧
    (mesh.UVs ≠ [] → ∀ j, j < 2 →
      (OptimizeMeshWith dividePlane entries mesh).UVs.getD (u * 2 + j) 0
        = mesh.UVs.getD
          ((creators dividePlane entries mesh mesh.vertexCount).getD u 0 * 2 + j) 0) ∧
    (mesh.Weights ≠ [] →
      (∀ j, j < 4 →
        (OptimizeMeshWith dividePlane entries mesh).IDs.getD (u * 4 + j) 0
          = mesh.IDs.getD
            ((creators dividePlane entries mesh mesh.vertexCount).getD u 0 * 4 + j) 0) ∧
      posOf (OptimizeMeshWith dividePlane entries mesh).Weights u
        = posOf mesh.Weights
          ((creators dividePlane entries mesh mesh.vertexCount).getD u 0)) := by
  have hv := vertexAt_out_creator dividePlane entries mesh u hu
  rw [← getD_eq_getElem_of_lt _ _ 0 hu] at hv
  generalize (creators dividePlane entries mesh mesh.vertexCount).getD u 0 = c at hv ⊢
  have hU : 0 < (finalState dividePlane entries mesh).uniqueVertices.length := by
    have hfin : finalState dividePlane entries mesh
        = stateAt dividePlane entries mesh mesh.vertexCount := rfl
    rw [hfin, stateAt_uniq_creators, List.length_map]
    omega
  obtain ⟨f1, f2, f3, f4⟩ := Flags_OptimizeMeshWith dividePlane entries mesh hU
  obtain ⟨g1, g2, g3, g4⟩ := Flags_ofMesh_iff mesh
  obtain ⟨o1, o2, o3, o4, o5⟩ := CreateVertex_fields (OptimizeMeshWith dividePlane entries mesh)
    (Flags.ofMesh (OptimizeMeshWith dividePlane entries mesh)) u
  obtain ⟨m1, m2, m3, m4, m5⟩ := CreateVertex_fields mesh (Flags.ofMesh mesh) c
  unfold vertexAt at hv
  refine ⟨?_, ?_, ?_, ?_, ?_⟩
  · rw [← o1, ← m1, hv]
  · intro h
    have hf := g1.mpr h
    rw [← o2 (by rw [f1]; exact hf), ← m2 hf, hv]
  · intro h
    have hf := g2.mpr h
    rw [← o3 (by rw [f2]; exact hf), ← m3 hf, hv]
  · intro h j hj
    have hf := g3.mpr h
    have e1 := o4 (by rw [f3]; exact hf)
    have e2 := m4 hf
    rw [hv, e2] at e1
    simp only [Vector4.mk.injEq] at e1
    interval_cases j
    · exact e1.1.symm
    · exact e1.2.1.symm
  · intro h
    have hf := g4.mpr h
    obtain ⟨a0, a1, a2, a3, w0, w1, w2⟩ := o5 (by rw [f4]; exact hf)
    obtain ⟨b0, b1, b2, b3, v0, v1, v2⟩ := m5 hf
    rw [hv] at a0 a1 a2 a3 w0 w1 w2
    refine ⟨?_, ?_⟩
    · intro j hj
      interval_cases j
      · exact a0.symm.trans b0
      · exact a1.symm.trans b1
      · exact a2.symm.trans b2
      · exact a3.symm.trans b3
    · simp only [posOf, ← w0, ← w1, ← w2, ← v0, ← v1, ← v2]

/-- C27: `OptimizeMesh` numbers the unique vertices in order of first appearance and compacts
in that order.  With `creators k` the ascending list of the original vertices below `k` for
which no candidate is accepted: such a vertex `i` gets the unique index `(creators i).length`,
the number of unique vertices created before it; vertex 0 gets unique index 0; unique indices
increase with the original index; the result has one vertex per creator, slot `u` of every
present array holds the data of creator number `u`, and every present array has length
`uniqueCount` times its stride. -/
theorem OptimizeMesh_first_appearance (dividePlane : Vector4 α) (mesh : Mesh α)
    (hcount : mesh.vertexCount < 2 ^ 31)
    (hskin : mesh.Weights.length > 0 ↔ mesh.IDs.length > 0) :
    ∃ out, OptimizeMesh dividePlane mesh = some out ∧
      out.vertexCount = (creators dividePlane (sortEntries (makeEntries dividePlane mesh)) mesh
        mesh.vertexCount).length ∧
      (∀ i, i < mesh.vertexCount →
        matchAt dividePlane (sortEntries (makeEntries dividePlane mesh)) mesh i = 0xffffffff →
        (finalState dividePlane (sortEntries (makeEntries dividePlane mesh))
            mesh).replaceIndices.getD i 0
          = (creators dividePlane (sortEntries (makeEntries dividePlane mesh)) mesh i).length ∧
        replacementOf dividePlane mesh i
          = (creators dividePlane (sortEntries (makeEntries dividePlane mesh)) mesh i).length ∧
        (creators dividePlane (sortEntries (makeEntries dividePlane mesh)) mesh
          mesh.vertexCount).getD (replacementOf dividePlane mesh i) 0 = i) ∧
      (0 < mesh.vertexCount → replacementOf dividePlane mesh 0 = 0) ∧
      (∀ i j, i < j → j < mesh.vertexCount →
        matchAt dividePlane (sortEntries (makeEntries dividePlane mesh)) mesh i = 0xffffffff →
        matchAt dividePlane (sortEntries (makeEntries dividePlane mesh)) mesh j = 0xffffffff →
        replacementOf dividePlane mesh i < replacementOf dividePlane mesh j) ∧
      (∀ u, u < out.vertexCount →
        posOf out.Positions u = posOf mesh.Positions
          ((creators dividePlane (sortEntries (makeEntries dividePlane mesh)) mesh
            mesh.vertexCount).getD u 0) ∧
        (mesh.Normals ≠ [] → posOf out.Normals u = posOf mesh.Normals
          ((creators dividePlane (sortEntries (makeEntries dividePlane mesh)) mesh
            mesh.vertexCount).getD u 0)) ∧
        (mesh.Tangents ≠ [] → posOf out.Tangents u = posOf mesh.Tangents
          ((creators dividePlane (sortEntries (makeEntries dividePlane mesh)) mesh
            mesh.vertexCount).getD u 0)) ∧
        (mesh.UVs ≠ [] → ∀ j, j < 2 → out.UVs.getD (u * 2 + j) 0 = mesh.UVs.getD
          ((creators dividePlane (sortEntries (makeEntries dividePlane mesh)) mesh
            mesh.vertexCount).getD u 0 * 2 + j) 0) ∧
        (mesh.Weights ≠ [] →
          (∀ j, j < 4 → out.IDs.getD (u * 4 + j) 0 = mesh.IDs.getD
            ((creators dividePlane (sortEntries (makeEntries dividePlane mesh)) mesh
              mesh.vertexCount).getD u 0 * 4 + j) 0) ∧
          posOf out.Weights u = posOf mesh.Weights
            ((creators dividePlane (sortEntries (makeEntries dividePlane mesh)) mesh
              mesh.vertexCount).getD u 0))) ∧
      out.Positions.length = 3 * out.vertexCount ∧
      (mesh.Normals ≠ [] → out.Normals.length = 3 * out.vertexCount) ∧
      (mesh.Tangents ≠ [] → out.Tangents.length = 3 * out.vertexCount) ∧
      (mesh.UVs ≠ [] → out.UVs.length = 2 * out.vertexCount) ∧
      (mesh.Weights ≠ [] →
        out.IDs.length = 4 * out.vertexCount ∧ out.Weights.length = 3 * out.vertexCount) := by
  have hent := sortEntries_index_lt dividePlane mesh
  have hremap := remapIndex_final dividePlane (sortEntries (makeEntries dividePlane mesh)) mesh
    hcount hent
  have hcnt := out_vertexCount_creators dividePlane
    (sortEntries (makeEntries dividePlane mesh)) mesh
  have hrep : ∀ i, i < mesh.vertexCount →
      matchAt dividePlane (sortEntries (makeEntries dividePlane mesh)) mesh i = 0xffffffff →
      replacementOf dividePlane mesh i
        = (creators dividePlane (sortEntries (makeEntries dividePlane mesh)) mesh i).length := by
    intro i hi hm
    unfold replacementOf
    rw [hremap i hi]
    unfold uniqueIndexOf
    rw [if_neg (by simp [hm])]
  obtain ⟨hP, hN, hT, hUV, hID, hW⟩ := OptimizeMeshWith_arrays dividePlane
    (sortEntries (makeEntries dividePlane mesh)) mesh
  obtain ⟨g1, g2, g3, g4⟩ := Flags_ofMesh_iff mesh
  have hvc := OptimizeMeshWith_vertexCount dividePlane
    (sortEntries (makeEntries dividePlane mesh)) mesh
  refine ⟨_, OptimizeMesh_eq_some dividePlane mesh hskin, hcnt, ?_, ?_, ?_, ?_, ?_, ?_, ?_,
    ?_, ?_⟩
  · intro i hi hm
    have hv := stateAt_repl_value dividePlane (sortEntries (makeEntries dividePlane mesh)) mesh
      hcount hent i mesh.vertexCount hi (le_refl _)
    rw [if_neg (by simp [hm])] at hv
    obtain ⟨hlen, hget⟩ := creators_getElem dividePlane
      (sortEntries (makeEntries dividePlane mesh)) mesh i mesh.vertexCount hi hm
    refine ⟨hv, hrep i hi hm, ?_⟩
    rw [hrep i hi hm, getD_eq_getElem_of_lt _ _ _ hlen, hget]
  · intro h0
    rw [hrep 0 h0 (matchAt_zero dividePlane _ mesh hent)]
    rfl
  · intro i j hij hj hmi hmj
    rw [hrep i (by omega) hmi, hrep j hj hmj]
    obtain ⟨hlen, -⟩ := creators_getElem dividePlane
      (sortEntries (makeEntries dividePlane mesh)) mesh i j hij hmi
    exact hlen
  · intro u hu
    rw [hcnt] at hu
    exact compacted_slots dividePlane _ mesh u hu
  · rw [hvc, hP, length_flatMap_three]
  · intro h
    rw [hvc, hN, if_pos (g1.mpr h), length_flatMap_three]
  · intro h
    rw [hvc, hT, if_pos (g2.mpr h), length_flatMap_three]
  · intro h
    rw [hvc, hUV, if_pos (g3.mpr h), length_flatMap_two]
  · intro h
    constructor
    · rw [hvc, hID, if_pos (g4.mpr h), length_flatMap_four]
    · rw [hvc, hW, if_pos (g4.mpr h), length_flatMap_three]

theorem OptimizeMesh_first_appearance_witness :
    sampleMesh.vertexCount < 2 ^ 31 ∧
    (sampleMesh.Weights.length > 0 ↔ sampleMesh.IDs.length > 0) ∧
    ∃ out, OptimizeMesh samplePlane sampleMesh = some out ∧
      out.vertexCount = (creators samplePlane
        (sortEntries (makeEntries samplePlane sampleMesh)) sampleMesh
        sampleMesh.vertexCount).length :=
  ⟨by decide, by decide,
    (OptimizeMesh_first_appearance samplePlane sampleMesh (by decide) (by decide)).imp
      fun _ h => ⟨h.1, h.2.1⟩⟩

end WeldOrderClaims

/-! ## Meshes without close vertices -/

section Identity

variable {α : Type} [LinearOrderedField α]

theorem WellFormed.hskin {mesh : Mesh α} (wf : mesh.WellFormed) :
    mesh.Weights.length > 0 ↔ mesh.IDs.length > 0 := by
  rcases wf.skin with ⟨h1, h2⟩ | ⟨h1, h2, h3⟩
  · rw [h1, h2]
    exact Iff.rfl
  · have hw : 0 < mesh.Weights.length := List.length_pos.mpr h1
    constructor
    · intro _; omega
    · intro _; exact hw

end Identity

/-! ## The midpoint cache -/

section MidPointClaims

variable {α : Type} [LinearOrderedField α]

/-- C24: the midpoint lookup of `CreateIcoSphere` is symmetric and cached.  After
`GetMidPoint(p1, p2)` the call `GetMidPoint(p2, p1)` returns the same vertex index and leaves
the state as it is (it appends nothing); the first call appends exactly one vertex when the
key is not in the cache and nothing when it is; the key does not depend on the order of the
two indices, and two pairs of indices below `2 ^ 32` with the same key are the same unordered
pair. -/
theorem GetMidPoint_symmetric_cached (sqrt : α → α) (radius : α) (st : IcoState α)
    (p1 p2 : Nat) :
    IcoSphere.GetMidPoint sqrt radius (IcoSphere.GetMidPoint sqrt radius st p1 p2).1 p2 p1
      = ((IcoSphere.GetMidPoint sqrt radius st p1 p2).1,
         (IcoSphere.GetMidPoint sqrt radius st p1 p2).2) ∧
    (st.middlePointIndexCache.lookup (IcoSphere.key p1 p2) = none →
      (IcoSphere.GetMidPoint sqrt radius st p1 p2).1.Positions.length
        = st.Positions.length + 3 ∧
      (IcoSphere.GetMidPoint sqrt radius st p1 p2).1.index = st.index + 1 ∧
      (IcoSphere.GetMidPoint sqrt radius st p1 p2).2 = st.index) ∧
    (∀ i, st.middlePointIndexCache.lookup (IcoSphere.key p1 p2) = some i →
      IcoSphere.GetMidPoint sqrt radius st p1 p2 = (st, i)) ∧
    IcoSphere.key p1 p2 = IcoSphere.key p2 p1 ∧
    ∀ q1 q2, p1 < 2 ^ 32 → p2 < 2 ^ 32 → q1 < 2 ^ 32 → q2 < 2 ^ 32 →
      IcoSphere.key p1 p2 = IcoSphere.key q1 q2 →
      (p1 = q1 ∧ p2 = q2) ∨ (p1 = q2 ∧ p2 = q1) := by
  refine ⟨?_, ?_, fun i h => GetMidPoint_hit sqrt radius st p1 p2 i h, key_comm p1 p2,
    fun q1 q2 h1 h2 h3 h4 h => key_inj h1 h2 h3 h4 h⟩
  · cases h : st.middlePointIndexCache.lookup (IcoSphere.key p1 p2) with
    | some i =>
      rw [GetMidPoint_hit sqrt radius st p1 p2 i h]
      exact GetMidPoint_hit sqrt radius st p2 p1 i (by rw [key_comm]; exact h)
    | none =>
      rw [GetMidPoint_miss sqrt radius st p1 p2 h]
      apply GetMidPoint_hit
      rw [key_comm p2 p1]
      simp [List.lookup_cons]
  · intro h
    rw [GetMidPoint_miss sqrt radius st p1 p2 h]
    simp [midCoordinates_length]

end MidPointClaims

/-! ## TransformMesh -/

section Transform

variable {α : Type} [LinearOrderedField α]

theorem length_updateVectorAt (g : Vector4 α → Vector4 α) (data : List α) (i : Nat) :
    (updateVectorAt g data i).length = data.length := by
  simp [updateVectorAt]

theorem posOf_updateVectorAt (g : Vector4 α → Vector4 α) (data : List α) (i v : Nat)
    (hi : i * 3 + 2 < data.length) :
    posOf (updateVectorAt g data i) v = if i = v then g (posOf data v) else posOf data v := by
  by_cases h : i = v
  · subst h
    rw [if_pos rfl]
    simp only [posOf, updateVectorAt, getD_set, List.length_set, Vector4.mk.injEq]
    ext <;> simp only <;> split_ifs <;>
      first | rfl | omega | (simp only [true_and] at *; omega)
  · rw [if_neg h]
    simp only [posOf, updateVectorAt, getD_set, List.length_set, Vector4.mk.injEq]
    refine ⟨?_, ?_, ?_⟩ <;> split_ifs <;> first | rfl | omega

theorem posOf_foldl_updateVectorAt (g : Vector4 α → Vector4 α) (data : List α) (v : Nat)
    (n : Nat) :
    ((List.range n).foldl (updateVectorAt g) data).length = data.length ∧
    (v * 3 + 2 < data.length →
      posOf ((List.range n).foldl (updateVectorAt g) data) v
        = if v < n then g (posOf data v) else posOf data v) := by
  induction n with
  | zero => simp
  | succ n ih =>
    obtain ⟨hlen, hpos⟩ := ih
    rw [List.range_succ, List.foldl_append]
    simp only [List.foldl_cons, List.foldl_nil]
    refine ⟨by rw [length_updateVectorAt, hlen], ?_⟩
    intro hv
    by_cases hn : n * 3 + 2 < data.length
    · rw [posOf_updateVectorAt _ _ _ _ (by rw [hlen]; exact hn), hpos hv]
      by_cases h : n = v
      · subst h
        rw [if_pos rfl, if_neg (lt_irrefl _), if_pos (Nat.lt_succ_self _)]
      · rw [if_neg h]
        by_cases h2 : v < n
        · rw [if_pos h2, if_pos (by omega)]
        · rw [if_neg h2, if_neg (by omega)]
    · -- vertex `n` lies outside the array: `v < n`, and the writes miss slot `v`
      have hvn : v < n := by omega
      have hne : n ≠ v := by omega
      have hmiss : posOf (updateVectorAt g ((List.range n).foldl (updateVectorAt g) data) n) v
          = posOf ((List.range n).foldl (updateVectorAt g) data) v := by
        simp only [posOf, updateVectorAt, getD_set, List.length_set, Vector4.mk.injEq]
        refine ⟨?_, ?_, ?_⟩ <;> split_ifs <;> first | rfl | omega
      rw [hmiss, hpos hv, if_pos hvn, if_pos (by omega)]

/-- The loop of `TransformMesh` works on the three arrays independently. -/
theorem foldl_TransformMesh_step (sqrt : α → α) (matrix : Matrix4 α)
    (hasNormal hasTangent : Bool) (mesh : Mesh α) (n : Nat) :
    (List.range n).foldl (TransformMesh.step sqrt matrix hasNormal hasTangent) mesh =
      { mesh with
        Positions := (List.range n).foldl
          (updateVectorAt (fun pos => matrix.Multiply pos 1)) mesh.Positions
        Normals := if hasNormal then (List.range n).foldl
            (updateVectorAt (fun normal => Vector4.Normalized sqrt (matrix.Multiply normal 0)))
            mesh.Normals
          else mesh.Normals
        Tangents := if hasTangent then (List.range n).foldl
            (updateVectorAt (fun tangent => Vector4.Normalized sqrt (matrix.Multiply tangent 0)))
            mesh.Tangents
          else mesh.Tangents } := by
  induction n with
  | zero => cases hasNormal <;> cases hasTangent <;> rfl
  | succ n ih =>
    rw [List.range_succ, List.foldl_append, List.foldl_append, List.foldl_append,
      List.foldl_append, ih]
    cases hasNormal <;> cases hasTangent <;> rfl

/-- C25: `TransformMesh` replaces the position `p` of every vertex by the xyz part of
`M * (p, 1)` and, when normals or tangents are present, every normal and tangent `d` by the
normalised xyz part of `M * (d, 0)` with the same matrix `M`; it leaves `Indices`, the
submesh indices, `UVs`, `IDs`, `Weights` and the length of every array unchanged; with empty
`Positions` it returns the mesh as it is. -/
theorem TransformMesh_spec (sqrt : α → α) (mesh : Mesh α) (matrix : Matrix4 α)
    (updateBuffer : Bool) :
    (TransformMesh sqrt mesh matrix updateBuffer).Indices = mesh.Indices ∧
    (TransformMesh sqrt mesh matrix updateBuffer).SubMeshes = mesh.SubMeshes ∧
    (TransformMesh sqrt mesh matrix updateBuffer).UVs = mesh.UVs ∧
    (TransformMesh sqrt mesh matrix updateBuffer).IDs = mesh.IDs ∧
    (TransformMesh sqrt mesh matrix updateBuffer).Weights = mesh.Weights ∧
    (TransformMesh sqrt mesh matrix updateBuffer).Positions.length = mesh.Positions.length ∧
    (TransformMesh sqrt mesh matrix updateBuffer).Normals.length = mesh.Normals.length ∧
    (TransformMesh sqrt mesh matrix updateBuffer).Tangents.length = mesh.Tangents.length ∧
    (∀ i, i < mesh.vertexCount →
      posOf (TransformMesh sqrt mesh matrix updateBuffer).Positions i
        = matrix.Multiply (posOf mesh.Positions i) 1) ∧
    (∀ i, i < mesh.vertexCount → i * 3 + 2 < mesh.Normals.length →
      posOf (TransformMesh sqrt mesh matrix updateBuffer).Normals i
        = Vector4.Normalized sqrt (matrix.Multiply (posOf mesh.Normals i) 0)) ∧
    (∀ i, i < mesh.vertexCount → i * 3 + 2 < mesh.Tangents.length →
      posOf (TransformMesh sqrt mesh matrix updateBuffer).Tangents i
        = Vector4.Normalized sqrt (matrix.Multiply (posOf mesh.Tangents i) 0)) ∧
    (mesh.Positions = [] → TransformMesh sqrt mesh matrix updateBuffer = mesh) := by
  by_cases h0 : mesh.Positions.length = 0
  · have hm : TransformMesh sqrt mesh matrix updateBuffer = mesh := by
      unfold TransformMesh
      simp only
      rw [if_pos h0]
    have hv : mesh.vertexCount = 0 := by unfold Mesh.vertexCount; rw [h0]
    rw [hm]
    refine ⟨rfl, rfl, rfl, rfl, rfl, rfl, rfl, rfl, ?_, ?_, ?_, fun _ => rfl⟩ <;>
      (intro i hi; omega)
  · have hm : TransformMesh sqrt mesh matrix updateBuffer =
        (List.range (mesh.Positions.length / 3)).foldl
          (TransformMesh.step sqrt matrix (decide (mesh.Normals.length > 0))
            (decide (mesh.Tangents.length > 0))) mesh := by
      unfold TransformMesh
      simp only
      rw [if_neg h0]
    rw [hm, foldl_TransformMesh_step sqrt matrix _ _ mesh (mesh.Positions.length / 3)]
    have hP := posOf_foldl_updateVectorAt (fun pos => matrix.Multiply pos 1) mesh.Positions
    have hN := posOf_foldl_updateVectorAt
      (fun normal => Vector4.Normalized sqrt (matrix.Multiply normal 0)) mesh.Normals
    have hT := posOf_foldl_updateVectorAt
      (fun tangent => Vector4.Normalized sqrt (matrix.Multiply tangent 0)) mesh.Tangents
    refine ⟨rfl, rfl, rfl, rfl, rfl, (hP 0 _).1, ?_, ?_, ?_, ?_, ?_, ?_⟩
    · show (if _ then _ else _ : List α).length = _
      split_ifs
      · exact (hN 0 _).1
      · rfl
    · show (if _ then _ else _ : List α).length = _
      split_ifs
      · exact (hT 0 _).1
      · rfl
    · intro i hi
      have hi' : i < mesh.Positions.length / 3 := hi
      have := (hP i (mesh.Positions.length / 3)).2 (by omega)
      rw [if_pos hi'] at this
      exact this
    · intro i hi hin
      have hi' : i < mesh.Positions.length / 3 := hi
      have hpos : decide (mesh.Normals.length > 0) = true := by
        simp only [decide_eq_true_eq]; omega
      show posOf (if _ then _ else _ : List α) i = _
      rw [if_pos hpos]
      have := (hN i (mesh.Positions.length / 3)).2 hin
      rw [if_pos hi'] at this
      exact this
    · intro i hi hin
      have hi' : i < mesh.Positions.length / 3 := hi
      have hpos : decide (mesh.Tangents.length > 0) = true := by
        simp only [decide_eq_true_eq]; omega
      show posOf (if _ then _ else _ : List α) i = _
      rw [if_pos hpos]
      have := (hT i (mesh.Positions.length / 3)).2 hin
      rw [if_pos hi'] at this
      exact this
    · intro hnil
      rw [hnil] at h0
      exact absurd rfl h0

end Transform

/-! ## Ring generators: indices -/

section RingIndices

variable {α : Type} [LinearOrderedField α]

theorem getD_lt_of_forall (l : List Nat) (i B : Nat) (h : ∀ x ∈ l, x < B) (hB : 0 < B) :
    l.getD i 0 < B := by
  rcases Nat.lt_or_ge i l.length with hi | hi
  · rw [getD_eq_getElem_of_lt _ _ _ hi]
    exact h _ (List.getElem_mem hi)
  · rw [List.getD_eq_getElem?_getD, List.getElem?_eq_none hi]
    exact hB

theorem headD_lt_of_forall (l : List Nat) (B : Nat) (h : ∀ x ∈ l, x < B) (hB : 0 < B) :
    l.headD 0 < B := by
  cases l with
  | nil => exact hB
  | cons a t => exact h a (List.mem_cons_self _ _)

theorem getLastD_lt_of_forall (l : List Nat) (B : Nat) (h : ∀ x ∈ l, x < B) (hB : 0 < B) :
    l.getLastD 0 < B := by
  cases l with
  | nil => exact hB
  | cons a t =>
    rw [List.getLastD_cons]
    induction t generalizing a with
    | nil => exact h a (List.mem_cons_self _ _)
    | cons b t ih =>
      rw [List.getLastD_cons]
      exact ih b (fun x hx => h x (List.mem_cons_of_mem _ hx))

/-- A loop that only appends `m` indices below `B` per pass. -/
theorem foldl_Indices_spec (P C : List Nat) (idx m B : Nat)
    (g : RingState α → Nat → List Nat)
    (hg : ∀ s i, s.previousRing = P → s.currentRing = C → s.index = idx →
      (g s i).length = m ∧ ∀ x ∈ g s i, x < B)
    (l : List Nat) (st : RingState α)
    (hP : st.previousRing = P) (hC : st.currentRing = C) (hI : st.index = idx)
    (hst : ∀ x ∈ st.Indices, x < B) :
    (l.foldl (fun (st : RingState α) (i : Nat) =>
        { st with Indices := st.Indices ++ g st i }) st).Indices.length
      = st.Indices.length + m * l.length ∧
    (∀ x ∈ (l.foldl (fun (st : RingState α) (i : Nat) =>
        { st with Indices := st.Indices ++ g st i }) st).Indices, x < B) ∧
    (l.foldl (fun (st : RingState α) (i : Nat) =>
        { st with Indices := st.Indices ++ g st i }) st).index = st.index := by
  induction l generalizing st with
  | nil => exact ⟨by simp, hst, rfl⟩
  | cons i l ih =>
    rw [List.foldl_cons]
    obtain ⟨hlen, hb⟩ := hg st i hP hC hI
    obtain ⟨h1, h2, h3⟩ := ih { st with Indices := st.Indices ++ g st i } hP hC hI (by
      intro x hx
      rcases List.mem_append.mp hx with h | h
      · exact hst x h
      · exact hb x h)
    refine ⟨?_, h2, h3⟩
    rw [h1]
    simp only [List.length_append, List.length_cons, hlen]
    ring

theorem fillRing_idx (cos sin : α → α) (avgRadian currentRadius currentHeight : α)
    (segV : Int) (st : RingState α) :
    (RingState.fillRing cos sin avgRadian currentRadius currentHeight segV st).index
      = st.index + segV.toNat ∧
    (RingState.fillRing cos sin avgRadian currentRadius currentHeight segV st).Indices
      = st.Indices ∧
    ∀ x ∈ (RingState.fillRing cos sin avgRadian currentRadius currentHeight segV
        st).currentRing, x ∈ st.currentRing ∨ x < st.index + segV.toNat := by
  unfold RingState.fillRing
  induction segV.toNat with
  | zero => exact ⟨rfl, rfl, fun x hx => Or.inl hx⟩
  | succ m ih =>
    rw [List.range_succ, List.foldl_append, List.foldl_cons, List.foldl_nil]
    obtain ⟨h1, h2, h3⟩ := ih
    refine ⟨?_, ?_, ?_⟩
    · show (List.foldl _ st (List.range m)).index + 1 = _
      rw [h1]
      omega
    · exact h2
    · intro x hx
      have hx' : x ∈ (List.foldl _ st (List.range m)).currentRing
          ++ [(List.foldl _ st (List.range m)).index] := hx
      rcases List.mem_append.mp hx' with h | h
      · rcases h3 x h with h | h
        · exact Or.inl h
        · exact Or.inr (by omega)
      · rw [List.mem_singleton] at h
        rw [h, h1]
        exact Or.inr (by omega)

theorem connectRings_idx (st : RingState α) (B : Nat) (hB : 0 < B)
    (hc : 0 < st.currentRing.length)
    (hP : ∀ x ∈ st.previousRing, x < B) (hC : ∀ x ∈ st.currentRing, x < B)
    (hI : ∀ x ∈ st.Indices, x < B) :
    st.connectRings.Indices.length = st.Indices.length + 6 * st.currentRing.length ∧
    (∀ x ∈ st.connectRings.Indices, x < B) ∧ st.connectRings.index = st.index := by
  unfold RingState.connectRings
  simp only
  obtain ⟨h1, h2, h3⟩ := foldl_Indices_spec st.previousRing st.currentRing st.index 6 B
    (fun st i => [st.previousRing.getD i 0, st.previousRing.getD (i + 1) 0,
      st.currentRing.getD (i + 1) 0, st.currentRing.getD (i + 1) 0, st.currentRing.getD i 0,
      st.previousRing.getD i 0])
    (by
      intro s i hsP hsC _
      refine ⟨rfl, ?_⟩
      intro x hx
      simp only [List.mem_cons, List.mem_singleton, List.not_mem_nil, or_false] at hx
      rw [hsP, hsC] at hx
      rcases hx with rfl | rfl | rfl | rfl | rfl | rfl <;>
        first
        | exact getD_lt_of_forall _ _ _ hP hB
        | exact getD_lt_of_forall _ _ _ hC hB)
    (List.range (st.currentRing.length - 1)) st rfl rfl rfl hI
  obtain ⟨k1, k2, k3⟩ := foldl_Indices_only
    (fun st i => [st.previousRing.getD i 0, st.previousRing.getD (i + 1) 0,
      st.currentRing.getD (i + 1) 0, st.currentRing.getD (i + 1) 0, st.currentRing.getD i 0,
      st.previousRing.getD i 0]) (List.range (st.currentRing.length - 1)) st
  refine ⟨?_, ?_, h3⟩
  · rw [List.length_append, h1, List.length_range]
    simp only [List.length_cons, List.length_nil]
    omega
  · intro x hx
    rcases List.mem_append.mp hx with h | h
    · exact h2 x h
    · simp only [List.mem_cons, List.mem_singleton, List.not_mem_nil, or_false] at h
      rw [k2, k3] at h
      rcases h with rfl | rfl | rfl | rfl | rfl | rfl <;>
        first
        | exact getLastD_lt_of_forall _ _ hP hB
        | exact headD_lt_of_forall _ _ hP hB
        | exact headD_lt_of_forall _ _ hC hB
        | exact getLastD_lt_of_forall _ _ hC hB

theorem closeTop_idx (y : α) (st : RingState α)
    (hc : 0 < st.currentRing.length)
    (hC : ∀ x ∈ st.currentRing, x < st.index + 1)
    (hI : ∀ x ∈ st.Indices, x < st.index + 1) :
    (st.closeTop y).Indices.length = st.Indices.length + 3 * st.currentRing.length ∧
    (∀ x ∈ (st.closeTop y).Indices, x < st.index + 1) ∧
    (st.closeTop y).index = st.index + 1 := by
  unfold RingState.closeTop
  simp only
  obtain ⟨h1, h2, h3⟩ := foldl_Indices_spec st.previousRing st.currentRing (st.index + 1) 3
    (st.index + 1)
    (fun s i => [(st.AddVertex 0 y 0).2, s.currentRing.getD (i + 1) 0, s.currentRing.getD i 0])
    (by
      intro s i _ hsC _
      refine ⟨rfl, ?_⟩
      intro x hx
      simp only [List.mem_cons, List.mem_singleton, List.not_mem_nil, or_false] at hx
      rw [hsC] at hx
      rcases hx with rfl | rfl | rfl
      · show st.index < st.index + 1
        omega
      · exact getD_lt_of_forall _ _ _ hC (by omega)
      · exact getD_lt_of_forall _ _ _ hC (by omega))
    (List.range ((st.AddVertex 0 y 0).1.currentRing.length - 1)) (st.AddVertex 0 y 0).1
    rfl rfl rfl hI
  obtain ⟨k1, k2, k3⟩ := foldl_Indices_only
    (fun s i => [(st.AddVertex 0 y 0).2, s.currentRing.getD (i + 1) 0, s.currentRing.getD i 0])
    (List.range ((st.AddVertex 0 y 0).1.currentRing.length - 1)) (st.AddVertex 0 y 0).1
  refine ⟨?_, ?_, h3⟩
  · rw [List.length_append, h1, List.length_range]
    simp only [List.length_cons, List.length_nil]
    have : (st.AddVertex 0 y 0).1.currentRing = st.currentRing := rfl
    have : (st.AddVertex 0 y 0).1.Indices = st.Indices := rfl
    rw [‹(st.AddVertex 0 y 0).1.currentRing = st.currentRing›,
      ‹(st.AddVertex 0 y 0).1.Indices = st.Indices›]
    omega
  · intro x hx
    rcases List.mem_append.mp hx with h | h
    · exact h2 x h
    · simp only [List.mem_cons, List.mem_singleton, List.not_mem_nil, or_false] at h
      rw [k3] at h
      rcases h with rfl | rfl | rfl
      · show st.index < st.index + 1
        omega
      · exact headD_lt_of_forall _ _ hC (by omega)
      · exact getLastD_lt_of_forall _ _ hC (by omega)

theorem closeBottom_idx (y : α) (st : RingState α)
    (hc : 0 < st.previousRing.length)
    (hP : ∀ x ∈ st.previousRing, x < st.index + 1)
    (hI : ∀ x ∈ st.Indices, x < st.index + 1) :
    (st.closeBottom y).Indices.length = st.Indices.length + 3 * st.previousRing.length ∧
    (∀ x ∈ (st.closeBottom y).Indices, x < st.index + 1) := by
  unfold RingState.closeBottom
  simp only
  obtain ⟨h1, h2, h3⟩ := foldl_Indices_spec st.previousRing st.currentRing (st.index + 1) 3
    (st.index + 1)
    (fun s i => [(st.AddVertex 0 y 0).2, s.previousRing.getD i 0, s.previousRing.getD (i + 1) 0])
    (by
      intro s i hsP _ _
      refine ⟨rfl, ?_⟩
      intro x hx
      simp only [List.mem_cons, List.mem_singleton, List.not_mem_nil, or_false] at hx
      rw [hsP] at hx
      rcases hx with rfl | rfl | rfl
      · show st.index < st.index + 1
        omega
      · exact getD_lt_of_forall _ _ _ hP (by omega)
      · exact getD_lt_of_forall _ _ _ hP (by omega))
    (List.range ((st.AddVertex 0 y 0).1.previousRing.length - 1)) (st.AddVertex 0 y 0).1
    rfl rfl rfl hI
  obtain ⟨k1, k2, k3⟩ := foldl_Indices_only
    (fun s i => [(st.AddVertex 0 y 0).2, s.previousRing.getD i 0, s.previousRing.getD (i + 1) 0])
    (List.range ((st.AddVertex 0 y 0).1.previousRing.length - 1)) (st.AddVertex 0 y 0).1
  refine ⟨?_, ?_⟩
  · rw [List.length_append, h1, List.length_range]
    simp only [List.length_cons, List.length_nil]
    have e1 : (st.AddVertex 0 y 0).1.previousRing = st.previousRing := rfl
    have e2 : (st.AddVertex 0 y 0).1.Indices = st.Indices := rfl
    rw [e1, e2]
    omega
  · intro x hx
    rcases List.mem_append.mp hx with h | h
    · exact h2 x h
    · simp only [List.mem_cons, List.mem_singleton, List.not_mem_nil, or_false] at h
      rw [k2] at h
      rcases h with rfl | rfl | rfl
      · show st.index < st.index + 1
        omega
      · exact getLastD_lt_of_forall _ _ hP (by omega)
      · exact headD_lt_of_forall _ _ hP (by omega)

end RingIndices

/-! ## Ring generators: counts -/

section RingCounts

variable {α : Type} [LinearOrderedField α]

theorem RingIdx_step (cos sin : α → α) (avgRadian currentRadius currentHeight : α)
    (segV : Int) (hV : 0 < segV.toNat) (k : Nat) (st : RingState α)
    (inv : RingInv segV.toNat k st) (idx : RingIdx segV.toNat k st) :
    RingIdx segV.toNat (k + 1) (RingState.finishRing currentHeight
      (RingState.fillRing cos sin avgRadian currentRadius currentHeight segV st)) := by
  obtain ⟨f1, f2, f3⟩ := fillRing_spec cos sin avgRadian currentRadius currentHeight segV st
  obtain ⟨i1, i2, i3⟩ := fillRing_idx cos sin avgRadian currentRadius currentHeight segV st
  generalize RingState.fillRing cos sin avgRadian currentRadius currentHeight segV st = s
    at f1 f2 f3 i1 i2 i3
  have hcur : s.currentRing.length = segV.toNat := by
    rw [f2, inv.cur]
    simp
  have hcb : ∀ x ∈ s.currentRing, x < s.index := by
    intro x hx
    rcases i3 x hx with h | h
    · rw [inv.cur] at h
      simp at h
    · omega
  have hib : ∀ x ∈ s.Indices, x < s.index := by
    intro x hx
    rw [i2] at hx
    have := idx.ibound x hx
    omega
  have hpb : ∀ x ∈ s.previousRing, x < s.index := by
    intro x hx
    rw [f3] at hx
    have := idx.pbound x hx
    omega
  have hidx : s.index * 3 = s.Positions.length := by
    rw [i1, f1, ← idx.index]
    ring
  have hspos : 0 < s.index := by omega
  unfold RingState.finishRing
  simp only
  by_cases hk : k = 0
  · have hp : ¬ s.previousRing.length > 0 := by
      rw [f3, inv.prev, if_pos hk]
      omega
    rw [if_neg hp]
    obtain ⟨c1, c2, c3⟩ := closeTop_spec currentHeight s
    obtain ⟨t1, t2, t3⟩ := closeTop_idx currentHeight s (by omega)
      (fun x hx => by have := hcb x hx; omega) (fun x hx => by have := hib x hx; omega)
    refine ⟨?_, ?_, ?_, ?_⟩
    · show (s.closeTop currentHeight).index * 3 = (s.closeTop currentHeight).Positions.length
      rw [t3, c1]
      omega
    · show (s.closeTop currentHeight).Indices.length = _
      rw [t1, i2, idx.ilen, if_pos hk, hcur, if_neg (by omega), hk]
      simp
    · intro x hx
      have hx' : x ∈ (s.closeTop currentHeight).Indices := hx
      show x < (s.closeTop currentHeight).index
      rw [t3]
      exact t2 x hx'
    · intro x hx
      have hx' : x ∈ (s.closeTop currentHeight).currentRing := hx
      show x < (s.closeTop currentHeight).index
      rw [c3] at hx'
      rw [t3]
      have := hcb x hx'
      omega
  · have hp : s.previousRing.length > 0 := by
      rw [f3, inv.prev, if_neg hk]
      exact hV
    rw [if_pos hp]
    obtain ⟨c1, c2, c3⟩ := connectRings_spec s
    obtain ⟨t1, t2, t3⟩ := connectRings_idx s s.index hspos (by omega) hpb hcb hib
    refine ⟨?_, ?_, ?_, ?_⟩
    · show s.connectRings.index * 3 = s.connectRings.Positions.length
      rw [t3, c1]
      exact hidx
    · show s.connectRings.Indices.length = _
      rw [t1, i2, idx.ilen, if_neg hk, hcur, if_neg (by omega)]
      have : k + 1 - 1 = (k - 1) + 1 := by omega
      rw [this]
      ring
    · intro x hx
      have hx' : x ∈ s.connectRings.Indices := hx
      show x < s.connectRings.index
      rw [t3]
      exact t2 x hx'
    · intro x hx
      have hx' : x ∈ s.connectRings.currentRing := hx
      show x < s.connectRings.index
      rw [c3] at hx'
      rw [t3]
      exact hcb x hx'

theorem RingIdx_init (n : Nat) : RingIdx n 0 (⟨[], [], 0, [], []⟩ : RingState α) :=
  ⟨rfl, rfl, fun i hi => by simp at hi, fun i hi => by simp at hi⟩

theorem foldl_range_inv {σ : Type} (I : Nat → σ → Prop) (step : σ → Nat → σ)
    (hstep : ∀ s i k, I k s → I (k + 1) (step s i)) (init : σ) (h0 : I 0 init) (k : Nat) :
    I k ((List.range k).foldl step init) := by
  induction k with
  | zero => exact h0
  | succ k ih =>
    rw [List.range_succ, List.foldl_append, List.foldl_cons, List.foldl_nil]
    exact hstep _ _ _ ih

/-- The mesh that a ring generator hands over after `k >= 1` rings of `n >= 1` vertices and
the bottom fan. -/
theorem closeBottom_counts (n k : Nat) (hn : 0 < n) (hk : 0 < k) (y : α) (st : RingState α)
    (inv : RingInv n k st) (idx : RingIdx n k st) :
    (st.closeBottom y).Positions.length = 3 * (k * n + 2) ∧
    (st.closeBottom y).Indices.length = 3 * (2 * k * n) ∧
    ∀ x ∈ (st.closeBottom y).Indices, x < k * n + 2 := by
  have hk0 : k ≠ 0 := by omega
  have hplen := inv.plen
  have hprev := inv.prev
  have hilen := idx.ilen
  rw [if_neg hk0] at hplen hprev hilen
  have hidx : st.index = k * n + 1 := by
    have := idx.index
    omega
  obtain ⟨b1, b2⟩ := closeBottom_idx y st (by omega)
    (fun x hx => by have := idx.pbound x hx; omega)
    (fun x hx => by have := idx.ibound x hx; omega)
  refine ⟨?_, ?_, ?_⟩
  · rw [closeBottom_spec, hplen]
    ring
  · rw [b1, hilen, hprev]
    obtain ⟨j, rfl⟩ : ∃ j, k = j + 1 := ⟨k - 1, by omega⟩
    simp only [Nat.add_sub_cancel]
    ring
  · intro x hx
    have := b2 x hx
    omega

theorem CreateSphere_raw_counts (sin cos : α → α) (PI radius : α) (segH segV : Int)
    (hH : 2 ≤ segH) (hV : 3 ≤ segV) :
    (CreateSphere.raw sin cos PI radius segH segV).Positions.length
      = 3 * (segH.toNat * segV.toNat + 2) ∧
    (CreateSphere.raw sin cos PI radius segH segV).Indices.length
      = 3 * (2 * segH.toNat * segV.toNat) ∧
    ∀ x ∈ (CreateSphere.raw sin cos PI radius segH segV).Indices,
      x < segH.toNat * segV.toNat + 2 := by
  have hV0 : 0 < segV.toNat := by omega
  have hH0 : 0 < segH.toNat := by omega
  have inv := foldl_range_inv
    (fun k (s : RingState α) => RingInv segV.toNat k s ∧ RingIdx segV.toNat k s)
    (fun (st : RingState α) (h : Nat) =>
      RingState.finishRing (cos ((h : α) * (PI / ((segH - 1 : Int) : α))) * radius)
        (RingState.fillRing cos sin (PI * 2 / (segV : α))
          (sin ((h : α) * (PI / ((segH - 1 : Int) : α))) * radius)
          (cos ((h : α) * (PI / ((segH - 1 : Int) : α))) * radius) segV st))
    (fun s _ k inv => ⟨RingInv_step cos sin _ _ _ segV hV0 k s inv.1,
      RingIdx_step cos sin _ _ _ segV hV0 k s inv.1 inv.2⟩)
    (⟨[], [], 0, [], []⟩ : RingState α) ⟨RingInv_init _, RingIdx_init _⟩ segH.toNat
  exact closeBottom_counts segV.toNat segH.toNat hV0 hH0 (-radius) _ inv.1 inv.2

theorem CreateCylinder_raw_counts (sin cos : α → α) (PI topR bottomR height : α)
    (segH segV : Int) (hH : 2 ≤ segH) (hV : 3 ≤ segV) :
    (CreateCylinder.raw sin cos PI topR bottomR height segH segV).Positions.length
      = 3 * (segH.toNat * segV.toNat + 2) ∧
    (CreateCylinder.raw sin cos PI topR bottomR height segH segV).Indices.length
      = 3 * (2 * segH.toNat * segV.toNat) ∧
    ∀ x ∈ (CreateCylinder.raw sin cos PI topR bottomR height segH segV).Indices,
      x < segH.toNat * segV.toNat + 2 := by
  have hV0 : 0 < segV.toNat := by omega
  have hH0 : 0 < segH.toNat := by omega
  have inv := foldl_range_inv
    (fun k (s : RingState α × α × α) =>
      RingInv segV.toNat k s.1 ∧ RingIdx segV.toNat k s.1)
    (fun (s : RingState α × α × α) (_ : Nat) =>
      (RingState.finishRing s.2.1
        (RingState.fillRing cos sin (PI * 2 / (segV : α)) s.2.2 s.2.1 segV s.1),
       s.2.1 - height / ((segH - 1 : Int) : α),
       s.2.2 - (topR - bottomR) / ((segH - 1 : Int) : α)))
    (fun s _ k inv => ⟨RingInv_step cos sin _ _ _ segV hV0 k s.1 inv.1,
      RingIdx_step cos sin _ _ _ segV hV0 k s.1 inv.1 inv.2⟩)
    ((⟨[], [], 0, [], []⟩ : RingState α), height / 2, topR)
    ⟨RingInv_init _, RingIdx_init _⟩ segH.toNat
  exact closeBottom_counts segV.toNat segH.toNat hV0 hH0 (-height / 2) _ inv.1 inv.2

theorem triangleCount_OptimizeMeshWith (dividePlane : Vector4 α) (entries : List (VtxEntry α))
    (mesh : Mesh α) :
    (OptimizeMeshWith dividePlane entries mesh).triangleCount = mesh.triangleCount := by
  unfold Mesh.triangleCount
  rw [OptimizeMeshWith_Indices, List.length_map]

/-- C26: for `segH ≥ 2` and `segV ≥ 3` the geometry that `CreateSphere` and `CreateCylinder`
build before any welding has `3 * (segH * segV + 2)` position floats, that is
`segH * segV + 2` vertices, and `3 * (2 * segH * segV)` indices, that is `2 * segH * segV`
triangles, every index below `segH * segV + 2`; the mesh that either function returns has
`2 * segH * segV` triangles. -/
theorem CreateSphere_CreateCylinder_counts (sin cos : α → α) (PI : α)
    (dividePlane : Vector4 α) (radius topR bottomR height : α) (segH segV : Int)
    (hH : 2 ≤ segH) (hV : 3 ≤ segV) :
    (((CreateSphere.raw sin cos PI radius segH segV).Positions.length : Int)
        = 3 * (segH * segV + 2) ∧
      ((CreateSphere.raw sin cos PI radius segH segV).vertexCount : Int) = segH * segV + 2 ∧
      ((CreateSphere.raw sin cos PI radius segH segV).Indices.length : Int)
        = 3 * (2 * segH * segV) ∧
      ((CreateSphere.raw sin cos PI radius segH segV).triangleCount : Int)
        = 2 * segH * segV ∧
      ∀ x ∈ (CreateSphere.raw sin cos PI radius segH segV).Indices,
        (x : Int) < segH * segV + 2) ∧
    (((CreateCylinder.raw sin cos PI topR bottomR height segH segV).Positions.length : Int)
        = 3 * (segH * segV + 2) ∧
      ((CreateCylinder.raw sin cos PI topR bottomR height segH segV).vertexCount : Int)
        = segH * segV + 2 ∧
      ((CreateCylinder.raw sin cos PI topR bottomR height segH segV).Indices.length : Int)
        = 3 * (2 * segH * segV) ∧
      ((CreateCylinder.raw sin cos PI topR bottomR height segH segV).triangleCount : Int)
        = 2 * segH * segV ∧
      ∀ x ∈ (CreateCylinder.raw sin cos PI topR bottomR height segH segV).Indices,
        (x : Int) < segH * segV + 2) ∧
    (∃ mesh, CreateSphere sin cos PI dividePlane radius segH segV = some mesh ∧
      (mesh.triangleCount : Int) = 2 * segH * segV) ∧
    ∃ mesh, CreateCylinder sin cos PI dividePlane topR bottomR height segH segV = some mesh ∧
      (mesh.triangleCount : Int) = 2 * segH * segV := by
  have hHn : ((segH.toNat : Nat) : Int) = segH := Int.toNat_of_nonneg (by omega)
  have hVn : ((segV.toNat : Nat) : Int) = segV := Int.toNat_of_nonneg (by omega)
  have cast : ∀ m : Mesh α,
      m.Positions.length = 3 * (segH.toNat * segV.toNat + 2) ∧
      m.Indices.length = 3 * (2 * segH.toNat * segV.toNat) ∧
      (∀ x ∈ m.Indices, x < segH.toNat * segV.toNat + 2) →
      ((m.Positions.length : Int) = 3 * (segH * segV + 2) ∧
        (m.vertexCount : Int) = segH * segV + 2 ∧
        (m.Indices.length : Int) = 3 * (2 * segH * segV) ∧
        (m.triangleCount : Int) = 2 * segH * segV ∧
        ∀ x ∈ m.Indices, (x : Int) < segH * segV + 2) := by
    rintro m ⟨hp, hi, hb⟩
    have hv : m.vertexCount = segH.toNat * segV.toNat + 2 := by
      unfold Mesh.vertexCount
      rw [hp]
      exact Nat.mul_div_cancel_left _ (by norm_num)
    have ht : m.triangleCount = 2 * segH.toNat * segV.toNat := by
      unfold Mesh.triangleCount
      rw [hi]
      exact Nat.mul_div_cancel_left _ (by norm_num)
    refine ⟨?_, ?_, ?_, ?_, ?_⟩
    · rw [hp]
      push_cast
      rw [hHn, hVn]
    · rw [hv]
      push_cast
      rw [hHn, hVn]
    · rw [hi]
      push_cast
      rw [hHn, hVn]
    · rw [ht]
      push_cast
      rw [hHn, hVn]
    · intro x hx
      have := hb x hx
      have h2 : ((x : Nat) : Int) < ((segH.toNat * segV.toNat + 2 : Nat) : Int) :=
        Int.ofNat_lt.mpr this
      push_cast at h2
      rw [hHn, hVn] at h2
      exact h2
  have hs := cast _ (CreateSphere_raw_counts sin cos PI radius segH segV hH hV)
  have hc := cast _ (CreateCylinder_raw_counts sin cos PI topR bottomR height segH segV hH hV)
  have hg : ¬ (segH < 2 ∨ segV < 3) := by omega
  have hO : ∀ m : Mesh α, m.Weights = [] → m.IDs = [] →
      (m.triangleCount : Int) = 2 * segH * segV →
      ∃ out, OptimizeMesh dividePlane m = some out ∧
        (out.triangleCount : Int) = 2 * segH * segV := by
    intro m hw hi ht
    refine ⟨_, OptimizeMesh_eq_some dividePlane m (by rw [hw, hi]; exact Iff.rfl), ?_⟩
    rw [triangleCount_OptimizeMeshWith]
    exact ht
  refine ⟨hs, hc, ?_, ?_⟩
  · unfold CreateSphere
    rw [if_neg hg]
    exact hO _ rfl rfl hs.2.2.2.1
  · unfold CreateCylinder
    rw [if_neg hg]
    simp only
    split_ifs
    · exact hO _ rfl rfl hc.2.2.2.1
    · exact ⟨_, rfl, hc.2.2.2.1⟩

theorem CreateSphere_CreateCylinder_counts_witness :
    (2 : Int) ≤ 2 ∧ (3 : Int) ≤ 3 ∧
    ((CreateSphere.raw (fun x => x) (fun x => x) (3 : ℚ) 1 2 3).vertexCount : Int)
      = 2 * 3 + 2 ∧
    ((CreateCylinder.raw (fun x => x) (fun x => x) (3 : ℚ) 1 2 4 2 3).triangleCount : Int)
      = 2 * 2 * 3 :=
  ⟨le_refl _, le_refl _,
    (CreateSphere_CreateCylinder_counts (fun x => x) (fun x => x) (3 : ℚ) samplePlane
      1 1 2 4 2 3 (le_refl _) (le_refl _)).1.2.1,
    (CreateSphere_CreateCylinder_counts (fun x => x) (fun x => x) (3 : ℚ) samplePlane
      1 1 2 4 2 3 (le_refl _) (le_refl _)).2.1.2.2.2.1⟩

end RingCounts

/-! ## FindNeighbors: every access stays inside the entry array -/

section SearchBounds

variable {α : Type} [LinearOrderedField α]

theorem checkedRead_lt {β : Type} (data : List β) (j : Nat) (h : j < data.length) :
    checkedRead data j = some (data.get ⟨j, h⟩) := by
  unfold checkedRead
  rw [List.getElem?_eq_getElem h]
  rfl

theorem getD_eq_get {β : Type} (data : List β) (j : Nat) (d : β) (h : j < data.length) :
    data.getD j d = data.get ⟨j, h⟩ := by
  rw [getD_eq_getElem_of_lt data j d h]
  rfl

theorem checkedBinarySearch_eq (entries : List (VtxEntry α)) (minDist : α)
    (hn : entries.length < 2 ^ 32) :
    ∀ fuel index step, step ≤ fuel → 2 * step ≤ index → index + 2 * step ≤ entries.length →
      index < entries.length →
      FindNeighbors.checkedBinarySearch entries minDist fuel index step
        = some (FindNeighbors.binarySearch entries minDist fuel index step) := by
  intro fuel
  induction fuel with
  | zero =>
    intro index step h0 _ _ _
    have : ¬ step > 1 := by omega
    simp [FindNeighbors.checkedBinarySearch, FindNeighbors.binarySearch, this]
  | succ fuel ih =>
    intro index step hf h1 h2 h3
    unfold FindNeighbors.checkedBinarySearch FindNeighbors.binarySearch
    by_cases hstep : step > 1
    · rw [if_pos hstep, if_pos hstep, checkedRead_lt entries index h3]
      simp only
      rw [getD_eq_get entries index default h3]
      by_cases hlt : (entries.get ⟨index, h3⟩).dist < minDist
      · rw [if_pos hlt, if_pos hlt, if_pos (by omega)]
        have e : (index + step) % 2 ^ 32 = index + step := Nat.mod_eq_of_lt (by omega)
        rw [e]
        exact ih _ _ (by omega) (by omega) (by omega) (by omega)
      · rw [if_neg hlt, if_neg hlt, if_pos (by omega)]
        have e : (index + 2 ^ 32 - step) % 2 ^ 32 = index - step := by
          have : index + 2 ^ 32 - step = (index - step) + 2 ^ 32 := by omega
          rw [this, Nat.add_mod_right]
          exact Nat.mod_eq_of_lt (by omega)
        rw [e]
        exact ih _ _ (by omega) (by omega) (by omega) (by omega)
    · rw [if_neg hstep, if_neg hstep]

theorem checkedStepBack_eq (entries : List (VtxEntry α)) (minDist : α) :
    ∀ index, index < entries.length →
      FindNeighbors.checkedStepBack entries minDist index
        = some (FindNeighbors.stepBack entries minDist index) := by
  intro index
  induction index with
  | zero => intro _; rfl
  | succ index ih =>
    intro h
    unfold FindNeighbors.checkedStepBack FindNeighbors.stepBack
    rw [checkedRead_lt entries (index + 1) h]
    simp only
    rw [getD_eq_get entries (index + 1) default h]
    split_ifs
    · exact ih (by omega)
    · rfl

theorem checkedStepForward_eq (entries : List (VtxEntry α)) (minDist : α) :
    ∀ fuel index, index < entries.length → entries.length ≤ fuel + index →
      FindNeighbors.checkedStepForward entries minDist fuel index
        = some (FindNeighbors.stepForward entries minDist fuel index) := by
  intro fuel
  induction fuel with
  | zero => intro index h1 h2; omega
  | succ fuel ih =>
    intro index h1 h2
    unfold FindNeighbors.checkedStepForward FindNeighbors.stepForward
    by_cases hi : index < entries.length - 1
    · rw [if_pos hi, checkedRead_lt entries index h1]
      simp only
      rw [getD_eq_get entries index default h1]
      by_cases hlt : (entries.get ⟨index, h1⟩).dist < minDist
      · rw [if_pos hlt, if_pos ⟨hi, hlt⟩]
        exact ih _ (by omega) (by omega)
      · rw [if_neg hlt, if_neg (fun h => hlt h.2)]
    · rw [if_neg hi, if_neg (fun h => hi h.1)]

theorem checkedScan_eq (entries : List (VtxEntry α)) (pos : Vector4 α) (maxDist pSquared : α) :
    ∀ fuel index, index < entries.length → entries.length ≤ fuel + index →
      FindNeighbors.checkedScan entries pos maxDist pSquared fuel index
        = some (FindNeighbors.scan pos maxDist pSquared (entries.drop index)) := by
  intro fuel
  induction fuel with
  | zero => intro index h1 h2; omega
  | succ fuel ih =>
    intro index h1 h2
    unfold FindNeighbors.checkedScan
    rw [checkedRead_lt entries index h1]
    simp only
    have hd : entries.drop index = entries.get ⟨index, h1⟩ :: entries.drop (index + 1) := by
      rw [List.drop_eq_getElem_cons h1]
      rfl
    rw [hd, FindNeighbors.scan]
    by_cases hlt : (entries.get ⟨index, h1⟩).dist < maxDist
    · rw [if_pos hlt, if_pos hlt]
      by_cases hend : index + 1 = entries.length
      · rw [if_pos hend]
        have : entries.drop (index + 1) = [] := List.drop_eq_nil_of_le (by omega)
        rw [this]
        split_ifs <;> rfl
      · rw [if_neg hend, ih (index + 1) (by omega) (by omega)]
        split_ifs <;> rfl
    · rw [if_neg hlt, if_neg hlt]

end SearchBounds

section SearchBoundsClaim

variable {α : Type} [LinearOrderedField α]

/-- C31: `FindNeighbors` never indexes outside the entry array.  For every non-empty entry
array with fewer than `2 ^ 32` entries (so in particular for every size `n < 2 ^ 31`), sorted
or not, and every query, the lambda with all its accesses checked runs through and returns
the output of `FindNeighbors`: every `entries[index]` of the halving-step search, of the two
correction loops and every `it->` of the forward scan reads a position below `n`, no
`index -= binaryStepSize` goes below zero and no `index += binaryStepSize` reaches `n`.  The
index after the search, after the first and after the second correction loop is below `n`. -/
theorem FindNeighbors_checked_eq (dividePlane : Vector4 α) (entries : List (VtxEntry α))
    (pos : Vector4 α) (radius : α) (hpos : 0 < entries.length)
    (hlen : entries.length < 2 ^ 32) :
    FindNeighbors.checked dividePlane entries pos radius
      = some (FindNeighbors dividePlane entries pos radius) ∧
    ∀ minDist : α,
      FindNeighbors.checkedBinarySearch entries minDist (entries.length / 4)
          (entries.length / 2) (entries.length / 4)
        = some (FindNeighbors.binarySearch entries minDist (entries.length / 4)
          (entries.length / 2) (entries.length / 4)) ∧
      FindNeighbors.binarySearch entries minDist (entries.length / 4)
        (entries.length / 2) (entries.length / 4) < entries.length ∧
      FindNeighbors.stepBack entries minDist
        (FindNeighbors.binarySearch entries minDist (entries.length / 4)
          (entries.length / 2) (entries.length / 4)) < entries.length ∧
      FindNeighbors.start entries minDist < entries.length := by
  have key : ∀ minDist : α,
      FindNeighbors.checkedBinarySearch entries minDist (entries.length / 4)
          (entries.length / 2) (entries.length / 4)
        = some (FindNeighbors.binarySearch entries minDist (entries.length / 4)
          (entries.length / 2) (entries.length / 4)) ∧
      FindNeighbors.binarySearch entries minDist (entries.length / 4)
        (entries.length / 2) (entries.length / 4) < entries.length ∧
      FindNeighbors.stepBack entries minDist
        (FindNeighbors.binarySearch entries minDist (entries.length / 4)
          (entries.length / 2) (entries.length / 4)) < entries.length ∧
      FindNeighbors.start entries minDist < entries.length := by
    intro minDist
    have hb := binarySearch_lt entries minDist entries.length hlen (entries.length / 4)
      (entries.length / 2) (entries.length / 4) (by omega) (by omega) (by omega)
    have hsb := (stepBack_spec entries minDist
      (FindNeighbors.binarySearch entries minDist (entries.length / 4) (entries.length / 2)
        (entries.length / 4))).1
    refine ⟨checkedBinarySearch_eq entries minDist hlen _ _ _ (le_refl _) (by omega)
      (by omega) (by omega), hb, by omega, ?_⟩
    unfold FindNeighbors.start
    simp only [Nat.mod_eq_of_lt hlen]
    exact (stepForward_spec entries minDist entries.length _).2.1 (by omega)
  refine ⟨?_, key⟩
  unfold FindNeighbors.checked FindNeighbors
  simp only
  split_ifs with hq
  · rfl
  · obtain ⟨k1, k2, k3, k4⟩ := key (dividePlane.dot pos - radius)
    have hstart : FindNeighbors.start entries (dividePlane.dot pos - radius)
        = FindNeighbors.stepForward entries (dividePlane.dot pos - radius) entries.length
          (FindNeighbors.stepBack entries (dividePlane.dot pos - radius)
            (FindNeighbors.binarySearch entries (dividePlane.dot pos - radius)
              (entries.length / 4) (entries.length / 2) (entries.length / 4))) := by
      unfold FindNeighbors.start
      simp only [Nat.mod_eq_of_lt hlen]
    rw [Nat.mod_eq_of_lt hlen, k1]
    simp only [Option.bind_eq_bind, Option.some_bind]
    rw [checkedStepBack_eq entries _ _ k2]
    simp only [Option.some_bind]
    rw [checkedStepForward_eq entries _ entries.length _ k3 (by omega)]
    simp only [Option.some_bind]
    rw [← hstart, checkedScan_eq entries pos _ _ entries.length _ k4 (by omega)]

theorem FindNeighbors_checked_eq_witness :
    0 < (sortEntries (makeEntries samplePlane sampleMesh)).length ∧
    (sortEntries (makeEntries samplePlane sampleMesh)).length < 2 ^ 32 ∧
    FindNeighbors.checked samplePlane (sortEntries (makeEntries samplePlane sampleMesh))
        ⟨1, 0, 0⟩ epsilon
      = some (FindNeighbors samplePlane (sortEntries (makeEntries samplePlane sampleMesh))
        ⟨1, 0, 0⟩ epsilon) :=
  ⟨by decide!, by decide!,
    (FindNeighbors_checked_eq samplePlane (sortEntries (makeEntries samplePlane sampleMesh))
      ⟨1, 0, 0⟩ epsilon (by decide!) (by decide!)).1⟩

end SearchBoundsClaim

/-! ## CreateIcoSphere: the closed oriented triangulation, by counting -/

section IcoClosed

variable {α : Type} [LinearOrderedField α]

theorem allEdges_cons (t : Nat × Nat × Nat) (T : List (Nat × Nat × Nat)) :
    allEdges (t :: T) = dedges t ++ allEdges T := by
  simp [allEdges]

theorem trianglesWith_eq_nil (T : List (Nat × Nat × Nat)) (e : Nat × Nat)
    (h : e ∉ allEdges T) : trianglesWith T e = [] := by
  unfold trianglesWith
  rw [List.filter_eq_nil_iff]
  intro t ht hd
  apply h
  simp only [allEdges, List.mem_flatMap]
  exact ⟨t, ht, of_decide_eq_true hd⟩

theorem trianglesWith_length_one (T : List (Nat × Nat × Nat)) (e : Nat × Nat)
    (hnd : (allEdges T).Nodup) (he : e ∈ allEdges T) : (trianglesWith T e).length = 1 := by
  induction T with
  | nil => simp [allEdges] at he
  | cons t rest ih =>
    rw [allEdges_cons] at hnd he
    obtain ⟨_, hrest, hdis⟩ := List.nodup_append.mp hnd
    unfold trianglesWith
    by_cases h : e ∈ dedges t
    · rw [List.filter_cons_of_pos (by simpa using h)]
      have := trianglesWith_eq_nil rest e (fun h2 => hdis h h2)
      unfold trianglesWith at this
      rw [this]
      rfl
    · rw [List.filter_cons_of_neg (by simpa using h)]
      have he2 : e ∈ allEdges rest := by
        rcases List.mem_append.mp he with h1 | h1
        · exact absurd h1 h
        · exact h1
      exact ih hrest he2

theorem trianglesAlong_length (T : List (Nat × Nat × Nat)) (e : Nat × Nat)
    (hx : ∀ t ∈ T, ¬ (e ∈ dedges t ∧ (e.2, e.1) ∈ dedges t)) :
    (trianglesAlong T e).length
      = (trianglesWith T e).length + (trianglesWith T (e.2, e.1)).length := by
  induction T with
  | nil => rfl
  | cons t rest ih =>
    have ih2 := ih (fun t ht => hx t (List.mem_cons_of_mem _ ht))
    have hx0 := hx t (List.mem_cons_self _ _)
    unfold trianglesAlong trianglesWith at ih2 ⊢
    by_cases h1 : e ∈ dedges t
    · have h2 : (e.2, e.1) ∉ dedges t := fun h => hx0 ⟨h1, h⟩
      rw [List.filter_cons_of_pos (by simpa using Or.inl h1),
        List.filter_cons_of_pos (by simpa using h1),
        List.filter_cons_of_neg (by simpa using h2)]
      simp only [List.length_cons]
      omega
    · by_cases h2 : (e.2, e.1) ∈ dedges t
      · rw [List.filter_cons_of_pos (by simpa using Or.inr h2),
          List.filter_cons_of_neg (by simpa using h1),
          List.filter_cons_of_pos (by simpa using h2)]
        simp only [List.length_cons]
        omega
      · rw [List.filter_cons_of_neg (by simpa using (not_or.mpr ⟨h1, h2⟩)),
          List.filter_cons_of_neg (by simpa using h1),
          List.filter_cons_of_neg (by simpa using h2)]
        exact ih2

theorem rot_mem_corners {T : List (Nat × Nat × Nat)} {t : Nat × Nat × Nat} (ht : t ∈ T) :
    (t.1, t.2.1, t.2.2) ∈ corners T := by
  simp only [corners, List.mem_flatMap]
  exact ⟨t, ht, by simp [rot]⟩

/-- The three indices of a triangle of a closed triangulation are different and below the
vertex count. -/
theorem Manifold.triangle {T : List (Nat × Nat × Nat)} {V : Nat} (hM : Manifold T V)
    {t : Nat × Nat × Nat} (ht : t ∈ T) :
    t.1 < V ∧ t.2.1 < V ∧ t.2.2 < V ∧ t.1 ≠ t.2.1 ∧ t.2.1 ≠ t.2.2 ∧ t.2.2 ≠ t.1 := by
  have h1 := rot_mem_corners ht
  have h2 := corners_rot h1
  have h3 := corners_rot h2
  exact ⟨hM.lt _ h1, hM.lt _ h2, hM.lt _ h3, hM.ne _ h1, hM.ne _ h2, hM.ne _ h3⟩

theorem Manifold.no_reverse_inside {T : List (Nat × Nat × Nat)} {V : Nat} (hM : Manifold T V)
    {t : Nat × Nat × Nat} (ht : t ∈ T) (e : Nat × Nat) :
    ¬ (e ∈ dedges t ∧ (e.2, e.1) ∈ dedges t) := by
  obtain ⟨_, _, _, n1, n2, n3⟩ := hM.triangle ht
  obtain ⟨a, b, c⟩ := t
  obtain ⟨u, v⟩ := e
  simp only [dedges, List.mem_cons, List.mem_singleton, List.not_mem_nil, or_false,
    Prod.mk.injEq] at n1 n2 n3 ⊢
  omega

theorem Manifold.closedOriented {T : List (Nat × Nat × Nat)} {V : Nat} (hM : Manifold T V) :
    ClosedOriented T := by
  intro e he
  have h1 := trianglesWith_length_one T e hM.nodup he
  have h2 := trianglesWith_length_one T (e.2, e.1) hM.nodup (hM.rev e he)
  refine ⟨h1, h2, ?_, ?_⟩
  · intro t ht ht2
    unfold trianglesWith at ht ht2
    rw [List.mem_filter] at ht ht2
    exact hM.no_reverse_inside ht.1 e ⟨of_decide_eq_true ht.2, of_decide_eq_true ht2.2⟩
  · rw [trianglesAlong_length T e (fun t ht => hM.no_reverse_inside ht e), h1, h2]

theorem length_triples : ∀ l : List Nat, (triples l).length = l.length / 3
  | a :: b :: c :: rest => by
    rw [triples, List.length_cons, length_triples rest]
    simp only [List.length_cons]
    omega
  | [] => rfl
  | [_] => by simp [triples]
  | [_, _] => by simp [triples]

theorem mem_triples_of_mem : ∀ l : List Nat, l.length % 3 = 0 → ∀ i ∈ l,
    ∃ t ∈ triples l, i = t.1 ∨ i = t.2.1 ∨ i = t.2.2
  | a :: b :: c :: rest => by
    intro hl i hi
    have hl2 : rest.length % 3 = 0 := by
      simp only [List.length_cons] at hl
      omega
    rw [triples]
    simp only [List.mem_cons] at hi
    rcases hi with rfl | rfl | rfl | hi
    · exact ⟨_, List.mem_cons_self _ _, Or.inl rfl⟩
    · exact ⟨_, List.mem_cons_self _ _, Or.inr (Or.inl rfl)⟩
    · exact ⟨_, List.mem_cons_self _ _, Or.inr (Or.inr rfl)⟩
    · obtain ⟨t, ht, h⟩ := mem_triples_of_mem rest hl2 i hi
      exact ⟨t, List.mem_cons_of_mem _ ht, h⟩
  | [] => by intro _ i hi; simp at hi
  | [_] => by intro hl; simp at hl
  | [_, _] => by intro hl; simp at hl

theorem triple_mem_triples : ∀ (l : List Nat) (k : Nat), 3 * k + 2 < l.length →
    (l.getD (3 * k) 0, l.getD (3 * k + 1) 0, l.getD (3 * k + 2) 0) ∈ triples l
  | a :: b :: c :: rest, 0 => by
    intro _
    rw [triples]
    exact List.mem_cons_self _ _
  | a :: b :: c :: rest, k + 1 => by
    intro h
    have h2 : 3 * k + 2 < rest.length := by
      simp only [List.length_cons] at h
      omega
    have := triple_mem_triples rest k h2
    rw [triples]
    apply List.mem_cons_of_mem
    have e0 : 3 * (k + 1) = 3 * k + 3 := by ring
    have e1 : 3 * k + 3 + 1 = (3 * k + 1) + 3 := by ring
    have e2 : 3 * k + 3 + 2 = (3 * k + 2) + 3 := by ring
    rw [e0, e1, e2, getD_cons_add_three, getD_cons_add_three, getD_cons_add_three]
    exact this
  | [], k => by intro h; simp at h
  | [_], k => by intro h; simp only [List.length_cons, List.length_nil] at h; omega
  | [_, _], k => by intro h; simp only [List.length_cons, List.length_nil] at h; omega

end IcoClosed

section IcoClosedClaims

variable {α : Type} [LinearOrderedField α]

theorem CreateIcoSphere_Indices (sqrt : α → α) (radius : α) (level : Nat) :
    (CreateIcoSphere sqrt radius (level : Int)).Indices
      = (IcoSphere.refineLevels sqrt radius level
          (IcoSphere.initialState sqrt radius, IcoSphere.initialIndices)).2 := by
  simp only [CreateIcoSphere, Int.toNat_ofNat]

theorem CreateIcoSphere_vertexCount_index (sqrt : α → α) (radius : α) (level : Nat)
    (hlevel : 10 * 4 ^ level + 2 ≤ 2 ^ 32) :
    (CreateIcoSphere sqrt radius (level : Int)).vertexCount
      = (IcoSphere.refineLevels sqrt radius level
          (IcoSphere.initialState sqrt radius, IcoSphere.initialIndices)).1.index := by
  have hinv := LevelInv_final sqrt radius level hlevel
  simp only [CreateIcoSphere, Int.toNat_ofNat, Mesh.vertexCount]
  rw [hinv.cache.plen]
  omega

theorem CreateIcoSphere_Indices_length (sqrt : α → α) (radius : α) (level : Nat) :
    (CreateIcoSphere sqrt radius (level : Int)).Indices.length = 60 * 4 ^ level := by
  rw [CreateIcoSphere_Indices]
  have := refineLevels_length sqrt radius level 0
    (IcoSphere.initialState sqrt radius, IcoSphere.initialIndices)
    (by simp [IcoSphere.initialIndices])
  simpa using this

/-- C32: for every level whose vertex indices fit the 32-bit `int` of the code, the index
array of `CreateIcoSphere` is a whole number of triangles that form a closed, consistently
oriented triangulation: every directed edge `(u, v)` of a triangle lies in exactly one
triangle, its reverse `(v, u)` lies in exactly one triangle, which is another one, and the
undirected edge is shared by exactly two triangles.  One more refinement pass on the state
after `level` passes gives a triangulation with the same property. -/
theorem CreateIcoSphere_closed_oriented (sqrt : α → α) (radius : α) (level : Nat)
    (hlevel : 10 * 4 ^ level + 2 ≤ 2 ^ 31) :
    (CreateIcoSphere sqrt radius (level : Int)).Indices.length
      = 3 * (triples (CreateIcoSphere sqrt radius (level : Int)).Indices).length ∧
    ClosedOriented (triples (CreateIcoSphere sqrt radius (level : Int)).Indices) ∧
    ClosedOriented (triples (IcoSphere.refine sqrt radius
      (IcoSphere.refineLevels sqrt radius level
        (IcoSphere.initialState sqrt radius, IcoSphere.initialIndices)).1
      (CreateIcoSphere sqrt radius (level : Int)).Indices []).2) := by
  have hinv := LevelInv_final sqrt radius level (by omega)
  have hnext := LevelInv_refine sqrt radius level _ _ hinv (by rw [hinv.verts]; omega)
  refine ⟨?_, ?_, ?_⟩
  · rw [length_triples, CreateIcoSphere_Indices_length]
    omega
  · rw [CreateIcoSphere_Indices]
    exact hinv.man.closedOriented
  · rw [CreateIcoSphere_Indices]
    exact hnext.man.closedOriented

theorem CreateIcoSphere_closed_oriented_witness :
    10 * 4 ^ 1 + 2 ≤ 2 ^ 31 ∧
    ClosedOriented (triples (CreateIcoSphere (fun x : ℚ => x) 1 ((1 : Nat) : Int)).Indices) :=
  ⟨by norm_num, (CreateIcoSphere_closed_oriented (fun x : ℚ => x) 1 1 (by norm_num)).2.1⟩

/-- C33: for every level whose vertex indices fit the 32-bit `int` of the code (level 0 is
the initial icosahedron, level `k` the mesh after `k` subdivision passes), every index in
`Indices` of `CreateIcoSphere` is below the vertex count of the mesh, and no triangle has
two equal indices: the three indices at the positions `3 k`, `3 k + 1`, `3 k + 2` are
pairwise different. -/
theorem CreateIcoSphere_indices_valid (sqrt : α → α) (radius : α) (level : Nat)
    (hlevel : 10 * 4 ^ level + 2 ≤ 2 ^ 31) :
    (∀ i ∈ (CreateIcoSphere sqrt radius (level : Int)).Indices,
      i < (CreateIcoSphere sqrt radius (level : Int)).vertexCount) ∧
    (∀ k, k < (CreateIcoSphere sqrt radius (level : Int)).triangleCount →
      (CreateIcoSphere sqrt radius (level : Int)).Indices.getD (3 * k) 0
        ≠ (CreateIcoSphere sqrt radius (level : Int)).Indices.getD (3 * k + 1) 0 ∧
      (CreateIcoSphere sqrt radius (level : Int)).Indices.getD (3 * k + 1) 0
        ≠ (CreateIcoSphere sqrt radius (level : Int)).Indices.getD (3 * k + 2) 0 ∧
      (CreateIcoSphere sqrt radius (level : Int)).Indices.getD (3 * k + 2) 0
        ≠ (CreateIcoSphere sqrt radius (level : Int)).Indices.getD (3 * k) 0) ∧
    (CreateIcoSphere sqrt radius (level : Int)).Indices.length
      = 3 * (CreateIcoSphere sqrt radius (level : Int)).triangleCount := by
  have hinv := LevelInv_final sqrt radius level (by omega)
  have hv := CreateIcoSphere_vertexCount_index sqrt radius level (by omega)
  have hi := CreateIcoSphere_Indices sqrt radius level
  have hl := CreateIcoSphere_Indices_length sqrt radius level
  have ht : (CreateIcoSphere sqrt radius (level : Int)).triangleCount = 20 * 4 ^ level := by
    unfold Mesh.triangleCount
    rw [hl]
    omega
  refine ⟨?_, ?_, ?_⟩
  · intro i hmem
    obtain ⟨t, htm, h⟩ := mem_triples_of_mem _ (by rw [hl]; omega) i hmem
    rw [hi] at htm
    obtain ⟨b1, b2, b3, _⟩ := hinv.man.triangle htm
    rw [hv]
    rcases h with rfl | rfl | rfl <;> assumption
  · intro k hk
    have hm := triple_mem_triples (CreateIcoSphere sqrt radius (level : Int)).Indices k
      (by rw [hl]; omega)
    rw [hi] at hm
    obtain ⟨_, _, _, n1, n2, n3⟩ := hinv.man.triangle hm
    rw [hi]
    exact ⟨n1, n2, n3⟩
  · rw [hl, ht]
    omega

theorem CreateIcoSphere_indices_valid_witness :
    10 * 4 ^ 1 + 2 ≤ 2 ^ 31 ∧
    ∀ i ∈ (CreateIcoSphere (fun x : ℚ => x) 1 ((1 : Nat) : Int)).Indices,
      i < (CreateIcoSphere (fun x : ℚ => x) 1 ((1 : Nat) : Int)).vertexCount :=
  ⟨by norm_num, (CreateIcoSphere_indices_valid (fun x : ℚ => x) 1 1 (by norm_num)).1⟩

end IcoClosedClaims

/-! ## Material: the tables behave as maps -/

section MaterialTables

variable {τ υ β : Type}

theorem Table.find_cons (pair : String × β) (rest : List (String × β)) (name : String) :
    Table.find (pair :: rest) name
      = if pair.1 = name then some pair.2 else Table.find rest name := rfl

theorem Table.find_eq_none_iff (table : List (String × β)) (name : String) :
    Table.find table name = none ↔ name ∉ table.map Prod.fst := by
  induction table with
  | nil => simp [Table.find]
  | cons pair rest ih =>
    unfold Table.find
    by_cases h : pair.1 = name
    · rw [if_pos h]
      simp [h]
    · rw [if_neg h, ih]
      simp only [List.map_cons, List.mem_cons, not_or]
      exact ⟨fun h2 => ⟨fun h3 => h h3.symm, h2⟩, fun h2 => h2.2⟩

theorem Table.find_assign_self (table : List (String × β)) (name : String) (ptr : β)
    (h : Table.find table name ≠ none) :
    Table.find (Table.assign table name ptr) name = some ptr := by
  induction table with
  | nil => exact absurd rfl h
  | cons pair rest ih =>
    unfold Table.assign
    by_cases hp : pair.1 = name
    · rw [if_pos hp]
      unfold Table.find
      rw [if_pos hp]
    · rw [if_neg hp]
      unfold Table.find at h ⊢
      rw [if_neg hp] at h ⊢
      exact ih h

theorem Table.find_assign_other (table : List (String × β)) (name other : String) (ptr : β)
    (h : other ≠ name) :
    Table.find (Table.assign table name ptr) other = Table.find table other := by
  induction table with
  | nil => rfl
  | cons pair rest ih =>
    unfold Table.assign
    by_cases hp : pair.1 = name
    · rw [if_pos hp]
      unfold Table.find
      have : ¬ pair.1 = other := fun h2 => h (h2.symm.trans hp)
      rw [if_neg this, if_neg this]
    · rw [if_neg hp]
      unfold Table.find
      rw [ih]

theorem Table.find_erase_other (table : List (String × β)) (name other : String)
    (h : other ≠ name) :
    Table.find (Table.erase table name) other = Table.find table other := by
  induction table with
  | nil => rfl
  | cons pair rest ih =>
    unfold Table.erase
    by_cases hp : pair.1 = name
    · rw [if_pos hp]
      have : ¬ pair.1 = other := fun h2 => h (h2.symm.trans hp)
      conv_rhs => unfold Table.find
      rw [if_neg this]
    · rw [if_neg hp]
      unfold Table.find
      rw [ih]

theorem Table.find_erase_self (table : List (String × β)) (name : String)
    (hnd : (table.map Prod.fst).Nodup) :
    Table.find (Table.erase table name) name = none := by
  induction table with
  | nil => rfl
  | cons pair rest ih =>
    rw [List.map_cons, List.nodup_cons] at hnd
    unfold Table.erase
    by_cases hp : pair.1 = name
    · rw [if_pos hp, Table.find_eq_none_iff, ← hp]
      exact hnd.1
    · rw [if_neg hp]
      unfold Table.find
      rw [if_neg hp]
      exact ih hnd.2

theorem Table.length_erase (table : List (String × β)) (name : String)
    (h : Table.find table name ≠ none) :
    (Table.erase table name).length + 1 = table.length := by
  induction table with
  | nil => exact absurd rfl h
  | cons pair rest ih =>
    unfold Table.erase
    by_cases hp : pair.1 = name
    · rw [if_pos hp, List.length_cons]
    · rw [if_neg hp]
      unfold Table.find at h
      rw [if_neg hp] at h
      rw [List.length_cons, List.length_cons, ih h]

theorem Table.keys_assign (table : List (String × β)) (name : String) (ptr : β) :
    (Table.assign table name ptr).map Prod.fst = table.map Prod.fst := by
  induction table with
  | nil => rfl
  | cons pair rest ih =>
    unfold Table.assign
    split_ifs
    · rfl
    · rw [List.map_cons, List.map_cons, ih]

theorem Table.mem_assign (table : List (String × β)) (name : String) (ptr : β)
    (pair : String × β) (h : pair ∈ Table.assign table name ptr) :
    pair ∈ table ∨ pair.2 = ptr := by
  induction table with
  | nil => simp [Table.assign] at h
  | cons head rest ih =>
    unfold Table.assign at h
    split_ifs at h
    · rcases List.mem_cons.mp h with rfl | h2
      · exact Or.inr rfl
      · exact Or.inl (List.mem_cons_of_mem _ h2)
    · rcases List.mem_cons.mp h with rfl | h2
      · exact Or.inl (List.mem_cons_self _ _)
      · rcases ih h2 with h3 | h3
        · exact Or.inl (List.mem_cons_of_mem _ h3)
        · exact Or.inr h3

theorem Table.erase_sublist (table : List (String × β)) (name : String) :
    List.Sublist (Table.erase table name) table := by
  induction table with
  | nil => exact List.Sublist.refl _
  | cons pair rest ih =>
    unfold Table.erase
    split_ifs
    · exact List.sublist_cons_self _ _
    · exact List.Sublist.cons₂ _ ih

/-- The lookup after the table update of the setters, for a non-null pointer. -/
theorem Table.find_set_some (table : List (String × Option β)) (name : String) (p : β) :
    Table.find (Table.set table name (some p)) name = some (some p) := by
  unfold Table.set
  cases h : Table.find table name with
  | none =>
    simp only [Option.isSome_some, if_true]
    unfold Table.find
    rw [if_pos rfl]
  | some v =>
    simp only [Option.isSome_some, if_true]
    exact Table.find_assign_self table name (some p) (by rw [h]; exact Option.some_ne_none v)

theorem Table.find_set_other (table : List (String × Option β)) (name other : String)
    (ptr : Option β) (h : other ≠ name) :
    Table.find (Table.set table name ptr) other = Table.find table other := by
  unfold Table.set
  cases Table.find table name with
  | none =>
    simp only
    split_ifs
    · rw [Table.find_cons, if_neg (fun h2 => h h2.symm)]
    · rfl
  | some v =>
    simp only
    split_ifs
    · exact Table.find_assign_other table name other ptr h
    · exact Table.find_erase_other table name other h

theorem Table.find_set_none (table : List (String × Option β)) (name : String)
    (hnd : (table.map Prod.fst).Nodup) :
    Table.find (Table.set table name none) name = none := by
  unfold Table.set
  cases h : Table.find table name with
  | none => simpa using h
  | some v => simpa using Table.find_erase_self table name hnd

theorem Table.length_set_none (table : List (String × Option β)) (name : String) :
    (Table.set table name none).length
      = if (Table.find table name).isSome then table.length - 1 else table.length := by
  unfold Table.set
  cases h : Table.find table name with
  | none => simp
  | some v =>
    have := Table.length_erase table name (by rw [h]; exact Option.some_ne_none v)
    simp only [Option.isSome_none, Bool.false_eq_true, if_false, Option.isSome_some, if_true]
    omega

theorem Table.WellFormed_set (table : List (String × Option β)) (name : String)
    (ptr : Option β) (wf : Table.WellFormed table) :
    Table.WellFormed (Table.set table name ptr) := by
  obtain ⟨hnd, hv⟩ := wf
  unfold Table.set
  cases h : Table.find table name with
  | none =>
    simp only
    split_ifs with hp
    · refine ⟨?_, ?_⟩
      · rw [List.map_cons, List.nodup_cons]
        exact ⟨(Table.find_eq_none_iff table name).mp h, hnd⟩
      · intro pair hm
        rcases List.mem_cons.mp hm with rfl | h2
        · exact hp
        · exact hv pair h2
    · exact ⟨hnd, hv⟩
  | some v =>
    simp only
    split_ifs with hp
    · refine ⟨by rw [Table.keys_assign]; exact hnd, ?_⟩
      intro pair hm
      rcases Table.mem_assign table name ptr pair hm with h2 | h2
      · exact hv pair h2
      · rw [h2]; exact hp
    · exact ⟨(List.Sublist.map Prod.fst (Table.erase_sublist table name)).nodup hnd,
        fun pair hm => hv pair ((Table.erase_sublist table name).subset hm)⟩

/-- With no null pointer stored, a name is bound exactly when the lookup of the getters
returns a non-null pointer. -/
theorem Table.bound_iff (table : List (String × Option β)) (name : String)
    (hv : ∀ pair ∈ table, pair.2.isSome = true) :
    (Table.find table name).isSome
      = (match Table.find table name with
        | some second => second
        | none => none).isSome := by
  induction table with
  | nil => rfl
  | cons pair rest ih =>
    unfold Table.find
    by_cases hp : pair.1 = name
    · rw [if_pos hp]
      simp only [Option.isSome_some]
      exact (hv pair (List.mem_cons_self _ _)).symm
    · rw [if_neg hp]
      exact ih (fun q hq => hv q (List.mem_cons_of_mem _ hq))

end MaterialTables

section MaterialClaims

variable {τ υ : Type}

theorem Material.WellFormed_Create : (Material.Create : Material τ υ).WellFormed :=
  ⟨⟨List.nodup_nil, fun _ h => absurd h (List.not_mem_nil _)⟩,
    ⟨List.nodup_nil, fun _ h => absurd h (List.not_mem_nil _)⟩⟩

theorem Material.WellFormed_SetTexture (shaderTexture : ShaderTexture) (m : Material τ υ)
    (name : String) (ptr : Option τ) (wf : m.WellFormed) :
    (m.SetTexture shaderTexture name ptr).WellFormed :=
  ⟨Table.WellFormed_set m.m_Textures name ptr wf.textures, wf.uniforms⟩

theorem Material.WellFormed_SetUniform (m : Material τ υ) (name : String) (ptr : Option υ)
    (wf : m.WellFormed) : (m.SetUniform name ptr).WellFormed :=
  ⟨wf.textures, Table.WellFormed_set m.m_Uniforms name ptr wf.uniforms⟩

theorem sampleMaterial_wellFormed : sampleMaterial.WellFormed :=
  Material.WellFormed_SetUniform _ _ _
    (Material.WellFormed_SetTexture _ _ _ _
      (Material.WellFormed_SetTexture _ _ _ _ Material.WellFormed_Create))

/-- The count after a null pointer was set, on a table of fewer than `2 ^ 32` bindings. -/
theorem Table.count_set_none {β : Type} (table : List (String × Option β)) (name : String)
    (hlen : table.length < 2 ^ 32) (b : Bool) (hb : (Table.find table name).isSome = b) :
    (Table.set table name none).length % 2 ^ 32
      = if b then table.length % 2 ^ 32 - 1 else table.length % 2 ^ 32 := by
  rw [Table.length_set_none, hb, Nat.mod_eq_of_lt hlen]
  split_ifs
  · exact Nat.mod_eq_of_lt (by omega)
  · exact Nat.mod_eq_of_lt hlen

/-- C34: the texture table and the uniform table of a material behave as maps with
null-as-delete.  On a material whose tables bind no name twice, store no null pointer and
have fewer than `2 ^ 32` bindings: after `SetTexture(name, p)` with `p` non-null,
`GetTexture(name)` returns `p`; `SetTexture(name, ptr)` leaves `GetTexture(other)` as it was
for every other name; after `SetTexture(name, null)`, `GetTexture(name)` returns null and
`GetTextureCount` is one less when `name` was bound and unchanged otherwise; `name` is bound
exactly when `GetTexture(name)` is non-null; after every `SetTexture` again no name is bound
twice and no null pointer is stored, and the uniform table is untouched.  `SetUniform`,
`GetUniform` and `GetUniformCount` obey the same laws. -/
theorem Material_tables_are_maps (shaderTexture : ShaderTexture) (m : Material τ υ)
    (wf : m.WellFormed) (hT : m.m_Textures.length < 2 ^ 32)
    (hU : m.m_Uniforms.length < 2 ^ 32) (name : String) :
    ((∀ p : τ, (m.SetTexture shaderTexture name (some p)).GetTexture name = some p) ∧
      (∀ (ptr : Option τ) (other : String), other ≠ name →
        (m.SetTexture shaderTexture name ptr).GetTexture other = m.GetTexture other) ∧
      (m.SetTexture shaderTexture name none).GetTexture name = none ∧
      (m.SetTexture shaderTexture name none).GetTextureCount
        = (if (m.GetTexture name).isSome then m.GetTextureCount - 1
          else m.GetTextureCount) ∧
      (Table.find m.m_Textures name).isSome = (m.GetTexture name).isSome ∧
      ∀ ptr : Option τ, (m.SetTexture shaderTexture name ptr).WellFormed ∧
        (m.SetTexture shaderTexture name ptr).m_Uniforms = m.m_Uniforms) ∧
    ((∀ p : υ, (m.SetUniform name (some p)).GetUniform name = some p) ∧
      (∀ (ptr : Option υ) (other : String), other ≠ name →
        (m.SetUniform name ptr).GetUniform other = m.GetUniform other) ∧
      (m.SetUniform name none).GetUniform name = none ∧
      (m.SetUniform name none).GetUniformCount
        = (if (m.GetUniform name).isSome then m.GetUniformCount - 1
          else m.GetUniformCount) ∧
      (Table.find m.m_Uniforms name).isSome = (m.GetUniform name).isSome ∧
      ∀ ptr : Option υ, (m.SetUniform name ptr).WellFormed ∧
        (m.SetUniform name ptr).m_Textures = m.m_Textures) := by
  refine ⟨⟨?_, ?_, ?_, ?_, ?_, ?_⟩, ?_, ?_, ?_, ?_, ?_, ?_⟩
  · intro p
    simp only [Material.GetTexture, Material.SetTexture, Table.find_set_some]
  · intro ptr other h
    simp only [Material.GetTexture, Material.SetTexture,
      Table.find_set_other m.m_Textures name other ptr h]
  · simp only [Material.GetTexture, Material.SetTexture,
      Table.find_set_none m.m_Textures name wf.textures.1]
  · exact Table.count_set_none m.m_Textures name hT _
      (Table.bound_iff m.m_Textures name wf.textures.2)
  · exact Table.bound_iff m.m_Textures name wf.textures.2
  · intro ptr
    exact ⟨Material.WellFormed_SetTexture shaderTexture m name ptr wf, rfl⟩
  · intro p
    simp only [Material.GetUniform, Material.SetUniform, Table.find_set_some]
  · intro ptr other h
    simp only [Material.GetUniform, Material.SetUniform,
      Table.find_set_other m.m_Uniforms name other ptr h]
  · simp only [Material.GetUniform, Material.SetUniform,
      Table.find_set_none m.m_Uniforms name wf.uniforms.1]
  · exact Table.count_set_none m.m_Uniforms name hU _
      (Table.bound_iff m.m_Uniforms name wf.uniforms.2)
  · exact Table.bound_iff m.m_Uniforms name wf.uniforms.2
  · intro ptr
    exact ⟨Material.WellFormed_SetUniform m name ptr wf, rfl⟩

theorem Material_tables_are_maps_witness :
    sampleMaterial.WellFormed ∧ sampleMaterial.m_Textures.length < 2 ^ 32 ∧
    sampleMaterial.m_Uniforms.length < 2 ^ 32 ∧
    sampleMaterial.GetTexture "diffuse_texture" = some 7 ∧
    sampleMaterial.GetTextureCount = 2 ∧
    (sampleMaterial.SetTexture ⟨0, 1, 2, 4⟩ "diffuse_texture" none).GetTexture
      "diffuse_texture" = none ∧
    (sampleMaterial.SetTexture ⟨0, 1, 2, 4⟩ "diffuse_texture" none).GetTextureCount
      = (if (sampleMaterial.GetTexture "diffuse_texture").isSome
          then sampleMaterial.GetTextureCount - 1 else sampleMaterial.GetTextureCount) :=
  ⟨sampleMaterial_wellFormed, by decide, by decide, by decide, by decide,
    (Material_tables_are_maps ⟨0, 1, 2, 4⟩ sampleMaterial sampleMaterial_wellFormed
      (by decide) (by decide) "diffuse_texture").1.2.2.1,
    (Material_tables_are_maps ⟨0, 1, 2, 4⟩ sampleMaterial sampleMaterial_wellFormed
      (by decide) (by decide) "diffuse_texture").1.2.2.2.1⟩

end MaterialClaims

/-! ## Single-precision arithmetic: sample values -/

section Binary32Facts

/-- Values of the rounding to `float`: the constants `1e-5f`, `0.6f`, `0.7f`, `-0.4f`, a
value that is a `float` already, a tie that goes to the even significand, and a value in the
range of equally spaced numbers below `2 ^ -126`. -/
theorem binary32_values :
    binary32 (1 / 100000) = 2748779 / 274877906944 ∧
    binary32 (3 / 5) = 5033165 / 8388608 ∧
    binary32 (7 / 10) = 11744051 / 16777216 ∧
    binary32 (-2 / 5) = -13421773 / 33554432 ∧
    binary32 (7 / 1048576) = 7 / 1048576 ∧
    binary32 (1 + 1 / 16777216) = 1 ∧
    binary32 (1 + 3 / 16777216) = 1 + 1 / 4194304 ∧
    binary32 (3 / 2 ^ 151) = 1 / 2 ^ 149 := by
  refine ⟨?_, ?_, ?_, ?_, ?_, ?_, ?_, ?_⟩ <;> decide!

/-- The tolerances of `OptimizeMesh` as `float` values. -/
theorem Rounded.epsilon_binary32 :
    Rounded.epsilon binary32 = 2748779 / 274877906944 ∧
    Rounded.squareEpsilon binary32 = 7205759 / 72057594037927936 := by
  refine ⟨?_, ?_⟩ <;> decide!

/-- The plane `dividePlane32` is the normalised plane of the code: the `float` sum of the
squares of `0.6f`, `0.7f`, `-0.4f` is `4236247 / 2 ^ 22`, the `float` nearest to its square
root is `8430447 / 2 ^ 23` (the sum lies between the squares of the two midpoints next to
it), and the three components are the rounded quotients by that root, which are also the
rounded products with its rounded reciprocal.  The exact length of the plane normal is below
one. -/
theorem dividePlane32_normalized :
    Rounded.SquareLength binary32
        ⟨binary32 (3 / 5), binary32 (7 / 10), binary32 (-2 / 5)⟩ = 4236247 / 4194304 ∧
    binary32 (8430447 / 8388608) = 8430447 / 8388608 ∧
    ((8430447 / 8388608 - 1 / 16777216 : ℚ) ^ 2 < 4236247 / 4194304 ∧
      (4236247 / 4194304 : ℚ) < (8430447 / 8388608 + 1 / 16777216) ^ 2) ∧
    dividePlane32 = ⟨binary32 (binary32 (3 / 5) / (8430447 / 8388608)),
      binary32 (binary32 (7 / 10) / (8430447 / 8388608)),
      binary32 (binary32 (-2 / 5) / (8430447 / 8388608))⟩ ∧
    dividePlane32 = ⟨binary32 (binary32 (3 / 5) * binary32 (1 / (8430447 / 8388608))),
      binary32 (binary32 (7 / 10) * binary32 (1 / (8430447 / 8388608))),
      binary32 (binary32 (-2 / 5) * binary32 (1 / (8430447 / 8388608)))⟩ ∧
    dividePlane32.SquareLength < 1 := by
  refine ⟨?_, ?_, ⟨?_, ?_⟩, ?_, ?_, ?_⟩ <;> decide!

end Binary32Facts

/-! ## FindNeighbors in float arithmetic: the run of entries that is visited -/

section RoundedNeighbors

variable {α : Type} [LinearOrderedField α]

theorem Rounded.scan_as_filter (fl : α → α) (pos : Vector4 α) (maxDist pSquared : α)
    (l : List (VtxEntry α)) :
    Rounded.scan fl pos maxDist pSquared l
      = (((l.takeWhile fun e => decide (e.dist < maxDist)).filter fun e =>
          decide (Rounded.SquareLength fl (Rounded.sub fl e.position pos) < pSquared)).map
            fun e => e.index) := by
  induction l with
  | nil => rfl
  | cons e rest ih =>
    unfold Rounded.scan
    by_cases h1 : e.dist < maxDist
    · rw [if_pos h1, List.takeWhile_cons_of_pos (by simpa using h1)]
      by_cases h2 : Rounded.SquareLength fl (Rounded.sub fl e.position pos) < pSquared
      · rw [if_pos h2, List.filter_cons_of_pos (by simpa using h2), List.map_cons, ih]
      · rw [if_neg h2, List.filter_cons_of_neg (by simpa using h2), ih]
    · rw [if_neg h1, List.takeWhile_cons_of_neg (by simpa using h1)]
      rfl

/-- The second correction loop stops at the last entry or at an entry whose key is not
below `minDist`. -/
theorem stepForward_stop (entries : List (VtxEntry α)) (minDist : α) :
    ∀ fuel index, entries.length ≤ fuel + index + 1 →
      ¬ (FindNeighbors.stepForward entries minDist fuel index < entries.length - 1 ∧
        (entries.getD (FindNeighbors.stepForward entries minDist fuel index) default).dist
          < minDist) := by
  intro fuel
  induction fuel with
  | zero =>
    intro index h
    simp only [FindNeighbors.stepForward]
    intro hc
    omega
  | succ fuel ih =>
    intro index h
    unfold FindNeighbors.stepForward
    split_ifs with hc
    · exact ih (index + 1) (by omega)
    · exact hc

theorem getLast?_getD_eq {β : Type} [Inhabited β] (l : List β) :
    l.getLast?.getD default = l.getD (l.length - 1) default := by
  rw [List.getLast?_eq_getElem?, List.getD_eq_getElem?_getD]

theorem head?_getD_eq {β : Type} [Inhabited β] (l : List β) :
    l.head?.getD default = l.getD 0 default := by
  cases l <;> rfl

/-- Without the early return of `FindNeighbors`, the entry at the start index has a key of
at least `minDist`. -/
theorem start_ge (entries : List (VtxEntry α)) (minDist : α) (hs : EntriesSorted entries)
    (hpos : 0 < entries.length)
    (hlast : ¬ minDist > (entries.getLast?.getD default).dist) :
    minDist ≤ (entries.getD (FindNeighbors.start entries minDist) default).dist := by
  have hstop : ¬ (FindNeighbors.start entries minDist < entries.length - 1 ∧
      (entries.getD (FindNeighbors.start entries minDist) default).dist < minDist) := by
    unfold FindNeighbors.start
    exact stepForward_stop entries minDist entries.length _ (by omega)
  by_contra hlt
  have hlt' := not_le.mp hlt
  have hge : ¬ FindNeighbors.start entries minDist < entries.length - 1 :=
    fun h => hstop ⟨h, hlt'⟩
  have hsl := (start_spec_any entries minDist hs hpos).1
  have heq : FindNeighbors.start entries minDist = entries.length - 1 := by omega
  rw [getLast?_getD_eq entries, ← heq] at hlast
  exact hlast hlt'

theorem dropWhile_ge_sorted (maxDist : α) (l : List (VtxEntry α)) (hs : EntriesSorted l) :
    ∀ e ∈ l.dropWhile (fun e => decide (e.dist < maxDist)), maxDist ≤ e.dist := by
  induction l with
  | nil => intro e he; simp at he
  | cons x rest ih =>
    intro e he
    by_cases h1 : x.dist < maxDist
    · rw [List.dropWhile_cons_of_pos (by simpa using h1)] at he
      exact ih (List.pairwise_cons.mp hs).2 e he
    · rw [List.dropWhile_cons_of_neg (by simpa using h1)] at he
      rcases List.mem_cons.mp he with rfl | hr
      · exact not_lt.mp h1
      · exact le_trans (not_lt.mp h1) ((List.pairwise_cons.mp hs).1 e hr)

theorem mem_take_getD {β : Type} [Inhabited β] (l : List β) (k : Nat) (x : β)
    (h : x ∈ l.take k) : ∃ j, j < k ∧ j < l.length ∧ l.getD j default = x := by
  obtain ⟨j, hj, rfl⟩ := List.mem_iff_getElem.mp h
  rw [List.length_take] at hj
  refine ⟨j, by omega, by omega, ?_⟩
  rw [List.getElem_take, getD_eq_getElem_of_lt _ _ _ (by omega)]

theorem mem_drop_getD {β : Type} [Inhabited β] (l : List β) (k : Nat) (x : β)
    (h : x ∈ l.drop k) : ∃ j, k ≤ j ∧ j < l.length ∧ l.getD j default = x := by
  obtain ⟨j, hj, rfl⟩ := List.mem_iff_getElem.mp h
  rw [List.length_drop] at hj
  refine ⟨k + j, by omega, by omega, ?_⟩
  rw [List.getElem_drop, getD_eq_getElem_of_lt _ _ _ (by omega)]

/-- What `FindNeighbors` does in `float` arithmetic on a sorted entry array, with the window
bounds `minDist` and `maxDist` as the code computes them: the array splits into the entries
before the start index, all with a key of at most `minDist`, a run of visited entries, all
with a key in `[minDist, maxDist)`, and the entries behind, all with a key of at least
`maxDist`; the output lists the original indices of the visited entries whose computed
squared distance to the query is below `pSquared`. -/
theorem Rounded.FindNeighbors_run (fl : α → α) (dividePlane : Vector4 α)
    (entries : List (VtxEntry α)) (pos : Vector4 α) (radius : α) (hs : EntriesSorted entries) :
    ∃ before visited after, entries = before ++ visited ++ after ∧
      (∀ e ∈ before, e.dist ≤ fl (Rounded.dot fl dividePlane pos - radius)) ∧
      (∀ e ∈ visited, fl (Rounded.dot fl dividePlane pos - radius) ≤ e.dist ∧
        e.dist < fl (Rounded.dot fl dividePlane pos + radius)) ∧
      (∀ e ∈ after, fl (Rounded.dot fl dividePlane pos + radius) ≤ e.dist) ∧
      Rounded.FindNeighbors fl dividePlane entries pos radius
        = (visited.filter fun e => decide
            (Rounded.SquareLength fl (Rounded.sub fl e.position pos)
              < fl (radius * radius))).map fun e => e.index := by
  unfold Rounded.FindNeighbors
  simp only
  split_ifs with hq
  · rcases hq with h0 | hfront | hback
    · have : entries = [] := List.length_eq_zero.mp h0
      subst this
      exact ⟨[], [], [], rfl, by simp, by simp, by simp, rfl⟩
    · refine ⟨[], [], entries, by simp, by simp, by simp, ?_, rfl⟩
      intro e he
      obtain ⟨j, hj, rfl⟩ := List.mem_iff_getElem.mp he
      rw [head?_getD_eq] at hfront
      have := hs.getD_le (Nat.zero_le j) hj
      rw [getD_eq_getElem_of_lt _ _ _ hj] at this
      exact le_trans (le_of_lt hfront) this
    · refine ⟨entries, [], [], by simp, ?_, by simp, by simp, rfl⟩
      intro e he
      obtain ⟨j, hj, rfl⟩ := List.mem_iff_getElem.mp he
      rw [getLast?_getD_eq entries] at hback
      have := hs.getD_le (show j ≤ entries.length - 1 by omega) (by omega)
      rw [getD_eq_getElem_of_lt _ _ _ hj] at this
      exact le_trans this (le_of_lt hback)
  · have hq' := not_or.mp hq
    have hq2 := not_or.mp hq'.2
    have hpos : 0 < entries.length := Nat.pos_of_ne_zero hq'.1
    obtain ⟨hsl, hbefore⟩ := start_spec_any entries
      (fl (Rounded.dot fl dividePlane pos - radius)) hs hpos
    have hge := start_ge entries (fl (Rounded.dot fl dividePlane pos - radius)) hs hpos hq2.2
    refine ⟨entries.take (FindNeighbors.start entries
        (fl (Rounded.dot fl dividePlane pos - radius))),
      (entries.drop (FindNeighbors.start entries
        (fl (Rounded.dot fl dividePlane pos - radius)))).takeWhile
          (fun e => decide (e.dist < fl (Rounded.dot fl dividePlane pos + radius))),
      (entries.drop (FindNeighbors.start entries
        (fl (Rounded.dot fl dividePlane pos - radius)))).dropWhile
          (fun e => decide (e.dist < fl (Rounded.dot fl dividePlane pos + radius))),
      ?_, ?_, ?_, ?_, ?_⟩
    · rw [List.append_assoc, List.takeWhile_append_dropWhile, List.take_append_drop]
    · intro e he
      obtain ⟨j, hj, _, rfl⟩ := mem_take_getD entries _ e he
      exact hbefore j hj
    · intro e he
      have hlt := List.mem_takeWhile_imp he
      have hd := (List.takeWhile_sublist _).subset he
      obtain ⟨j, hj, hjl, rfl⟩ := mem_drop_getD entries _ e hd
      exact ⟨le_trans hge (hs.getD_le hj hjl), by simpa using hlt⟩
    · exact dropWhile_ge_sorted _ _ (hs.drop _)
    · exact Rounded.scan_as_filter fl pos _ _ _

end RoundedNeighbors

/-! ## The unique-vertex loop with the search and the tests left open -/

section WeldWith

variable {α : Type} [LinearOrderedField α]

theorem findMatch_spec_with (accept : Vertex α → Vertex α → Bool) (uniq : List (Vertex α)) (repl : List Nat)
    (vtx : Vertex α) (found : List Nat) :
    findMatchWith accept uniq repl vtx found = 0xffffffff ∨
      ∃ c ∈ found, findMatchWith accept uniq repl vtx found = repl.getD c 0
        ∧ repl.getD c 0 &&& 0x80000000 = 0
        ∧ accept (uniq.getD (repl.getD c 0) default) vtx = true := by
  induction found with
  | nil => left; rfl
  | cons c rest ih =>
    unfold findMatchWith
    simp only
    split_ifs with h1 h2
    · rcases ih with h | ⟨c', hc', h⟩
      · exact Or.inl h
      · exact Or.inr ⟨c', List.mem_cons_of_mem _ hc', h⟩
    · exact Or.inr ⟨c, List.mem_cons_self _ _, rfl, not_not.mp h1, h2⟩
    · rcases ih with h | ⟨c', hc', h⟩
      · exact Or.inl h
      · exact Or.inr ⟨c', List.mem_cons_of_mem _ hc', h⟩

theorem WeldInv_step_with (found : Vector4 α → List Nat)
    (accept : Vertex α → Vertex α → Bool) (mesh : Mesh α)
    (f : Flags) (n k : Nat) (st : WeldState α) (hn : n ≤ 2 ^ 31) (hk : k < n)
    (hfound : ∀ p, ∀ c ∈ found p, c < n) (inv : WeldInv n k st) :
    WeldInv n (k + 1) (weldStepWith found accept mesh f st k) := by
  have hu31 : st.uniqueVertices.length < 2 ^ 31 := by have := inv.ulen; omega
  have hklen : k < st.replaceIndices.length := by rw [inv.len]; exact hk
  unfold weldStepWith
  simp only
  split_ifs with hm
  · -- a resolved unique vertex was accepted
    rcases findMatch_spec_with accept st.uniqueVertices st.replaceIndices
      (CreateVertex mesh f k)
      (found (CreateVertex mesh f k).Position)
      with h | ⟨c, hc, hval, hflag, _⟩
    · exact absurd h hm
    · have hcn : c < n := hfound _ c hc
      have hck : c < k := by
        by_contra hge
        have := inv.todo c (by omega) hcn
        rw [this] at hflag
        exact absurd hflag (by decide)
      have hlt : st.replaceIndices.getD c 0 < st.uniqueVertices.length := inv.clear c hck hflag
      rw [hval]
      have hm31 : st.replaceIndices.getD c 0 < 2 ^ 31 := by omega
      refine ⟨by simp [inv.len], by have := inv.ulen; simp only; omega, ?_, ?_, ?_⟩
      · intro j hj
        by_cases hjk : j = k
        · subst hjk
          simp only [getD_set_self _ _ _ _ hklen, strip_or_flag hm31]
          exact hlt
        · simp only [getD_set_ne _ _ _ _ _ (Ne.symm hjk)]
          exact inv.done j (by omega)
      · intro j hj
        by_cases hjk : j = k
        · subst hjk
          simp only [getD_set_self _ _ _ _ hklen]
          intro h0
          exact absurd h0 (flag_set_or_flag _)
        · simp only [getD_set_ne _ _ _ _ _ (Ne.symm hjk)]
          exact inv.clear j (by omega)
      · intro j hj hjn
        simp only [getD_set_ne _ _ _ _ _ (show k ≠ j by omega)]
        exact inv.todo j (by omega) hjn
  · -- the vertex becomes a new unique vertex
    have hmod : st.uniqueVertices.length % 2 ^ 32 = st.uniqueVertices.length :=
      Nat.mod_eq_of_lt (by omega)
    refine ⟨by simp [inv.len], by have := inv.ulen; simp; omega, ?_, ?_, ?_⟩
    · intro j hj
      by_cases hjk : j = k
      · subst hjk
        simp only [getD_set_self _ _ _ _ hklen, hmod, strip_of_lt hu31]
        simp
      · simp only [getD_set_ne _ _ _ _ _ (Ne.symm hjk)]
        have := inv.done j (by omega)
        simp only [List.length_append, List.length_singleton]
        omega
    · intro j hj
      by_cases hjk : j = k
      · subst hjk
        simp only [getD_set_self _ _ _ _ hklen, hmod]
        intro _
        simp
      · simp only [getD_set_ne _ _ _ _ _ (Ne.symm hjk)]
        intro h0
        have := inv.clear j (by omega) h0
        simp only [List.length_append, List.length_singleton]
        omega
    · intro j hj hjn
      simp only [getD_set_ne _ _ _ _ _ (show k ≠ j by omega)]
      exact inv.todo j (by omega) hjn

theorem weldLoop_range_succ_with (found : Vector4 α → List Nat)
    (accept : Vertex α → Vertex α → Bool)
    (mesh : Mesh α) (f : Flags) (st : WeldState α) (k : Nat) :
    weldLoopWith found accept mesh f st (List.range (k + 1)) =
      weldStepWith found accept mesh f
        (weldLoopWith found accept mesh f st (List.range k)) k := by
  simp [weldLoopWith, List.range_succ, List.foldl_append]

theorem WeldInv_loop_with (found : Vector4 α → List Nat)
    (accept : Vertex α → Vertex α → Bool) (mesh : Mesh α)
    (f : Flags) (n : Nat) (hn : n ≤ 2 ^ 31) (hfound : ∀ p, ∀ c ∈ found p, c < n) :
    ∀ k, k ≤ n → WeldInv n k (weldLoopWith found accept mesh f
      ⟨[], List.replicate n 0xffffffff⟩ (List.range k)) := by
  intro k
  induction k with
  | zero => intro _; simpa [weldLoopWith] using WeldInv_init n
  | succ k ih =>
    intro hk
    rw [weldLoop_range_succ_with]
    exact WeldInv_step_with found accept mesh f n k _ hn (by omega) hfound (ih (by omega))

theorem findMatch_none_with (accept : Vertex α → Vertex α → Bool) (uniq : List (Vertex α)) (repl : List Nat)
    (vtx : Vertex α) (found : List Nat)
    (h : findMatchWith accept uniq repl vtx found = 0xffffffff) :
    ∀ c ∈ found, repl.getD c 0 &&& 0x80000000 ≠ 0 ∨
      accept (uniq.getD (repl.getD c 0) default) vtx = false := by
  induction found with
  | nil => intro c hc; simp at hc
  | cons x rest ih =>
    unfold findMatchWith at h
    simp only at h
    intro c hc
    split_ifs at h with h1 h2
    · rcases List.mem_cons.mp hc with rfl | hc
      · exact Or.inl h1
      · exact ih h c hc
    · exfalso
      rw [h] at h1
      exact h1 (by decide)
    · rcases List.mem_cons.mp hc with rfl | hc
      · exact Or.inr (by simpa using h2)
      · exact ih h c hc

theorem stateAt_succ_with (found : Vector4 α → List Nat)
    (accept : Vertex α → Vertex α → Bool) (mesh : Mesh α)
    (k : Nat) :
    stateAtWith found accept mesh (k + 1) =
      weldStepWith found accept mesh (Flags.ofMesh mesh)
        (stateAtWith found accept mesh k) k :=
  weldLoop_range_succ_with _ _ _ _ _ _

theorem stateAt_succ_repl_with (found : Vector4 α → List Nat)
    (accept : Vertex α → Vertex α → Bool)
    (mesh : Mesh α) (k : Nat) :
    (stateAtWith found accept mesh (k + 1)).replaceIndices =
      (stateAtWith found accept mesh k).replaceIndices.set k
        (if matchAtWith found accept mesh k ≠ 0xffffffff
          then matchAtWith found accept mesh k ||| 0x80000000
          else (stateAtWith found accept mesh k).uniqueVertices.length % 2 ^ 32) := by
  rw [stateAt_succ_with]
  unfold weldStepWith matchAtWith
  simp only
  split_ifs <;> rfl

theorem stateAt_succ_uniq_with (found : Vector4 α → List Nat)
    (accept : Vertex α → Vertex α → Bool)
    (mesh : Mesh α) (k : Nat) :
    (stateAtWith found accept mesh (k + 1)).uniqueVertices =
      if matchAtWith found accept mesh k ≠ 0xffffffff
        then (stateAtWith found accept mesh k).uniqueVertices
        else (stateAtWith found accept mesh k).uniqueVertices
          ++ [CreateVertex mesh (Flags.ofMesh mesh) k] := by
  rw [stateAt_succ_with]
  unfold weldStepWith matchAtWith
  simp only
  split_ifs <;> rfl

theorem stateAt_repl_stable_with (found : Vector4 α → List Nat)
    (accept : Vertex α → Vertex α → Bool)
    (mesh : Mesh α) (c k : Nat) (hc : c < k) :
    ∀ k', k ≤ k' → (stateAtWith found accept mesh k').replaceIndices.getD c 0
      = (stateAtWith found accept mesh k).replaceIndices.getD c 0 := by
  intro k' hk
  induction k' with
  | zero => have : k = 0 := by omega
            subst this; rfl
  | succ k' ih =>
    rcases Nat.lt_or_eq_of_le hk with h | h
    · rw [stateAt_succ_repl_with, getD_set_ne _ _ _ _ _ (show k' ≠ c by omega)]
      exact ih (by omega)
    · subst h; rfl

theorem stateAt_uniq_stable_with (found : Vector4 α → List Nat)
    (accept : Vertex α → Vertex α → Bool)
    (mesh : Mesh α) (k u : Nat)
    (hu : u < (stateAtWith found accept mesh k).uniqueVertices.length) :
    ∀ k', k ≤ k' →
      u < (stateAtWith found accept mesh k').uniqueVertices.length ∧
      (stateAtWith found accept mesh k').uniqueVertices.getD u default
        = (stateAtWith found accept mesh k).uniqueVertices.getD u default := by
  intro k' hk
  induction k' with
  | zero => have : k = 0 := by omega
            subst this; exact ⟨hu, rfl⟩
  | succ k' ih =>
    rcases Nat.lt_or_eq_of_le hk with h | h
    · obtain ⟨h1, h2⟩ := ih (by omega)
      rw [stateAt_succ_uniq_with]
      split_ifs
      · exact ⟨h1, h2⟩
      · refine ⟨by simp only [List.length_append, List.length_singleton]; omega, ?_⟩
        rw [← h2]
        simp only [List.getD_eq_getElem?_getD, List.getElem?_append_left h1]
    · subst h; exact ⟨hu, rfl⟩

theorem stateAt_inv_with (found : Vector4 α → List Nat)
    (accept : Vertex α → Vertex α → Bool) (mesh : Mesh α)
    (hcount : mesh.vertexCount < 2 ^ 31) (hfound : ∀ p, ∀ c ∈ found p, c < mesh.vertexCount)
    (k : Nat) (hk : k ≤ mesh.vertexCount) :
    WeldInv mesh.vertexCount k (stateAtWith found accept mesh k) :=
  WeldInv_loop_with found accept mesh _ _ (by omega) hfound k hk

theorem findMatch_congr_with (accept : Vertex α → Vertex α → Bool) (uniq uniq' : List (Vertex α))
    (repl repl' : List Nat) (vtx : Vertex α) (found : List Nat)
    (h : ∀ c ∈ found,
      (repl.getD c 0 &&& 0x80000000 ≠ 0 ∧ repl'.getD c 0 &&& 0x80000000 ≠ 0) ∨
      (repl'.getD c 0 = repl.getD c 0 ∧
        (repl.getD c 0 &&& 0x80000000 = 0 →
          uniq'.getD (repl.getD c 0) default = uniq.getD (repl.getD c 0) default))) :
    findMatchWith accept uniq' repl' vtx found = findMatchWith accept uniq repl vtx found := by
  induction found with
  | nil => rfl
  | cons c rest ih =>
    have hrest := ih (fun c' hc' => h c' (List.mem_cons_of_mem _ hc'))
    unfold findMatchWith
    simp only
    rcases h c (List.mem_cons_self _ _) with ⟨hf, hf'⟩ | ⟨h1, h2⟩
    · rw [if_pos hf, if_pos hf']; exact hrest
    · rw [h1]
      by_cases hf : repl.getD c 0 &&& 0x80000000 ≠ 0
      · rw [if_pos hf, if_pos hf]; exact hrest
      · rw [if_neg hf, if_neg hf, h2 (not_not.mp hf), hrest]

/-- The inner loop returns `x` when some candidate is accepted with value `x` and every
candidate is either skipped, rejected, or holds the value `x`. -/
theorem findMatch_eq_of_accept_with (accept : Vertex α → Vertex α → Bool) (uniq : List (Vertex α))
    (repl : List Nat) (vtx : Vertex α) (x : Nat) (found : List Nat)
    (hmem : ∃ c ∈ found, repl.getD c 0 = x ∧ x &&& 0x80000000 = 0 ∧
      accept (uniq.getD x default) vtx = true)
    (hall : ∀ c ∈ found, repl.getD c 0 &&& 0x80000000 ≠ 0 ∨
      accept (uniq.getD (repl.getD c 0) default) vtx = false ∨
      repl.getD c 0 = x) :
    findMatchWith accept uniq repl vtx found = x := by
  induction found with
  | nil => obtain ⟨c, hc, _⟩ := hmem; simp at hc
  | cons c rest ih =>
    unfold findMatchWith
    simp only
    obtain ⟨c0, hc0, hx, hflag, hacc⟩ := hmem
    have hrest : c0 ≠ c → findMatchWith accept uniq repl vtx rest = x := by
      intro hne
      refine ih ⟨c0, ?_, hx, hflag, hacc⟩ (fun c' hc' => hall c' (List.mem_cons_of_mem _ hc'))
      rcases List.mem_cons.mp hc0 with h | h
      · exact absurd h hne
      · exact h
    by_cases hcc : c0 = c
    · subst hcc
      rw [hx, if_neg (not_not.mpr hflag), if_pos hacc]
    · split_ifs with h1 h2
      · exact hrest hcc
      · rcases hall c (List.mem_cons_self _ _) with h | h | h
        · exact absurd h h1
        · rw [h] at h2; exact absurd h2 (by simp)
        · exact h
      · exact hrest hcc

theorem creators_succ_with (found : Vector4 α → List Nat)
    (accept : Vertex α → Vertex α → Bool) (mesh : Mesh α)
    (k : Nat) :
    creatorsWith found accept mesh (k + 1) =
      creatorsWith found accept mesh k ++
        (if matchAtWith found accept mesh k ≠ 0xffffffff then [] else [k]) := by
  unfold creatorsWith
  rw [List.range_succ, List.filter_append]
  by_cases h : matchAtWith found accept mesh k = 0xffffffff
  · simp [h]
  · simp [h]

theorem creators_prefix_with (found : Vector4 α → List Nat)
    (accept : Vertex α → Vertex α → Bool)
    (mesh : Mesh α) (k : Nat) :
    ∀ k', k ≤ k' → ∃ t, creatorsWith found accept mesh k'
      = creatorsWith found accept mesh k ++ t := by
  intro k' hk
  induction k' with
  | zero =>
    have : k = 0 := by omega
    subst this
    exact ⟨[], by simp⟩
  | succ k' ih =>
    rcases Nat.lt_or_eq_of_le hk with h | h
    · obtain ⟨t, ht⟩ := ih (by omega)
      rw [creators_succ_with, ht, List.append_assoc]
      exact ⟨_, rfl⟩
    · subst h
      exact ⟨[], by simp⟩

theorem creators_lt_with (found : Vector4 α → List Nat)
    (accept : Vertex α → Vertex α → Bool) (mesh : Mesh α)
    (k : Nat) : ∀ c ∈ creatorsWith found accept mesh k,
      c < k ∧ matchAtWith found accept mesh c = 0xffffffff := by
  intro c hc
  unfold creatorsWith at hc
  rw [List.mem_filter, List.mem_range] at hc
  exact ⟨hc.1, by simpa using hc.2⟩

theorem creators_sorted_with (found : Vector4 α → List Nat)
    (accept : Vertex α → Vertex α → Bool)
    (mesh : Mesh α) (k : Nat) :
    (creatorsWith found accept mesh k).Pairwise (· < ·) := by
  unfold creatorsWith
  exact List.Pairwise.filter _ (List.pairwise_lt_range k)

theorem creators_length_le_with (found : Vector4 α → List Nat)
    (accept : Vertex α → Vertex α → Bool)
    (mesh : Mesh α) (k : Nat) : (creatorsWith found accept mesh k).length ≤ k := by
  unfold creatorsWith
  calc ((List.range k).filter _).length ≤ (List.range k).length := List.length_filter_le _ _
    _ = k := List.length_range k

/-- The unique vertices written so far are the records of the creators, in order. -/
theorem stateAt_uniq_creators_with (found : Vector4 α → List Nat)
    (accept : Vertex α → Vertex α → Bool)
    (mesh : Mesh α) (k : Nat) :
    (stateAtWith found accept mesh k).uniqueVertices
      = (creatorsWith found accept mesh k).map (CreateVertex mesh (Flags.ofMesh mesh)) := by
  induction k with
  | zero => rfl
  | succ k ih =>
    rw [stateAt_succ_uniq_with, creators_succ_with, ih]
    split_ifs <;> simp

/-- A creator sits in `creators` at the position given by the number of creators before
it. -/
theorem creators_getElem_with (found : Vector4 α → List Nat)
    (accept : Vertex α → Vertex α → Bool)
    (mesh : Mesh α) (c k : Nat) (hck : c < k)
    (hm : matchAtWith found accept mesh c = 0xffffffff) :
    ∃ h : (creatorsWith found accept mesh c).length
        < (creatorsWith found accept mesh k).length,
      (creatorsWith found accept mesh k)[(creatorsWith found accept mesh c).length] = c := by
  obtain ⟨t, ht⟩ := creators_prefix_with found accept mesh (c + 1) k (by omega)
  have hs : creatorsWith found accept mesh (c + 1)
      = creatorsWith found accept mesh c ++ [c] := by
    rw [creators_succ_with, if_neg (by simp [hm])]
  rw [hs, List.append_assoc] at ht
  have hlen : (creatorsWith found accept mesh c).length
      < (creatorsWith found accept mesh k).length := by
    rw [ht]
    simp
  refine ⟨hlen, ?_⟩
  simp only [ht]
  rw [List.getElem_append_right (le_refl _)]
  simp

/-- The slot of an original vertex `c` that was processed holds the accepted match with the
flag bit set, or else the number of creators before `c`. -/
theorem stateAt_repl_value_with (found : Vector4 α → List Nat)
    (accept : Vertex α → Vertex α → Bool)
    (mesh : Mesh α) (hcount : mesh.vertexCount < 2 ^ 31)
    (hfound : ∀ p, ∀ c ∈ found p, c < mesh.vertexCount)
    (c k : Nat) (hck : c < k) (hk : k ≤ mesh.vertexCount) :
    (stateAtWith found accept mesh k).replaceIndices.getD c 0 =
      if matchAtWith found accept mesh c ≠ 0xffffffff
        then matchAtWith found accept mesh c ||| 0x80000000
        else (creatorsWith found accept mesh c).length := by
  rw [stateAt_repl_stable_with found accept mesh c (c + 1) (by omega) k (by omega),
    stateAt_succ_repl_with]
  have inv := stateAt_inv_with found accept mesh hcount hfound c (by omega)
  rw [getD_set_self _ _ _ _ (by rw [inv.len]; omega), stateAt_uniq_creators_with, List.length_map]
  have := creators_length_le_with found accept mesh c
  rw [Nat.mod_eq_of_lt (by omega)]

/-- An accepted match is the index of a unique vertex created before. -/
theorem matchAt_lt_with (found : Vector4 α → List Nat)
    (accept : Vertex α → Vertex α → Bool)
    (mesh : Mesh α) (hcount : mesh.vertexCount < 2 ^ 31)
    (hfound : ∀ p, ∀ c ∈ found p, c < mesh.vertexCount)
    (c : Nat) (hc : c < mesh.vertexCount)
    (hm : matchAtWith found accept mesh c ≠ 0xffffffff) :
    matchAtWith found accept mesh c < (creatorsWith found accept mesh c).length := by
  have inv := stateAt_inv_with found accept mesh hcount hfound c (by omega)
  rcases findMatch_spec_with accept
    (stateAtWith found accept mesh c).uniqueVertices
    (stateAtWith found accept mesh c).replaceIndices
    (CreateVertex mesh (Flags.ofMesh mesh) c)
    (found (CreateVertex mesh (Flags.ofMesh mesh) c).Position)
    with h | ⟨x, hx, hval, hflag, _⟩
  · exact absurd h hm
  · have hxn : x < mesh.vertexCount := hfound _ x hx
    have hxc : x < c := by
      by_contra hge
      have := inv.todo x (by omega) hxn
      rw [this] at hflag
      simp at hflag
    have := inv.clear x hxc hflag
    rw [stateAt_uniq_creators_with, List.length_map] at this
    show findMatchWith _ _ _ _ _ < _
    rw [hval]
    exact this

end WeldWith

/-! ## Unique vertices and duplicates, with the search and the tests left open -/

section WeldWithSemantics

variable {α : Type} [LinearOrderedField α]

/-- The slot of a creator `c` in the list of unique vertices holds the record of `c`. -/
theorem stateAt_uniq_creator_with (found : Vector4 α → List Nat)
    (accept : Vertex α → Vertex α → Bool) (mesh : Mesh α) (c k : Nat) (hck : c < k)
    (hm : matchAtWith found accept mesh c = 0xffffffff) :
    (stateAtWith found accept mesh k).uniqueVertices.getD
        (creatorsWith found accept mesh c).length default
      = CreateVertex mesh (Flags.ofMesh mesh) c := by
  obtain ⟨hlen, hget⟩ := creators_getElem_with found accept mesh c k hck hm
  rw [stateAt_uniq_creators_with, getD_eq_getElem_of_lt _ _ _ (by simpa using hlen)]
  simp [hget]

/-- The slot of a processed vertex that found no match carries no flag bit. -/
theorem stateAt_repl_creator_with (found : Vector4 α → List Nat)
    (accept : Vertex α → Vertex α → Bool) (mesh : Mesh α)
    (hcount : mesh.vertexCount < 2 ^ 31)
    (hfound : ∀ p, ∀ c ∈ found p, c < mesh.vertexCount)
    (c k : Nat) (hck : c < k) (hk : k ≤ mesh.vertexCount)
    (hm : matchAtWith found accept mesh c = 0xffffffff) :
    (stateAtWith found accept mesh k).replaceIndices.getD c 0
        = (creatorsWith found accept mesh c).length ∧
      (creatorsWith found accept mesh c).length &&& 0x80000000 = 0 := by
  have hv := stateAt_repl_value_with found accept mesh hcount hfound c k hck hk
  rw [if_neg (not_not.mpr hm)] at hv
  have := creators_length_le_with found accept mesh c
  exact ⟨hv, flag_clear_of_lt (by omega)⟩

/-- The slot of a processed vertex that found a match carries the flag bit. -/
theorem stateAt_repl_merged_with (found : Vector4 α → List Nat)
    (accept : Vertex α → Vertex α → Bool) (mesh : Mesh α)
    (hcount : mesh.vertexCount < 2 ^ 31)
    (hfound : ∀ p, ∀ c ∈ found p, c < mesh.vertexCount)
    (c k : Nat) (hck : c < k) (hk : k ≤ mesh.vertexCount)
    (hm : matchAtWith found accept mesh c ≠ 0xffffffff) :
    (stateAtWith found accept mesh k).replaceIndices.getD c 0 &&& 0x80000000 ≠ 0 := by
  have hv := stateAt_repl_value_with found accept mesh hcount hfound c k hck hk
  rw [if_pos hm] at hv
  rw [hv]
  exact flag_set_or_flag _

/-- Two vertices that both become unique vertices: the later one did not accept the earlier
one, so the earlier one was not among the candidates found or failed the tests. -/
theorem creators_rejected_with (found : Vector4 α → List Nat)
    (accept : Vertex α → Vertex α → Bool) (mesh : Mesh α)
    (hcount : mesh.vertexCount < 2 ^ 31)
    (hfound : ∀ p, ∀ c ∈ found p, c < mesh.vertexCount)
    (c c' : Nat) (hcc : c < c') (hc' : c' < mesh.vertexCount)
    (hm : matchAtWith found accept mesh c = 0xffffffff)
    (hm' : matchAtWith found accept mesh c' = 0xffffffff)
    (hmem : c ∈ found (CreateVertex mesh (Flags.ofMesh mesh) c').Position) :
    accept (CreateVertex mesh (Flags.ofMesh mesh) c)
      (CreateVertex mesh (Flags.ofMesh mesh) c') = false := by
  obtain ⟨hv, hflag⟩ := stateAt_repl_creator_with found accept mesh hcount hfound c c' hcc
    (by omega) hm
  have hu := stateAt_uniq_creator_with found accept mesh c c' hcc hm
  rcases findMatch_none_with accept _ _ _ _ hm' c hmem with h | h
  · rw [hv] at h
    exact absurd hflag h
  · rw [hv, hu] at h
    exact h

/-- The inner loop gives the same result in two states when every candidate is either
skipped or rejected in both, or looks the same in both. -/
theorem findMatch_congr_skip_with (accept : Vertex α → Vertex α → Bool)
    (uniq uniq' : List (Vertex α)) (repl repl' : List Nat) (vtx : Vertex α) (found : List Nat)
    (h : ∀ c ∈ found,
      ((repl.getD c 0 &&& 0x80000000 ≠ 0 ∨
          accept (uniq.getD (repl.getD c 0) default) vtx = false) ∧
        (repl'.getD c 0 &&& 0x80000000 ≠ 0 ∨
          accept (uniq'.getD (repl'.getD c 0) default) vtx = false)) ∨
      (repl'.getD c 0 = repl.getD c 0 ∧
        (repl.getD c 0 &&& 0x80000000 = 0 →
          uniq'.getD (repl.getD c 0) default = uniq.getD (repl.getD c 0) default))) :
    findMatchWith accept uniq' repl' vtx found = findMatchWith accept uniq repl vtx found := by
  induction found with
  | nil => rfl
  | cons c rest ih =>
    have hrest := ih (fun c' hc' => h c' (List.mem_cons_of_mem _ hc'))
    unfold findMatchWith
    simp only
    rcases h c (List.mem_cons_self _ _) with ⟨hl, hr⟩ | ⟨h1, h2⟩
    · have e1 : (if repl.getD c 0 &&& 0x80000000 ≠ 0
          then findMatchWith accept uniq repl vtx rest
          else if accept (uniq.getD (repl.getD c 0) default) vtx = true then repl.getD c 0
          else findMatchWith accept uniq repl vtx rest)
          = findMatchWith accept uniq repl vtx rest := by
        rcases hl with hl | hl
        · rw [if_pos hl]
        · split_ifs with a b
          · rfl
          · rw [hl] at b; exact absurd b (by simp)
          · rfl
      have e2 : (if repl'.getD c 0 &&& 0x80000000 ≠ 0
          then findMatchWith accept uniq' repl' vtx rest
          else if accept (uniq'.getD (repl'.getD c 0) default) vtx = true then repl'.getD c 0
          else findMatchWith accept uniq' repl' vtx rest)
          = findMatchWith accept uniq' repl' vtx rest := by
        rcases hr with hr | hr
        · rw [if_pos hr]
        · split_ifs with a b
          · rfl
          · rw [hr] at b; exact absurd b (by simp)
          · rfl
      rw [e1, e2]
      exact hrest
    · rw [h1]
      by_cases hf : repl.getD c 0 &&& 0x80000000 ≠ 0
      · rw [if_pos hf, if_pos hf]; exact hrest
      · rw [if_neg hf, if_neg hf, h2 (not_not.mp hf), hrest]

/-- Two identical vertices `i < j` receive the same entry of the replacement table, up to
the flag bit, when the search finds `i` from its own position, a record passes the tests
against itself, and no vertex strictly between them that became a unique vertex is found
from their position and passes the tests against them. -/
theorem remapIndex_duplicate_with (found : Vector4 α → List Nat)
    (accept : Vertex α → Vertex α → Bool) (mesh : Mesh α)
    (hcount : mesh.vertexCount < 2 ^ 31)
    (hfound : ∀ p, ∀ c ∈ found p, c < mesh.vertexCount)
    (i j : Nat) (hij : i < j) (hj : j < mesh.vertexCount)
    (heq : CreateVertex mesh (Flags.ofMesh mesh) i = CreateVertex mesh (Flags.ofMesh mesh) j)
    (hself : i ∈ found (CreateVertex mesh (Flags.ofMesh mesh) i).Position)
    (hrefl : accept (CreateVertex mesh (Flags.ofMesh mesh) i)
      (CreateVertex mesh (Flags.ofMesh mesh) i) = true)
    (hgap : ∀ k, i < k → k < j →
      k ∈ found (CreateVertex mesh (Flags.ofMesh mesh) i).Position →
      matchAtWith found accept mesh k = 0xffffffff →
      accept (CreateVertex mesh (Flags.ofMesh mesh) k)
        (CreateVertex mesh (Flags.ofMesh mesh) i) = false) :
    remapIndex (stateAtWith found accept mesh mesh.vertexCount).replaceIndices i =
      remapIndex (stateAtWith found accept mesh mesh.vertexCount).replaceIndices j := by
  have inv_i := stateAt_inv_with found accept mesh hcount hfound i (by omega)
  have inv_j := stateAt_inv_with found accept mesh hcount hfound j (by omega)
  have hu31 : (stateAtWith found accept mesh i).uniqueVertices.length < 2 ^ 31 := by
    have := inv_i.ulen; omega
  have hfi : (stateAtWith found accept mesh mesh.vertexCount).replaceIndices.getD i 0 =
      (stateAtWith found accept mesh (i + 1)).replaceIndices.getD i 0 :=
    stateAt_repl_stable_with found accept mesh i (i + 1) (by omega) _ (by omega)
  have hfj : (stateAtWith found accept mesh mesh.vertexCount).replaceIndices.getD j 0 =
      (stateAtWith found accept mesh (j + 1)).replaceIndices.getD j 0 :=
    stateAt_repl_stable_with found accept mesh j (j + 1) (by omega) _ (by omega)
  have hji : (stateAtWith found accept mesh j).replaceIndices.getD i 0 =
      (stateAtWith found accept mesh (i + 1)).replaceIndices.getD i 0 :=
    stateAt_repl_stable_with found accept mesh i (i + 1) (by omega) _ (by omega)
  have hli : i < (stateAtWith found accept mesh i).replaceIndices.length := by
    rw [inv_i.len]; omega
  have hlj : j < (stateAtWith found accept mesh j).replaceIndices.length := by
    rw [inv_j.len]; omega
  rw [stateAt_succ_repl_with, getD_set_self _ _ _ _ hli] at hfi hji
  rw [stateAt_succ_repl_with, getD_set_self _ _ _ _ hlj] at hfj
  -- candidates below `i` or from `j` on look the same at both times
  have hother : ∀ c ∈ found (CreateVertex mesh (Flags.ofMesh mesh) i).Position,
      c < i ∨ j ≤ c →
      (stateAtWith found accept mesh j).replaceIndices.getD c 0
        = (stateAtWith found accept mesh i).replaceIndices.getD c 0 ∧
      ((stateAtWith found accept mesh i).replaceIndices.getD c 0 &&& 0x80000000 = 0 →
        (stateAtWith found accept mesh j).uniqueVertices.getD
          ((stateAtWith found accept mesh i).replaceIndices.getD c 0) default
        = (stateAtWith found accept mesh i).uniqueVertices.getD
          ((stateAtWith found accept mesh i).replaceIndices.getD c 0) default) := by
    intro c hc hcases
    have hcn : c < mesh.vertexCount := hfound _ c hc
    constructor
    · rcases hcases with h | h
      · exact stateAt_repl_stable_with found accept mesh c i h j (by omega)
      · rw [inv_j.todo c h hcn, inv_i.todo c (by omega) hcn]
    · intro hflag
      have hci' : c < i := by
        by_contra hge
        rw [inv_i.todo c (by omega) hcn] at hflag
        exact absurd hflag (by decide)
      exact (stateAt_uniq_stable_with found accept mesh i _ (inv_i.clear c hci' hflag)
        j (by omega)).2
  -- candidates strictly between `i` and `j` are skipped or rejected when `j` is processed
  have hmid : ∀ c ∈ found (CreateVertex mesh (Flags.ofMesh mesh) i).Position,
      i < c → c < j →
      (stateAtWith found accept mesh j).replaceIndices.getD c 0 &&& 0x80000000 ≠ 0 ∨
      accept ((stateAtWith found accept mesh j).uniqueVertices.getD
        ((stateAtWith found accept mesh j).replaceIndices.getD c 0) default)
        (CreateVertex mesh (Flags.ofMesh mesh) i) = false := by
    intro c hc hic hcj
    by_cases hmc : matchAtWith found accept mesh c = 0xffffffff
    · right
      obtain ⟨hv, _⟩ := stateAt_repl_creator_with found accept mesh hcount hfound c j hcj
        (by omega) hmc
      rw [hv, stateAt_uniq_creator_with found accept mesh c j hcj hmc]
      exact hgap c hic hcj hc hmc
    · left
      exact stateAt_repl_merged_with found accept mesh hcount hfound c j hcj (by omega) hmc
  have hmj : matchAtWith found accept mesh j =
      findMatchWith accept
        (stateAtWith found accept mesh j).uniqueVertices
        (stateAtWith found accept mesh j).replaceIndices
        (CreateVertex mesh (Flags.ofMesh mesh) i)
        (found (CreateVertex mesh (Flags.ofMesh mesh) i).Position) := by
    unfold matchAtWith; rw [heq]
  by_cases hm : matchAtWith found accept mesh i ≠ 0xffffffff
  · -- `i` was replaced: `j` finds the same unique vertex
    rw [if_pos hm] at hfi hji
    have hsame : matchAtWith found accept mesh j = matchAtWith found accept mesh i := by
      rw [hmj]
      unfold matchAtWith
      apply findMatch_congr_skip_with
      intro c hc
      have hcn : c < mesh.vertexCount := hfound _ c hc
      by_cases hci : c = i
      · left
        subst hci
        refine ⟨Or.inl ?_, Or.inl ?_⟩
        · rw [inv_i.todo c (le_refl _) (by omega)]; decide
        · rw [hji]; exact flag_set_or_flag _
      · by_cases hcases : c < i ∨ j ≤ c
        · exact Or.inr (hother c hc hcases)
        · left
          refine ⟨Or.inl ?_, hmid c hc (by omega) (by omega)⟩
          rw [inv_i.todo c (by omega) hcn]; decide
    rw [hsame, if_pos hm] at hfj
    unfold remapIndex
    rw [hfi, hfj]
  · -- `i` became a unique vertex: `j` is replaced by it
    have hm' : matchAtWith found accept mesh i = 0xffffffff := not_not.mp hm
    rw [if_neg hm, Nat.mod_eq_of_lt (by omega)] at hfi hji
    have huniq := stateAt_succ_uniq_with found accept mesh i
    rw [if_neg hm] at huniq
    have hget : (stateAtWith found accept mesh j).uniqueVertices.getD
        (stateAtWith found accept mesh i).uniqueVertices.length default
        = CreateVertex mesh (Flags.ofMesh mesh) i := by
      have h1 : (stateAtWith found accept mesh i).uniqueVertices.length
          < (stateAtWith found accept mesh (i + 1)).uniqueVertices.length := by
        rw [huniq]; simp
      rw [(stateAt_uniq_stable_with found accept mesh (i + 1) _ h1 j (by omega)).2, huniq]
      simp [List.getD_eq_getElem?_getD]
    have hnone := findMatch_none_with accept _ _ _ _ hm'
    have hsame : matchAtWith found accept mesh j
        = (stateAtWith found accept mesh i).uniqueVertices.length := by
      rw [hmj]
      apply findMatch_eq_of_accept_with
      · exact ⟨i, hself, hji, flag_clear_of_lt hu31, by rw [hget]; exact hrefl⟩
      · intro c hc
        by_cases hci : c = i
        · subst hci; exact Or.inr (Or.inr hji)
        · by_cases hcases : c < i ∨ j ≤ c
          · obtain ⟨h1, h2⟩ := hother c hc hcases
            rcases hnone c hc with h | h
            · left; rw [h1]; exact h
            · by_cases hflag : (stateAtWith found accept mesh i).replaceIndices.getD c 0
                  &&& 0x80000000 = 0
              · right; left
                rw [h1, h2 hflag]; exact h
              · left; rw [h1]; exact hflag
          · rcases hmid c hc (by omega) (by omega) with h | h
            · exact Or.inl h
            · exact Or.inr (Or.inl h)
    have hne : (stateAtWith found accept mesh i).uniqueVertices.length ≠ 0xffffffff := by
      omega
    rw [hsame, if_pos hne] at hfj
    unfold remapIndex
    rw [hfi, hfj, strip_or_flag hu31, strip_of_lt hu31]

end WeldWithSemantics

/-! ## OptimizeMesh in float arithmetic: the loop, the search and the tests -/

section RoundedWeld

variable {α : Type} [LinearOrderedField α]

theorem Rounded.findMatch_eq_with (fl : α → α) (f : Flags) (eps sq : α)
    (uniq : List (Vertex α)) (repl : List Nat) (vtx : Vertex α) (found : List Nat) :
    Rounded.findMatch fl f eps sq uniq repl vtx found
      = findMatchWith (Rounded.attributesMatch fl f eps sq) uniq repl vtx found := by
  induction found with
  | nil => rfl
  | cons c rest ih =>
    unfold Rounded.findMatch findMatchWith
    simp only [ih]

theorem Rounded.weldStep_eq_with (fl : α → α) (dividePlane : Vector4 α) (mesh : Mesh α)
    (st : WeldState α) (i : Nat) :
    Rounded.weldStep fl dividePlane (sortEntries (Rounded.makeEntries fl dividePlane mesh))
        mesh (Flags.ofMesh mesh) st i
      = weldStepWith (Rounded.found fl dividePlane mesh) (Rounded.accept fl mesh) mesh
          (Flags.ofMesh mesh) st i := by
  unfold Rounded.weldStep weldStepWith
  simp only [Rounded.findMatch_eq_with]
  rfl

theorem Rounded.finalState_eq_with (fl : α → α) (dividePlane : Vector4 α) (mesh : Mesh α) :
    Rounded.finalState fl dividePlane mesh
      = stateAtWith (Rounded.found fl dividePlane mesh) (Rounded.accept fl mesh) mesh
          mesh.vertexCount := by
  unfold Rounded.finalState stateAtWith Rounded.weldLoop weldLoopWith
  congr 1
  funext st i
  exact Rounded.weldStep_eq_with fl dividePlane mesh st i

/-- The entries that `Rounded.OptimizeMesh` sorts: one for every vertex, with its position
and the key computed from it. -/
theorem Rounded.mem_sortEntries_iff (fl : α → α) (dividePlane : Vector4 α) (mesh : Mesh α)
    (e : VtxEntry α) :
    e ∈ sortEntries (Rounded.makeEntries fl dividePlane mesh) ↔
      ∃ i, i < mesh.vertexCount ∧
        e = ⟨i, (vertexAt mesh i).Position,
          Rounded.dot fl dividePlane (vertexAt mesh i).Position⟩ := by
  rw [(sortEntries_perm _).mem_iff]
  simp only [Rounded.makeEntries, List.mem_map, List.mem_range, vertexAt,
    CreateVertex_Position]
  constructor
  · rintro ⟨i, hi, rfl⟩
    exact ⟨i, hi, rfl⟩
  · rintro ⟨i, hi, rfl⟩
    exact ⟨i, hi, rfl⟩

/-- Every index that `FindNeighbors` returns belongs to an entry that was visited: its key
lies in `[minDist, maxDist)` and its computed squared distance is below `pSquared`. -/
theorem Rounded.FindNeighbors_visited (fl : α → α) (dividePlane : Vector4 α)
    (entries : List (VtxEntry α)) (pos : Vector4 α) (radius : α) (hs : EntriesSorted entries)
    (c : Nat) (hc : c ∈ Rounded.FindNeighbors fl dividePlane entries pos radius) :
    ∃ e ∈ entries, e.index = c ∧
      fl (Rounded.dot fl dividePlane pos - radius) ≤ e.dist ∧
      e.dist < fl (Rounded.dot fl dividePlane pos + radius) ∧
      Rounded.SquareLength fl (Rounded.sub fl e.position pos) < fl (radius * radius) := by
  obtain ⟨before, visited, after, hsplit, -, hvis, -, hout⟩ :=
    Rounded.FindNeighbors_run fl dividePlane entries pos radius hs
  rw [hout, List.mem_map] at hc
  obtain ⟨e, he, rfl⟩ := hc
  rw [List.mem_filter] at he
  refine ⟨e, ?_, rfl, (hvis e he.1).1, (hvis e he.1).2, by simpa using he.2⟩
  rw [hsplit]
  simp [he.1]

/-- An entry with a key strictly inside the computed window and a computed squared distance
below `pSquared` is returned. -/
theorem Rounded.FindNeighbors_inside (fl : α → α) (dividePlane : Vector4 α)
    (entries : List (VtxEntry α)) (pos : Vector4 α) (radius : α) (hs : EntriesSorted entries)
    (e : VtxEntry α) (he : e ∈ entries)
    (h1 : fl (Rounded.dot fl dividePlane pos - radius) < e.dist)
    (h2 : e.dist < fl (Rounded.dot fl dividePlane pos + radius))
    (h3 : Rounded.SquareLength fl (Rounded.sub fl e.position pos) < fl (radius * radius)) :
    e.index ∈ Rounded.FindNeighbors fl dividePlane entries pos radius := by
  obtain ⟨before, visited, after, hsplit, hbef, -, haft, hout⟩ :=
    Rounded.FindNeighbors_run fl dividePlane entries pos radius hs
  rw [hout, List.mem_map]
  refine ⟨e, ?_, rfl⟩
  rw [List.mem_filter]
  refine ⟨?_, by simpa using h3⟩
  rw [hsplit, List.mem_append, List.mem_append] at he
  rcases he with (he | he) | he
  · exact absurd (hbef e he) (not_le.mpr h1)
  · exact he
  · exact absurd (haft e he) (not_le.mpr h2)

theorem Rounded.found_lt (fl : α → α) (dividePlane : Vector4 α) (mesh : Mesh α) :
    ∀ p, ∀ c ∈ Rounded.found fl dividePlane mesh p, c < mesh.vertexCount := by
  intro p c hc
  obtain ⟨e, he, rfl, -⟩ := Rounded.FindNeighbors_visited fl dividePlane _ p _
    (sortEntries_sorted _) c hc
  obtain ⟨i, hi, rfl⟩ := (Rounded.mem_sortEntries_iff fl dividePlane mesh e).mp he
  exact hi

/-- A candidate found for a position has its key in the computed window and its computed
squared distance to the position below `squareEpsilon`. -/
theorem Rounded.found_close (fl : α → α) (dividePlane : Vector4 α) (mesh : Mesh α)
    (p : Vector4 α) (c : Nat) (hc : c ∈ Rounded.found fl dividePlane mesh p) :
    c < mesh.vertexCount ∧
      fl (Rounded.dot fl dividePlane p - Rounded.epsilon fl)
        ≤ Rounded.dot fl dividePlane (vertexAt mesh c).Position ∧
      Rounded.dot fl dividePlane (vertexAt mesh c).Position
        < fl (Rounded.dot fl dividePlane p + Rounded.epsilon fl) ∧
      Rounded.SquareLength fl (Rounded.sub fl (vertexAt mesh c).Position p)
        < Rounded.squareEpsilon fl := by
  obtain ⟨e, he, hec, h1, h2, h3⟩ := Rounded.FindNeighbors_visited fl dividePlane _ p _
    (sortEntries_sorted _) c hc
  obtain ⟨i, hi, rfl⟩ := (Rounded.mem_sortEntries_iff fl dividePlane mesh e).mp he
  simp only at hec h1 h2 h3
  subst hec
  exact ⟨hi, h1, h2, h3⟩

/-- A vertex with its key strictly inside the computed window of a position and its
computed squared distance to it below `squareEpsilon` is among the candidates found. -/
theorem Rounded.found_of_inside (fl : α → α) (dividePlane : Vector4 α) (mesh : Mesh α)
    (p : Vector4 α) (c : Nat) (hc : c < mesh.vertexCount)
    (h1 : fl (Rounded.dot fl dividePlane p - Rounded.epsilon fl)
      < Rounded.dot fl dividePlane (vertexAt mesh c).Position)
    (h2 : Rounded.dot fl dividePlane (vertexAt mesh c).Position
      < fl (Rounded.dot fl dividePlane p + Rounded.epsilon fl))
    (h3 : Rounded.SquareLength fl (Rounded.sub fl (vertexAt mesh c).Position p)
      < Rounded.squareEpsilon fl) :
    c ∈ Rounded.found fl dividePlane mesh p := by
  have he := (Rounded.mem_sortEntries_iff fl dividePlane mesh
    ⟨c, (vertexAt mesh c).Position,
      Rounded.dot fl dividePlane (vertexAt mesh c).Position⟩).mpr ⟨c, hc, rfl⟩
  exact Rounded.FindNeighbors_inside fl dividePlane _ p _ (sortEntries_sorted _) _ he h1 h2 h3

theorem Rounded.attributesMatch_false_iff (fl : α → α) (f : Flags) (a b : Vertex α) :
    Rounded.attributesMatch fl f (Rounded.epsilon fl) (Rounded.squareEpsilon fl) a b = false
      ↔ Rounded.differs fl f a b := by
  unfold Rounded.attributesMatch Rounded.differs
  by_cases h1 : f.hasNormal = true ∧
      Rounded.SquareLength fl (Rounded.sub fl a.Normal b.Normal) > Rounded.squareEpsilon fl
  · simp [h1]
  by_cases h2 : f.hasTangent = true ∧
      Rounded.SquareLength fl (Rounded.sub fl a.Tangent b.Tangent) > Rounded.squareEpsilon fl
  · simp [h2]
  by_cases h3 : f.hasUV = true ∧
      Rounded.SquareLength fl (Rounded.sub fl a.UV b.UV) > Rounded.squareEpsilon fl
  · simp [h3]
  by_cases h4 : f.hasWeights = true ∧
      Rounded.HasSameWeights fl a b (Rounded.epsilon fl) = false ∧ a.HasSameIDs b = false
  · have h4' : f.hasWeights = true ∧
        (!Rounded.HasSameWeights fl a b (Rounded.epsilon fl)) = true ∧
        (!a.HasSameIDs b) = true := by simpa using h4
    rw [if_neg h1, if_neg h2, if_neg h3, if_pos h4']
    simp only [true_iff]
    exact Or.inr (Or.inr (Or.inr h4))
  · have h4' : ¬ (f.hasWeights = true ∧
        (!Rounded.HasSameWeights fl a b (Rounded.epsilon fl)) = true ∧
        (!a.HasSameIDs b) = true) := by simpa using h4
    rw [if_neg h1, if_neg h2, if_neg h3, if_neg h4']
    simp only [Bool.true_eq_false, false_iff]
    rintro (h | h | h | h)
    · exact h1 h
    · exact h2 h
    · exact h3 h
    · exact h4 h

theorem Rounded.attributesMatch_flags (fl : α → α) (f f' : Flags) (eps sq : α)
    (a b : Vertex α)
    (h1 : f.hasNormal = f'.hasNormal) (h2 : f.hasTangent = f'.hasTangent)
    (h3 : f.hasUV = f'.hasUV) (h4 : f.hasWeights = f'.hasWeights) :
    Rounded.attributesMatch fl f eps sq a b = Rounded.attributesMatch fl f' eps sq a b := by
  unfold Rounded.attributesMatch
  rw [h1, h2, h3, h4]

theorem Rounded.SquareLength_sub_self (fl : α → α) (h0 : fl 0 = 0) (a : Vector4 α) :
    Rounded.SquareLength fl (Rounded.sub fl a a) = 0 := by
  simp [Rounded.SquareLength, Rounded.sub, h0]

/-- A record passes the attribute tests against itself when rounding keeps zero and the
tolerances are not negative. -/
theorem Rounded.attributesMatch_refl (fl : α → α) (h0 : fl 0 = 0)
    (heps : 0 ≤ Rounded.epsilon fl) (hsq : 0 ≤ Rounded.squareEpsilon fl) (f : Flags)
    (v : Vertex α) :
    Rounded.attributesMatch fl f (Rounded.epsilon fl) (Rounded.squareEpsilon fl) v v
      = true := by
  have hz : ∀ a : Vector4 α,
      ¬ Rounded.SquareLength fl (Rounded.sub fl a a) > Rounded.squareEpsilon fl := by
    intro a
    rw [Rounded.SquareLength_sub_self fl h0]
    exact not_lt.mpr hsq
  have hw : Rounded.HasSameWeights fl v v (Rounded.epsilon fl) = true := by
    unfold Rounded.HasSameWeights
    simp only [sub_self, h0, abs_zero]
    have : ¬ ((0 : α) > Rounded.epsilon fl) := not_lt.mpr heps
    simp [this]
  unfold Rounded.attributesMatch
  simp [hz, hw]

end RoundedWeld

/-! ## The compaction of the unique vertices -/

section Compact

variable {α : Type} [LinearOrderedField α]

theorem compact_vertexCount (mesh : Mesh α) (st : WeldState α) :
    (OptimizeMesh.compact mesh st).vertexCount = st.uniqueVertices.length := by
  simp only [OptimizeMesh.compact, Mesh.vertexCount, length_flatMap_three]
  omega

/-- The four flags that `CreateVertex` and the attribute tests read are the same for a mesh
and for its compacted result, as soon as the result has a vertex. -/
theorem compact_flags (mesh : Mesh α) (st : WeldState α)
    (hpos : 0 < st.uniqueVertices.length) :
    (Flags.ofMesh (OptimizeMesh.compact mesh st)).hasNormal = (Flags.ofMesh mesh).hasNormal ∧
    (Flags.ofMesh (OptimizeMesh.compact mesh st)).hasTangent
      = (Flags.ofMesh mesh).hasTangent ∧
    (Flags.ofMesh (OptimizeMesh.compact mesh st)).hasUV = (Flags.ofMesh mesh).hasUV ∧
    (Flags.ofMesh (OptimizeMesh.compact mesh st)).hasWeights
      = (Flags.ofMesh mesh).hasWeights := by
  refine ⟨?_, ?_, ?_, ?_⟩
  · show decide ((if (Flags.ofMesh mesh).hasNormal = true then _ else _ : List α).length > 0)
      = decide (_ > 0)
    by_cases h : mesh.Normals.length > 0
    · simp only [Flags.ofMesh, h, decide_True, if_true, length_flatMap_three,
        decide_eq_true_eq]
      omega
    · simp [Flags.ofMesh, h]
  · show decide ((if (Flags.ofMesh mesh).hasTangent = true then _ else _ : List α).length > 0)
      = decide (_ > 0)
    by_cases h : mesh.Tangents.length > 0
    · simp only [Flags.ofMesh, h, decide_True, if_true, length_flatMap_three,
        decide_eq_true_eq]
      omega
    · simp [Flags.ofMesh, h]
  · show decide ((if (Flags.ofMesh mesh).hasUV = true then _ else _ : List α).length > 0)
      = decide (_ > 0)
    by_cases h : mesh.UVs.length > 0
    · simp only [Flags.ofMesh, h, decide_True, if_true, length_flatMap_two,
        decide_eq_true_eq]
      omega
    · simp [Flags.ofMesh, h]
  · show decide ((if (Flags.ofMesh mesh).hasWeights = true then _ else _ : List α).length > 0)
      = decide (_ > 0)
    by_cases h : mesh.Weights.length > 0
    · simp only [Flags.ofMesh, h, decide_True, if_true, length_flatMap_three,
        decide_eq_true_eq]
      omega
    · simp [Flags.ofMesh, h]

/-- Every vertex read back from the compacted mesh is the record of the unique vertex with
that index. -/
theorem vertexAt_compact (mesh : Mesh α) (st : WeldState α) (orig : List Nat)
    (huniq : st.uniqueVertices = orig.map (CreateVertex mesh (Flags.ofMesh mesh)))
    (u : Nat) (hu : u < orig.length) :
    vertexAt (OptimizeMesh.compact mesh st) u
      = CreateVertex mesh (Flags.ofMesh mesh) orig[u] := by
  have hlen : st.uniqueVertices.length = orig.length := by rw [huniq]; simp
  obtain ⟨f1, f2, f3, f4⟩ := compact_flags mesh st (by omega)
  unfold vertexAt
  rw [CreateVertex_congr_flags _ _ (Flags.ofMesh mesh) u f1 f2 f3 f4]
  rw [CreateVertex_readback (Flags.ofMesh mesh) st.uniqueVertices _ ?_ rfl
    (fun h => by simp only [OptimizeMesh.compact]; rw [if_pos h])
    (fun h => by simp only [OptimizeMesh.compact]; rw [if_pos h])
    (fun h => by simp only [OptimizeMesh.compact]; rw [if_pos h])
    (fun h => by simp only [OptimizeMesh.compact]; rw [if_pos h])
    (fun h => by simp only [OptimizeMesh.compact]; rw [if_pos h]) u (by omega)]
  · simp [huniq]
  · intro v hv
    rw [huniq] at hv
    obtain ⟨c, _, rfl⟩ := List.mem_map.mp hv
    exact CreateVertex_canonical mesh _ c

theorem Rounded.OptimizeMesh_some (fl : α → α) (dividePlane : Vector4 α) (mesh : Mesh α)
    (hskin : mesh.Weights.length > 0 ↔ mesh.IDs.length > 0) :
    Rounded.OptimizeMesh fl dividePlane mesh =
      some (OptimizeMesh.compact mesh (Rounded.finalState fl dividePlane mesh)) := by
  unfold Rounded.OptimizeMesh
  simp only [Flags.ofMesh]
  by_cases hw : mesh.Weights.length > 0
  · have hi := hskin.mp hw
    simp [hw, hi, Rounded.OptimizeMeshWith, Rounded.finalState, Flags.ofMesh]
  · have hi : ¬ mesh.IDs.length > 0 := fun h => hw (hskin.mpr h)
    simp [hw, hi, Rounded.OptimizeMeshWith, Rounded.finalState, Flags.ofMesh]

/-- The slot of the final replacement table of a vertex carries no flag bit exactly when
the vertex found no match. -/
theorem Rounded.finalState_flag_iff (fl : α → α) (dividePlane : Vector4 α) (mesh : Mesh α)
    (hcount : mesh.vertexCount < 2 ^ 31) (k : Nat) (hk : k < mesh.vertexCount) :
    (Rounded.finalState fl dividePlane mesh).replaceIndices.getD k 0 &&& 0x80000000 = 0 ↔
      matchAtWith (Rounded.found fl dividePlane mesh) (Rounded.accept fl mesh) mesh k
        = 0xffffffff := by
  rw [Rounded.finalState_eq_with]
  constructor
  · intro h
    by_contra hm
    exact stateAt_repl_merged_with _ _ mesh hcount (Rounded.found_lt fl dividePlane mesh) k
      mesh.vertexCount hk (le_refl _) hm h
  · intro hm
    obtain ⟨hv, hflag⟩ := stateAt_repl_creator_with _ _ mesh hcount
      (Rounded.found_lt fl dividePlane mesh) k mesh.vertexCount hk (le_refl _) hm
    rw [hv]
    exact hflag

end Compact

/-! ## OptimizeMesh in float arithmetic: the claims on unique vertices and duplicates -/

section RoundedClaims

variable {α : Type} [LinearOrderedField α]

/-- C3 (amended): after `OptimizeMesh`, computed in `float` arithmetic with any rounding
`fl`, for every two vertices `u < v` of the resulting vertex list one of three things holds.
The key of `u` lies outside the open plane window of `v` as the code computes it, that is
at or below `fl (k - epsilon)` or at or above `fl (k + epsilon)` for the key `k` of `v`; or
the computed squared distance of the two positions is at least `squareEpsilon`; or the two
records differ in some present attribute beyond its tolerance (normal, tangent or UV at
computed squared distance above `squareEpsilon`, or skin data where neither the weights
match within `epsilon` nor the IDs match exactly). -/
theorem OptimizeMesh_float_vertices_apart (fl : α → α) (dividePlane : Vector4 α)
    (mesh : Mesh α) (hcount : mesh.vertexCount < 2 ^ 31)
    (hskin : mesh.Weights.length > 0 ↔ mesh.IDs.length > 0) :
    ∃ out, Rounded.OptimizeMesh fl dividePlane mesh = some out ∧
      ∀ u v, u < v → v < out.vertexCount →
        (Rounded.dot fl dividePlane (vertexAt out u).Position
            ≤ fl (Rounded.dot fl dividePlane (vertexAt out v).Position - Rounded.epsilon fl) ∨
          fl (Rounded.dot fl dividePlane (vertexAt out v).Position + Rounded.epsilon fl)
            ≤ Rounded.dot fl dividePlane (vertexAt out u).Position) ∨
        Rounded.squareEpsilon fl ≤ Rounded.SquareLength fl
          (Rounded.sub fl (vertexAt out u).Position (vertexAt out v).Position) ∨
        Rounded.differs fl (Flags.ofMesh out) (vertexAt out u) (vertexAt out v) := by
  refine ⟨_, Rounded.OptimizeMesh_some fl dividePlane mesh hskin, ?_⟩
  intro u v huv hv
  have huniq : (Rounded.finalState fl dividePlane mesh).uniqueVertices
      = (creatorsWith (Rounded.found fl dividePlane mesh) (Rounded.accept fl mesh) mesh
          mesh.vertexCount).map (CreateVertex mesh (Flags.ofMesh mesh)) := by
    rw [Rounded.finalState_eq_with]
    exact stateAt_uniq_creators_with _ _ _ _
  have hlen : (Rounded.finalState fl dividePlane mesh).uniqueVertices.length
      = (creatorsWith (Rounded.found fl dividePlane mesh) (Rounded.accept fl mesh) mesh
          mesh.vertexCount).length := by rw [huniq]; simp
  rw [compact_vertexCount, hlen] at hv
  have hu : u < (creatorsWith (Rounded.found fl dividePlane mesh) (Rounded.accept fl mesh)
      mesh mesh.vertexCount).length := by omega
  obtain ⟨f1, f2, f3, f4⟩ := compact_flags mesh (Rounded.finalState fl dividePlane mesh)
    (by omega)
  rw [vertexAt_compact mesh _ _ huniq u hu, vertexAt_compact mesh _ _ huniq v hv]
  have hcu := creators_lt_with (Rounded.found fl dividePlane mesh) (Rounded.accept fl mesh)
    mesh mesh.vertexCount _ (List.getElem_mem hu)
  have hcv := creators_lt_with (Rounded.found fl dividePlane mesh) (Rounded.accept fl mesh)
    mesh mesh.vertexCount _ (List.getElem_mem hv)
  have hlt := (List.pairwise_iff_getElem.mp
    (creators_sorted_with (Rounded.found fl dividePlane mesh) (Rounded.accept fl mesh)
      mesh mesh.vertexCount)) u v hu hv huv
  by_cases hmem : (creatorsWith (Rounded.found fl dividePlane mesh) (Rounded.accept fl mesh)
      mesh mesh.vertexCount)[u] ∈ Rounded.found fl dividePlane mesh
        (CreateVertex mesh (Flags.ofMesh mesh)
          (creatorsWith (Rounded.found fl dividePlane mesh) (Rounded.accept fl mesh)
            mesh mesh.vertexCount)[v]).Position
  · right; right
    have hrej := creators_rejected_with _ _ mesh hcount (Rounded.found_lt fl dividePlane mesh)
      _ _ hlt hcv.1 hcu.2 hcv.2 hmem
    rw [← Rounded.attributesMatch_false_iff,
      Rounded.attributesMatch_flags fl _ (Flags.ofMesh mesh) _ _ _ _ f1 f2 f3 f4]
    exact hrej
  · by_contra hcon
    obtain ⟨hwin, hrest⟩ := not_or.mp hcon
    obtain ⟨h1, h2⟩ := not_or.mp hwin
    obtain ⟨h3, -⟩ := not_or.mp hrest
    exact hmem (Rounded.found_of_inside fl dividePlane mesh _ _ hcu.1 (not_le.mp h1)
      (not_le.mp h2) (not_le.mp h3))

theorem OptimizeMesh_float_vertices_apart_witness :
    nearTripleMesh.vertexCount < 2 ^ 31 ∧
    ∃ out, Rounded.OptimizeMesh binary32 dividePlane32 nearTripleMesh = some out ∧
      ∀ u v, u < v → v < out.vertexCount →
        (Rounded.dot binary32 dividePlane32 (vertexAt out u).Position
            ≤ binary32 (Rounded.dot binary32 dividePlane32 (vertexAt out v).Position
              - Rounded.epsilon binary32) ∨
          binary32 (Rounded.dot binary32 dividePlane32 (vertexAt out v).Position
              + Rounded.epsilon binary32)
            ≤ Rounded.dot binary32 dividePlane32 (vertexAt out u).Position) ∨
        Rounded.squareEpsilon binary32 ≤ Rounded.SquareLength binary32
          (Rounded.sub binary32 (vertexAt out u).Position (vertexAt out v).Position) ∨
        Rounded.differs binary32 (Flags.ofMesh out) (vertexAt out u) (vertexAt out v) :=
  ⟨by decide, OptimizeMesh_float_vertices_apart binary32 dividePlane32 nearTripleMesh
    (by decide) (by decide)⟩

/-- C3 as stated fails, in `float` arithmetic with the plane of the code.  The two vertices
of `epsilonPairMesh32` are both kept, they have no attribute in which to differ, and their
distance is exactly the `float` value of `epsilon`, which is below `1e-5`: not above
`epsilon`.  The two vertices of `farPairMesh` are identical and are both kept. -/
theorem OptimizeMesh_float_keeps_close_pairs :
    (Rounded.OptimizeMesh binary32 dividePlane32 epsilonPairMesh32 = some epsilonPairMesh32 ∧
      ((vertexAt epsilonPairMesh32 0).Position.sub
        (vertexAt epsilonPairMesh32 1).Position).SquareLength
        = Rounded.epsilon binary32 * Rounded.epsilon binary32 ∧
      Rounded.epsilon binary32 < 1 / 100000 ∧
      ¬ Rounded.differs binary32 (Flags.ofMesh epsilonPairMesh32)
        (vertexAt epsilonPairMesh32 0) (vertexAt epsilonPairMesh32 1)) ∧
    (Rounded.OptimizeMesh binary32 dividePlane32 farPairMesh = some farPairMesh ∧
      farPairMesh.vertexCount = 2 ∧
      vertexAt farPairMesh 0 = vertexAt farPairMesh 1) := by
  refine ⟨⟨?_, ?_, ?_, ?_⟩, ?_, ?_, ?_⟩
  · decide!
  · decide!
  · decide!
  · decide!
  · decide!
  · decide
  · decide!

/-- C4 (amended): in `float` arithmetic with a rounding `fl` that keeps zero and gives a
positive `squareEpsilon`, two original vertices `i < j` with equal positions and equal
values in every present attribute channel are mapped by the replacement table to the same
unique vertex index, and every index referring to them is rewritten to that value, provided
their key `k` lies strictly inside its own computed window, `fl (k - epsilon) < k` and
`k < fl (k + epsilon)`, and no vertex strictly between `i` and `j` that is kept as a new
unique vertex (its slot of the replacement table carries no flag bit) is at computed squared
distance below `squareEpsilon` from them and passes every attribute test against them. -/
theorem OptimizeMesh_float_merges_duplicates (fl : α → α) (dividePlane : Vector4 α)
    (mesh : Mesh α) (h0 : fl 0 = 0) (heps : 0 ≤ Rounded.epsilon fl)
    (hsq : 0 < Rounded.squareEpsilon fl)
    (hcount : mesh.vertexCount < 2 ^ 31)
    (hskin : mesh.Weights.length > 0 ↔ mesh.IDs.length > 0)
    (i j : Nat) (hij : i < j) (hj : j < mesh.vertexCount)
    (heq : vertexAt mesh i = vertexAt mesh j)
    (hwin : fl (Rounded.dot fl dividePlane (vertexAt mesh i).Position - Rounded.epsilon fl)
        < Rounded.dot fl dividePlane (vertexAt mesh i).Position ∧
      Rounded.dot fl dividePlane (vertexAt mesh i).Position
        < fl (Rounded.dot fl dividePlane (vertexAt mesh i).Position + Rounded.epsilon fl))
    (hgap : ∀ k, i < k → k < j →
      (Rounded.finalState fl dividePlane mesh).replaceIndices.getD k 0 &&& 0x80000000 = 0 →
      Rounded.squareEpsilon fl ≤ Rounded.SquareLength fl
          (Rounded.sub fl (vertexAt mesh k).Position (vertexAt mesh i).Position) ∨
        Rounded.differs fl (Flags.ofMesh mesh) (vertexAt mesh k) (vertexAt mesh i)) :
    ∃ out, Rounded.OptimizeMesh fl dividePlane mesh = some out ∧
      out.Indices = mesh.Indices.map (Rounded.replacementOf fl dividePlane mesh) ∧
      out.SubMeshes
        = mesh.SubMeshes.map (fun sub => sub.map (Rounded.replacementOf fl dividePlane mesh)) ∧
      Rounded.replacementOf fl dividePlane mesh i
        = Rounded.replacementOf fl dividePlane mesh j := by
  refine ⟨_, Rounded.OptimizeMesh_some fl dividePlane mesh hskin, rfl, rfl, ?_⟩
  unfold Rounded.replacementOf
  rw [Rounded.finalState_eq_with]
  refine remapIndex_duplicate_with _ _ mesh hcount (Rounded.found_lt fl dividePlane mesh)
    i j hij hj heq ?_ ?_ ?_
  · exact Rounded.found_of_inside fl dividePlane mesh _ i (by omega) hwin.1 hwin.2
      (by
        show Rounded.SquareLength fl
          (Rounded.sub fl (vertexAt mesh i).Position (vertexAt mesh i).Position) < _
        rw [Rounded.SquareLength_sub_self fl h0]
        exact hsq)
  · exact Rounded.attributesMatch_refl fl h0 heps (le_of_lt hsq) _ _
  · intro k hik hkj hk hm
    have hfin := (Rounded.finalState_flag_iff fl dividePlane mesh hcount k (by omega)).mpr hm
    rcases hgap k hik hkj hfin with h | h
    · exact absurd (Rounded.found_close fl dividePlane mesh _ k hk).2.2.2 (not_lt.mpr h)
    · exact (Rounded.attributesMatch_false_iff fl _ _ _).mpr h

theorem OptimizeMesh_float_merges_duplicates_witness :
    (binary32 0 = 0 ∧ 0 < Rounded.squareEpsilon binary32 ∧
      vertexAt duplicateMesh32 0 = vertexAt duplicateMesh32 2) ∧
    ∃ out, Rounded.OptimizeMesh binary32 dividePlane32 duplicateMesh32 = some out ∧
      out.Indices
        = duplicateMesh32.Indices.map
          (Rounded.replacementOf binary32 dividePlane32 duplicateMesh32) ∧
      out.SubMeshes
        = duplicateMesh32.SubMeshes.map (fun sub =>
          sub.map (Rounded.replacementOf binary32 dividePlane32 duplicateMesh32)) ∧
      Rounded.replacementOf binary32 dividePlane32 duplicateMesh32 0
        = Rounded.replacementOf binary32 dividePlane32 duplicateMesh32 2 :=
  ⟨⟨by decide!, by decide!, by decide!⟩,
    OptimizeMesh_float_merges_duplicates binary32 dividePlane32 duplicateMesh32 (by decide!)
      (by decide!) (by decide!) (by decide) (by decide) 0 2 (by decide) (by decide)
      (by decide!) (by decide!) (by
        intro k h1 h2 _
        have hk : k = 1 := by omega
        subst hk
        left
        decide!)⟩

/-- C4 as stated fails, in `float` arithmetic with the plane of the code.  In `greedyMesh32`
the vertices 1 and 3 are identical, yet the replacement table sends vertex 1 to unique
vertex 0 and vertex 3 to unique vertex 1, and the indices referring to them are rewritten to
different values.  In `farPairMesh` the two vertices are identical and the replacement table
keeps them apart. -/
theorem OptimizeMesh_float_splits_identical_vertices :
    (vertexAt greedyMesh32 1 = vertexAt greedyMesh32 3 ∧
      Rounded.replacementOf binary32 dividePlane32 greedyMesh32 1 = 0 ∧
      Rounded.replacementOf binary32 dividePlane32 greedyMesh32 3 = 1 ∧
      (Rounded.OptimizeMesh binary32 dividePlane32 greedyMesh32).map (fun out => out.Indices)
        = some [0, 0, 1, 0, 1, 1]) ∧
    (vertexAt farPairMesh 0 = vertexAt farPairMesh 1 ∧
      Rounded.replacementOf binary32 dividePlane32 farPairMesh 0 = 0 ∧
      Rounded.replacementOf binary32 dividePlane32 farPairMesh 1 = 1) := by
  refine ⟨⟨?_, ?_, ?_, ?_⟩, ?_, ?_, ?_⟩ <;> decide!

end RoundedClaims

/-! ## FindNeighbors and OptimizeMesh in float arithmetic: the window -/

section RoundedWindowClaims

variable {α : Type} [LinearOrderedField α]

/-- C22 (amended): for every sorted entry array and every query position, with the window
bounds `minDist = fl (k - radius)` and `maxDist = fl (k + radius)` as the code computes them
in `float` arithmetic from the plane key `k` of the query, `FindNeighbors` collects, in the
order of the array (ascending key order), the original indices of the entries of one
contiguous run whose computed squared distance to the query position is below the computed
`radius * radius` (a candidate at squared distance exactly `radius * radius` is not
collected).  The run holds every entry with a key strictly between `minDist` and `maxDist`
and only entries with a key in `[minDist, maxDist)`: the entries in front of it have a key of
at most `minDist`, those behind it a key of at least `maxDist`.  An entry whose key equals
`minDist` may lie in front of the run. -/
theorem FindNeighbors_float_collects_run (fl : α → α) (dividePlane : Vector4 α)
    (entries : List (VtxEntry α)) (pos : Vector4 α) (radius : α)
    (hs : EntriesSorted entries) :
    ∃ before visited after, entries = before ++ visited ++ after ∧
      (∀ e ∈ before, e.dist ≤ fl (Rounded.dot fl dividePlane pos - radius)) ∧
      (∀ e ∈ visited, fl (Rounded.dot fl dividePlane pos - radius) ≤ e.dist ∧
        e.dist < fl (Rounded.dot fl dividePlane pos + radius)) ∧
      (∀ e ∈ after, fl (Rounded.dot fl dividePlane pos + radius) ≤ e.dist) ∧
      Rounded.FindNeighbors fl dividePlane entries pos radius
        = (visited.filter fun e => decide
            (Rounded.SquareLength fl (Rounded.sub fl e.position pos)
              < fl (radius * radius))).map fun e => e.index :=
  Rounded.FindNeighbors_run fl dividePlane entries pos radius hs

theorem FindNeighbors_float_collects_run_witness :
    EntriesSorted (sortEntries (Rounded.makeEntries binary32 dividePlane32 nearTripleMesh)) ∧
    ∃ before visited after,
      sortEntries (Rounded.makeEntries binary32 dividePlane32 nearTripleMesh)
        = before ++ visited ++ after ∧
      (∀ e ∈ before, e.dist ≤ binary32 (Rounded.dot binary32 dividePlane32
        ⟨7 / 1048576, 7 / 1048576, 41⟩ - Rounded.epsilon binary32)) ∧
      (∀ e ∈ visited, binary32 (Rounded.dot binary32 dividePlane32
          ⟨7 / 1048576, 7 / 1048576, 41⟩ - Rounded.epsilon binary32) ≤ e.dist ∧
        e.dist < binary32 (Rounded.dot binary32 dividePlane32
          ⟨7 / 1048576, 7 / 1048576, 41⟩ + Rounded.epsilon binary32)) ∧
      (∀ e ∈ after, binary32 (Rounded.dot binary32 dividePlane32
        ⟨7 / 1048576, 7 / 1048576, 41⟩ + Rounded.epsilon binary32) ≤ e.dist) ∧
      Rounded.FindNeighbors binary32 dividePlane32
          (sortEntries (Rounded.makeEntries binary32 dividePlane32 nearTripleMesh))
          ⟨7 / 1048576, 7 / 1048576, 41⟩ (Rounded.epsilon binary32)
        = (visited.filter fun e => decide
            (Rounded.SquareLength binary32
                (Rounded.sub binary32 e.position ⟨7 / 1048576, 7 / 1048576, 41⟩)
              < binary32 (Rounded.epsilon binary32 * Rounded.epsilon binary32))).map
            fun e => e.index :=
  ⟨sortEntries_sorted _,
    FindNeighbors_float_collects_run binary32 dividePlane32 _ ⟨7 / 1048576, 7 / 1048576, 41⟩
      (Rounded.epsilon binary32) (sortEntries_sorted _)⟩

/-- C22 as stated fails, in `float` arithmetic with the plane of the code.  Over the sorted
entries of `epsilonPairMesh32` and for the query `(0, 0, 0)`, the entry of vertex 1 has its
key in the window and its computed squared distance is exactly `squareEpsilon`: the stated
set holds both indices, `FindNeighbors` returns vertex 0 only.  Over the sorted entries of
`nearTripleMesh` and for the query `(7 / 2 ^ 20, 7 / 2 ^ 20, 41)` with key `k`, the two
entries at `(0, 0, 41)` have the key `fl (k - epsilon)`, which is above `k - epsilon`, and a
squared distance below `squareEpsilon`: the stated set holds all three indices,
`FindNeighbors` starts its scan at the second entry and returns `[1, 2]`. -/
theorem FindNeighbors_float_not_stated_window :
    (sortEntries (Rounded.makeEntries binary32 dividePlane32 epsilonPairMesh32)
        = [⟨0, ⟨0, 0, 0⟩, 0⟩,
          ⟨1, ⟨2748779 / 274877906944, 0, 0⟩, 13128659 / 2199023255552⟩] ∧
      Rounded.SquareLength binary32
          (Rounded.sub binary32 ⟨2748779 / 274877906944, 0, 0⟩ ⟨0, 0, 0⟩)
        = binary32 (Rounded.epsilon binary32 * Rounded.epsilon binary32) ∧
      Stated.roundedWindowNeighbors binary32 dividePlane32
          (sortEntries (Rounded.makeEntries binary32 dividePlane32 epsilonPairMesh32))
          ⟨0, 0, 0⟩ (Rounded.epsilon binary32) = [0, 1] ∧
      Rounded.FindNeighbors binary32 dividePlane32
          (sortEntries (Rounded.makeEntries binary32 dividePlane32 epsilonPairMesh32))
          ⟨0, 0, 0⟩ (Rounded.epsilon binary32) = [0]) ∧
    (sortEntries (Rounded.makeEntries binary32 dividePlane32 nearTripleMesh)
        = [⟨0, ⟨0, 0, 41⟩, -8555651 / 524288⟩, ⟨1, ⟨0, 0, 41⟩, -8555651 / 524288⟩,
          ⟨2, ⟨7 / 1048576, 7 / 1048576, 41⟩, -4277823 / 262144⟩] ∧
      binary32 (Rounded.dot binary32 dividePlane32 ⟨7 / 1048576, 7 / 1048576, 41⟩
        - Rounded.epsilon binary32) = -8555651 / 524288 ∧
      Rounded.dot binary32 dividePlane32 ⟨7 / 1048576, 7 / 1048576, 41⟩
        - Rounded.epsilon binary32 < -8555651 / 524288 ∧
      Stated.roundedWindowNeighbors binary32 dividePlane32
          (sortEntries (Rounded.makeEntries binary32 dividePlane32 nearTripleMesh))
          ⟨7 / 1048576, 7 / 1048576, 41⟩ (Rounded.epsilon binary32) = [0, 1, 2] ∧
      Rounded.FindNeighbors binary32 dividePlane32
          (sortEntries (Rounded.makeEntries binary32 dividePlane32 nearTripleMesh))
          ⟨7 / 1048576, 7 / 1048576, 41⟩ (Rounded.epsilon binary32) = [1, 2]) := by
  refine ⟨⟨?_, ?_, ?_, ?_⟩, ?_, ?_, ?_, ?_, ?_⟩ <;> decide!

/-- C2, the code against the claim at a concrete input, in `float` arithmetic with the plane
of the code.  The mesh `nearTripleMesh` is well formed.  The first pass of `OptimizeMesh`
welds the two vertices at `(0, 0, 41)` and keeps the vertex at `(7 / 2 ^ 20, 7 / 2 ^ 20, 41)`
apart: for it `FindNeighbors` returns `[1, 2]`, the replaced vertex 1 and the vertex itself,
and leaves out vertex 0, whose key equals the lower bound `fl (k - epsilon)`.  The second
pass, run on the two vertices that the first pass returns, welds them into one. -/
theorem OptimizeMesh_float_second_pass :
    nearTripleMesh.WellFormed ∧
    Rounded.found binary32 dividePlane32 nearTripleMesh ⟨7 / 1048576, 7 / 1048576, 41⟩
      = [1, 2] ∧
    Rounded.OptimizeMesh binary32 dividePlane32 nearTripleMesh
      = some ⟨[0, 0, 41, 7 / 1048576, 7 / 1048576, 41], [], [], [], [], [], [0, 0, 1], []⟩ ∧
    Rounded.OptimizeMesh binary32 dividePlane32
        ⟨[0, 0, 41, 7 / 1048576, 7 / 1048576, 41], [], [], [], [], [], [0, 0, 1], []⟩
      = some ⟨[0, 0, 41], [], [], [], [], [], [0, 0, 0], []⟩ := by
  refine ⟨⟨by decide, by decide, Or.inl rfl, Or.inl rfl, Or.inl rfl, Or.inl ⟨rfl, rfl⟩,
    by decide, by decide⟩, ?_, ?_, ?_⟩ <;> decide!

/-- C30, the code against the claim at a concrete input, in `float` arithmetic with the plane
of the code, whose length is at most one.  Over the sorted entries of `nearPairMesh`, for
the query `(0, 0, 41)` and the radius `epsilon`, the upper bound `fl (k + epsilon)` is the
key of the other vertex, which the scan `dist < maxDist` therefore leaves out:
`FindNeighbors` returns `[1]`, the brute-force search returns `[1, 0]`, in computed and in
exact squared distances.  Over the sorted entries of `farPairMesh`, for the query
`(1000, 0, 0)`, both bounds are the key itself: `FindNeighbors` returns nothing, the
brute-force search both vertices. -/
theorem FindNeighbors_float_loses_neighbour :
    (dividePlane32.SquareLength ≤ 1 ∧ 0 < Rounded.epsilon binary32) ∧
    (sortEntries (Rounded.makeEntries binary32 dividePlane32 nearPairMesh)
        = [⟨1, ⟨0, 0, 41⟩, -8555651 / 524288⟩,
          ⟨0, ⟨7 / 1048576, 7 / 1048576, 41⟩, -4277823 / 262144⟩] ∧
      binary32 (Rounded.dot binary32 dividePlane32 ⟨0, 0, 41⟩ + Rounded.epsilon binary32)
        = -4277823 / 262144 ∧
      Rounded.FindNeighbors binary32 dividePlane32
          (sortEntries (Rounded.makeEntries binary32 dividePlane32 nearPairMesh))
          ⟨0, 0, 41⟩ (Rounded.epsilon binary32) = [1] ∧
      Rounded.bruteForceNeighbors binary32
          (sortEntries (Rounded.makeEntries binary32 dividePlane32 nearPairMesh))
          ⟨0, 0, 41⟩ (Rounded.epsilon binary32) = [1, 0] ∧
      bruteForceNeighbors
          (sortEntries (Rounded.makeEntries binary32 dividePlane32 nearPairMesh))
          ⟨0, 0, 41⟩ (Rounded.epsilon binary32) = [1, 0]) ∧
    (binary32 (Rounded.dot binary32 dividePlane32 ⟨1000, 0, 0⟩ - Rounded.epsilon binary32)
        = Rounded.dot binary32 dividePlane32 ⟨1000, 0, 0⟩ ∧
      binary32 (Rounded.dot binary32 dividePlane32 ⟨1000, 0, 0⟩ + Rounded.epsilon binary32)
        = Rounded.dot binary32 dividePlane32 ⟨1000, 0, 0⟩ ∧
      Rounded.FindNeighbors binary32 dividePlane32
          (sortEntries (Rounded.makeEntries binary32 dividePlane32 farPairMesh))
          ⟨1000, 0, 0⟩ (Rounded.epsilon binary32) = [] ∧
      Rounded.bruteForceNeighbors binary32
          (sortEntries (Rounded.makeEntries binary32 dividePlane32 farPairMesh))
          ⟨1000, 0, 0⟩ (Rounded.epsilon binary32) = [0, 1]) := by
  refine ⟨⟨?_, ?_⟩, ⟨?_, ?_, ?_, ?_, ?_⟩, ?_, ?_, ?_, ?_⟩ <;> decide!

end RoundedWindowClaims

/-! ## CalculateTangent on the quad of CreateQuad -/

section QuadTangentClaims

variable {α : Type} [LinearOrderedField α]

theorem checkedTriangleStep_quad_none (m : Mesh α) (hI : m.Indices = [0, 1, 2, 2, 3, 0])
    (hU : m.UVs.length = 8) (t : List α) :
    CalculateTangent.checkedTriangleStep m t 1 = none := by
  have h9 : checkedRead m.UVs (3 * 3) = none := by
    unfold checkedRead
    rw [List.getElem?_eq_none_iff]
    omega
  have huv : CalculateTangent.checkedGetUVAt m 3 = none := by
    unfold CalculateTangent.checkedGetUVAt
    simp only [h9]
    rfl
  have hc : CalculateTangent.checkedCorners m 1 = some (2, 3, 0) := by
    simp [CalculateTangent.checkedCorners, checkedRead, hI]
  have huvs : CalculateTangent.checkedUVs m 2 3 0 = none := by
    unfold CalculateTangent.checkedUVs
    rw [huv]
    cases CalculateTangent.checkedGetUVAt m 2 <;> rfl
  unfold CalculateTangent.checkedTriangleStep
  rw [hc]
  simp only [Option.bind_eq_bind, Option.some_bind, huvs]
  cases CalculateTangent.checkedPositions m 2 3 0 <;> rfl

/-- C13, the code against the claim, for every quad of `CreateQuad` after `CalculateNormal`.
The tangent pass reads the UV of vertex 3 at `UVs[9]` in an array of 8 entries: the
bounds-checked run fails.  Whatever lies behind the end of the UV array, the vector
accumulated for vertex 1 is the zero vector, which has no direction to normalise.  With the
UV pairs read at offset `2 * index`, both triangles contribute `(max.x - min.x, 0, 0)`. -/
theorem CalculateTangent_quad_reads_outside (sqrt : α → α) (min max : Vector4 α) :
    CalculateTangent.checked sqrt (CalculateNormal sqrt (CreateQuad min max)) = none ∧
    (∀ ext : List α,
      posOf (CalculateTangent.accumulate
        { CalculateNormal sqrt (CreateQuad min max) with
          UVs := (CreateQuad min max).UVs ++ ext }) 1 = Vector4.Zero) ∧
    Stated.triangleTangent 2 (CalculateNormal sqrt (CreateQuad min max)) 0
      = ⟨max.x - min.x, 0, 0⟩ ∧
    Stated.triangleTangent 2 (CalculateNormal sqrt (CreateQuad min max)) 1
      = ⟨max.x - min.x, 0, 0⟩ := by
  have hcnt := CreateQuad_counts min max
  have hNlen := (CalculateNormal_Normals sqrt (CreateQuad min max) 0
    (by rw [hcnt.1]; norm_num)).1
  have hPl : (CreateQuad min max).Positions.length = 12 := by simp [CreateQuad]
  rw [hPl] at hNlen
  refine ⟨?_, ?_, ?_, ?_⟩
  · generalize hm : CalculateNormal sqrt (CreateQuad min max) = m at hNlen
    have hmI : m.Indices = [0, 1, 2, 2, 3, 0] := by rw [← hm]; rfl
    have hmU : m.UVs.length = 8 := by rw [← hm]; rfl
    have hg : ¬ (m.Normals.length = 0 ∨ m.UVs.length = 0) := by omega
    have hr : List.range (m.Indices.length / 3) = [0, 1] := by rw [hmI]; rfl
    unfold CalculateTangent.checked
    rw [if_neg hg]
    simp only [hr, List.foldlM_cons, List.foldlM_nil, Option.bind_eq_bind,
      checkedTriangleStep_quad_none m hmI hmU]
    cases CalculateTangent.checkedTriangleStep m (List.replicate m.Positions.length 0) 0 <;>
      rfl
  · intro ext
    generalize hm : ({ CalculateNormal sqrt (CreateQuad min max) with
      UVs := (CreateQuad min max).UVs ++ ext } : Mesh α) = m
    have hmP : m.Positions = [max.x, max.y, max.z, min.x, max.y, max.z,
        min.x, min.y, min.z, max.x, min.y, min.z] := by rw [← hm]; rfl
    have hmI : m.Indices = [0, 1, 2, 2, 3, 0] := by rw [← hm]; rfl
    have hmU : m.UVs = [1, 1, 0, 1, 0, 0, 1, 0] ++ ext := by rw [← hm]; rfl
    have hmv : m.vertexCount = 4 := by simp [Mesh.vertexCount, hmP]
    have hmt : m.triangleCount = 2 := by simp [Mesh.triangleCount, hmI]
    have hacc := (CalculateTangent_accumulate_spec m 1 (by rw [hmv]; norm_num)).2
    rw [hmt, hmI] at hacc
    rw [hacc, (cornerSum_quad (CalculateTangent.triangleTangent m)).2.1]
    simp [CalculateTangent.triangleTangent, CalculateTangent.tangentOf,
      CalculateTangent.GetUVAt, GetPositionAt, hmI, hmU, Vector4.sub, Vector4.scale,
      Vector4.Zero]
  · simp [Stated.triangleTangent, Stated.UVAt, posOf, CalculateNormal, CreateQuad,
      Mesh.Create, Vector4.sub, Vector4.scale, Vector4.Zero]
  · simp [Stated.triangleTangent, Stated.UVAt, posOf, CalculateNormal, CreateQuad,
      Mesh.Create, Vector4.sub, Vector4.scale, Vector4.Zero]

end QuadTangentClaims

end fury
